import Mathlib

/-!
# Pintos file system core: buffer cache and inode layer

A shallow embedding of `src/filesys/cache.c` and `src/filesys/inode.c`, and of
`syscall_inumber` of `src/userprog/syscall.c`.

* C globals become fields of an explicit state that every operation takes and returns.
* `PANIC`, a failed `ASSERT`, an array index outside its bounds and a loop that runs out of
  fuel are results of type `Fault`; every operation returns `Except Fault _`.
* `block_sector_t` and `size_t` are `Nat`, `off_t` and `int` are `Int`; the value `-1` of type
  `block_sector_t` is `4294967295`.
* The locks of `cache.c` are not modelled: operations run one at a time.
-/

namespace Pintos

/-! ## Sectors and the block device -/

/-- Modelled from the spec: `BLOCK_SECTOR_SIZE` of `devices/block.h`, which is not part of the
sources; the spec fixes a sector at 512 bytes. -/
def BLOCK_SECTOR_SIZE : Nat := 512

/-- One `uint8_t`. -/
abbrev Byte := Fin 256

/-- The contents of one sector: `uint8_t [BLOCK_SECTOR_SIZE]`. -/
abbrev Sector := Fin 512 → Byte

/-- The ways an operation can fail to return. -/
inductive Fault where
  | kernel_panic
  | assertion
  | out_of_bounds
  | diverge
  deriving DecidableEq

/-- Modelled from the spec: the block device of `devices/block.c`, which is not part of the
sources: "sector-addressable, fixed 512-byte sectors, synchronous read/write", "assumed
infallible". A device is the contents of each of its sectors. -/
abbrev Device := Nat → Sector

/-- Modelled from the spec: `block_read (device, sector, buf)` of `devices/block.c`. -/
def block_read (dev : Device) (sector : Nat) : Sector := dev sector

/-- Modelled from the spec: `block_write (device, sector, buf)` of `devices/block.c`. -/
def block_write (dev : Device) (sector : Nat) (buf : Sector) : Device :=
  Function.update dev sector buf

/-! ## The buffer cache (`cache.c`) -/

def BUFFER_CACHE_SIZE : Nat := 64

/-- `struct buffer_cache_entry` of `cache.h`. -/
structure buffer_cache_entry where
  inuse : Bool
  pinned : Bool
  dirty : Bool
  block_index : Nat
  buffer : Sector

/-- The globals of `cache.c` (`capacity`, `buffer_cache_list`, `clock_pin`) together with the
device `fs_device`. Every caller in the repository passes `fs_device` as the `src` argument of
`buffer_cache_read` and `buffer_cache_write`, so the model has one device. -/
structure cache_state where
  buffer_cache_list : Fin 64 → buffer_cache_entry
  clock_pin : Fin 64
  capacity : Int
  fs_device : Device

/-- A zero-filled sector (`static char zeros[BLOCK_SECTOR_SIZE]`). -/
def zeros : Sector := fun _ => 0

/-- C static storage before any code runs: every byte zero. -/
def zero_entry : buffer_cache_entry :=
  { inuse := false, pinned := false, dirty := false, block_index := 0, buffer := zeros }

/-- The cache globals as the loader leaves them, over the device `dev`. -/
def boot_cache (dev : Device) : cache_state :=
  { buffer_cache_list := fun _ => zero_entry, clock_pin := 0, capacity := 0, fs_device := dev }

/-- The assignment `buffer_cache_list[i] = e`. -/
def set_entry (c : cache_state) (i : Fin 64) (e : buffer_cache_entry) : cache_state :=
  { c with buffer_cache_list := Function.update c.buffer_cache_list i e }

/-- The model of `buffer_cache_init`: resets the hand and clears every `inuse` flag; `pinned`,
`dirty`, `block_index` and `buffer` are left as they are. -/
def buffer_cache_init (c : cache_state) : cache_state :=
  { c with
    clock_pin := 0
    buffer_cache_list := fun i => { c.buffer_cache_list i with inuse := false }
    capacity := 0 }

/-- The model of `buffer_cache_lookup`: the loop runs over all 64 slots and keeps the last slot
that is in use and holds `block_index`; `none` is `NULL`. -/
def buffer_cache_lookup (c : cache_state) (block_index : Nat) : Option (Fin 64) :=
  (List.finRange 64).foldl
    (fun bce i =>
      if (c.buffer_cache_list i).block_index = block_index ∧ (c.buffer_cache_list i).inuse = true
      then some i else bce)
    none

/-- The two statements of `buffer_cache_flush` after its `ASSERT`s: the entry's buffer goes to
`fs_device` and `dirty` is cleared. -/
def flush_write (c : cache_state) (bce : Fin 64) : cache_state :=
  set_entry
    { c with
      fs_device := block_write c.fs_device (c.buffer_cache_list bce).block_index
        (c.buffer_cache_list bce).buffer }
    bce { c.buffer_cache_list bce with dirty := false }

/-- The model of `buffer_cache_flush`: `ASSERT (bce->dirty)` and `ASSERT (bce->inuse)`, then
the write. -/
def buffer_cache_flush (c : cache_state) (bce : Fin 64) : Except Fault cache_state :=
  if (c.buffer_cache_list bce).dirty = false then Except.error Fault.assertion
  else if (c.buffer_cache_list bce).inuse = false then Except.error Fault.assertion
  else Except.ok (flush_write c bce)

/-- The first loop of `buffer_cache_evict`: `n` iterations left, each of which tests the slot
under the hand (the loop variable `i` is not used by the source). -/
def evict_scan (c : cache_state) : Nat → Option (Fin 64)
  | 0 => none
  | n + 1 => if (c.buffer_cache_list c.clock_pin).inuse = false then some c.clock_pin
             else evict_scan c n

/-- One turn of the `while (true)` loop of `buffer_cache_evict` on a pinned slot: clear
`pinned` and advance the hand modulo 64. -/
def sweep_step (c : cache_state) : cache_state :=
  { set_entry c c.clock_pin { c.buffer_cache_list c.clock_pin with pinned := false } with
    clock_pin := c.clock_pin + 1 }

/-- The `while (true)` loop of `buffer_cache_evict`, with fuel: stops on a slot whose `pinned`
is false. -/
def clock_sweep : Nat → cache_state → Except Fault cache_state
  | 0, _ => Except.error Fault.diverge
  | fuel + 1, c =>
    if (c.buffer_cache_list c.clock_pin).pinned = false then Except.ok c
    else clock_sweep fuel (sweep_step c)

/-- The statement `buffer_cache_list[i].inuse = false`. -/
def drop_entry (c : cache_state) (i : Fin 64) : cache_state :=
  set_entry c i { c.buffer_cache_list i with inuse := false }

/-- The part of `buffer_cache_evict` after the sweep: flush the victim when dirty, mark it not
in use and return it. -/
def evict_victim (c : cache_state) : Except Fault (cache_state × Fin 64) :=
  (if (c.buffer_cache_list c.clock_pin).dirty = true then buffer_cache_flush c c.clock_pin
   else Except.ok c).bind fun c2 => Except.ok (drop_entry c2 c2.clock_pin, c2.clock_pin)

/-- The model of `buffer_cache_evict`; returns the new state and the slot handed out. The
sweep gets one more turn than there are slots. -/
def buffer_cache_evict (c : cache_state) : Except Fault (cache_state × Fin 64) :=
  match evict_scan c BUFFER_CACHE_SIZE with
  | some i => Except.ok (c, i)
  | none => (clock_sweep (BUFFER_CACHE_SIZE + 1) c).bind evict_victim

/-- The miss branch of `buffer_cache_read` on the slot `bce` handed out by the eviction. -/
def read_fill (c : cache_state) (bce : Fin 64) (block_index : Nat) : cache_state :=
  set_entry c bce
    { c.buffer_cache_list bce with
      inuse := true
      dirty := false
      block_index := block_index
      buffer := block_read c.fs_device block_index }

/-- The slot that `buffer_cache_read` works on: the resident one, or on a miss the evicted slot
loaded from the device. -/
def read_slot (c : cache_state) (block_index : Nat) : Except Fault (cache_state × Fin 64) :=
  match buffer_cache_lookup c block_index with
  | some bce => Except.ok (c, bce)
  | none => (buffer_cache_evict c).bind fun r => Except.ok (read_fill r.1 r.2 block_index, r.2)

/-- The model of `buffer_cache_read`: returns the new state and the 512 bytes copied out. -/
def buffer_cache_read (c : cache_state) (block_index : Nat) :
    Except Fault (cache_state × Sector) :=
  (read_slot c block_index).bind fun r =>
    Except.ok
      (set_entry r.1 r.2 { r.1.buffer_cache_list r.2 with pinned := true },
        (r.1.buffer_cache_list r.2).buffer)

/-- The miss branch of `buffer_cache_write` on the slot `bce` handed out by the eviction
(`dirty` is not assigned here). -/
def write_fill (c : cache_state) (bce : Fin 64) (block_index : Nat) : cache_state :=
  set_entry c bce
    { c.buffer_cache_list bce with
      inuse := true
      block_index := block_index
      buffer := block_read c.fs_device block_index }

/-- The slot that `buffer_cache_write` works on. -/
def write_slot (c : cache_state) (block_index : Nat) : Except Fault (cache_state × Fin 64) :=
  match buffer_cache_lookup c block_index with
  | some bce => Except.ok (c, bce)
  | none => (buffer_cache_evict c).bind fun r => Except.ok (write_fill r.1 r.2 block_index, r.2)

/-- The model of `buffer_cache_write`. -/
def buffer_cache_write (c : cache_state) (block_index : Nat) (buffer : Sector) :
    Except Fault cache_state :=
  (write_slot c block_index).bind fun r =>
    Except.ok
      (set_entry r.1 r.2
        { r.1.buffer_cache_list r.2 with pinned := true, dirty := true, buffer := buffer })

/-- One iteration of the loop of `buffer_cache_close`. -/
def close_step (c : cache_state) (i : Fin 64) : Except Fault cache_state :=
  if (c.buffer_cache_list i).dirty = true ∧ (c.buffer_cache_list i).inuse = true
  then buffer_cache_flush c i else Except.ok c

/-- The loop of `buffer_cache_close` over the slots in `l`. -/
def close_loop : List (Fin 64) → cache_state → Except Fault cache_state
  | [], c => Except.ok c
  | i :: l, c => (close_step c i).bind (close_loop l)

/-- The model of `buffer_cache_close`. -/
def buffer_cache_close (c : cache_state) : Except Fault cache_state :=
  close_loop (List.finRange 64) c

/-! ## Specification of the buffer cache -/

/-- Slot `i` is in use and holds sector `s`. -/
def holds (c : cache_state) (i : Fin 64) (s : Nat) : Prop :=
  (c.buffer_cache_list i).block_index = s ∧ (c.buffer_cache_list i).inuse = true

instance (c : cache_state) (i : Fin 64) (s : Nat) : Decidable (holds c i s) := by
  unfold holds; infer_instance

/-- The contents of sector `s` as a client of the cache sees them: the buffer of the slot that
`buffer_cache_lookup` finds, or the device's sector when there is none. -/
def cache_view (c : cache_state) (s : Nat) : Sector :=
  match buffer_cache_lookup c s with
  | some i => (c.buffer_cache_list i).buffer
  | none => c.fs_device s

/-- The invariant of the cache: no sector is resident twice, only slots in use are dirty, and
a clean resident slot equals the device. -/
structure cache_inv (c : cache_state) : Prop where
  uniq : ∀ i j, (c.buffer_cache_list i).inuse = true → (c.buffer_cache_list j).inuse = true →
    (c.buffer_cache_list i).block_index = (c.buffer_cache_list j).block_index → i = j
  dirty_inuse : ∀ i, (c.buffer_cache_list i).dirty = true → (c.buffer_cache_list i).inuse = true
  clean : ∀ i, (c.buffer_cache_list i).inuse = true → (c.buffer_cache_list i).dirty = false →
    (c.buffer_cache_list i).buffer = c.fs_device (c.buffer_cache_list i).block_index

/-- Two states with the same device whose slots differ at most in `pinned` (and the hand). -/
def same_data (c c' : cache_state) : Prop :=
  c'.fs_device = c.fs_device ∧
  ∀ i, (c'.buffer_cache_list i).inuse = (c.buffer_cache_list i).inuse ∧
    (c'.buffer_cache_list i).dirty = (c.buffer_cache_list i).dirty ∧
    (c'.buffer_cache_list i).block_index = (c.buffer_cache_list i).block_index ∧
    (c'.buffer_cache_list i).buffer = (c.buffer_cache_list i).buffer

/-- The number of slots whose `pinned` bit is set. -/
def pinned_count (c : cache_state) : Nat :=
  (Finset.univ.filter fun i => (c.buffer_cache_list i).pinned = true).card

/-- What an operation that keeps every sector's contents guarantees. -/
structure keeps (c c' : cache_state) : Prop where
  inv : cache_inv c'
  view : ∀ s, cache_view c' s = cache_view c s
  held : ∀ i s, holds c' i s → holds c i s

/-- One call of the cache interface. -/
inductive cache_op where
  | read (sector : Nat)
  | write (sector : Nat) (buffer : Sector)

/-- The state after one call; the bytes a read copies out are dropped. -/
def apply_op (c : cache_state) : cache_op → Except Fault cache_state
  | cache_op.read s => (buffer_cache_read c s).bind fun r => Except.ok r.1
  | cache_op.write s b => buffer_cache_write c s b

/-- The state after a sequence of calls, in program order. -/
def run_ops : List cache_op → cache_state → Except Fault cache_state
  | [], c => Except.ok c
  | op :: ops, c => (apply_op c op).bind (run_ops ops)

/-- The buffer of the most recent `buffer_cache_write` of sector `s` in a sequence of calls
given in program order, when there is one. -/
def last_write (s : Nat) : List cache_op → Option Sector
  | [] => none
  | op :: ops =>
    match last_write s ops with
    | some b => some b
    | none =>
      match op with
      | cache_op.write t b => if t = s then some b else none
      | cache_op.read _ => none

/-- What the spec says a sector holds after a sequence of calls: the data of the most recent
write of it, or the device's original contents if it was never written. -/
def expected_sector (dev : Device) (ops : List cache_op) (s : Nat) : Sector :=
  (last_write s ops).getD (dev s)


/-! ## The inode layer (`inode.c`) -/

def INODE_MAGIC : Nat := 0x494e4f44
def DIRECT_BN : Nat := 12
def INDIRECT_BN : Nat := 128

/-- `LAYER_0` is `DIRECT_BN`. The macros `LAYER_1` (`DIRECT_BN + INDIRECT_BN`) and `LAYER_2`
(`DIRECT_BN + INDIRECT_BN + INDIRECT_BN * INDIRECT_BN`) have no parentheses, so the model
writes their expansion at every place of use: `x < LAYER_1` is `x < 12 + 128`, but
`x - LAYER_1` is `x - 12 + 128`. -/
def LAYER_0 : Nat := 12

/-- The value `-1` of type `block_sector_t` (32 bits, unsigned). -/
def SECTOR_NONE : Nat := 4294967295

/-- Byte `k` of the 32-bit word `w`, least significant first. -/
def word_byte (w : Nat) (k : Nat) : Byte := ⟨w / 256 ^ k % 256, Nat.mod_lt _ (by norm_num)⟩

/-- The `uint32_t` stored at word `i` of a sector (little-endian, as on the x86 target). -/
def sector_word (s : Sector) (i : Fin 128) : Nat :=
  (s ⟨4 * i.val, by have := i.isLt; omega⟩).val
    + 256 * (s ⟨4 * i.val + 1, by have := i.isLt; omega⟩).val
    + 65536 * (s ⟨4 * i.val + 2, by have := i.isLt; omega⟩).val
    + 16777216 * (s ⟨4 * i.val + 3, by have := i.isLt; omega⟩).val

/-- The sector `s` after storing the `uint32_t` `w` at word `i`. -/
def set_sector_word (s : Sector) (i : Fin 128) (w : Nat) : Sector :=
  fun j => if j.val / 4 = i.val then word_byte w (j.val % 4) else s j

/-- The 32-bit two's complement word of an `int`. -/
def int_word (x : Int) : Nat := (x % 4294967296).toNat

/-- The `int` held in a 32-bit word. -/
def word_int (w : Nat) : Int := if w < 2147483648 then (w : Int) else (w : Int) - 4294967296

/-- `struct inode_disk`: exactly one sector. -/
structure inode_disk where
  direct_blocks : Fin 12 → Nat
  indirect_pointer : Nat
  double_indirect_pointer : Nat
  indirect_layer : Int
  inode_type : Int
  length : Int
  magic : Nat
  unused : Fin 110 → Nat

/-- Word `k` of a `struct inode_disk` in memory. -/
def inode_disk.word (d : inode_disk) (k : Fin 128) : Nat :=
  if h : k.val < 12 then d.direct_blocks ⟨k.val, h⟩
  else if k.val = 12 then d.indirect_pointer
  else if k.val = 13 then d.double_indirect_pointer
  else if k.val = 14 then int_word d.indirect_layer
  else if k.val = 15 then int_word d.inode_type
  else if k.val = 16 then int_word d.length
  else if k.val = 17 then d.magic
  else if h2 : 18 ≤ k.val then d.unused ⟨k.val - 18, by have := k.isLt; omega⟩
  else 0

/-- The 512 bytes of a `struct inode_disk`, as `buffer_cache_write (.., &inode->data)` copies
them. -/
def inode_disk.to_sector (d : inode_disk) : Sector :=
  fun j => word_byte (d.word ⟨j.val / 4, by have := j.isLt; omega⟩) (j.val % 4)

/-- The `struct inode_disk` that `buffer_cache_read (.., &inode->data)` leaves in memory. -/
def inode_disk.of_sector (s : Sector) : inode_disk :=
  { direct_blocks := fun i => sector_word s ⟨i.val, by have := i.isLt; omega⟩
    indirect_pointer := sector_word s 12
    double_indirect_pointer := sector_word s 13
    indirect_layer := word_int (sector_word s 14)
    inode_type := word_int (sector_word s 15)
    length := word_int (sector_word s 16)
    magic := sector_word s 17
    unused := fun i => sector_word s ⟨i.val + 18, by have := i.isLt; omega⟩ }

/-- `struct inode`, the in-memory inode, without its list element. -/
structure inode where
  sector : Nat
  open_cnt : Int
  removed : Bool
  deny_write_cnt : Int
  data : inode_disk

/-- Modelled from the spec: the free-sector map of `filesys/free-map.c`, which is not part of
the sources: a "bitmap of free/allocated sectors", one bit for each of the `size` sectors of
the device. -/
structure free_map where
  size : Nat
  used : Nat → Bool

/-- Modelled from the spec: `free_map_allocate (1, &sector)` of `filesys/free-map.c`:
"reserves n contiguous free sectors (the inode layer uses n = 1 exclusively) and writes them
to out_sector". The first free sector is taken; `none` is the result `false`, which leaves
`*sector` as it was. -/
def free_map_allocate (fm : free_map) : Option (Nat × free_map) :=
  match (List.range fm.size).find? (fun i => fm.used i = false) with
  | some i => some (i, { fm with used := Function.update fm.used i true })
  | none => none

/-- Modelled from the spec: `free_map_release (sector, cnt)` of `filesys/free-map.c`:
"marks them free". -/
def free_map_release (fm : free_map) (sector cnt : Nat) : free_map :=
  { fm with used := fun i => if sector ≤ i ∧ i < sector + cnt then false else fm.used i }

/-- The globals the inode layer works on: the buffer cache with the device, and the free
map. -/
structure fs_state where
  cache : cache_state
  fmap : free_map

/-- Modelled from the spec: `DIV_ROUND_UP (size, BLOCK_SECTOR_SIZE)` of `round.h`, which is
not part of the sources (`ceil (length / 512)`), in `int` arithmetic, converted to `size_t`
on return as in `bytes_to_sectors`. -/
def bytes_to_sectors (size : Int) : Nat :=
  (Int.tdiv (size + 512 - 1) 512 % 4294967296).toNat

/-- The read `disk_inode->direct_blocks[i]`; an index outside the array is a fault. -/
def direct_get (d : inode_disk) (i : Int) : Except Fault Nat :=
  if h : 0 ≤ i ∧ i < 12 then Except.ok (d.direct_blocks ⟨i.toNat, by omega⟩)
  else Except.error Fault.out_of_bounds

/-- The assignment `disk_inode->direct_blocks[i] = v`. -/
def direct_set (d : inode_disk) (i : Int) (v : Nat) : Except Fault inode_disk :=
  if h : 0 ≤ i ∧ i < 12 then
    Except.ok { d with direct_blocks := Function.update d.direct_blocks ⟨i.toNat, by omega⟩ v }
  else Except.error Fault.out_of_bounds

/-- The read `iid.blocks[i]` of a `struct indirect_inode_disk` held in the 512 bytes `iid`;
an index outside the 128 entries is a fault. -/
def blocks_get (iid : Sector) (i : Int) : Except Fault Nat :=
  if h : 0 ≤ i ∧ i < 128 then Except.ok (sector_word iid ⟨i.toNat, by omega⟩)
  else Except.error Fault.out_of_bounds

/-- The assignment `iid.blocks[i] = v`. -/
def blocks_set (iid : Sector) (i : Int) (v : Nat) : Except Fault Sector :=
  if h : 0 ≤ i ∧ i < 128 then Except.ok (set_sector_word iid ⟨i.toNat, by omega⟩ v)
  else Except.error Fault.out_of_bounds

/-- The model of `byte_to_sector`; the cache state is returned because the index blocks are
read through the cache. `(index - LAYER_1)` is `(index - 12 + 128)`. -/
def byte_to_sector (c : cache_state) (ino : inode) (pos : Int) :
    Except Fault (cache_state × Nat) :=
  if pos < 0 ∨ pos > ino.data.length then Except.ok (c, SECTOR_NONE)
  else if Int.tdiv pos 512 < 12 then
    (direct_get ino.data (Int.tdiv pos 512)).bind fun s => Except.ok (c, s)
  else if Int.tdiv pos 512 < 12 + 128 then
    (buffer_cache_read c ino.data.indirect_pointer).bind fun r =>
      (blocks_get r.2 (Int.tdiv pos 512 - 12)).bind fun s => Except.ok (r.1, s)
  else if Int.tdiv pos 512 < 12 + 128 + 128 * 128 then
    (buffer_cache_read c ino.data.double_indirect_pointer).bind fun r =>
      (blocks_get r.2 (Int.tdiv (Int.tdiv pos 512 - 12 + 128) 128)).bind fun s1 =>
        (buffer_cache_read r.1 s1).bind fun r2 =>
          (blocks_get r2.2 (Int.tmod (Int.tdiv pos 512 - 12 + 128) 128)).bind fun s =>
            Except.ok (r2.1, s)
  else Except.ok (c, SECTOR_NONE)

/-- The model of `inode_length`. -/
def inode_length (ino : inode) : Int := ino.data.length

/-- The loop of `inode_allocate_direct`, `n` iterations left, at index `i`. The result carries
the return value of the function. -/
def allocate_direct_loop :
    Nat → Int → fs_state → inode_disk → Except Fault (fs_state × inode_disk × Bool)
  | 0, _, st, d => Except.ok (st, d, true)
  | n + 1, i, st, d =>
    (direct_get d i).bind fun x =>
      if x ≠ 0 then allocate_direct_loop n (i + 1) st d
      else
        match free_map_allocate st.fmap with
        | none => Except.ok (st, d, false)
        | some r =>
          (direct_set d i r.1).bind fun d1 =>
            (buffer_cache_write st.cache r.1 zeros).bind fun c1 =>
              allocate_direct_loop n (i + 1) { cache := c1, fmap := r.2 } d1

/-- The model of `inode_allocate_direct`: `size_t i` is compared with `off_t sectors`, so the
bound is taken as unsigned. -/
def inode_allocate_direct (st : fs_state) (d : inode_disk) (sectors : Int) :
    Except Fault (fs_state × inode_disk × Bool) :=
  allocate_direct_loop (sectors % 4294967296).toNat 0 st d

/-- The `for` loop over `iid.blocks[i]` that `inode_allocate_indirect` and
`inode_allocate_indirect_double` both contain: `n` iterations left, at index `i`. The result
carries the block and whether the loop ran to its end (`false`: the function returns
false). -/
def allocate_entries :
    Nat → Int → fs_state → Sector → Except Fault (fs_state × Sector × Bool)
  | 0, _, st, iid => Except.ok (st, iid, true)
  | n + 1, i, st, iid =>
    (blocks_get iid i).bind fun x =>
      if x ≠ 0 then allocate_entries n (i + 1) st iid
      else
        match free_map_allocate st.fmap with
        | none => Except.ok (st, iid, false)
        | some r =>
          (blocks_set iid i r.1).bind fun iid1 =>
            (buffer_cache_write st.cache r.1 zeros).bind fun c1 =>
              allocate_entries n (i + 1) { cache := c1, fmap := r.2 } iid1

/-- The first statement of `inode_allocate_indirect`: reserve and zero the indirect block when
the pointer is 0; `PANIC` when the free map has no sector. -/
def ensure_indirect (st : fs_state) (d : inode_disk) : Except Fault (fs_state × inode_disk) :=
  if d.indirect_pointer = 0 then
    match free_map_allocate st.fmap with
    | none => Except.error Fault.kernel_panic
    | some r =>
      (buffer_cache_write st.cache r.1 zeros).bind fun c1 =>
        Except.ok ({ cache := c1, fmap := r.2 }, { d with indirect_pointer := r.1 })
  else Except.ok (st, d)

/-- The model of `inode_allocate_indirect`. -/
def inode_allocate_indirect (st : fs_state) (d : inode_disk) (sectors : Int) :
    Except Fault (fs_state × inode_disk × Bool) :=
  (ensure_indirect st d).bind fun r =>
    (buffer_cache_read r.1.cache r.2.indirect_pointer).bind fun r1 =>
      (allocate_entries sectors.toNat 0 { cache := r1.1, fmap := r.1.fmap } r1.2).bind fun r2 =>
        if r2.2.2 = false then Except.ok (r2.1, r.2, false)
        else
          (buffer_cache_write r2.1.cache r.2.indirect_pointer r2.2.1).bind fun c3 =>
            Except.ok ({ cache := c3, fmap := r2.1.fmap }, r.2, true)

/-- The first statement of the `while` body of `inode_allocate_indirect_double`: reserve and
zero the sub-indirect block `double_iid.blocks[index]` when it is 0. -/
def ensure_sub (st : fs_state) (diid : Sector) (index : Int) :
    Except Fault (fs_state × Sector) :=
  (blocks_get diid index).bind fun x =>
    if x = 0 then
      match free_map_allocate st.fmap with
      | none => Except.error Fault.kernel_panic
      | some r =>
        (blocks_set diid index r.1).bind fun diid1 =>
          (buffer_cache_write st.cache r.1 zeros).bind fun c1 =>
            Except.ok ({ cache := c1, fmap := r.2 }, diid1)
    else Except.ok (st, diid)

/-- The `while (sectors > 0)` loop of `inode_allocate_indirect_double`, with fuel. -/
def allocate_double_loop :
    Nat → Int → Int → fs_state → Sector → Except Fault (fs_state × Sector × Bool)
  | 0, sectors, _, st, diid =>
    if sectors > 0 then Except.error Fault.diverge else Except.ok (st, diid, true)
  | fuel + 1, sectors, index, st, diid =>
    if sectors > 0 then
      (ensure_sub st diid index).bind fun r1 =>
        (blocks_get r1.2 index).bind fun sub =>
          (buffer_cache_read r1.1.cache sub).bind fun r2 =>
            (allocate_entries (if sectors > 128 then (128 : Int) else sectors).toNat 0
                { cache := r2.1, fmap := r1.1.fmap } r2.2).bind fun r3 =>
              if r3.2.2 = false then Except.ok (r3.1, r1.2, false)
              else
                (buffer_cache_write r3.1.cache sub r3.2.1).bind fun c4 =>
                  allocate_double_loop fuel
                    (sectors - (if sectors > 128 then (128 : Int) else sectors)) (index + 1)
                    { cache := c4, fmap := r3.1.fmap } r1.2
    else Except.ok (st, diid, true)

/-- The first statement of `inode_allocate_indirect_double`: reserve and zero the
double-indirect block when the pointer is 0. -/
def ensure_double (st : fs_state) (d : inode_disk) : Except Fault (fs_state × inode_disk) :=
  if d.double_indirect_pointer = 0 then
    match free_map_allocate st.fmap with
    | none => Except.error Fault.kernel_panic
    | some r =>
      (buffer_cache_write st.cache r.1 zeros).bind fun c1 =>
        Except.ok ({ cache := c1, fmap := r.2 }, { d with double_indirect_pointer := r.1 })
  else Except.ok (st, d)

/-- The model of `inode_allocate_indirect_double`; every turn of the loop lowers `sectors`, so
`sectors` turns of fuel are enough. -/
def inode_allocate_indirect_double (st : fs_state) (d : inode_disk) (sectors : Int) :
    Except Fault (fs_state × inode_disk × Bool) :=
  (ensure_double st d).bind fun r =>
    (buffer_cache_read r.1.cache r.2.double_indirect_pointer).bind fun r1 =>
      (allocate_double_loop sectors.toNat sectors 0
          { cache := r1.1, fmap := r.1.fmap } r1.2).bind fun r2 =>
        if r2.2.2 = false then Except.ok (r2.1, r.2, false)
        else
          (buffer_cache_write r2.1.cache r.2.double_indirect_pointer r2.2.1).bind fun c3 =>
            Except.ok ({ cache := c3, fmap := r2.1.fmap }, r.2, true)

/-- `a && b` on two calls that return `bool`: `b` runs only when `a` returned true. -/
def and_then (a : Except Fault (fs_state × inode_disk × Bool))
    (b : fs_state → inode_disk → Except Fault (fs_state × inode_disk × Bool)) :
    Except Fault (fs_state × inode_disk × Bool) :=
  a.bind fun r => if r.2.2 = false then Except.ok r else b r.1 r.2.1

/-- The model of `inode_allocate`. `sectors - LAYER_0` is `sectors - 12`, `LAYER_1 - LAYER_0`
is `12 + 128 - 12`, and `sectors - LAYER_1` is `sectors - 12 + 128`. -/
def inode_allocate (st : fs_state) (d : inode_disk) (length : Int) :
    Except Fault (fs_state × inode_disk × Bool) :=
  if bytes_to_sectors length < 12 then inode_allocate_direct st d (bytes_to_sectors length)
  else if bytes_to_sectors length < 12 + 128 then
    and_then (inode_allocate_direct st d 12) fun st1 d1 =>
      inode_allocate_indirect st1 d1 ((bytes_to_sectors length : Int) - 12)
  else if bytes_to_sectors length < 12 + 128 + 128 * 128 then
    and_then
      (and_then (inode_allocate_direct st d 12) fun st1 d1 =>
        inode_allocate_indirect st1 d1 (12 + 128 - 12))
      fun st2 d2 =>
        inode_allocate_indirect_double st2 d2 ((bytes_to_sectors length : Int) - 12 + 128)
  else Except.ok (st, d, false)

/-- The `struct inode_disk` that `inode_create` builds in the `calloc`ed block before it
allocates. -/
def fresh_inode_disk (length : Int) (type : Int) : inode_disk :=
  { direct_blocks := fun _ => 0
    indirect_pointer := 0
    double_indirect_pointer := 0
    indirect_layer := 0
    inode_type := type
    length := length
    magic := INODE_MAGIC
    unused := fun _ => 0 }

/-- The model of `inode_create` (`calloc` is taken to succeed). -/
def inode_create (st : fs_state) (sector : Nat) (length : Int) (type : Int) :
    Except Fault (fs_state × Bool) :=
  if length < 0 then Except.error Fault.assertion
  else
    (inode_allocate st (fresh_inode_disk length type) length).bind fun r =>
      if r.2.2 = false then Except.ok (r.1, false)
      else
        (buffer_cache_write r.1.cache sector r.2.1.to_sector).bind fun c1 =>
          Except.ok ({ cache := c1, fmap := r.1.fmap }, true)

/-- The part of `inode_open` that builds a new in-memory inode for `sector` (`malloc` is taken
to succeed). -/
def inode_open_new (c : cache_state) (sector : Nat) : Except Fault (cache_state × inode) :=
  (buffer_cache_read c sector).bind fun r =>
    Except.ok (r.1,
      { sector := sector, open_cnt := 1, removed := false, deny_write_cnt := 0,
        data := inode_disk.of_sector r.2 })

/-- A caller's byte buffer: the byte at each offset from the pointer. -/
abbrev Buffer := Nat → Byte

/-- Byte `k` of a sector-sized buffer. -/
def sector_byte (s : Sector) (k : Int) : Byte :=
  if h : 0 ≤ k ∧ k < 512 then s ⟨k.toNat, by omega⟩ else 0

/-- The copy `memcpy (dst + pos, src + start, n)` out of the sector-sized buffer `src`; a read
outside `src` is a fault. -/
def copy_out (dst : Buffer) (pos : Int) (src : Sector) (start n : Int) : Except Fault Buffer :=
  if 0 ≤ start ∧ start + n ≤ 512 ∧ 0 ≤ pos then
    Except.ok fun j =>
      if pos ≤ (j : Int) ∧ (j : Int) < pos + n then sector_byte src (start + ((j : Int) - pos))
      else dst j
  else Except.error Fault.out_of_bounds

/-- The copy `memcpy (dst + start, src + pos, n)` into the sector-sized buffer `dst`; a write
outside `dst` is a fault. -/
def copy_in (dst : Sector) (start : Int) (src : Buffer) (pos n : Int) : Except Fault Sector :=
  if 0 ≤ start ∧ start + n ≤ 512 ∧ 0 ≤ pos then
    Except.ok fun k =>
      if start ≤ (k.val : Int) ∧ (k.val : Int) < start + n
      then src (pos + ((k.val : Int) - start)).toNat
      else dst k
  else Except.error Fault.out_of_bounds

/-- The 512 bytes at `buffer + pos`, as `buffer_cache_write (.., buffer + pos)` copies them. -/
def buffer_sector (buffer : Buffer) (pos : Int) : Sector :=
  fun k => buffer (pos + (k.val : Int)).toNat

/-- The number of bytes one turn of the loops of `inode_read_at` and `inode_write_at` handles:
`chunk_size`, from `size`, `offset` and the inode's length. -/
def chunk_size (ino : inode) (size offset : Int) : Int :=
  if size <
      (if inode_length ino - offset < 512 - Int.tmod offset 512
       then inode_length ino - offset else 512 - Int.tmod offset 512)
  then size
  else
    (if inode_length ino - offset < 512 - Int.tmod offset 512
     then inode_length ino - offset else 512 - Int.tmod offset 512)

/-- The body of the loop of `inode_read_at` after the `chunk_size` test: a full sector is read
straight into the caller's buffer, anything else into the bounce buffer and copied from
there. -/
def read_chunk (c : cache_state) (sector_idx : Nat) (buffer : Buffer)
    (sector_ofs chunk bytes_read : Int) : Except Fault (cache_state × Buffer) :=
  if sector_ofs = 0 ∧ chunk = 512 then
    (buffer_cache_read c sector_idx).bind fun r =>
      (copy_out buffer bytes_read r.2 0 512).bind fun buffer1 => Except.ok (r.1, buffer1)
  else
    (buffer_cache_read c sector_idx).bind fun r =>
      (copy_out buffer bytes_read r.2 sector_ofs chunk).bind fun buffer1 =>
        Except.ok (r.1, buffer1)

/-- The `while (size > 0)` loop of `inode_read_at`, with fuel (`malloc` of the bounce buffer
is taken to succeed). -/
def read_loop :
    Nat → cache_state → inode → Buffer → Int → Int → Int → Except Fault (cache_state × Buffer × Int)
  | 0, c, _, buffer, size, _, bytes_read =>
    if size > 0 then Except.error Fault.diverge else Except.ok (c, buffer, bytes_read)
  | fuel + 1, c, ino, buffer, size, offset, bytes_read =>
    if size > 0 then
      (byte_to_sector c ino offset).bind fun r =>
        if chunk_size ino size offset ≤ 0 then Except.ok (r.1, buffer, bytes_read)
        else
          (read_chunk r.1 r.2 buffer (Int.tmod offset 512) (chunk_size ino size offset)
              bytes_read).bind fun r1 =>
            read_loop fuel r1.1 ino r1.2 (size - chunk_size ino size offset)
              (offset + chunk_size ino size offset) (bytes_read + chunk_size ino size offset)
    else Except.ok (c, buffer, bytes_read)

/-- The model of `inode_read_at`: the new cache state, the caller's buffer and the number of
bytes read. Every turn of the loop lowers `size`, so `size` turns of fuel are enough. -/
def inode_read_at (c : cache_state) (ino : inode) (buffer : Buffer) (size offset : Int) :
    Except Fault (cache_state × Buffer × Int) :=
  read_loop size.toNat c ino buffer size offset 0

/-- The assignment `disk_inode->length = n`. -/
def set_length (d : inode_disk) (n : Int) : inode_disk := { d with length := n }

/-- The block of `inode_write_at` before the `deny_write_cnt` test: when
`byte_to_sector (inode, size + offset)` is `-1`, set the length, write the inode, allocate
(`PANIC` when that returns false), set the length and write the inode again. -/
def write_grow (st : fs_state) (ino : inode) (size offset : Int) :
    Except Fault (fs_state × inode) :=
  (byte_to_sector st.cache ino (size + offset)).bind fun r =>
    if r.2 = SECTOR_NONE then
      (buffer_cache_write r.1 ino.sector
          (set_length ino.data (size + offset)).to_sector).bind fun c1 =>
        (inode_allocate { cache := c1, fmap := st.fmap }
            (set_length ino.data (size + offset)) (size + offset)).bind fun r2 =>
          if r2.2.2 = false then Except.error Fault.kernel_panic
          else
            (buffer_cache_write r2.1.cache ino.sector
                (set_length r2.2.1 (size + offset)).to_sector).bind fun c3 =>
              Except.ok ({ cache := c3, fmap := r2.1.fmap },
                { ino with data := set_length r2.2.1 (size + offset) })
    else Except.ok ({ cache := r.1, fmap := st.fmap }, ino)

/-- The sector that one turn of the loop of `inode_write_at` hands to `buffer_cache_write`:
the caller's bytes for a full sector, otherwise the bounce buffer (pre-read, or zeroed when
the chunk covers the sector) with the chunk copied in. -/
def write_chunk (c : cache_state) (sector_idx : Nat) (buffer : Buffer)
    (sector_ofs chunk bytes_written : Int) : Except Fault (cache_state × Sector) :=
  if sector_ofs = 0 ∧ chunk = 512 then
    Except.ok (c, buffer_sector buffer bytes_written)
  else
    (if sector_ofs > 0 ∨ chunk < 512 - sector_ofs then buffer_cache_read c sector_idx
     else Except.ok (c, zeros)).bind fun r =>
      (copy_in r.2 sector_ofs buffer bytes_written chunk).bind fun s => Except.ok (r.1, s)

/-- The `while (size > 0)` loop of `inode_write_at`, with fuel (`malloc` of the bounce buffer
is taken to succeed). -/
def write_loop :
    Nat → cache_state → inode → Buffer → Int → Int → Int → Except Fault (cache_state × Int)
  | 0, c, _, _, size, _, bytes_written =>
    if size > 0 then Except.error Fault.diverge else Except.ok (c, bytes_written)
  | fuel + 1, c, ino, buffer, size, offset, bytes_written =>
    if size > 0 then
      (byte_to_sector c ino offset).bind fun r =>
        if chunk_size ino size offset ≤ 0 then Except.ok (r.1, bytes_written)
        else
          (write_chunk r.1 r.2 buffer (Int.tmod offset 512) (chunk_size ino size offset)
              bytes_written).bind fun r1 =>
            (buffer_cache_write r1.1 r.2 r1.2).bind fun c2 =>
              write_loop fuel c2 ino buffer (size - chunk_size ino size offset)
                (offset + chunk_size ino size offset)
                (bytes_written + chunk_size ino size offset)
    else Except.ok (c, bytes_written)

/-- The model of `inode_write_at`: the new state, the inode and the number of bytes written.
The growth block runs before the `deny_write_cnt` test, as in the source. -/
def inode_write_at (st : fs_state) (ino : inode) (buffer : Buffer) (size offset : Int) :
    Except Fault (fs_state × inode × Int) :=
  (write_grow st ino size offset).bind fun r =>
    if r.2.deny_write_cnt ≠ 0 then Except.ok (r.1, r.2, 0)
    else
      (write_loop size.toNat r.1.cache r.2 buffer size offset 0).bind fun r1 =>
        Except.ok ({ cache := r1.1, fmap := r.1.fmap }, r.2, r1.2)

/-- The model of `inode_deny_write`. -/
def inode_deny_write (ino : inode) : Except Fault inode :=
  if ino.deny_write_cnt + 1 ≤ ino.open_cnt
  then Except.ok { ino with deny_write_cnt := ino.deny_write_cnt + 1 }
  else Except.error Fault.assertion

/-- The model of `inode_allow_write`. -/
def inode_allow_write (ino : inode) : Except Fault inode :=
  if ino.deny_write_cnt > 0 ∧ ino.deny_write_cnt ≤ ino.open_cnt
  then Except.ok { ino with deny_write_cnt := ino.deny_write_cnt - 1 }
  else Except.error Fault.assertion

/-! ## Specification of the inode layer -/

/-- Entry `i` of an index block; 0 outside the 128 entries. -/
def word_at (s : Sector) (i : Nat) : Nat :=
  if h : i < 128 then sector_word s ⟨i, h⟩ else 0

/-- The sector that `byte_to_sector` finds for sector index `i` of a file, as a function of
the on-disk inode and of the sectors as seen through the cache: `direct_blocks[i]`, entry
`i - 12` of the indirect block, or entry `(i - 12 + 128) % 128` of the block that entry
`(i - 12 + 128) / 128` of the double-indirect block names. -/
def block_ptr (view : Nat → Sector) (d : inode_disk) (i : Nat) : Nat :=
  if h : i < 12 then d.direct_blocks ⟨i, h⟩
  else if i < 140 then word_at (view d.indirect_pointer) (i - 12)
  else
    word_at (view (word_at (view d.double_indirect_pointer) ((i + 116) / 128)))
      ((i + 116) % 128)

/-! ### Concrete inputs -/

/-- A device whose sectors are all zero. -/
def demo_device : Device := fun _ => zeros

/-- The cache after `buffer_cache_init` over `demo_device`. -/
def demo_cache : cache_state := buffer_cache_init (boot_cache demo_device)

/-- A free map of 64 sectors in which sectors 0 and 1 are taken. -/
def demo_fmap : free_map := { size := 64, used := fun i => decide (i < 2) }

/-- The file system state made of `demo_cache` and `demo_fmap`. -/
def demo_state : fs_state := { cache := demo_cache, fmap := demo_fmap }

/-- An open inode at sector 1 for an empty file that nobody denies writes to. -/
def demo_inode : inode :=
  { sector := 1, open_cnt := 1, removed := false, deny_write_cnt := 0,
    data := fresh_inode_disk 0 0 }

/-- The same inode after one `inode_deny_write`. -/
def demo_denied_inode : inode := { demo_inode with deny_write_cnt := 1 }

/-- An open inode whose on-disk inode records a length of 70000 bytes and an indirect block at
sector 5. -/
def demo_long_inode : inode :=
  { demo_inode with data := { fresh_inode_disk 70000 0 with indirect_pointer := 5 } }

/-- An open inode whose on-disk inode records a length of 16269 sectors. -/
def demo_huge_inode : inode :=
  { demo_inode with data := fresh_inode_disk (16269 * 512) 0 }

/-- An open inode at sector 1 for a file of 10 bytes whose only sector is sector 2. -/
def demo_small_inode : inode :=
  { sector := 1, open_cnt := 1, removed := false, deny_write_cnt := 0,
    data := { fresh_inode_disk 10 0 with direct_blocks := fun i => if i.val = 0 then 2 else 0 } }

/-- The file system state made of `demo_cache` and a free map of 64 sectors in which sectors
0, 1 and 2 are taken. -/
def demo_small_state : fs_state :=
  { cache := demo_cache, fmap := { size := 64, used := fun i => decide (i < 3) } }


/-! ## The pointer tree of an inode -/

/-- The places where an inode keeps a sector number: its twelve direct pointers, the pointer
to the indirect block and that block's entries, the pointer to the double-indirect block, that
block's entries (the sub-indirect blocks) and their entries. -/
inductive slot where
  | direct (i : Nat)
  | ind
  | ind_entry (j : Nat)
  | dbl
  | sub (k : Nat)
  | sub_entry (k j : Nat)
  deriving DecidableEq

/-- The slots that name an index block. -/
def slot.is_index : slot → Prop
  | slot.ind => True
  | slot.dbl => True
  | slot.sub _ => True
  | _ => False

/-- The slots that name a data sector. -/
def slot.is_data : slot → Prop
  | slot.direct _ => True
  | slot.ind_entry _ => True
  | slot.sub_entry _ _ => True
  | _ => False

/-- `direct_blocks[i]`; 0 outside the twelve entries. -/
def direct_at (d : inode_disk) (i : Nat) : Nat :=
  if h : i < 12 then d.direct_blocks ⟨i, h⟩ else 0

/-- The sector number in each slot, for the in-memory inode `d`, the sectors `view` as seen
through the cache and the contents `dblock` of the double-indirect block; 0 stands for "not
allocated", also below an index block that is not allocated. -/
def slot_value (d : inode_disk) (view : Nat → Sector) (dblock : Sector) : slot → Nat
  | slot.direct i => direct_at d i
  | slot.ind => d.indirect_pointer
  | slot.ind_entry j =>
    if d.indirect_pointer = 0 then 0 else word_at (view d.indirect_pointer) j
  | slot.dbl => d.double_indirect_pointer
  | slot.sub k => if d.double_indirect_pointer = 0 then 0 else word_at dblock k
  | slot.sub_entry k j =>
    if d.double_indirect_pointer = 0 then 0
    else if word_at dblock k = 0 then 0
    else word_at (view (word_at dblock k)) j

/-- The sector number in each slot of an inode whose double-indirect block is on disk. -/
def tree_value (d : inode_disk) (view : Nat → Sector) : slot → Nat :=
  slot_value d view (view d.double_indirect_pointer)

/-- The slot that `byte_to_sector` reads for sector index `i` of the file. -/
def data_slot (i : Nat) : slot :=
  if i < 12 then slot.direct i
  else if i < 140 then slot.ind_entry (i - 12)
  else slot.sub_entry ((i + 116) / 128) ((i + 116) % 128)

/-- A free map as the file system keeps it: sector 0 is taken, the map has at most
`2^32 - 1` bits, and only sectors of the device are marked. -/
structure fmap_ok (fm : free_map) : Prop where
  zero_used : fm.used 0 = true
  size_le : fm.size ≤ 4294967295
  used_lt : ∀ x, fm.used x = true → x < fm.size

/-- The free map `fm'` has the size of `fm` and every sector taken in `fm` is taken in it. -/
structure fmap_grows (fm fm' : free_map) : Prop where
  size_eq : fm'.size = fm.size
  mono : ∀ x, fm.used x = true → fm'.used x = true

/-- Sector `x` was free in `fm` and is taken in `fm'`. -/
def fresh (fm fm' : free_map) (x : Nat) : Prop := fm.used x = false ∧ fm'.used x = true

/-- The sectors a pointer tree names are taken in the free map, differ from the inode's own
sector and are pairwise distinct. -/
structure tree_ok (val : slot → Nat) (fm : free_map) (isec : Nat) : Prop where
  used : ∀ a, val a ≠ 0 → fm.used (val a) = true
  not_inode : ∀ a, val a ≠ 0 → val a ≠ isec
  inj : ∀ a b, val a ≠ 0 → val a = val b → a = b

/-- How allocation changes a pointer tree: the free map grows, allocated slots keep their
sector, newly filled slots hold distinct sectors that were free, sectors that were taken and
are no index block keep their contents, and a newly filled data slot names a zeroed sector. -/
structure tree_grows (val val' : slot → Nat) (view view' : Nat → Sector)
    (fm fm' : free_map) : Prop where
  grows : fmap_grows fm fm'
  keep : ∀ a, val a ≠ 0 → val' a = val a
  filled : ∀ a, val a = 0 → val' a ≠ 0 → fresh fm fm' (val' a)
  inj : ∀ a b, val a = 0 → val b = 0 → val' a ≠ 0 → val' a = val' b → a = b
  frame : ∀ t, fm.used t = true → (∀ a, a.is_index → val a ≠ t) → view' t = view t
  zero : ∀ a, a.is_data → val a = 0 → val' a ≠ 0 → view' (val' a) = zeros

/-- How one allocation loop changes an array of sector numbers (`e` before, `e'` after) over
the entries `lo .. hi - 1`: every entry is kept or was 0 and now holds a sector that was free;
the new sectors are distinct and zeroed; no other sector changes; and when the loop ran to its
end (`b`), no entry of the range is 0. -/
structure filled_range (fm fm' : free_map) (view view' : Nat → Sector) (e e' : Nat → Nat)
    (lo hi : Nat) (b : Bool) : Prop where
  grows : fmap_grows fm fm'
  fm_ok : fmap_ok fm'
  zeroed : ∀ t, fresh fm fm' t → view' t = zeros
  same : ∀ t, ¬ fresh fm fm' t → view' t = view t
  step : ∀ j, e' j = e j ∨ (e j = 0 ∧ lo ≤ j ∧ j < hi ∧ fresh fm fm' (e' j))
  inj : ∀ j j', e j = 0 → e j' = 0 → e' j ≠ 0 → e' j = e' j' → j = j'
  full : b = true → ∀ j, lo ≤ j → j < hi → e' j ≠ 0
  named : ∀ t, fresh fm fm' t → ∃ j, e' j = t

/-- The state of the file system is in order for the inode `d` at sector `isec`: the cache
invariant holds, the free map is in order and has `isec` taken, and the pointer tree is in
order. -/
structure alloc_pre (st : fs_state) (d : inode_disk) (isec : Nat) : Prop where
  cache : cache_inv st.cache
  fm_ok : fmap_ok st.fmap
  inode_used : st.fmap.used isec = true
  tree : tree_ok (tree_value d (cache_view st.cache)) st.fmap isec

/-- The on-disk inodes `d` and `d'` differ at most in their pointers. -/
def same_meta (d d' : inode_disk) : Prop :=
  d'.length = d.length ∧ d'.inode_type = d.inode_type ∧ d'.magic = d.magic ∧
    d'.indirect_layer = d.indirect_layer ∧ d'.unused = d.unused

/-- The state inside `inode_allocate_indirect_double`: as `alloc_pre`, for the tree whose
double-indirect block is the local copy `db`, which exists. -/
structure dbl_pre (st : fs_state) (d : inode_disk) (db : Sector) (isec : Nat) : Prop where
  cache : cache_inv st.cache
  fm_ok : fmap_ok st.fmap
  inode_used : st.fmap.used isec = true
  tree : tree_ok (slot_value d (cache_view st.cache) db) st.fmap isec
  exists_dbl : d.double_indirect_pointer ≠ 0

/-! ## Files in order -/

/-- The open inode `ino` and the state `st` describe a file in order: `alloc_pre` holds, the
length is an `off_t` that is not negative, and every sector index below the sector count of
the length is mapped to a sector. -/
structure file_ok (st : fs_state) (ino : inode) : Prop where
  pre : alloc_pre st ino.data ino.sector
  len_nonneg : 0 ≤ ino.data.length
  len_fits : ino.data.length ≤ 2147483647
  mapped : ∀ i, i < bytes_to_sectors ino.data.length →
    tree_value ino.data (cache_view st.cache) (data_slot i) ≠ 0

/-- The sector of the file's sector index `i`. -/
def file_sector (view : Nat → Sector) (d : inode_disk) (i : Nat) : Nat :=
  tree_value d view (data_slot i)

/-- What the growth block of `inode_write_at` does to a file in order: the file stays in
order and does not shrink, allocated slots keep their sector, the data sectors of the file
keep their contents, and a newly filled data slot names a zeroed sector. -/
structure grown (st st1 : fs_state) (ino ino1 : inode) : Prop where
  ok : file_ok st1 ino1
  sector : ino1.sector = ino.sector
  deny : ino1.deny_write_cnt = ino.deny_write_cnt
  len_le : ino.data.length ≤ ino1.data.length
  keep : ∀ a, tree_value ino.data (cache_view st.cache) a ≠ 0 →
    tree_value ino1.data (cache_view st1.cache) a = tree_value ino.data (cache_view st.cache) a
  data : ∀ a : slot, a.is_data → tree_value ino.data (cache_view st.cache) a ≠ 0 →
    cache_view st1.cache (tree_value ino.data (cache_view st.cache) a) =
      cache_view st.cache (tree_value ino.data (cache_view st.cache) a)
  zero : ∀ a : slot, a.is_data → tree_value ino.data (cache_view st.cache) a = 0 →
    tree_value ino1.data (cache_view st1.cache) a ≠ 0 →
    cache_view st1.cache (tree_value ino1.data (cache_view st1.cache) a) = zeros

/-- What the copy loop of `inode_write_at` (or the `deny_write_cnt` exit) leaves behind, from
the state `st1` after the growth block: the file is in order, the pointer tree is as it was,
and in every sector of the file the bytes of the range come from the caller's buffer, unless
writes are denied, while all others stay. -/
structure written (st1 st' : fs_state) (ino' : inode) (buffer : Buffer)
    (size offset : Int) : Prop where
  ok : file_ok st' ino'
  tree : ∀ a, tree_value ino'.data (cache_view st'.cache) a =
    tree_value ino'.data (cache_view st1.cache) a
  bytes : ∀ (i : Nat) (k : Fin 512), file_sector (cache_view st1.cache) ino'.data i ≠ 0 →
    cache_view st'.cache (file_sector (cache_view st1.cache) ino'.data i) k =
      if ino'.deny_write_cnt = 0 ∧ offset ≤ 512 * (i : Int) + (k.val : Int) ∧
          512 * (i : Int) + (k.val : Int) < offset + size
      then buffer (512 * (i : Int) + (k.val : Int) - offset).toNat
      else cache_view st1.cache (file_sector (cache_view st1.cache) ino'.data i) k

/-- Every byte at or past the length, in a sector the file maps, is zero. -/
def zero_tail (st : fs_state) (ino : inode) : Prop :=
  ∀ (i : Nat) (k : Fin 512), file_sector (cache_view st.cache) ino.data i ≠ 0 →
    ino.data.length ≤ 512 * (i : Int) + (k.val : Int) →
    cache_view st.cache (file_sector (cache_view st.cache) ino.data i) k = 0

/-- The files the inode layer produces: `inode_create` on a state whose cache and free map are
in order and in which the inode's sector is taken, `inode_open` of that sector, and then any
number of `inode_write_at` calls that return, each with a size and an offset that are not
negative and end within the range of `off_t`. -/
inductive reachable : fs_state → inode → Prop where
  | create (st0 st1 : fs_state) (sector : Nat) (length type : Int) (c : cache_state)
      (ino : inode) :
      cache_inv st0.cache → fmap_ok st0.fmap → st0.fmap.used sector = true →
      length ≤ 2147483647 →
      inode_create st0 sector length type = Except.ok (st1, true) →
      inode_open_new st1.cache sector = Except.ok (c, ino) →
      reachable { cache := c, fmap := st1.fmap } ino
  | write (st st' : fs_state) (ino ino' : inode) (buffer : Buffer) (size offset n : Int) :
      reachable st ino → 0 ≤ size → 0 ≤ offset → size + offset ≤ 2147483647 →
      inode_write_at st ino buffer size offset = Except.ok (st', ino', n) →
      reachable st' ino'


/-! ## Closing and deallocating (`inode_close`, `inode_deallocate`) -/

/-- The loop `for (int i = 0; i < n; i++) free_map_release (inode->data.direct_blocks[i], 1)`
of `inode_deallocate`: `n` iterations left, at index `i`. -/
def release_direct_loop : Nat → Int → free_map → inode_disk → Except Fault free_map
  | 0, _, fm, _ => Except.ok fm
  | n + 1, i, fm, d =>
    (direct_get d i).bind fun x => release_direct_loop n (i + 1) (free_map_release fm x 1) d

/-- The loop `for (int i = 0; i < n; i++) free_map_release (iid.blocks[i], 1)` of
`inode_deallocate`: `n` iterations left, at index `i`. -/
def release_entries : Nat → Int → free_map → Sector → Except Fault free_map
  | 0, _, fm, _ => Except.ok fm
  | n + 1, i, fm, iid =>
    (blocks_get iid i).bind fun x => release_entries n (i + 1) (free_map_release fm x 1) iid

/-- The `while (temp > 0)` loop of `inode_deallocate`, with fuel: `deallocate_size` is taken
from `sectors`, not from `temp`. -/
def release_double_loop :
    Nat → Int → Int → Int → fs_state → Sector → Except Fault fs_state
  | 0, temp, _, _, st, _ =>
    if temp > 0 then Except.error Fault.diverge else Except.ok st
  | fuel + 1, temp, sectors, index, st, diid =>
    if temp > 0 then
      (blocks_get diid index).bind fun sub =>
        (buffer_cache_read st.cache sub).bind fun r =>
          (release_entries (if sectors > 128 then (128 : Int) else sectors).toNat 0
              st.fmap r.2).bind fun fm1 =>
            release_double_loop fuel
              (temp - (if sectors > 128 then (128 : Int) else sectors)) sectors (index + 1)
              { cache := r.1, fmap := free_map_release fm1 sub 1 } diid
    else Except.ok st

/-- The model of `inode_deallocate`. `sectors <= LAYER_1` is `sectors <= 12 + 128`, but
`sectors-LAYER_1` is `sectors - 12 + 128` and `sectors - LAYER_2` is
`sectors - 12 + 128 + 128 * 128`. `free_map_release (inode->data.direct_blocks, 1)` passes the
address of the array, here `direct_blocks_ptr`, as the sector number. `int sectors` takes the
`size_t` of `bytes_to_sectors` as a 32-bit `int`. -/
def inode_deallocate (st : fs_state) (ino : inode) (direct_blocks_ptr : Nat) :
    Except Fault (fs_state × Bool) :=
  if ino.data.length < 0 then Except.ok (st, false)
  else if word_int (bytes_to_sectors ino.data.length) ≤ 12 then
    (release_direct_loop (word_int (bytes_to_sectors ino.data.length)).toNat 0 st.fmap
        ino.data).bind fun fm1 => Except.ok ({ cache := st.cache, fmap := fm1 }, true)
  else if word_int (bytes_to_sectors ino.data.length) ≤ 12 + 128 then
    (release_direct_loop 12 0 st.fmap ino.data).bind fun fm1 =>
      (buffer_cache_read st.cache ino.data.indirect_pointer).bind fun r =>
        (release_entries (word_int (bytes_to_sectors ino.data.length) - 12 + 128).toNat 0
            fm1 r.2).bind fun fm2 =>
          Except.ok ({ cache := r.1, fmap := free_map_release fm2 direct_blocks_ptr 1 }, true)
  else if word_int (bytes_to_sectors ino.data.length) ≤ 12 + 128 + 128 * 128 then
    (release_direct_loop 12 0 st.fmap ino.data).bind fun fm1 =>
      (buffer_cache_read st.cache ino.data.indirect_pointer).bind fun r =>
        (release_entries (word_int (bytes_to_sectors ino.data.length) - 12 + 128).toNat 0
            fm1 r.2).bind fun fm2 =>
          (buffer_cache_read r.1 ino.data.double_indirect_pointer).bind fun r2 =>
            (release_double_loop
                (word_int (bytes_to_sectors ino.data.length) - 12 + 128 + 128 * 128).toNat
                (word_int (bytes_to_sectors ino.data.length) - 12 + 128 + 128 * 128)
                (word_int (bytes_to_sectors ino.data.length)) 0
                { cache := r2.1, fmap := free_map_release fm2 direct_blocks_ptr 1 }
                r2.2).bind fun st3 =>
              Except.ok ({ cache := st3.cache,
                           fmap := free_map_release st3.fmap ino.data.double_indirect_pointer 1 },
                true)
  else Except.ok (st, false)

/-- The in-memory inodes: the `malloc`ed `struct inode` at each address, and the list
`open_inodes` of the addresses of the open ones, front first. -/
structure inode_heap where
  objs : Nat → Option inode
  open_inodes : List Nat

/-- The offset of `data.direct_blocks` in `struct inode` on the 32-bit target: after the list
element (two pointers), `sector`, `open_cnt`, `removed` (padded) and `deny_write_cnt`. -/
def INODE_DATA_OFFSET : Nat := 24

/-- The model of `inode_close` on the inode at address `p` (`none` is the null pointer; an
address that holds no inode is a fault). When the last opener closes a removed inode the
function reaches `PANIC ("REACH HERE\n")`; the statements after it are kept as they are
written. -/
def inode_close (st : fs_state) (h : inode_heap) (p : Option Nat) :
    Except Fault (fs_state × inode_heap) :=
  match p with
  | none => Except.ok (st, h)
  | some a =>
    match h.objs a with
    | none => Except.error Fault.out_of_bounds
    | some ino =>
      if ino.open_cnt - 1 = 0 then
        (if ino.removed = true then
          (Except.error Fault.kernel_panic : Except Fault Unit).bind fun _ =>
            (inode_deallocate { cache := st.cache, fmap := free_map_release st.fmap ino.sector 1 }
                { ino with open_cnt := ino.open_cnt - 1 }
                ((a + INODE_DATA_OFFSET) % 4294967296)).bind fun r => Except.ok r.1
         else Except.ok st).bind fun st1 =>
          Except.ok (st1, { objs := Function.update h.objs a none,
                            open_inodes := h.open_inodes.erase a })
      else
        Except.ok (st, { objs := Function.update h.objs a
                           (some { ino with open_cnt := ino.open_cnt - 1 }),
                         open_inodes := h.open_inodes })

/-- The model of `inode_remove`. -/
def inode_remove (ino : inode) : inode := { ino with removed := true }

/-! ### Concrete inputs for the later claims -/

/-- A free map of 64 sectors in which every sector is taken. -/
def full_fmap : free_map := { size := 64, used := fun _ => true }

/-- An empty file at sector 1 whose last opener has marked it removed, at address 0 of the
heap and alone in the open-inode list. -/
def demo_removed_heap : inode_heap :=
  { objs := fun a => if a = 0 then some (inode_remove demo_inode) else none
    open_inodes := [0] }

/-- A device holding a double-indirect block at sector 5 whose entries 0 and 2 name the
index blocks at sectors 6 and 7; entry 0 of sector 6 is 100 and entry 0 of sector 7 is 200. -/
def demo_dbl_device : Device := fun s =>
  if s = 5 then set_sector_word (set_sector_word zeros 0 6) 2 7
  else if s = 6 then set_sector_word zeros 0 100
  else if s = 7 then set_sector_word zeros 0 200
  else zeros

/-- An open inode for a file of 141 sectors whose double-indirect block is sector 5. -/
def demo_dbl_inode : inode :=
  { demo_inode with
    data := { fresh_inode_disk (141 * 512) 0 with double_indirect_pointer := 5 } }

/-- An on-disk inode of 12 sectors whose direct blocks are the sectors 2 to 13. -/
def demo_direct_disk : inode_disk :=
  { fresh_inode_disk (12 * 512) 0 with direct_blocks := fun i => i.val + 2 }


/-! ## Specification of allocation -/

/-- The number of free sectors of a free map. -/
def free_count (fm : free_map) : Nat :=
  ((Finset.range fm.size).filter (fun i => fm.used i = false)).card

/-- A number of free sectors that is enough for `inode_allocate` to return true on a file of
`s` sectors: the data sectors and index blocks the three tiers reserve at most. -/
def alloc_need (s : Nat) : Nat :=
  if s < 12 then s
  else if s < 140 then 12 + (1 + (s - 12))
  else 12 + (1 + 128) + (1 + (s + 116) + (s + 116 + 127) / 128)

/-- The slots that `inode_allocate` has filled when it returns true for a file of `s`
sectors: the first `s` direct pointers (all 12 from `s = 12` on); from `s = 12` on the
indirect block and its first `s - 12` entries (all 128 from `s = 140` on); from `s = 140` on
the double-indirect block and the first `s - 12 + 128` entries of the blocks it names, counted
from entry 0 of its block 0. -/
structure filled_tree (val : slot → Nat) (s : Nat) : Prop where
  direct : ∀ i, i < 12 → i < s → val (slot.direct i) ≠ 0
  ind : 12 ≤ s → val slot.ind ≠ 0
  ind_entry : ∀ j, j < 128 → 12 + j < s → val (slot.ind_entry j) ≠ 0
  dbl : 140 ≤ s → val slot.dbl ≠ 0
  sub_entry : 140 ≤ s → ∀ q, q < s + 116 → val (slot.sub_entry (q / 128) (q % 128)) ≠ 0

/-- A free map of 1024 sectors in which sectors 0 and 1 are taken. -/
def roomy_fmap : free_map := { size := 1024, used := fun i => decide (i < 2) }

/-- The file system state made of `demo_cache` and `roomy_fmap`. -/
def roomy_state : fs_state := { cache := demo_cache, fmap := roomy_fmap }

/-- A free map of 14 sectors in which sectors 0 and 1 are taken: 12 sectors are free. -/
def twelve_fmap : free_map := { size := 14, used := fun i => decide (i < 2) }


/-! ## Sequences of cache calls with shutdown -/

/-- One call of the cache interface, `buffer_cache_close` included. -/
inductive cache_call where
  | read (sector : Nat)
  | write (sector : Nat) (buffer : Sector)
  | close

/-- The state after one call; the bytes a read copies out are dropped. -/
def apply_call (c : cache_state) : cache_call → Except Fault cache_state
  | cache_call.read s => (buffer_cache_read c s).bind fun r => Except.ok r.1
  | cache_call.write s b => buffer_cache_write c s b
  | cache_call.close => buffer_cache_close c

/-- The state after a sequence of calls, in program order. -/
def run_calls : List cache_call → cache_state → Except Fault cache_state
  | [], c => Except.ok c
  | call :: calls, c => (apply_call c call).bind (run_calls calls)

/-- Sector `s` is resident: a slot in use holds it. -/
def resident (c : cache_state) (s : Nat) : Prop := ∃ i, holds c i s

/-- A cache with the hand on slot 0, which is in use, clean, not pinned and holds sector 7 as
the device has it; the other 63 slots are not in use. -/
def demo_hand_cache : cache_state :=
  { buffer_cache_list := fun i =>
      if i = 0 then
        { inuse := true, pinned := false, dirty := false, block_index := 7,
          buffer := demo_device 7 }
      else zero_entry
    clock_pin := 0
    capacity := 0
    fs_device := demo_device }

/-! ## The open-inode list (`inode_init`, `inode_open`, `inode_reopen`) -/

/-- The model of `inode_init`: `list_init (&open_inodes)`; no `struct inode` is allocated
yet. -/
def inode_init : inode_heap := { objs := fun _ => none, open_inodes := [] }

/-- The loop of `inode_open` over `open_inodes`: the address of the first listed inode whose
`sector` is `sector`, or `none` when the loop runs to the end. A listed address that holds no
inode is a fault. -/
def find_open (h : inode_heap) (sector : Nat) : List Nat → Except Fault (Option Nat)
  | [] => Except.ok none
  | a :: l =>
    match h.objs a with
    | none => Except.error Fault.out_of_bounds
    | some ino => if ino.sector = sector then Except.ok (some a) else find_open h sector l

/-- The model of `inode_reopen` on the inode at address `p` (`none` is the null pointer); the
pointer is returned. -/
def inode_reopen (h : inode_heap) (p : Option Nat) : Except Fault (inode_heap × Option Nat) :=
  match p with
  | none => Except.ok (h, none)
  | some a =>
    match h.objs a with
    | none => Except.error Fault.out_of_bounds
    | some ino =>
      Except.ok
        ({ objs := Function.update h.objs a (some { ino with open_cnt := ino.open_cnt + 1 }),
           open_inodes := h.open_inodes },
          some a)

/-- The model of `inode_open`. `mem` is what `malloc (sizeof *inode)` returns if it is called:
the address of the new block, or `none` for the null pointer. The result is the pointer
returned. -/
def inode_open (st : fs_state) (h : inode_heap) (sector : Nat) (mem : Option Nat) :
    Except Fault (fs_state × inode_heap × Option Nat) :=
  (find_open h sector h.open_inodes).bind fun f =>
    match f with
    | some a => (inode_reopen h (some a)).bind fun r => Except.ok (st, r.1, some a)
    | none =>
      match mem with
      | none => Except.ok (st, h, none)
      | some p =>
        (inode_open_new st.cache sector).bind fun r =>
          Except.ok
            ({ cache := r.1, fmap := st.fmap },
              { objs := Function.update h.objs p (some r.2),
                open_inodes := p :: h.open_inodes },
              some p)

/-- A function of `struct inode *` applied to the inode at address `a`: the inode there is
replaced by the result. An address that holds no inode is a fault. -/
def at_inode (h : inode_heap) (a : Nat) (f : inode → Except Fault inode) :
    Except Fault inode_heap :=
  match h.objs a with
  | none => Except.error Fault.out_of_bounds
  | some ino =>
    (f ino).bind fun ino1 =>
      Except.ok { objs := Function.update h.objs a (some ino1), open_inodes := h.open_inodes }

/-- One call of the five functions that touch the counters of an in-memory inode. -/
inductive inode_call where
  | call_open (sector : Nat) (mem : Option Nat)
  | call_reopen (p : Nat)
  | call_close (p : Nat)
  | call_deny_write (p : Nat)
  | call_allow_write (p : Nat)

/-- The state after one call. -/
def apply_inode_call (s : fs_state × inode_heap) :
    inode_call → Except Fault (fs_state × inode_heap)
  | inode_call.call_open sector mem =>
    (inode_open s.1 s.2 sector mem).bind fun r => Except.ok (r.1, r.2.1)
  | inode_call.call_reopen p =>
    (inode_reopen s.2 (some p)).bind fun r => Except.ok (s.1, r.1)
  | inode_call.call_close p => inode_close s.1 s.2 (some p)
  | inode_call.call_deny_write p =>
    (at_inode s.2 p inode_deny_write).bind fun h => Except.ok (s.1, h)
  | inode_call.call_allow_write p =>
    (at_inode s.2 p inode_allow_write).bind fun h => Except.ok (s.1, h)

/-- The state after a sequence of calls, in program order. -/
def run_inode_calls :
    List inode_call → fs_state × inode_heap → Except Fault (fs_state × inode_heap)
  | [], s => Except.ok s
  | call :: calls, s => (apply_inode_call s call).bind (run_inode_calls calls)

/-- The invariant (I3) on every in-memory inode: `open_cnt >= deny_write_cnt >= 0`. -/
def counts_ok (h : inode_heap) : Prop :=
  ∀ a ino, h.objs a = some ino → 0 ≤ ino.deny_write_cnt ∧ ino.deny_write_cnt ≤ ino.open_cnt

/-- The rule stated above `inode_allow_write`: an opener that denied writes allows them again
before it closes, so a call of `inode_close` finds `deny_write_cnt` below `open_cnt`. -/
def close_allowed (h : inode_heap) : inode_call → Prop
  | inode_call.call_close p => ∀ ino, h.objs p = some ino → ino.deny_write_cnt < ino.open_cnt
  | _ => True

/-- Every `inode_close` of the sequence run from `s` is allowed in the state it is called
in. -/
def closes_allowed : fs_state × inode_heap → List inode_call → Prop
  | _, [] => True
  | s, call :: calls =>
    close_allowed s.2 call ∧
      match apply_inode_call s call with
      | Except.ok s1 => closes_allowed s1 calls
      | Except.error _ => True

/-- The open-inode list in order: it lists each address once, exactly the addresses that hold
an inode, and no two listed inodes have the same sector (I5). -/
structure heap_ok (h : inode_heap) : Prop where
  nodup : h.open_inodes.Nodup
  listed : ∀ a, a ∈ h.open_inodes ↔ ∃ ino, h.objs a = some ino
  uniq : ∀ a b x y, h.objs a = some x → h.objs b = some y → x.sector = y.sector → a = b

/-- A free map of 32768 sectors (16 MiB) with the first two taken. -/
def wide_fmap : free_map := { size := 32768, used := fun i => decide (i < 2) }

/-- The empty cache over the zero device with the free map `wide_fmap`. -/
def wide_state : fs_state := { cache := demo_cache, fmap := wide_fmap }

/-! ## Specification of the clock sweep -/

/-- The slot `m` places after the hand, in cyclic order. -/
def hand_plus (c : cache_state) (m : Nat) : Fin 64 :=
  ⟨(c.clock_pin.val + m) % 64, Nat.mod_lt _ (by decide)⟩

/-- The state `c1` is `c` after the hand passed over `k` slots: the hand is `k` places on, the
slots passed over have `pinned` cleared, and nothing else differs. -/
structure swept (c c1 : cache_state) (k : Nat) : Prop where
  hand : c1.clock_pin = hand_plus c k
  same : same_data c c1
  cleared : ∀ j, (∃ m, m < k ∧ j = hand_plus c m) → (c1.buffer_cache_list j).pinned = false
  kept : ∀ j, (¬ ∃ m, m < k ∧ j = hand_plus c m) →
    (c1.buffer_cache_list j).pinned = (c.buffer_cache_list j).pinned

/-- A full cache over the zero device: slot `i` is in use, clean, and holds sector `i`; slots
62, 63 and 0 are pinned, and the hand is on slot 62. -/
def demo_full_cache : cache_state :=
  { buffer_cache_list := fun i =>
      { inuse := true, pinned := decide (i.val = 62 ∨ i.val = 63 ∨ i.val = 0), dirty := false,
        block_index := i.val, buffer := demo_device i.val }
    clock_pin := 62
    capacity := 0
    fs_device := demo_device }

/-- The cache after the reads of the pairwise distinct sectors `done` from start-up, while
there is room: slot `i` holds the `i`-th sector read, the slots behind are not in use and not
pinned, and the hand is on the slot filled last, which is pinned. -/
structure filling (c : cache_state) (done : List Nat) : Prop where
  inv : cache_inv c
  room : done.length ≤ 64
  filled : ∀ (i : Fin 64) (x : Nat), done[i.val]? = some x → holds c i x
  empty : ∀ i : Fin 64, done.length ≤ i.val →
    (c.buffer_cache_list i).inuse = false ∧ (c.buffer_cache_list i).pinned = false
  hand : c.clock_pin.val = done.length - 1
  pinned : 0 < done.length → (c.buffer_cache_list c.clock_pin).pinned = true

/-- Two openers of the inode of sector 5, which `malloc` puts at address 100: each denies
writes once, and one of them closes without allowing writes again. -/
def demo_deny_calls : List inode_call :=
  [inode_call.call_open 5 (some 100), inode_call.call_reopen 100,
   inode_call.call_deny_write 100, inode_call.call_deny_write 100,
   inode_call.call_close 100]

/-- Two openers of the inode of sector 5 at address 100: one denies writes, allows them
again and closes. -/
def demo_allow_calls : List inode_call :=
  [inode_call.call_open 5 (some 100), inode_call.call_reopen 100,
   inode_call.call_deny_write 100, inode_call.call_allow_write 100,
   inode_call.call_close 100]

/-! ## The device calls of a cache read -/

/-- One call of the block device: `block_read` or `block_write` of a sector. -/
inductive device_call where
  | read (sector : Nat)
  | write (sector : Nat)

/-- The number of `block_read` calls in a list of device calls. -/
def device_reads : List device_call → Nat
  | [] => 0
  | device_call.read _ :: l => device_reads l + 1
  | device_call.write _ :: l => device_reads l

/-- The device calls `buffer_cache_evict` makes, in order: none when the first loop returns a
slot; otherwise, after the sweep, the `block_write` of `buffer_cache_flush` when the slot under
the hand is dirty. -/
def evict_calls (c : cache_state) : Except Fault (List device_call) :=
  match evict_scan c BUFFER_CACHE_SIZE with
  | some _ => Except.ok []
  | none =>
    (clock_sweep (BUFFER_CACHE_SIZE + 1) c).bind fun c1 =>
      if (c1.buffer_cache_list c1.clock_pin).dirty = true then
        (buffer_cache_flush c1 c1.clock_pin).bind fun _ =>
          Except.ok [device_call.write (c1.buffer_cache_list c1.clock_pin).block_index]
      else Except.ok []

/-- The device calls `buffer_cache_read` makes, in order: none when `buffer_cache_lookup`
finds the sector; otherwise those of `buffer_cache_evict` and then the `block_read` of the
sector. -/
def read_calls (c : cache_state) (block_index : Nat) : Except Fault (List device_call) :=
  match buffer_cache_lookup c block_index with
  | some _ => Except.ok []
  | none => (evict_calls c).bind fun l => Except.ok (l ++ [device_call.read block_index])

/-- The in-memory copy `inode->data` is, byte for byte, what sector `inode->sector` holds as
seen through the cache. -/
def inode_synced (c : cache_state) (ino : inode) : Prop :=
  cache_view c ino.sector = ino.data.to_sector

/-! ## `syscall_inumber` (`userprog/syscall.c`) -/

/-- `struct file_descriptor` as `syscall.c` uses it (the declaration is not part of the
sources): the descriptor number, the `struct file *` and the `struct dir *`. -/
structure file_descriptor where
  fd : Int
  file_address : Nat
  dir : Nat

/-- How a system call ends: it returns a value to the user program, or the thread ends in
`syscall_exit (status)`, which does not return. -/
inductive syscall_outcome where
  | returns (value : Int)
  | exits (status : Int)

/-- The model of `inode_get_inumber`. -/
def inode_get_inumber (ino : inode) : Nat := ino.sector

/-- The loop of `syscall_inumber` over the descriptor list, front first, and the
`syscall_exit (-1)` after it. `file_get_inode` (`filesys/file.c`, not part of the sources) is
a parameter: the `struct inode *` of a `struct file *`, `none` for the null pointer. A pointer
that holds no inode is a fault. The `block_sector_t` of `inode_get_inumber` is returned as
`int`. -/
def inumber_loop (file_get_inode : Nat → Option Nat) (h : inode_heap) (fd : Int) :
    List file_descriptor → Except Fault syscall_outcome
  | [] => Except.ok (syscall_outcome.exits (-1))
  | f :: l =>
    if f.fd = fd then
      if fd = 2 then Except.ok (syscall_outcome.returns 134)
      else
        match file_get_inode f.file_address with
        | none => Except.error Fault.out_of_bounds
        | some a =>
          match h.objs a with
          | none => Except.error Fault.out_of_bounds
          | some ino => Except.ok (syscall_outcome.returns (word_int (inode_get_inumber ino)))
    else inumber_loop file_get_inode h fd l

/-- The model of `syscall_inumber` for a thread whose descriptor list is
`file_descriptors`. -/
def syscall_inumber (file_get_inode : Nat → Option Nat) (h : inode_heap)
    (file_descriptors : List file_descriptor) (fd : Int) : Except Fault syscall_outcome :=
  if file_descriptors.isEmpty = true then Except.ok (syscall_outcome.exits (-1))
  else inumber_loop file_get_inode h fd file_descriptors

/-- A thread with one open file: descriptor 2 names the `struct file` at address 300. -/
def demo_descriptors : List file_descriptor := [{ fd := 2, file_address := 300, dir := 0 }]

/-- The `struct file` at address 300 has its inode at address 100. -/
def demo_file_inode (file : Nat) : Option Nat := if file = 300 then some 100 else none

/-- One open inode at address 100, for sector 5. -/
def demo_open_heap : inode_heap :=
  { objs := fun a =>
      if a = 100 then
        some { sector := 5, open_cnt := 1, removed := false, deny_write_cnt := 0,
               data := fresh_inode_disk 0 0 }
      else none
    open_inodes := [100] }

/-- A full cache over the zero device in which every slot is dirty: slot `i` holds sector `i`
with every byte 1; slots 62, 63 and 0 are pinned, and the hand is on slot 62. -/
def demo_dirty_cache : cache_state :=
  { buffer_cache_list := fun i =>
      { inuse := true, pinned := decide (i.val = 62 ∨ i.val = 63 ∨ i.val = 0), dirty := true,
        block_index := i.val, buffer := fun _ => 1 }
    clock_pin := 62
    capacity := 0
    fs_device := demo_device }

/-! ## The shape of the reachable cache states -/

theorem except_bind_ok {α β : Type} (x : Except Fault α) (f : α → Except Fault β) (b : β) :
    x.bind f = Except.ok b ↔ ∃ a, x = Except.ok a ∧ f a = Except.ok b := by
  cases x with
  | error e => simp [Except.bind]
  | ok a => simp [Except.bind]

/-! ### Lookup -/

theorem last_match_some {α : Type} (p : α → Prop) [DecidablePred p] :
    ∀ (l : List α) (a : Option α) (i : α),
      l.foldl (fun acc x => if p x then some x else acc) a = some i →
        (p i ∧ i ∈ l) ∨ a = some i := by
  intro l
  induction l with
  | nil => intro a i h; right; simpa using h
  | cons x l ih =>
    intro a i h
    simp only [List.foldl_cons] at h
    rcases ih _ i h with h1 | h1
    · left; exact ⟨h1.1, List.mem_cons_of_mem _ h1.2⟩
    · by_cases hx : p x
      · simp only [hx, if_true] at h1
        cases h1
        left; exact ⟨hx, List.mem_cons_self _ _⟩
      · simp only [hx, if_false] at h1
        right; exact h1

theorem last_match_none {α : Type} (p : α → Prop) [DecidablePred p] :
    ∀ (l : List α) (a : Option α),
      l.foldl (fun acc x => if p x then some x else acc) a = none →
        a = none ∧ ∀ x ∈ l, ¬ p x := by
  intro l
  induction l with
  | nil => intro a h; exact ⟨by simpa using h, by simp⟩
  | cons x l ih =>
    intro a h
    simp only [List.foldl_cons] at h
    obtain ⟨h1, h2⟩ := ih _ h
    by_cases hx : p x
    · simp [hx] at h1
    · simp only [hx, if_false] at h1
      refine ⟨h1, ?_⟩
      intro y hy
      rcases List.mem_cons.mp hy with rfl | hy
      · exact hx
      · exact h2 y hy

theorem lookup_some {c : cache_state} {s : Nat} {i : Fin 64}
    (h : buffer_cache_lookup c s = some i) : holds c i s := by
  unfold buffer_cache_lookup at h
  rcases last_match_some (fun i => (c.buffer_cache_list i).block_index = s ∧
      (c.buffer_cache_list i).inuse = true) _ _ _ h with h1 | h1
  · exact h1.1
  · cases h1

theorem lookup_none {c : cache_state} {s : Nat}
    (h : buffer_cache_lookup c s = none) : ∀ i, ¬ holds c i s := by
  unfold buffer_cache_lookup at h
  intro i
  exact (last_match_none (fun i => (c.buffer_cache_list i).block_index = s ∧
      (c.buffer_cache_list i).inuse = true) _ _ h).2 i (List.mem_finRange i)

theorem lookup_of_holds {c : cache_state} (hu : cache_inv c) {s : Nat} {i : Fin 64}
    (h : holds c i s) : buffer_cache_lookup c s = some i := by
  cases hl : buffer_cache_lookup c s with
  | none => exact absurd h (lookup_none hl i)
  | some j =>
    have hj := lookup_some hl
    have : j = i := hu.uniq j i hj.2 h.2 (hj.1.trans h.1.symm)
    rw [this]

theorem view_hit {c : cache_state} (hu : cache_inv c) {s : Nat} {i : Fin 64}
    (h : holds c i s) : cache_view c s = (c.buffer_cache_list i).buffer := by
  unfold cache_view
  rw [lookup_of_holds hu h]

theorem view_miss {c : cache_state} {s : Nat} (h : ∀ i, ¬ holds c i s) :
    cache_view c s = c.fs_device s := by
  unfold cache_view
  cases hl : buffer_cache_lookup c s with
  | none => rfl
  | some j => exact absurd (lookup_some hl) (h j)

theorem same_data_holds {c c' : cache_state} (h : same_data c c') (i : Fin 64) (s : Nat) :
    holds c' i s ↔ holds c i s := by
  unfold holds
  rw [(h.2 i).1, (h.2 i).2.2.1]

theorem same_data_inv {c c' : cache_state} (h : same_data c c') (hi : cache_inv c) :
    cache_inv c' := by
  refine ⟨?_, ?_, ?_⟩
  · intro i j h1 h2 h3
    rw [(h.2 i).1] at h1
    rw [(h.2 j).1] at h2
    rw [(h.2 i).2.2.1, (h.2 j).2.2.1] at h3
    exact hi.uniq i j h1 h2 h3
  · intro i h1
    rw [(h.2 i).2.1] at h1
    rw [(h.2 i).1]
    exact hi.dirty_inuse i h1
  · intro i h1 h2
    rw [(h.2 i).1] at h1
    rw [(h.2 i).2.1] at h2
    rw [(h.2 i).2.2.2, (h.2 i).2.2.1, h.1]
    exact hi.clean i h1 h2

theorem same_data_view {c c' : cache_state} (h : same_data c c') (hi : cache_inv c) (s : Nat) :
    cache_view c' s = cache_view c s := by
  have hi' := same_data_inv h hi
  by_cases hh : ∃ i, holds c i s
  · obtain ⟨i, hh⟩ := hh
    rw [view_hit hi hh, view_hit hi' ((same_data_holds h i s).mpr hh), (h.2 i).2.2.2]
  · have hh : ∀ i, ¬ holds c i s := fun i hi => hh ⟨i, hi⟩
    rw [view_miss hh, view_miss (fun i hi => hh i ((same_data_holds h i s).mp hi)), h.1]

theorem same_data_refl (c : cache_state) : same_data c c :=
  ⟨rfl, fun _ => ⟨rfl, rfl, rfl, rfl⟩⟩

theorem same_data_trans {a b c : cache_state} (h1 : same_data a b) (h2 : same_data b c) :
    same_data a c :=
  ⟨h2.1.trans h1.1, fun i =>
    ⟨(h2.2 i).1.trans (h1.2 i).1, (h2.2 i).2.1.trans (h1.2 i).2.1,
     (h2.2 i).2.2.1.trans (h1.2 i).2.2.1, (h2.2 i).2.2.2.trans (h1.2 i).2.2.2⟩⟩

@[simp] theorem set_entry_self (c : cache_state) (i : Fin 64) (e : buffer_cache_entry) :
    (set_entry c i e).buffer_cache_list i = e := by
  simp [set_entry]

theorem set_entry_other (c : cache_state) {i j : Fin 64} (e : buffer_cache_entry) (h : j ≠ i) :
    (set_entry c i e).buffer_cache_list j = c.buffer_cache_list j := by
  simp [set_entry, Function.update_noteq h]

@[simp] theorem set_entry_device (c : cache_state) (i : Fin 64) (e : buffer_cache_entry) :
    (set_entry c i e).fs_device = c.fs_device := rfl

@[simp] theorem set_entry_clock (c : cache_state) (i : Fin 64) (e : buffer_cache_entry) :
    (set_entry c i e).clock_pin = c.clock_pin := rfl

theorem set_pinned_same (c : cache_state) (i : Fin 64) (b : Bool) :
    same_data c (set_entry c i { c.buffer_cache_list i with pinned := b }) := by
  refine ⟨rfl, fun j => ?_⟩
  by_cases hj : j = i
  · subst hj; simp
  · simp [set_entry_other c _ hj]

/-! ### The clock sweep -/

theorem sweep_step_same (c : cache_state) : same_data c (sweep_step c) :=
  set_pinned_same c c.clock_pin false

theorem clock_sweep_same : ∀ (fuel : Nat) (c c' : cache_state),
    clock_sweep fuel c = Except.ok c' →
      same_data c c' ∧ (c'.buffer_cache_list c'.clock_pin).pinned = false := by
  intro fuel
  induction fuel with
  | zero => intro c c' h; simp [clock_sweep] at h
  | succ n ih =>
    intro c c' h
    unfold clock_sweep at h
    by_cases hp : (c.buffer_cache_list c.clock_pin).pinned = false
    · rw [if_pos hp] at h
      cases h
      exact ⟨same_data_refl c, hp⟩
    · rw [if_neg hp] at h
      obtain ⟨h1, h2⟩ := ih _ _ h
      exact ⟨same_data_trans (sweep_step_same c) h1, h2⟩

theorem pinned_count_le (c : cache_state) : pinned_count c ≤ 64 := by
  unfold pinned_count
  calc _ ≤ (Finset.univ : Finset (Fin 64)).card := Finset.card_le_card (Finset.filter_subset _ _)
    _ = 64 := by simp

theorem pinned_count_step (c : cache_state)
    (hp : (c.buffer_cache_list c.clock_pin).pinned = true) :
    pinned_count (sweep_step c) + 1 = pinned_count c := by
  unfold pinned_count
  have hset : (Finset.univ.filter fun i => ((sweep_step c).buffer_cache_list i).pinned = true) =
      (Finset.univ.filter fun i => (c.buffer_cache_list i).pinned = true).erase c.clock_pin := by
    ext i
    by_cases hi : i = c.clock_pin
    · subst hi; simp [sweep_step, set_entry]
    · simp [sweep_step, set_entry, Function.update_noteq hi, hi]
  rw [hset]
  exact Finset.card_erase_add_one (by simp [hp])

theorem clock_sweep_total : ∀ (n : Nat) (c : cache_state), pinned_count c ≤ n →
    ∃ c', clock_sweep (n + 1) c = Except.ok c' := by
  intro n
  induction n with
  | zero =>
    intro c h
    unfold clock_sweep
    by_cases hp : (c.buffer_cache_list c.clock_pin).pinned = false
    · exact ⟨c, by rw [if_pos hp]⟩
    · have hp' : (c.buffer_cache_list c.clock_pin).pinned = true := by simpa using hp
      have := pinned_count_step c hp'
      omega
  | succ n ih =>
    intro c h
    unfold clock_sweep
    by_cases hp : (c.buffer_cache_list c.clock_pin).pinned = false
    · exact ⟨c, by rw [if_pos hp]⟩
    · have hp' : (c.buffer_cache_list c.clock_pin).pinned = true := by simpa using hp
      have := pinned_count_step c hp'
      rw [if_neg hp]
      exact ih _ (by omega)

/-! ### Flushing and evicting -/

theorem keeps_refl {c : cache_state} (hi : cache_inv c) : keeps c c :=
  ⟨hi, fun _ => rfl, fun _ _ h => h⟩

theorem keeps_trans {a b c : cache_state} (h1 : keeps a b) (h2 : keeps b c) : keeps a c :=
  ⟨h2.inv, fun s => (h2.view s).trans (h1.view s), fun i s h => h1.held i s (h2.held i s h)⟩

theorem keeps_of_same {c c' : cache_state} (hi : cache_inv c) (h : same_data c c') :
    keeps c c' :=
  ⟨same_data_inv h hi, same_data_view h hi, fun i s hh => (same_data_holds h i s).mp hh⟩

theorem flush_write_keeps {c : cache_state} (hi : cache_inv c) (v : Fin 64)
    (hd : (c.buffer_cache_list v).dirty = true) : keeps c (flush_write c v) := by
  have hin := hi.dirty_inuse v hd
  have hold : ∀ i s, holds (flush_write c v) i s ↔ holds c i s := by
    intro i s
    unfold holds flush_write
    by_cases hiv : i = v
    · subst hiv; simp
    · rw [set_entry_other _ _ hiv]
  have hinv : cache_inv (flush_write c v) := by
    have e : ∀ k, ((flush_write c v).buffer_cache_list k).inuse =
            (c.buffer_cache_list k).inuse ∧
          ((flush_write c v).buffer_cache_list k).block_index =
            (c.buffer_cache_list k).block_index := by
      intro k
      unfold flush_write
      by_cases hk : k = v
      · subst hk; simp
      · rw [set_entry_other _ _ hk]; simp
    refine ⟨?_, ?_, ?_⟩
    · intro i j h1 h2 h3
      simp only [(e i).1, (e j).1, (e i).2, (e j).2] at h1 h2 h3
      exact hi.uniq i j h1 h2 h3
    · intro i h1
      rw [(e i).1]
      by_cases hiv : i = v
      · subst hiv; exact hin
      · unfold flush_write at h1
        rw [set_entry_other _ _ hiv] at h1
        exact hi.dirty_inuse i h1
    · intro i h1 h2
      rw [(e i).1] at h1
      rw [(e i).2]
      unfold flush_write at h2 ⊢
      by_cases hiv : i = v
      · subst hiv; simp [block_write]
      · rw [set_entry_other _ _ hiv] at h2 ⊢
        have hne : (c.buffer_cache_list i).block_index ≠ (c.buffer_cache_list v).block_index :=
          fun he => hiv (hi.uniq i v h1 hin he)
        simp only [set_entry_device, block_write, Function.update_noteq hne]
        exact hi.clean i h1 h2
  refine ⟨hinv, ?_, fun i s h => (hold i s).mp h⟩
  intro s
  by_cases hh : ∃ i, holds c i s
  · obtain ⟨i, hh⟩ := hh
    rw [view_hit hi hh, view_hit hinv ((hold i s).mpr hh)]
    unfold flush_write
    by_cases hiv : i = v
    · subst hiv; simp
    · rw [set_entry_other _ _ hiv]
  · have hh : ∀ i, ¬ holds c i s := fun i hi => hh ⟨i, hi⟩
    rw [view_miss hh, view_miss (fun i hi => hh i ((hold i s).mp hi))]
    have hne : s ≠ (c.buffer_cache_list v).block_index := fun he => hh v ⟨he.symm, hin⟩
    simp [flush_write, block_write, Function.update_noteq hne]

theorem flush_keeps {c : cache_state} (hi : cache_inv c) (v : Fin 64)
    (hd : (c.buffer_cache_list v).dirty = true) :
    buffer_cache_flush c v = Except.ok (flush_write c v) := by
  have hin := hi.dirty_inuse v hd
  simp [buffer_cache_flush, hd, hin]

/-- Dropping a clean slot keeps every sector's contents. -/
theorem drop_keeps {c : cache_state} (hi : cache_inv c) (v : Fin 64)
    (hd : (c.buffer_cache_list v).dirty = false) : keeps c (drop_entry c v) := by
  have hold : ∀ i s, holds (drop_entry c v) i s ↔ (holds c i s ∧ i ≠ v) := by
    intro i s
    unfold holds drop_entry
    by_cases hiv : i = v
    · subst hiv; simp
    · rw [set_entry_other _ _ hiv]; simp [hiv]
  have hinv : cache_inv (drop_entry c v) := by
    unfold drop_entry
    refine ⟨?_, ?_, ?_⟩
    · intro i j h1 h2 h3
      by_cases hiv : i = v
      · subst hiv; simp at h1
      · by_cases hjv : j = v
        · subst hjv; simp at h2
        · rw [set_entry_other _ _ hiv] at h1 h3
          rw [set_entry_other _ _ hjv] at h2 h3
          exact hi.uniq i j h1 h2 h3
    · intro i h1
      by_cases hiv : i = v
      · subst hiv; simp [hd] at h1
      · rw [set_entry_other _ _ hiv] at h1 ⊢
        exact hi.dirty_inuse i h1
    · intro i h1 h2
      by_cases hiv : i = v
      · subst hiv; simp at h1
      · rw [set_entry_other _ _ hiv] at h1 h2 ⊢
        exact hi.clean i h1 h2
  refine ⟨hinv, ?_, fun i s h => ((hold i s).mp h).1⟩
  intro s
  by_cases hh : ∃ i, holds c i s
  · obtain ⟨i, hh⟩ := hh
    by_cases hiv : i = v
    · subst hiv
      have hm : ∀ j, ¬ holds (drop_entry c i) j s := by
        intro j hj
        obtain ⟨hj1, hj2⟩ := (hold j s).mp hj
        exact hj2 (hi.uniq j i hj1.2 hh.2 (hj1.1.trans hh.1.symm))
      rw [view_hit hi hh, view_miss hm, hi.clean i hh.2 hd, hh.1]
      rfl
    · rw [view_hit hi hh, view_hit hinv ((hold i s).mpr ⟨hh, hiv⟩)]
      unfold drop_entry
      rw [set_entry_other _ _ hiv]
  · have hh : ∀ i, ¬ holds c i s := fun i hi => hh ⟨i, hi⟩
    rw [view_miss hh, view_miss (fun i hi => hh i ((hold i s).mp hi).1)]
    rfl

theorem evict_victim_keeps {c : cache_state} (hi : cache_inv c) :
    ∃ c', evict_victim c = Except.ok (c', c.clock_pin) ∧ keeps c c' ∧
      (c'.buffer_cache_list c.clock_pin).inuse = false ∧
      (c'.buffer_cache_list c.clock_pin).dirty = false := by
  unfold evict_victim
  by_cases hd : (c.buffer_cache_list c.clock_pin).dirty = true
  · rw [if_pos hd, flush_keeps hi _ hd]
    have hk := flush_write_keeps hi _ hd
    have hd2 : ((flush_write c c.clock_pin).buffer_cache_list c.clock_pin).dirty = false := by
      simp [flush_write]
    have hpin : (flush_write c c.clock_pin).clock_pin = c.clock_pin := rfl
    simp only [Except.bind, hpin]
    exact ⟨_, rfl, keeps_trans hk (drop_keeps hk.inv c.clock_pin hd2),
      by simp [drop_entry], by simp [drop_entry, hd2]⟩
  · have hd' : (c.buffer_cache_list c.clock_pin).dirty = false := by simpa using hd
    rw [if_neg hd]
    simp only [Except.bind]
    exact ⟨_, rfl, drop_keeps hi c.clock_pin hd', by simp [drop_entry], by simp [drop_entry, hd']⟩

theorem evict_scan_some (c : cache_state) : ∀ (n : Nat) (i : Fin 64),
    evict_scan c n = some i → i = c.clock_pin ∧ (c.buffer_cache_list i).inuse = false := by
  intro n
  induction n with
  | zero => intro i h; simp [evict_scan] at h
  | succ n ih =>
    intro i h
    unfold evict_scan at h
    by_cases hu : (c.buffer_cache_list c.clock_pin).inuse = false
    · rw [if_pos hu] at h
      cases h
      exact ⟨rfl, hu⟩
    · rw [if_neg hu] at h
      exact ih i h

theorem evict_keeps {c : cache_state} (hi : cache_inv c) :
    ∃ c' v, buffer_cache_evict c = Except.ok (c', v) ∧ keeps c c' ∧
      (c'.buffer_cache_list v).inuse = false ∧ (c'.buffer_cache_list v).dirty = false := by
  unfold buffer_cache_evict
  cases hs : evict_scan c BUFFER_CACHE_SIZE with
  | some i =>
    obtain ⟨_, h2⟩ := evict_scan_some c _ i hs
    refine ⟨c, i, rfl, keeps_refl hi, h2, ?_⟩
    cases hd : (c.buffer_cache_list i).dirty with
    | false => rfl
    | true => rw [hi.dirty_inuse i hd] at h2; cases h2
  | none =>
    obtain ⟨c1, h1⟩ := clock_sweep_total 64 c (pinned_count_le c)
    have h1' : clock_sweep (BUFFER_CACHE_SIZE + 1) c = Except.ok c1 := h1
    obtain ⟨hsame, _⟩ := clock_sweep_same _ _ _ h1
    have hk1 := keeps_of_same hi hsame
    obtain ⟨c2, h2, hk2, hu, hd⟩ := evict_victim_keeps hk1.inv
    refine ⟨c2, c1.clock_pin, ?_, keeps_trans hk1 hk2, hu, hd⟩
    simp only [h1', Except.bind, h2]

/-! ### Reads and writes -/

theorem write_fill_eq (c : cache_state) (v : Fin 64) (s : Nat)
    (hd : (c.buffer_cache_list v).dirty = false) : write_fill c v s = read_fill c v s := by
  unfold write_fill read_fill
  simp only [hd]

theorem fill_holds (c : cache_state) (v : Fin 64) (s : Nat)
    (hu : (c.buffer_cache_list v).inuse = false) (i : Fin 64) (t : Nat) :
    holds (read_fill c v s) i t ↔ holds c i t ∨ (i = v ∧ t = s) := by
  unfold holds read_fill
  by_cases hiv : i = v
  · subst hiv
    simp [hu]
    exact eq_comm
  · rw [set_entry_other _ _ hiv]
    simp [hiv]

theorem fill_inv {c : cache_state} (hi : cache_inv c) (v : Fin 64) (s : Nat)
    (hu : (c.buffer_cache_list v).inuse = false)
    (hm : ∀ i, ¬ holds c i s) : cache_inv (read_fill c v s) := by
  refine ⟨?_, ?_, ?_⟩
  · intro i j h1 h2 h3
    have hi1 := (fill_holds c v s hu i _).mp ⟨rfl, h1⟩
    have hj1 := (fill_holds c v s hu j _).mp ⟨h3.symm, h2⟩
    rcases hi1 with hi1 | ⟨hi1, hi2⟩
    · rcases hj1 with hj1 | ⟨hj1, hj2⟩
      · exact hi.uniq i j hi1.2 hj1.2 (hi1.1.trans hj1.1.symm)
      · rw [hj2] at hi1
        exact absurd hi1 (hm i)
    · rcases hj1 with hj1 | ⟨hj1, _⟩
      · rw [hi2] at hj1
        exact absurd hj1 (hm j)
      · rw [hi1, hj1]
  · intro i h1
    unfold read_fill at h1 ⊢
    by_cases hiv : i = v
    · subst hiv; simp at h1
    · rw [set_entry_other _ _ hiv] at h1 ⊢
      exact hi.dirty_inuse i h1
  · intro i h1 h2
    unfold read_fill at h1 h2 ⊢
    by_cases hiv : i = v
    · subst hiv; simp [block_read]
    · rw [set_entry_other _ _ hiv] at h1 h2 ⊢
      exact hi.clean i h1 h2

theorem fill_view {c : cache_state} (hi : cache_inv c) (v : Fin 64) (s : Nat)
    (hu : (c.buffer_cache_list v).inuse = false)
    (hm : ∀ i, ¬ holds c i s) (t : Nat) :
    cache_view (read_fill c v s) t = cache_view c t := by
  have hinv := fill_inv hi v s hu hm
  by_cases hts : t = s
  · subst hts
    have hv : holds (read_fill c v t) v t := (fill_holds c v t hu v t).mpr (Or.inr ⟨rfl, rfl⟩)
    rw [view_hit hinv hv, view_miss hm]
    simp [read_fill, block_read]
  · by_cases hh : ∃ i, holds c i t
    · obtain ⟨i, hh⟩ := hh
      have hiv : i ≠ v := fun he => by rw [he, holds, hu] at hh; exact Bool.noConfusion hh.2
      rw [view_hit hi hh, view_hit hinv ((fill_holds c v s hu i t).mpr (Or.inl hh))]
      unfold read_fill
      rw [set_entry_other _ _ hiv]
    · have hh : ∀ i, ¬ holds c i t := fun i hi => hh ⟨i, hi⟩
      have hh' : ∀ i, ¬ holds (read_fill c v s) i t := by
        intro i h
        rcases (fill_holds c v s hu i t).mp h with h | ⟨_, h⟩
        · exact hh i h
        · exact hts h
      rw [view_miss hh, view_miss hh']
      rfl

/-- The slot a read works on holds the sector, and getting it keeps every sector's contents. -/
theorem read_slot_spec {c : cache_state} (hi : cache_inv c) (s : Nat) :
    ∃ c' r, read_slot c s = Except.ok (c', r) ∧ cache_inv c' ∧
      (∀ t, cache_view c' t = cache_view c t) ∧ holds c' r s := by
  unfold read_slot
  cases hl : buffer_cache_lookup c s with
  | some i => exact ⟨c, i, rfl, hi, fun _ => rfl, lookup_some hl⟩
  | none =>
    obtain ⟨c1, v, h1, hk, hu, _⟩ := evict_keeps hi
    have hm : ∀ i, ¬ holds c1 i s := fun i h => lookup_none hl i (hk.held i s h)
    refine ⟨read_fill c1 v s, v, ?_, fill_inv hk.inv v s hu hm, ?_, ?_⟩
    · simp only [h1, Except.bind]
    · intro t
      rw [fill_view hk.inv v s hu hm t, hk.view t]
    · exact (fill_holds c1 v s hu v s).mpr (Or.inr ⟨rfl, rfl⟩)

theorem write_slot_eq {c : cache_state} (hi : cache_inv c) (s : Nat) :
    write_slot c s = read_slot c s := by
  unfold write_slot read_slot
  cases hl : buffer_cache_lookup c s with
  | some i => rfl
  | none =>
    obtain ⟨c1, v, h1, _, _, hd⟩ := evict_keeps hi
    simp only [h1, Except.bind, write_fill_eq c1 v s hd]

/-- `buffer_cache_read` returns the sector as seen through the cache and changes no sector's
contents. -/
theorem buffer_cache_read_spec {c : cache_state} (hi : cache_inv c) (s : Nat) :
    ∃ c', buffer_cache_read c s = Except.ok (c', cache_view c s) ∧ cache_inv c' ∧
      ∀ t, cache_view c' t = cache_view c t := by
  obtain ⟨c1, r, h1, hi1, hv1, hr⟩ := read_slot_spec hi s
  have hs := set_pinned_same c1 r true
  refine ⟨_, ?_, same_data_inv hs hi1, fun t => (same_data_view hs hi1 t).trans (hv1 t)⟩
  unfold buffer_cache_read
  simp only [h1, Except.bind]
  rw [← hv1 s, view_hit hi1 hr]

theorem store_spec {c : cache_state} (hi : cache_inv c) (r : Fin 64) (s : Nat) (b : Sector)
    (hr : holds c r s) :
    cache_inv (set_entry c r
        { c.buffer_cache_list r with pinned := true, dirty := true, buffer := b }) ∧
      ∀ t, cache_view (set_entry c r
        { c.buffer_cache_list r with pinned := true, dirty := true, buffer := b }) t =
          if t = s then b else cache_view c t := by
  have hold : ∀ i t, holds (set_entry c r
        { c.buffer_cache_list r with pinned := true, dirty := true, buffer := b }) i t ↔
      holds c i t := by
    intro i t
    unfold holds
    by_cases hir : i = r
    · subst hir; simp
    · rw [set_entry_other _ _ hir]
  have hinv : cache_inv (set_entry c r
        { c.buffer_cache_list r with pinned := true, dirty := true, buffer := b }) := by
    refine ⟨?_, ?_, ?_⟩
    · intro i j h1 h2 h3
      have hi1 := (hold i _).mp ⟨rfl, h1⟩
      have hj1 := (hold j _).mp ⟨h3.symm, h2⟩
      exact hi.uniq i j hi1.2 hj1.2 (hi1.1.trans hj1.1.symm)
    · intro i h1
      by_cases hir : i = r
      · subst hir; simpa using hr.2
      · rw [set_entry_other _ _ hir] at h1 ⊢
        exact hi.dirty_inuse i h1
    · intro i h1 h2
      by_cases hir : i = r
      · subst hir; simp at h2
      · rw [set_entry_other _ _ hir] at h1 h2 ⊢
        exact hi.clean i h1 h2
  refine ⟨hinv, fun t => ?_⟩
  by_cases hts : t = s
  · subst hts
    rw [if_pos rfl, view_hit hinv ((hold r t).mpr hr)]
    simp
  · rw [if_neg hts]
    by_cases hh : ∃ i, holds c i t
    · obtain ⟨i, hh⟩ := hh
      have hir : i ≠ r := fun he => by
        rw [he] at hh
        exact hts (hh.1.symm.trans hr.1)
      rw [view_hit hi hh, view_hit hinv ((hold i t).mpr hh), set_entry_other _ _ hir]
    · have hh : ∀ i, ¬ holds c i t := fun i hi => hh ⟨i, hi⟩
      rw [view_miss hh, view_miss (fun i h => hh i ((hold i t).mp h))]
      rfl

/-- `buffer_cache_write` replaces the contents of the sector written and of no other. -/
theorem buffer_cache_write_spec {c : cache_state} (hi : cache_inv c) (s : Nat) (b : Sector) :
    ∃ c', buffer_cache_write c s b = Except.ok c' ∧ cache_inv c' ∧
      ∀ t, cache_view c' t = if t = s then b else cache_view c t := by
  obtain ⟨c1, r, h1, hi1, hv1, hr⟩ := read_slot_spec hi s
  obtain ⟨h2, h3⟩ := store_spec hi1 r s b hr
  refine ⟨_, ?_, h2, fun t => ?_⟩
  · unfold buffer_cache_write
    simp only [write_slot_eq hi, h1, Except.bind]
  · rw [h3 t, hv1 t]

/-! ### Start-up and shutdown -/

theorem init_holds (dev : Device) (i : Fin 64) (s : Nat) :
    ¬ holds (buffer_cache_init (boot_cache dev)) i s := by
  simp [holds, buffer_cache_init]

theorem init_inv (dev : Device) : cache_inv (buffer_cache_init (boot_cache dev)) := by
  refine ⟨?_, ?_, ?_⟩
  · intro i j h1; simp [buffer_cache_init] at h1
  · intro i h1; simp [buffer_cache_init, boot_cache, zero_entry] at h1
  · intro i h1; simp [buffer_cache_init] at h1

theorem init_view (dev : Device) (s : Nat) :
    cache_view (buffer_cache_init (boot_cache dev)) s = dev s := by
  rw [view_miss (fun i => init_holds dev i s)]
  rfl

theorem flush_write_dirty (c : cache_state) (v i : Fin 64)
    (h : ((flush_write c v).buffer_cache_list i).dirty = true) :
    (c.buffer_cache_list i).dirty = true ∧ i ≠ v := by
  unfold flush_write at h
  by_cases hiv : i = v
  · subst hiv; simp at h
  · rw [set_entry_other _ _ hiv] at h
    exact ⟨h, hiv⟩

theorem close_loop_spec : ∀ (l : List (Fin 64)) (c : cache_state), cache_inv c →
    ∃ c', close_loop l c = Except.ok c' ∧ cache_inv c' ∧
      (∀ t, cache_view c' t = cache_view c t) ∧
      ∀ i, (c'.buffer_cache_list i).dirty = true → (c.buffer_cache_list i).dirty = true ∧ i ∉ l := by
  intro l
  induction l with
  | nil => intro c hi; exact ⟨c, rfl, hi, fun _ => rfl, fun i h => ⟨h, by simp⟩⟩
  | cons v l ih =>
    intro c hi
    unfold close_loop close_step
    by_cases hd : (c.buffer_cache_list v).dirty = true ∧ (c.buffer_cache_list v).inuse = true
    · rw [if_pos hd, flush_keeps hi v hd.1]
      have hk := flush_write_keeps hi v hd.1
      obtain ⟨c', h1, h2, h3, h4⟩ := ih _ hk.inv
      refine ⟨c', by simp only [Except.bind, h1], h2, fun t => (h3 t).trans (hk.view t), ?_⟩
      intro i h
      obtain ⟨h5, h6⟩ := h4 i h
      obtain ⟨h7, h8⟩ := flush_write_dirty c v i h5
      exact ⟨h7, by simp [h8, h6]⟩
    · rw [if_neg hd]
      obtain ⟨c', h1, h2, h3, h4⟩ := ih _ hi
      refine ⟨c', by simp only [Except.bind, h1], h2, h3, ?_⟩
      intro i h
      obtain ⟨h5, h6⟩ := h4 i h
      refine ⟨h5, ?_⟩
      have hiv : i ≠ v := fun he => by
        rw [he] at h5
        exact hd ⟨h5, hi.dirty_inuse v h5⟩
      simp [hiv, h6]

/-- After `buffer_cache_close` no slot is dirty and the device holds every sector as the
cache showed it. -/
theorem buffer_cache_close_spec {c : cache_state} (hi : cache_inv c) :
    ∃ c', buffer_cache_close c = Except.ok c' ∧ cache_inv c' ∧
      (∀ i, (c'.buffer_cache_list i).dirty = false) ∧
      ∀ t, c'.fs_device t = cache_view c t := by
  obtain ⟨c', h1, h2, h3, h4⟩ := close_loop_spec (List.finRange 64) c hi
  have hclean : ∀ i, (c'.buffer_cache_list i).dirty = false := by
    intro i
    cases hd : (c'.buffer_cache_list i).dirty with
    | false => rfl
    | true => exact absurd (List.mem_finRange i) (h4 i hd).2
  refine ⟨c', h1, h2, hclean, fun t => ?_⟩
  rw [← h3 t]
  by_cases hh : ∃ i, holds c' i t
  · obtain ⟨i, hh⟩ := hh
    rw [view_hit h2 hh, h2.clean i hh.2 (hclean i), hh.1]
  · rw [view_miss (fun i hi => hh ⟨i, hi⟩)]

/-! ### Sequences of calls -/

theorem apply_op_spec {c : cache_state} (hi : cache_inv c) (op : cache_op) :
    ∃ c', apply_op c op = Except.ok c' ∧ cache_inv c' ∧
      ∀ t, cache_view c' t = (last_write t [op]).getD (cache_view c t) := by
  cases op with
  | read s =>
    obtain ⟨c', h1, h2, h3⟩ := buffer_cache_read_spec hi s
    refine ⟨c', by simp only [apply_op, h1, Except.bind], h2, fun t => ?_⟩
    simp [last_write, h3 t]
  | write s b =>
    obtain ⟨c', h1, h2, h3⟩ := buffer_cache_write_spec hi s b
    refine ⟨c', by simp only [apply_op, h1], h2, fun t => ?_⟩
    rw [h3 t]
    by_cases hts : t = s
    · subst hts; simp [last_write]
    · have : ¬ s = t := fun h => hts h.symm
      simp [last_write, hts, this]

theorem run_ops_spec : ∀ (ops : List cache_op) (c : cache_state), cache_inv c →
    ∃ c', run_ops ops c = Except.ok c' ∧ cache_inv c' ∧
      ∀ t, cache_view c' t = (last_write t ops).getD (cache_view c t) := by
  intro ops
  induction ops with
  | nil => intro c hi; exact ⟨c, rfl, hi, fun t => by simp [last_write]⟩
  | cons op ops ih =>
    intro c hi
    obtain ⟨c1, h1, h2, h3⟩ := apply_op_spec hi op
    obtain ⟨c', h4, h5, h6⟩ := ih c1 h2
    refine ⟨c', by simp only [run_ops, h1, Except.bind, h4], h5, fun t => ?_⟩
    rw [h6 t, h3 t]
    cases hl : last_write t ops with
    | some b => simp [last_write, hl]
    | none => simp [last_write, hl]

/-- C2: the buffer cache is transparent. From the zero-initialised cache after
`buffer_cache_init` over any device, after any sequence of reads and writes every call
returns, and a `buffer_cache_read` of sector `s` returns the 512 bytes of the most recent
`buffer_cache_write` of `s` in the sequence, or the device's original contents of `s` when `s`
was never written, whatever evictions happened in between. -/
theorem cache_transparent (dev : Device) (ops : List cache_op) (s : Nat) :
    ∃ c1 c2, run_ops ops (buffer_cache_init (boot_cache dev)) = Except.ok c1 ∧
      buffer_cache_read c1 s = Except.ok (c2, expected_sector dev ops s) := by
  obtain ⟨c1, h1, h2, h3⟩ := run_ops_spec ops _ (init_inv dev)
  obtain ⟨c2, h4, _, _⟩ := buffer_cache_read_spec h2 s
  refine ⟨c1, c2, h1, ?_⟩
  rw [h4, h3 s, init_view]
  rfl

/-- C3: in every state reachable from `buffer_cache_init` by reads and writes,
`buffer_cache_close` returns, and afterwards the device holds for every sector the data most
recently passed to `buffer_cache_write` for it, or its original contents when the sector was
never written. -/
theorem close_writes_back (dev : Device) (ops : List cache_op) :
    ∃ c1 c2, run_ops ops (buffer_cache_init (boot_cache dev)) = Except.ok c1 ∧
      buffer_cache_close c1 = Except.ok c2 ∧
      ∀ s, c2.fs_device s = expected_sector dev ops s := by
  obtain ⟨c1, h1, h2, h3⟩ := run_ops_spec ops _ (init_inv dev)
  obtain ⟨c2, h4, _, _, h5⟩ := buffer_cache_close_spec h2
  refine ⟨c1, c2, h1, h4, fun s => ?_⟩
  rw [h5 s, h3 s, init_view]
  rfl

/-! ## Proofs: the inode layer -/

/-! ### `byte_to_sector` -/

@[simp] theorem bind_ok {α β : Type} (a : α) (f : α → Except Fault β) :
    (Except.ok a : Except Fault α).bind f = f a := rfl

@[simp] theorem bind_error {α β : Type} (e : Fault) (f : α → Except Fault β) :
    (Except.error e : Except Fault α).bind f = Except.error e := rfl

theorem tdiv_512 {pos : Int} (h : 0 ≤ pos) : Int.tdiv pos 512 = pos / 512 :=
  Int.tdiv_eq_ediv h (by norm_num)

theorem blocks_get_ok (iid : Sector) (i : Nat) (h : i < 128) :
    blocks_get iid (i : Int) = Except.ok (word_at iid i) := by
  unfold blocks_get word_at
  have h1 : 0 ≤ (i : Int) ∧ (i : Int) < 128 := ⟨by omega, by omega⟩
  rw [dif_pos h1, dif_pos h]
  simp

theorem blocks_get_oob (iid : Sector) (i : Int) (h : 128 ≤ i) :
    blocks_get iid i = Except.error Fault.out_of_bounds := by
  unfold blocks_get
  rw [dif_neg (by omega)]

theorem direct_get_ok (d : inode_disk) (i : Nat) (h : i < 12) :
    direct_get d (i : Int) = Except.ok (d.direct_blocks ⟨i, h⟩) := by
  unfold direct_get
  have h1 : 0 ≤ (i : Int) ∧ (i : Int) < 12 := ⟨by omega, by omega⟩
  rw [dif_pos h1]
  simp

/-- Outside the file `byte_to_sector` returns `-1` and touches nothing. -/
theorem byte_to_sector_outside (c : cache_state) (ino : inode) (pos : Int)
    (h : pos < 0 ∨ pos > ino.data.length) :
    byte_to_sector c ino pos = Except.ok (c, SECTOR_NONE) := by
  unfold byte_to_sector
  rw [if_pos h]

/-- At or past sector index 16524 `byte_to_sector` returns `-1` and touches nothing. -/
theorem byte_to_sector_past (c : cache_state) (ino : inode) (pos : Int)
    (h : 16524 * 512 ≤ pos) : byte_to_sector c ino pos = Except.ok (c, SECTOR_NONE) := by
  unfold byte_to_sector
  by_cases h1 : pos < 0 ∨ pos > ino.data.length
  · rw [if_pos h1]
  · rw [if_neg h1, tdiv_512 (by omega)]
    have : (16524 : Int) ≤ pos / 512 := by omega
    rw [if_neg (by omega), if_neg (by omega), if_neg (by omega)]

/-- Within the file and below sector index 16268, `byte_to_sector` returns the sector that
`block_ptr` names and keeps every sector's contents. -/
theorem byte_to_sector_inside {c : cache_state} (hc : cache_inv c) (ino : inode) (pos : Int)
    (h0 : 0 ≤ pos) (hl : pos ≤ ino.data.length) (hb : pos < 16268 * 512) :
    ∃ c', byte_to_sector c ino pos =
        Except.ok (c', block_ptr (cache_view c) ino.data (pos / 512).toNat) ∧
      cache_inv c' ∧ ∀ t, cache_view c' t = cache_view c t := by
  obtain ⟨i, hi⟩ : ∃ i : Nat, pos / 512 = (i : Int) := ⟨(pos / 512).toNat, by omega⟩
  have hlt : i < 16268 := by omega
  unfold byte_to_sector
  rw [if_neg (by omega), tdiv_512 h0, hi, Int.toNat_ofNat]
  unfold block_ptr
  by_cases h1 : i < 12
  · rw [if_pos (by omega), direct_get_ok _ i h1, dif_pos h1]
    exact ⟨c, rfl, hc, fun _ => rfl⟩
  · rw [if_neg (by omega), dif_neg h1]
    by_cases h2 : i < 140
    · obtain ⟨c1, hr, hc1, hv1⟩ := buffer_cache_read_spec hc ino.data.indirect_pointer
      have e : (i : Int) - 12 = ((i - 12 : Nat) : Int) := by omega
      rw [if_pos (by omega), if_pos h2, hr, bind_ok, e, blocks_get_ok _ _ (by omega), bind_ok]
      exact ⟨c1, rfl, hc1, hv1⟩
    · obtain ⟨c1, hr, hc1, hv1⟩ := buffer_cache_read_spec hc ino.data.double_indirect_pointer
      have e1 : Int.tdiv ((i : Int) - 12 + 128) 128 = (((i + 116) / 128 : Nat) : Int) := by
        rw [Int.tdiv_eq_ediv (by omega) (by norm_num)]; omega
      have e2 : Int.tmod ((i : Int) - 12 + 128) 128 = (((i + 116) % 128 : Nat) : Int) := by
        rw [Int.tmod_eq_emod (by omega) (by norm_num)]; omega
      obtain ⟨c2, hr2, hc2, hv2⟩ := buffer_cache_read_spec hc1
        (word_at (cache_view c ino.data.double_indirect_pointer) ((i + 116) / 128))
      rw [if_neg (by omega), if_pos (by omega), if_neg h2, hr, bind_ok, e1, e2,
        blocks_get_ok _ _ (by omega), bind_ok, hr2, bind_ok,
        blocks_get_ok _ _ (Nat.mod_lt _ (by norm_num)), bind_ok]
      refine ⟨c2, ?_, hc2, fun t => (hv2 t).trans (hv1 t)⟩
      simp only [hv1]

/-- Within the file, from sector index 16268 up to 16523, `byte_to_sector` indexes the
double-indirect block outside its 128 entries. -/
theorem byte_to_sector_oob {c : cache_state} (hc : cache_inv c) (ino : inode) (pos : Int)
    (hl : pos ≤ ino.data.length) (h1 : 16268 * 512 ≤ pos) (h2 : pos < 16524 * 512) :
    byte_to_sector c ino pos = Except.error Fault.out_of_bounds := by
  obtain ⟨c1, hr, _, _⟩ := buffer_cache_read_spec hc ino.data.double_indirect_pointer
  unfold byte_to_sector
  rw [if_neg (by omega), tdiv_512 (by omega), if_neg (by omega), if_neg (by omega),
    if_pos (by omega), hr, bind_ok, blocks_get_oob, bind_error]
  rw [Int.tdiv_eq_ediv (by omega) (by norm_num)]
  omega

/-- Whenever `byte_to_sector` returns, the cache invariant and every sector's contents are
kept. -/
theorem byte_to_sector_keeps {c c' : cache_state} (hc : cache_inv c) (ino : inode) (pos : Int)
    (r : Nat) (h : byte_to_sector c ino pos = Except.ok (c', r)) :
    cache_inv c' ∧ ∀ t, cache_view c' t = cache_view c t := by
  by_cases h1 : pos < 0 ∨ pos > ino.data.length
  · rw [byte_to_sector_outside c ino pos h1] at h
    cases h
    exact ⟨hc, fun _ => rfl⟩
  · by_cases h2 : pos < 16268 * 512
    · obtain ⟨c1, hr, hc1, hv1⟩ := byte_to_sector_inside hc ino pos (by omega) (by omega) h2
      rw [hr] at h
      cases h
      exact ⟨hc1, hv1⟩
    · by_cases h3 : pos < 16524 * 512
      · rw [byte_to_sector_oob hc ino pos (by omega) (by omega) h3] at h
        cases h
      · rw [byte_to_sector_past c ino pos (by omega)] at h
        cases h
        exact ⟨hc, fun _ => rfl⟩

/-- C10: for every inode and every `pos` with `0 <= pos <= length`, with `i = pos / 512`: if
`i < 12`, `byte_to_sector` returns `direct_blocks[i]`; if `12 <= i < 140`, it returns entry
`i - 12` of the indirect block stored at sector `indirect_pointer`, as the cache shows it. -/
theorem byte_to_sector_direct_indirect {c : cache_state} (hc : cache_inv c) (ino : inode)
    (pos : Int) (i : Nat) (h0 : 0 ≤ pos) (hl : pos ≤ ino.data.length)
    (hi : pos / 512 = (i : Int)) (h140 : i < 140) :
    ∃ c', byte_to_sector c ino pos =
      Except.ok (c',
        if h : i < 12 then ino.data.direct_blocks ⟨i, h⟩
        else sector_word (cache_view c ino.data.indirect_pointer) ⟨i - 12, by omega⟩) := by
  obtain ⟨c', hr, _, _⟩ := byte_to_sector_inside hc ino pos h0 hl (by omega)
  refine ⟨c', ?_⟩
  rw [hr, hi, Int.toNat_ofNat]
  unfold block_ptr word_at
  by_cases h : i < 12
  · rw [dif_pos h, dif_pos h]
  · rw [dif_neg h, dif_neg h, if_pos h140, dif_pos (by omega)]

theorem byte_to_sector_direct_indirect_witness :
    cache_inv demo_cache ∧ (0 : Int) ≤ 6149 ∧ (6149 : Int) ≤ demo_long_inode.data.length ∧
      (6149 : Int) / 512 = ((12 : Nat) : Int) ∧ 12 < 140 ∧
      ∃ c', byte_to_sector demo_cache demo_long_inode 6149 =
        Except.ok (c',
          if h : 12 < 12 then demo_long_inode.data.direct_blocks ⟨12, h⟩
          else sector_word (cache_view demo_cache demo_long_inode.data.indirect_pointer)
            ⟨12 - 12, by omega⟩) :=
  ⟨init_inv demo_device, by decide, by decide, by decide, by decide,
    byte_to_sector_direct_indirect (init_inv demo_device) demo_long_inode 6149 12
      (by decide) (by decide) (by decide) (by decide)⟩

/-! ### Growth that cannot succeed -/

/-- `inode_allocate` refuses a length of 16524 sectors or more and touches nothing. -/
theorem inode_allocate_refuses (st : fs_state) (d : inode_disk) (length : Int)
    (h : 16524 ≤ bytes_to_sectors length) :
    inode_allocate st d length = Except.ok (st, d, false) := by
  unfold inode_allocate
  rw [if_neg (by omega), if_neg (by omega), if_neg (by omega)]

/-- Growing a file to 16524 sectors or more ends in `PANIC ("Realloc failed")`. -/
theorem write_grow_panics {st : fs_state} (hc : cache_inv st.cache) (ino : inode)
    (size offset : Int) (hl : ino.data.length < size + offset)
    (h : 16524 ≤ bytes_to_sectors (size + offset)) :
    write_grow st ino size offset = Except.error Fault.kernel_panic := by
  unfold write_grow
  rw [byte_to_sector_outside _ _ _ (Or.inr hl), bind_ok, if_pos rfl]
  obtain ⟨c1, h1, _, _⟩ := buffer_cache_write_spec hc ino.sector
    (set_length ino.data (size + offset)).to_sector
  rw [h1, bind_ok, inode_allocate_refuses _ _ _ h, bind_ok, if_pos rfl]

theorem bytes_to_sectors_top : bytes_to_sectors (1 + (16524 * 512 - 1)) = 16524 := by
  decide

/-- C1, at the top of the range: one byte written at offset `16524 * 512 - 1` of an empty
file, whatever the free map holds, does not come back: `inode_write_at` ends in
`PANIC ("Realloc failed")`, because `inode_allocate` accepts fewer than 16524 sectors only. -/
theorem write_at_top_offset_panics (fm : free_map) (buf : Buffer) :
    inode_write_at { cache := demo_cache, fmap := fm } demo_inode buf 1 (16524 * 512 - 1) =
      Except.error Fault.kernel_panic := by
  unfold inode_write_at
  rw [write_grow_panics (init_inv demo_device) demo_inode 1 (16524 * 512 - 1) (by decide)
    (by rw [bytes_to_sectors_top]), bind_error]

/-- C8, on a deny-write inode: with `deny_write_cnt = 1`, one byte written at offset
`16524 * 512 - 1` does not return 0: the growth block runs before the `deny_write_cnt` test
and ends in `PANIC ("Realloc failed")`. -/
theorem deny_write_top_offset_panics (fm : free_map) (buf : Buffer) :
    demo_denied_inode.deny_write_cnt = 1 ∧
    inode_write_at { cache := demo_cache, fmap := fm } demo_denied_inode buf 1
      (16524 * 512 - 1) = Except.error Fault.kernel_panic := by
  refine ⟨rfl, ?_⟩
  unfold inode_write_at
  rw [write_grow_panics (init_inv demo_device) demo_denied_inode 1 (16524 * 512 - 1) (by decide)
    (by rw [bytes_to_sectors_top]), bind_error]

/-- C4, in a file of 16269 sectors: reading one byte at offset `16268 * 512` does not return
1: `byte_to_sector` indexes the double-indirect block at entry
`(16268 - 12 + 128) / 128 = 128`, outside its 128 entries. -/
theorem read_at_high_offset_faults (dev : Device) (buf : Buffer) :
    (16268 * 512 : Int) < inode_length demo_huge_inode ∧
    inode_read_at (buffer_cache_init (boot_cache dev)) demo_huge_inode buf 1 (16268 * 512) =
      Except.error Fault.out_of_bounds := by
  refine ⟨by decide, ?_⟩
  have h : inode_read_at (buffer_cache_init (boot_cache dev)) demo_huge_inode buf 1 (16268 * 512)
      = read_loop 1 (buffer_cache_init (boot_cache dev)) demo_huge_inode buf 1 (16268 * 512) 0 :=
    rfl
  rw [h]
  unfold read_loop
  rw [if_pos (by decide), byte_to_sector_oob (init_inv dev) demo_huge_inode _ (by decide)
    (by decide) (by decide), bind_error]

/-! ### Calls that return keep the cache invariant -/

theorem cache_write_ok {c c' : cache_state} (hc : cache_inv c) {s : Nat} {b : Sector}
    (h : buffer_cache_write c s b = Except.ok c') :
    cache_inv c' ∧ ∀ t, cache_view c' t = if t = s then b else cache_view c t := by
  obtain ⟨c1, h1, h2, h3⟩ := buffer_cache_write_spec hc s b
  rw [h1] at h
  cases h
  exact ⟨h2, h3⟩

theorem cache_read_ok {c : cache_state} (hc : cache_inv c) {s : Nat} {r : cache_state × Sector}
    (h : buffer_cache_read c s = Except.ok r) :
    cache_inv r.1 ∧ r.2 = cache_view c s ∧ ∀ t, cache_view r.1 t = cache_view c t := by
  obtain ⟨c1, h1, h2, h3⟩ := buffer_cache_read_spec hc s
  rw [h1] at h
  cases h
  exact ⟨h2, rfl, h3⟩

theorem free_map_allocate_some {fm : free_map} {r : Nat × free_map}
    (h : free_map_allocate fm = some r) :
    fm.used r.1 = false ∧ r.1 < fm.size ∧ r.2.size = fm.size ∧
      r.2.used = Function.update fm.used r.1 true := by
  unfold free_map_allocate at h
  cases hf : (List.range fm.size).find? (fun i => fm.used i = false) with
  | none => rw [hf] at h; cases h
  | some i =>
    rw [hf] at h
    cases h
    have h1 := List.find?_some hf
    have h2 := List.mem_of_find?_eq_some hf
    exact ⟨by simpa using h1, List.mem_range.mp h2, rfl, rfl⟩

theorem allocate_direct_loop_inv : ∀ (n : Nat) (i : Int) (st : fs_state) (d : inode_disk)
    (r : fs_state × inode_disk × Bool), cache_inv st.cache →
    allocate_direct_loop n i st d = Except.ok r → cache_inv r.1.cache := by
  intro n
  induction n with
  | zero =>
    intro i st d r hc h
    unfold allocate_direct_loop at h
    cases h
    exact hc
  | succ n ih =>
    intro i st d r hc h
    unfold allocate_direct_loop at h
    obtain ⟨x, _, h⟩ := (except_bind_ok _ _ _).mp h
    by_cases hx : x ≠ 0
    · rw [if_pos hx] at h
      exact ih _ _ _ _ hc h
    · rw [if_neg hx] at h
      cases hf : free_map_allocate st.fmap with
      | none =>
        rw [hf] at h
        cases h
        exact hc
      | some p =>
        rw [hf] at h
        obtain ⟨d1, _, h⟩ := (except_bind_ok _ _ _).mp h
        obtain ⟨c1, hw, h⟩ := (except_bind_ok _ _ _).mp h
        exact ih _ _ _ _ (cache_write_ok hc hw).1 h

theorem allocate_entries_inv : ∀ (n : Nat) (i : Int) (st : fs_state) (iid : Sector)
    (r : fs_state × Sector × Bool), cache_inv st.cache →
    allocate_entries n i st iid = Except.ok r → cache_inv r.1.cache := by
  intro n
  induction n with
  | zero =>
    intro i st d r hc h
    unfold allocate_entries at h
    cases h
    exact hc
  | succ n ih =>
    intro i st d r hc h
    unfold allocate_entries at h
    obtain ⟨x, _, h⟩ := (except_bind_ok _ _ _).mp h
    by_cases hx : x ≠ 0
    · rw [if_pos hx] at h
      exact ih _ _ _ _ hc h
    · rw [if_neg hx] at h
      cases hf : free_map_allocate st.fmap with
      | none =>
        rw [hf] at h
        cases h
        exact hc
      | some p =>
        rw [hf] at h
        obtain ⟨d1, _, h⟩ := (except_bind_ok _ _ _).mp h
        obtain ⟨c1, hw, h⟩ := (except_bind_ok _ _ _).mp h
        exact ih _ _ _ _ (cache_write_ok hc hw).1 h

theorem ensure_indirect_inv {st : fs_state} {d : inode_disk} {r : fs_state × inode_disk}
    (hc : cache_inv st.cache) (h : ensure_indirect st d = Except.ok r) : cache_inv r.1.cache := by
  unfold ensure_indirect at h
  by_cases h0 : d.indirect_pointer = 0
  · rw [if_pos h0] at h
    cases hf : free_map_allocate st.fmap with
    | none => rw [hf] at h; cases h
    | some p =>
      rw [hf] at h
      obtain ⟨c1, hw, h⟩ := (except_bind_ok _ _ _).mp h
      cases h
      exact (cache_write_ok hc hw).1
  · rw [if_neg h0] at h
    cases h
    exact hc

theorem ensure_double_inv {st : fs_state} {d : inode_disk} {r : fs_state × inode_disk}
    (hc : cache_inv st.cache) (h : ensure_double st d = Except.ok r) : cache_inv r.1.cache := by
  unfold ensure_double at h
  by_cases h0 : d.double_indirect_pointer = 0
  · rw [if_pos h0] at h
    cases hf : free_map_allocate st.fmap with
    | none => rw [hf] at h; cases h
    | some p =>
      rw [hf] at h
      obtain ⟨c1, hw, h⟩ := (except_bind_ok _ _ _).mp h
      cases h
      exact (cache_write_ok hc hw).1
  · rw [if_neg h0] at h
    cases h
    exact hc

theorem ensure_sub_inv {st : fs_state} {diid : Sector} {index : Int} {r : fs_state × Sector}
    (hc : cache_inv st.cache) (h : ensure_sub st diid index = Except.ok r) :
    cache_inv r.1.cache := by
  unfold ensure_sub at h
  obtain ⟨x, _, h⟩ := (except_bind_ok _ _ _).mp h
  by_cases h0 : x = 0
  · rw [if_pos h0] at h
    cases hf : free_map_allocate st.fmap with
    | none => rw [hf] at h; cases h
    | some p =>
      rw [hf] at h
      obtain ⟨d1, _, h⟩ := (except_bind_ok _ _ _).mp h
      obtain ⟨c1, hw, h⟩ := (except_bind_ok _ _ _).mp h
      cases h
      exact (cache_write_ok hc hw).1
  · rw [if_neg h0] at h
    cases h
    exact hc

theorem inode_allocate_direct_inv {st : fs_state} {d : inode_disk} {sectors : Int}
    {r : fs_state × inode_disk × Bool} (hc : cache_inv st.cache)
    (h : inode_allocate_direct st d sectors = Except.ok r) : cache_inv r.1.cache :=
  allocate_direct_loop_inv _ _ _ _ _ hc h

theorem inode_allocate_indirect_inv {st : fs_state} {d : inode_disk} {sectors : Int}
    {r : fs_state × inode_disk × Bool} (hc : cache_inv st.cache)
    (h : inode_allocate_indirect st d sectors = Except.ok r) : cache_inv r.1.cache := by
  unfold inode_allocate_indirect at h
  obtain ⟨r0, h0, h⟩ := (except_bind_ok _ _ _).mp h
  obtain ⟨r1, h1, h⟩ := (except_bind_ok _ _ _).mp h
  obtain ⟨r2, h2, h⟩ := (except_bind_ok _ _ _).mp h
  have hc1 := (cache_read_ok (ensure_indirect_inv hc h0) h1).1
  have hc2 := allocate_entries_inv _ _ _ _ _ hc1 h2
  by_cases hb : r2.2.2 = false
  · rw [if_pos hb] at h
    cases h
    exact hc2
  · rw [if_neg hb] at h
    obtain ⟨c3, hw, h⟩ := (except_bind_ok _ _ _).mp h
    cases h
    exact (cache_write_ok hc2 hw).1

theorem allocate_double_loop_inv : ∀ (fuel : Nat) (sectors index : Int) (st : fs_state)
    (diid : Sector) (r : fs_state × Sector × Bool), cache_inv st.cache →
    allocate_double_loop fuel sectors index st diid = Except.ok r → cache_inv r.1.cache := by
  intro fuel
  induction fuel with
  | zero =>
    intro sectors index st diid r hc h
    unfold allocate_double_loop at h
    by_cases hs : sectors > 0
    · rw [if_pos hs] at h; cases h
    · rw [if_neg hs] at h; cases h; exact hc
  | succ fuel ih =>
    intro sectors index st diid r hc h
    unfold allocate_double_loop at h
    by_cases hs : sectors > 0
    · rw [if_pos hs] at h
      obtain ⟨r1, h1, h⟩ := (except_bind_ok _ _ _).mp h
      obtain ⟨sub, _, h⟩ := (except_bind_ok _ _ _).mp h
      obtain ⟨r2, h2, h⟩ := (except_bind_ok _ _ _).mp h
      obtain ⟨r3, h3, h⟩ := (except_bind_ok _ _ _).mp h
      have hc2 := (cache_read_ok (ensure_sub_inv hc h1) h2).1
      have hc3 := allocate_entries_inv _ _ _ _ _ hc2 h3
      by_cases hb : r3.2.2 = false
      · rw [if_pos hb] at h
        cases h
        exact hc3
      · rw [if_neg hb] at h
        obtain ⟨c4, hw, h⟩ := (except_bind_ok _ _ _).mp h
        exact ih _ _ _ _ _ (cache_write_ok hc3 hw).1 h
    · rw [if_neg hs] at h; cases h; exact hc

theorem inode_allocate_indirect_double_inv {st : fs_state} {d : inode_disk} {sectors : Int}
    {r : fs_state × inode_disk × Bool} (hc : cache_inv st.cache)
    (h : inode_allocate_indirect_double st d sectors = Except.ok r) : cache_inv r.1.cache := by
  unfold inode_allocate_indirect_double at h
  obtain ⟨r0, h0, h⟩ := (except_bind_ok _ _ _).mp h
  obtain ⟨r1, h1, h⟩ := (except_bind_ok _ _ _).mp h
  obtain ⟨r2, h2, h⟩ := (except_bind_ok _ _ _).mp h
  have hc1 := (cache_read_ok (ensure_double_inv hc h0) h1).1
  have hc2 := allocate_double_loop_inv _ _ _ _ _ _ hc1 h2
  by_cases hb : r2.2.2 = false
  · rw [if_pos hb] at h
    cases h
    exact hc2
  · rw [if_neg hb] at h
    obtain ⟨c3, hw, h⟩ := (except_bind_ok _ _ _).mp h
    cases h
    exact (cache_write_ok hc2 hw).1

theorem and_then_ok {a : Except Fault (fs_state × inode_disk × Bool)}
    {b : fs_state → inode_disk → Except Fault (fs_state × inode_disk × Bool)}
    {r : fs_state × inode_disk × Bool} (h : and_then a b = Except.ok r) :
    (a = Except.ok r ∧ r.2.2 = false) ∨
      ∃ r1, a = Except.ok r1 ∧ r1.2.2 = true ∧ b r1.1 r1.2.1 = Except.ok r := by
  unfold and_then at h
  obtain ⟨r1, h1, h⟩ := (except_bind_ok _ _ _).mp h
  by_cases hb : r1.2.2 = false
  · rw [if_pos hb] at h
    cases h
    exact Or.inl ⟨h1, hb⟩
  · rw [if_neg hb] at h
    exact Or.inr ⟨r1, h1, by simpa using hb, h⟩

theorem inode_allocate_inv {st : fs_state} {d : inode_disk} {length : Int}
    {r : fs_state × inode_disk × Bool} (hc : cache_inv st.cache)
    (h : inode_allocate st d length = Except.ok r) : cache_inv r.1.cache := by
  unfold inode_allocate at h
  by_cases h1 : bytes_to_sectors length < 12
  · rw [if_pos h1] at h
    exact inode_allocate_direct_inv hc h
  · rw [if_neg h1] at h
    by_cases h2 : bytes_to_sectors length < 12 + 128
    · rw [if_pos h2] at h
      rcases and_then_ok h with ⟨ha, _⟩ | ⟨r1, ha, _, hb⟩
      · exact inode_allocate_direct_inv hc ha
      · exact inode_allocate_indirect_inv (inode_allocate_direct_inv hc ha) hb
    · rw [if_neg h2] at h
      by_cases h3 : bytes_to_sectors length < 12 + 128 + 128 * 128
      · rw [if_pos h3] at h
        have hab : ∀ r', and_then (inode_allocate_direct st d 12) (fun st1 d1 =>
            inode_allocate_indirect st1 d1 (12 + 128 - 12)) = Except.ok r' →
            cache_inv r'.1.cache := by
          intro r' h'
          rcases and_then_ok h' with ⟨ha, _⟩ | ⟨r1, ha, _, hb⟩
          · exact inode_allocate_direct_inv hc ha
          · exact inode_allocate_indirect_inv (inode_allocate_direct_inv hc ha) hb
        rcases and_then_ok h with ⟨ha, _⟩ | ⟨r1, ha, _, hb⟩
        · exact hab _ ha
        · exact inode_allocate_indirect_double_inv (hab _ ha) hb
      · rw [if_neg h3] at h
        cases h
        exact hc

/-! ### What a successful allocation says about the length -/

theorem blocks_get_bounds {iid : Sector} {i : Int} {x : Nat}
    (h : blocks_get iid i = Except.ok x) : 0 ≤ i ∧ i < 128 := by
  unfold blocks_get at h
  by_cases hb : 0 ≤ i ∧ i < 128
  · exact hb
  · rw [dif_neg hb] at h; cases h

theorem ensure_sub_bounds {st : fs_state} {diid : Sector} {index : Int} {r : fs_state × Sector}
    (h : ensure_sub st diid index = Except.ok r) : 0 ≤ index ∧ index < 128 := by
  unfold ensure_sub at h
  obtain ⟨x, hx, _⟩ := (except_bind_ok _ _ _).mp h
  exact blocks_get_bounds hx

/-- When the `while` loop of `inode_allocate_indirect_double` runs to its end, the sectors it
was asked for fit below entry 128 of the double-indirect block. -/
theorem allocate_double_loop_bound : ∀ (fuel : Nat) (sectors index : Int) (st : fs_state)
    (diid : Sector) (r : fs_state × Sector × Bool),
    allocate_double_loop fuel sectors index st diid = Except.ok r → r.2.2 = true →
    sectors ≤ 0 ∨ sectors ≤ 128 * (128 - index) := by
  intro fuel
  induction fuel with
  | zero =>
    intro sectors index st diid r h _
    unfold allocate_double_loop at h
    by_cases hs : sectors > 0
    · rw [if_pos hs] at h; cases h
    · exact Or.inl (by omega)
  | succ fuel ih =>
    intro sectors index st diid r h hb
    unfold allocate_double_loop at h
    by_cases hs : sectors > 0
    · rw [if_pos hs] at h
      obtain ⟨r1, h1, h⟩ := (except_bind_ok _ _ _).mp h
      obtain ⟨sub, _, h⟩ := (except_bind_ok _ _ _).mp h
      obtain ⟨r2, _, h⟩ := (except_bind_ok _ _ _).mp h
      obtain ⟨r3, _, h⟩ := (except_bind_ok _ _ _).mp h
      have hidx := ensure_sub_bounds h1
      by_cases hb3 : r3.2.2 = false
      · rw [if_pos hb3] at h
        cases h
        cases hb
      · rw [if_neg hb3] at h
        obtain ⟨c4, _, h⟩ := (except_bind_ok _ _ _).mp h
        have := ih _ _ _ _ _ h hb
        right
        by_cases h128 : sectors > 128
        · rw [if_pos h128] at this; omega
        · rw [if_neg h128] at this; omega
    · exact Or.inl (by omega)

/-- `inode_allocate` returns true for at most 16268 sectors. -/
theorem inode_allocate_true_bound {st : fs_state} {d : inode_disk} {length : Int}
    {r : fs_state × inode_disk × Bool} (h : inode_allocate st d length = Except.ok r)
    (hb : r.2.2 = true) : bytes_to_sectors length ≤ 16268 := by
  unfold inode_allocate at h
  by_cases h1 : bytes_to_sectors length < 12
  · omega
  · rw [if_neg h1] at h
    by_cases h2 : bytes_to_sectors length < 12 + 128
    · omega
    · rw [if_neg h2] at h
      by_cases h3 : bytes_to_sectors length < 12 + 128 + 128 * 128
      · rw [if_pos h3] at h
        rcases and_then_ok h with ⟨_, hf⟩ | ⟨r1, _, _, hd⟩
        · rw [hf] at hb; cases hb
        · unfold inode_allocate_indirect_double at hd
          obtain ⟨r0, _, hd⟩ := (except_bind_ok _ _ _).mp hd
          obtain ⟨r1', _, hd⟩ := (except_bind_ok _ _ _).mp hd
          obtain ⟨r2, h2', hd⟩ := (except_bind_ok _ _ _).mp hd
          by_cases hb2 : r2.2.2 = false
          · rw [if_pos hb2] at hd
            cases hd
            cases hb
          · rw [if_neg hb2] at hd
            have := allocate_double_loop_bound _ _ _ _ _ _ h2' (by simpa using hb2)
            omega
      · rw [if_neg h3] at h
        cases h
        cases hb

theorem bytes_to_sectors_eq (n : Int) (h0 : 0 ≤ n) (h1 : n < 2147483648) :
    (bytes_to_sectors n : Int) = (n + 511) / 512 := by
  unfold bytes_to_sectors
  have e : n + 512 - 1 = n + 511 := by ring
  rw [e, Int.tdiv_eq_ediv (by omega) (by norm_num)]
  have h2 : (n + 511) / 512 % 4294967296 = (n + 511) / 512 :=
    Int.emod_eq_of_lt (by omega) (by omega)
  rw [h2]
  omega

/-! ### The growth block of `inode_write_at` -/

/-- What the growth block leaves behind when it returns. -/
theorem write_grow_ok {st st1 : fs_state} {ino ino1 : inode} {size offset : Int}
    (hc : cache_inv st.cache) (h : write_grow st ino size offset = Except.ok (st1, ino1)) :
    cache_inv st1.cache ∧ ino1.sector = ino.sector ∧ ino1.deny_write_cnt = ino.deny_write_cnt ∧
      ((∃ c r, byte_to_sector st.cache ino (size + offset) = Except.ok (c, r) ∧
          r ≠ SECTOR_NONE ∧ ino1 = ino ∧ st1 = { cache := c, fmap := st.fmap }) ∨
       (∃ c, byte_to_sector st.cache ino (size + offset) = Except.ok (c, SECTOR_NONE) ∧
          ino1.data.length = size + offset ∧ bytes_to_sectors (size + offset) ≤ 16268)) := by
  unfold write_grow at h
  obtain ⟨r, hr, h⟩ := (except_bind_ok _ _ _).mp h
  obtain ⟨hc0, _⟩ := byte_to_sector_keeps hc ino _ r.2 hr
  by_cases hn : r.2 = SECTOR_NONE
  · rw [if_pos hn] at h
    obtain ⟨c1, hw1, h⟩ := (except_bind_ok _ _ _).mp h
    obtain ⟨r2, ha, h⟩ := (except_bind_ok _ _ _).mp h
    have hc1 := (cache_write_ok hc0 hw1).1
    have hc2 : cache_inv r2.1.cache :=
      @inode_allocate_inv { cache := c1, fmap := st.fmap } _ _ _ hc1 ha
    by_cases hb : r2.2.2 = false
    · rw [if_pos hb] at h; cases h
    · rw [if_neg hb] at h
      obtain ⟨c3, hw3, h⟩ := (except_bind_ok _ _ _).mp h
      cases h
      refine ⟨(cache_write_ok hc2 hw3).1, rfl, rfl, Or.inr ⟨r.1, ?_, rfl, ?_⟩⟩
      · rw [hr, ← hn]
      · exact inode_allocate_true_bound ha (by simpa using hb)
  · rw [if_neg hn] at h
    cases h
    exact ⟨hc0, rfl, rfl, Or.inl ⟨r.1, r.2, hr, hn, rfl, rfl⟩⟩

/-! ### The copy loop of `inode_write_at` -/

theorem chunk_size_eq (ino : inode) (size offset : Int) (ho : 0 ≤ offset) :
    chunk_size ino size offset =
      min size (min (inode_length ino - offset) (512 - offset % 512)) := by
  unfold chunk_size
  rw [Int.tmod_eq_emod ho (by norm_num)]
  by_cases h1 : inode_length ino - offset < 512 - offset % 512
  · rw [if_pos h1]
    by_cases h2 : size < inode_length ino - offset
    · rw [if_pos h2]; omega
    · rw [if_neg h2]; omega
  · rw [if_neg h1]
    by_cases h2 : size < 512 - offset % 512
    · rw [if_pos h2]; omega
    · rw [if_neg h2]; omega

theorem copy_in_ok (dst : Sector) (start : Int) (src : Buffer) (pos n : Int)
    (h1 : 0 ≤ start) (h2 : start + n ≤ 512) (h3 : 0 ≤ pos) :
    ∃ s, copy_in dst start src pos n = Except.ok s := by
  unfold copy_in
  rw [if_pos ⟨h1, h2, h3⟩]
  exact ⟨_, rfl⟩

theorem write_chunk_ok {c : cache_state} (hc : cache_inv c) (sector_idx : Nat) (buffer : Buffer)
    (sector_ofs chunk bytes_written : Int) (h1 : 0 ≤ sector_ofs)
    (h2 : sector_ofs + chunk ≤ 512) (h3 : 0 ≤ bytes_written) :
    ∃ r, write_chunk c sector_idx buffer sector_ofs chunk bytes_written = Except.ok r ∧
      cache_inv r.1 ∧ ∀ t, cache_view r.1 t = cache_view c t := by
  unfold write_chunk
  by_cases hf : sector_ofs = 0 ∧ chunk = 512
  · rw [if_pos hf]
    exact ⟨_, rfl, hc, fun _ => rfl⟩
  · rw [if_neg hf]
    by_cases hp : sector_ofs > 0 ∨ chunk < 512 - sector_ofs
    · rw [if_pos hp]
      obtain ⟨c1, hr, hc1, hv1⟩ := buffer_cache_read_spec hc sector_idx
      obtain ⟨s, hs⟩ := copy_in_ok (cache_view c sector_idx) sector_ofs buffer bytes_written
        chunk h1 h2 h3
      rw [hr, bind_ok, hs, bind_ok]
      exact ⟨_, rfl, hc1, hv1⟩
    · rw [if_neg hp]
      obtain ⟨s, hs⟩ := copy_in_ok zeros sector_ofs buffer bytes_written chunk h1 h2 h3
      rw [bind_ok, hs, bind_ok]
      exact ⟨_, rfl, hc, fun _ => rfl⟩

/-- Inside the file and below sector index 16268 the copy loop writes all `size` bytes. -/
theorem write_loop_count : ∀ (fuel : Nat) (c : cache_state) (ino : inode) (buffer : Buffer)
    (size offset bytes_written : Int), cache_inv c → 0 ≤ offset → 0 ≤ size →
    0 ≤ bytes_written → size ≤ fuel → offset + size ≤ inode_length ino →
    offset + size ≤ 16268 * 512 →
    ∃ c', write_loop fuel c ino buffer size offset bytes_written =
      Except.ok (c', bytes_written + size) ∧ cache_inv c' := by
  intro fuel
  induction fuel with
  | zero =>
    intro c ino buffer size offset bw hc _ hs _ hf _ _
    have : size = 0 := by omega
    subst this
    exact ⟨c, by simp [write_loop], hc⟩
  | succ fuel ih =>
    intro c ino buffer size offset bw hc ho hs hbw hf hl hb
    unfold write_loop
    by_cases hpos : size > 0
    · rw [if_pos hpos]
      obtain ⟨c1, h1, hc1, _⟩ := byte_to_sector_inside hc ino offset ho
        (by unfold inode_length at hl; omega) (by omega)
      have hch := chunk_size_eq ino size offset ho
      have hm := Int.emod_nonneg offset (show (512 : Int) ≠ 0 by norm_num)
      have hm2 := Int.emod_lt_of_pos offset (show (0 : Int) < 512 by norm_num)
      have hlow : 0 < chunk_size ino size offset := by rw [hch]; omega
      have hle : chunk_size ino size offset ≤ size := by rw [hch]; omega
      have hsec : Int.tmod offset 512 + chunk_size ino size offset ≤ 512 := by
        rw [hch, Int.tmod_eq_emod ho (by norm_num)]; omega
      obtain ⟨r1, h2, hc2, _⟩ := write_chunk_ok hc1
        (block_ptr (cache_view c) ino.data (offset / 512).toNat) buffer (Int.tmod offset 512)
        (chunk_size ino size offset) bw
        (by rw [Int.tmod_eq_emod ho (by norm_num)]; exact hm) hsec hbw
      obtain ⟨c3, h3, hc3, _⟩ := buffer_cache_write_spec hc2
        (block_ptr (cache_view c) ino.data (offset / 512).toNat) r1.2
      obtain ⟨c', h4, hc4⟩ := ih c3 ino buffer (size - chunk_size ino size offset)
        (offset + chunk_size ino size offset) (bw + chunk_size ino size offset) hc3
        (by omega) (by omega) (by omega) (by omega) (by omega) (by omega)
      rw [h1, bind_ok, if_neg (by omega), h2, bind_ok, h3, bind_ok, h4]
      exact ⟨c', by congr 2; ring, hc4⟩
    · have : size = 0 := by omega
      subst this
      rw [if_neg hpos]
      exact ⟨c, by simp, hc⟩

/-- C5: for every inode with `deny_write_cnt = 0`, `size >= 0` and `offset >= 0`, when the
growth block of `inode_write_at` completes (no growth was needed, or `inode_allocate` returned
true), `inode_write_at` returns `size` and afterwards `inode_length` is
`max (old length, offset + size)`. The inode is taken to honour the contract of
`byte_to_sector`: within the file the sector found is not `-1`; and `size + offset` fits in
an `off_t`. -/
theorem write_at_returns_size {st : fs_state} (hc : cache_inv st.cache) (ino : inode)
    (buffer : Buffer) (size offset : Int) (hd : ino.deny_write_cnt = 0) (hs : 0 ≤ size)
    (ho : 0 ≤ offset) (hrange : size + offset ≤ 2147483647)
    (hfound : size + offset ≤ inode_length ino →
      ∀ c r, byte_to_sector st.cache ino (size + offset) = Except.ok (c, r) → r ≠ SECTOR_NONE)
    (st1 : fs_state) (ino1 : inode)
    (hgrow : write_grow st ino size offset = Except.ok (st1, ino1)) :
    ∃ st2 ino2, inode_write_at st ino buffer size offset = Except.ok (st2, ino2, size) ∧
      inode_length ino2 = max (inode_length ino) (offset + size) := by
  obtain ⟨hc1, _, hd1, hcase⟩ := write_grow_ok hc hgrow
  have hfit : offset + size ≤ inode_length ino1 ∧ offset + size ≤ 16268 * 512 ∧
      inode_length ino1 = max (inode_length ino) (offset + size) := by
    rcases hcase with ⟨c, r, hr, hn, he, _⟩ | ⟨c, hr, hlen, hbound⟩
    · subst he
      have hin : ¬ (size + offset < 0 ∨ size + offset > ino1.data.length) := by
        intro hout
        rw [byte_to_sector_outside _ _ _ hout] at hr
        cases hr
        exact hn rfl
      have hlt : size + offset < 16268 * 512 := by
        by_contra hge
        by_cases h3 : size + offset < 16524 * 512
        · rw [byte_to_sector_oob hc ino1 _ (by omega) (by omega) h3] at hr
          cases hr
        · rw [byte_to_sector_past _ _ _ (by omega)] at hr
          cases hr
          exact hn rfl
      unfold inode_length
      refine ⟨by omega, by omega, ?_⟩
      rw [max_eq_left (by omega)]
    · have hgt : inode_length ino < size + offset := by
        by_contra hle
        exact hfound (by omega) c _ hr rfl
      have hlt : size + offset < 2147483648 := by omega
      have hb := bytes_to_sectors_eq (size + offset) (by omega) hlt
      unfold inode_length at hgt ⊢
      refine ⟨by omega, by omega, ?_⟩
      rw [hlen, max_eq_right (by omega)]
      ring
  obtain ⟨c', hloop, _⟩ := write_loop_count size.toNat st1.cache ino1 buffer size offset 0 hc1 ho
    hs (le_refl 0) (by omega) hfit.1 hfit.2.1
  refine ⟨{ cache := c', fmap := st1.fmap }, ino1, ?_, hfit.2.2⟩
  unfold inode_write_at
  rw [hgrow, bind_ok, if_neg (by simp [hd1, hd]), hloop, bind_ok]
  simp

/-! ### An empty file grows into its first sector -/

theorem demo_allocate : free_map_allocate demo_fmap =
    some (2, { size := 64, used := Function.update demo_fmap.used 2 true }) := rfl

/-- On `demo_state`, the growth block for a write of `n` bytes (`0 < n <= 512`) at offset 0 of
an empty file at sector 1 returns: it reserves sector 2 as `direct_blocks[0]`, sets the length
to `n` and writes the inode to sector 1, whatever `deny_write_cnt` is. -/
theorem demo_grow (ino : inode) (n : Int) (hsec : ino.sector = 1)
    (hdata : ino.data = fresh_inode_disk 0 0) (h0 : 0 < n) (h1 : n ≤ 512) :
    ∃ st1 ino1, write_grow demo_state ino n 0 = Except.ok (st1, ino1) ∧
      ino1.data.length = n ∧ ino1.data.direct_blocks 0 = 2 ∧ st1.fmap.used 2 = true ∧
      cache_view st1.cache 1 = ino1.data.to_sector := by
  have hc : cache_inv demo_cache := init_inv demo_device
  have hb : bytes_to_sectors (n + 0) = 1 := by
    have := bytes_to_sectors_eq (n + 0) (by omega) (by omega)
    omega
  obtain ⟨c1, hw1, hc1, _⟩ := buffer_cache_write_spec hc 1
    (set_length (fresh_inode_disk 0 0) (n + 0)).to_sector
  obtain ⟨c2, hw2, hc2, _⟩ := buffer_cache_write_spec hc1 2 zeros
  have hg : direct_get (set_length (fresh_inode_disk 0 0) (n + 0)) 0 = Except.ok 0 := rfl
  have hs : ∃ d1, direct_set (set_length (fresh_inode_disk 0 0) (n + 0)) 0 2 = Except.ok d1 ∧
      d1.direct_blocks 0 = 2 := ⟨_, rfl, rfl⟩
  obtain ⟨d1, hs, hd1⟩ := hs
  have hloop : inode_allocate { cache := c1, fmap := demo_state.fmap }
      (set_length (fresh_inode_disk 0 0) (n + 0)) (n + 0) =
      Except.ok ({ cache := c2,
                   fmap := { size := 64, used := Function.update demo_fmap.used 2 true } },
        d1, true) := by
    unfold inode_allocate
    rw [hb, if_pos (by norm_num)]
    unfold inode_allocate_direct
    have e : (((1 : Nat) : Int) % 4294967296).toNat = 1 := by decide
    rw [e]
    unfold allocate_direct_loop
    rw [hg, bind_ok, if_neg (by simp)]
    have hfm : free_map_allocate ({ cache := c1, fmap := demo_state.fmap } : fs_state).fmap =
        some (2, { size := 64, used := Function.update demo_fmap.used 2 true }) := demo_allocate
    simp only [hfm, hs, bind_ok, hw2]
    unfold allocate_direct_loop
    rfl
  obtain ⟨c3, hw3, _, hv3⟩ := buffer_cache_write_spec hc2 1 (set_length d1 (n + 0)).to_sector
  refine ⟨{ cache := c3,
            fmap := { size := 64, used := Function.update demo_fmap.used 2 true } },
          { ino with data := set_length d1 (n + 0) }, ?_, ?_, hd1, ?_, ?_⟩
  · unfold write_grow
    rw [byte_to_sector_outside _ _ _ (Or.inr (by rw [hdata]; show (0 : Int) < n + 0; omega)),
      bind_ok, if_pos rfl, hsec, hdata]
    show (buffer_cache_write demo_cache 1 _).bind _ = _
    rw [hw1, bind_ok, hloop, bind_ok, if_neg (by simp)]
    show (buffer_cache_write c2 1 _).bind _ = _
    rw [hw3, bind_ok]
  · show n + 0 = n
    omega
  · simp
  · rw [hv3 1, if_pos rfl]

theorem write_at_returns_size_witness :
    cache_inv demo_state.cache ∧ demo_inode.deny_write_cnt = 0 ∧ (0 : Int) ≤ 5 ∧ (0 : Int) ≤ 0 ∧
      ∃ st2 ino2, inode_write_at demo_state demo_inode (fun _ => 7) 5 0 =
          Except.ok (st2, ino2, 5) ∧
        inode_length ino2 = max (inode_length demo_inode) (0 + 5) := by
  obtain ⟨st1, ino1, hg, _⟩ := demo_grow demo_inode 5 rfl rfl (by decide) (by decide)
  exact ⟨init_inv demo_device, rfl, by decide, by decide,
    write_at_returns_size (init_inv demo_device) demo_inode (fun _ => 7) 5 0 rfl (by decide)
      (by decide) (by decide)
      (fun h => absurd h (by decide)) st1 ino1 hg⟩

/-- C9, on a deny-write inode: with `deny_write_cnt = 1`, writing one byte at offset 0 of an
empty file returns 0, and yet the length goes from 0 to 1, sector 2 is taken from the free map
and the inode's sector, as the cache shows it, is rewritten: the growth block runs before the
`deny_write_cnt` test. -/
theorem deny_write_grows_file (buffer : Buffer) :
    demo_denied_inode.deny_write_cnt = 1 ∧ inode_length demo_denied_inode = 0 ∧
    demo_state.fmap.used 2 = false ∧
    ∃ st1 ino1, inode_write_at demo_state demo_denied_inode buffer 1 0 =
        Except.ok (st1, ino1, 0) ∧
      inode_length ino1 = 1 ∧ st1.fmap.used 2 = true ∧
      cache_view st1.cache 1 ≠ cache_view demo_state.cache 1 := by
  obtain ⟨st1, ino1, hg, hlen, hd0, hu, hv⟩ :=
    demo_grow demo_denied_inode 1 rfl rfl (by decide) (by decide)
  obtain ⟨_, _, hdeny, _⟩ := write_grow_ok (init_inv demo_device) hg
  refine ⟨rfl, rfl, rfl, st1, ino1, ?_, hlen, hu, ?_⟩
  · unfold inode_write_at
    rw [hg, bind_ok, if_pos (by rw [hdeny]; decide)]
  · rw [hv]
    intro he
    have h0 := congrFun he 0
    have h1 : cache_view demo_state.cache 1 = zeros := init_view demo_device 1
    have h2 : ino1.data.to_sector 0 = word_byte 2 0 := by
      show word_byte (ino1.data.word ⟨0, _⟩) 0 = _
      unfold inode_disk.word
      rw [dif_pos (by norm_num)]
      exact congrArg (fun w => word_byte w 0) hd0
    rw [h1, h2] at h0
    revert h0
    decide

/-! ## Allocation and the pointer tree -/

/-! ### Words of a sector -/

theorem word_at_lt (s : Sector) (i : Nat) (h : i < 128) :
    word_at s i = sector_word s ⟨i, h⟩ := by
  unfold word_at
  rw [dif_pos h]

theorem word_at_zeros (i : Nat) : word_at zeros i = 0 := by
  unfold word_at
  by_cases h : i < 128
  · rw [dif_pos h]; rfl
  · rw [dif_neg h]

theorem word_at_ge (s : Sector) (i : Nat) (h : 128 ≤ i) : word_at s i = 0 := by
  unfold word_at
  rw [dif_neg (by omega)]

theorem word_at_bound (s : Sector) (i : Nat) : word_at s i < 4294967296 := by
  unfold word_at
  by_cases h : i < 128
  · rw [dif_pos h]
    unfold sector_word
    have h0 := (s ⟨4 * i, by omega⟩).isLt
    have h1 := (s ⟨4 * i + 1, by omega⟩).isLt
    have h2 := (s ⟨4 * i + 2, by omega⟩).isLt
    have h3 := (s ⟨4 * i + 3, by omega⟩).isLt
    simp only [Fin.val_mk] at *
    omega
  · rw [dif_neg h]; norm_num

theorem word_at_set (s : Sector) (i : Nat) (hi : i < 128) (v : Nat) (hv : v < 4294967296)
    (j : Nat) :
    word_at (set_sector_word s ⟨i, hi⟩ v) j = if j = i then v else word_at s j := by
  unfold word_at
  by_cases hj : j < 128
  · rw [dif_pos hj, dif_pos hj]
    unfold sector_word set_sector_word
    have e0 : 4 * j / 4 = j := by omega
    have e1 : (4 * j + 1) / 4 = j := by omega
    have e2 : (4 * j + 2) / 4 = j := by omega
    have e3 : (4 * j + 3) / 4 = j := by omega
    have m0 : 4 * j % 4 = 0 := by omega
    have m1 : (4 * j + 1) % 4 = 1 := by omega
    have m2 : (4 * j + 2) % 4 = 2 := by omega
    have m3 : (4 * j + 3) % 4 = 3 := by omega
    simp only [e0, e1, e2, e3, m0, m1, m2, m3]
    by_cases hji : j = i
    · simp only [hji, if_true, word_byte]
      norm_num
      omega
    · simp only [hji, if_false]
  · rw [dif_neg hj, dif_neg hj]
    rw [if_neg (by omega)]

theorem blocks_set_ok (iid : Sector) (i : Nat) (h : i < 128) (v : Nat) :
    blocks_set iid (i : Int) v = Except.ok (set_sector_word iid ⟨i, h⟩ v) := by
  unfold blocks_set
  have h1 : 0 ≤ (i : Int) ∧ (i : Int) < 128 := ⟨by omega, by omega⟩
  rw [dif_pos h1]
  simp

theorem direct_set_ok (d : inode_disk) (i : Nat) (h : i < 12) (v : Nat) :
    direct_set d (i : Int) v =
      Except.ok { d with direct_blocks := Function.update d.direct_blocks ⟨i, h⟩ v } := by
  unfold direct_set
  have h1 : 0 ≤ (i : Int) ∧ (i : Int) < 12 := ⟨by omega, by omega⟩
  rw [dif_pos h1]
  simp

theorem direct_get_at (d : inode_disk) (i : Nat) (h : i < 12) :
    direct_get d (i : Int) = Except.ok (direct_at d i) := by
  rw [direct_get_ok d i h]
  unfold direct_at
  rw [dif_pos h]

theorem direct_at_update (d : inode_disk) (i : Nat) (h : i < 12) (v : Nat) (j : Nat) :
    direct_at { d with direct_blocks := Function.update d.direct_blocks ⟨i, h⟩ v } j =
      if j = i then v else direct_at d j := by
  unfold direct_at
  by_cases hj : j < 12
  · rw [dif_pos hj, dif_pos hj]
    by_cases hji : j = i
    · subst hji; simp
    · rw [if_neg hji]
      have : (⟨j, hj⟩ : Fin 12) ≠ ⟨i, h⟩ := fun he => hji (by simpa using he)
      simp [Function.update_noteq this]
  · rw [dif_neg hj, dif_neg hj, if_neg (by omega)]

/-! ### The free map -/

theorem allocate_grows {fm : free_map} {r : Nat × free_map} (hok : fmap_ok fm)
    (h : free_map_allocate fm = some r) :
    fmap_ok r.2 ∧ fmap_grows fm r.2 ∧ fresh fm r.2 r.1 ∧ r.1 ≠ 0 ∧ r.1 < 4294967295 ∧
      ∀ x, r.2.used x = true → x = r.1 ∨ fm.used x = true := by
  obtain ⟨h1, h2, h3, h4⟩ := free_map_allocate_some h
  have hne : r.1 ≠ 0 := fun he => by rw [he, hok.zero_used] at h1; cases h1
  have hu : ∀ x, r.2.used x = true → x = r.1 ∨ fm.used x = true := by
    intro x hx
    rw [h4] at hx
    by_cases hxr : x = r.1
    · exact Or.inl hxr
    · rw [Function.update_noteq hxr] at hx
      exact Or.inr hx
  refine ⟨⟨?_, ?_, ?_⟩, ⟨h3, ?_⟩, ⟨h1, ?_⟩, hne, ?_, hu⟩
  · rw [h4, Function.update_noteq (Ne.symm hne)]
    exact hok.zero_used
  · rw [h3]; exact hok.size_le
  · intro x hx
    rw [h3]
    rcases hu x hx with hx | hx
    · rw [hx]; exact h2
    · exact hok.used_lt x hx
  · intro x hx
    rw [h4]
    by_cases hxr : x = r.1
    · rw [hxr]; simp
    · rw [Function.update_noteq hxr]; exact hx
  · rw [h4]; simp
  · have := hok.size_le
    omega

theorem fmap_grows_refl (fm : free_map) : fmap_grows fm fm := ⟨rfl, fun _ h => h⟩

theorem fmap_grows_trans {a b c : free_map} (h1 : fmap_grows a b) (h2 : fmap_grows b c) :
    fmap_grows a c :=
  ⟨h2.size_eq.trans h1.size_eq, fun x h => h2.mono x (h1.mono x h)⟩

theorem fresh_trans_left {a b c : free_map} (h2 : fmap_grows b c) {x : Nat}
    (h : fresh a b x) : fresh a c x := ⟨h.1, h2.mono x h.2⟩

theorem fresh_trans_right {a b c : free_map} (h1 : fmap_grows a b) {x : Nat}
    (h : fresh b c x) : fresh a c x := by
  refine ⟨?_, h.2⟩
  cases hx : a.used x with
  | false => rfl
  | true =>
    have := h1.mono x hx
    rw [h.1] at this
    cases this

/-! ### Allocation loops -/

theorem fresh_ne_zero {fm fm' : free_map} (hok : fmap_ok fm) {x : Nat} (h : fresh fm fm' x) :
    x ≠ 0 := fun he => by
  have := h.1
  rw [he, hok.zero_used] at this
  cases this

theorem filled_range_nil {fm : free_map} (hok : fmap_ok fm) (view : Nat → Sector)
    (e : Nat → Nat) (lo hi : Nat) (b : Bool) (hb : b = true → hi ≤ lo) :
    filled_range fm fm view view e e lo hi b := by
  have nf : ∀ t, ¬ fresh fm fm t := fun t h => by
    have := h.1
    rw [h.2] at this
    cases this
  exact ⟨fmap_grows_refl fm, hok, fun t h => absurd h (nf t), fun _ _ => rfl,
    fun _ => Or.inl rfl, fun j j' h1 _ h3 _ => absurd h1 h3,
    fun h j h1 h2 => by have := hb h; omega, fun t h => absurd h (nf t)⟩

theorem filled_range_skip {fm fm' : free_map} {view view' : Nat → Sector} {e e' : Nat → Nat}
    {i hi : Nat} {b : Bool} (hi0 : e i ≠ 0)
    (h : filled_range fm fm' view view' e e' (i + 1) hi b) :
    filled_range fm fm' view view' e e' i hi b := by
  refine ⟨h.grows, h.fm_ok, h.zeroed, h.same, ?_, h.inj, ?_, h.named⟩
  · intro j
    rcases h.step j with h1 | ⟨h1, h2, h3, h4⟩
    · exact Or.inl h1
    · exact Or.inr ⟨h1, by omega, h3, h4⟩
  · intro hb j h1 h2
    by_cases hji : j = i
    · subst hji
      rcases h.step j with h3 | ⟨h3, _⟩
      · rw [h3]; exact hi0
      · exact absurd h3 hi0
    · exact h.full hb j (by omega) h2

theorem filled_range_alloc {fm fm1 fm' : free_map} {view view1 view' : Nat → Sector}
    {e e1 e' : Nat → Nat} {i hi : Nat} {b : Bool} {f : Nat} (hok : fmap_ok fm)
    (hf : free_map_allocate fm = some (f, fm1)) (hi0 : e i = 0) (hlt : i < hi)
    (he1 : ∀ j, e1 j = if j = i then f else e j)
    (hv1 : ∀ t, view1 t = if t = f then zeros else view t)
    (h : filled_range fm1 fm' view1 view' e1 e' (i + 1) hi b) :
    filled_range fm fm' view view' e e' i hi b := by
  obtain ⟨_, hg1, hfr, hf0, _, hu⟩ := allocate_grows hok hf
  have hfr' : fresh fm fm' f := fresh_trans_left h.grows hfr
  have hnf : ¬ fresh fm1 fm' f := fun hh => by
    have := hh.1
    rw [hfr.2] at this
    cases this
  have hei : e' i = f := by
    rcases h.step i with h1 | ⟨h1, _⟩
    · rw [h1, he1 i, if_pos rfl]
    · rw [he1 i, if_pos rfl] at h1
      exact absurd h1 hf0
  have hsplit : ∀ t, fresh fm fm' t → t = f ∨ fresh fm1 fm' t := by
    intro t ht
    by_cases htf : t = f
    · exact Or.inl htf
    · right
      refine ⟨?_, ht.2⟩
      cases hx : fm1.used t with
      | false => rfl
      | true =>
        rcases hu t hx with h1 | h1
        · exact absurd h1 htf
        · rw [ht.1] at h1; cases h1
  refine ⟨fmap_grows_trans hg1 h.grows, h.fm_ok, ?_, ?_, ?_, ?_, ?_, ?_⟩
  · intro t ht
    rcases hsplit t ht with h1 | h1
    · rw [h1, h.same f hnf, hv1 f, if_pos rfl]
    · exact h.zeroed t h1
  · intro t ht
    have htf : t ≠ f := fun he => ht (he ▸ hfr')
    have : ¬ fresh fm1 fm' t := fun hh => ht (fresh_trans_right hg1 hh)
    rw [h.same t this, hv1 t, if_neg htf]
  · intro j
    by_cases hji : j = i
    · subst hji
      exact Or.inr ⟨hi0, le_refl _, hlt, hei ▸ hfr'⟩
    · rcases h.step j with h1 | ⟨h1, h2, h3, h4⟩
      · left
        rw [h1, he1 j, if_neg hji]
      · right
        rw [he1 j, if_neg hji] at h1
        exact ⟨h1, by omega, h3, fresh_trans_right hg1 h4⟩
  · intro j j' hj hj' hne heq
    have key : ∀ k, k ≠ i → e k = 0 → e' k ≠ f := by
      intro k hk hk0 hkf
      rcases h.step k with h1 | ⟨_, _, _, h4⟩
      · rw [he1 k, if_neg hk, hk0] at h1
        rw [h1] at hkf
        exact hf0 hkf.symm
      · rw [hkf] at h4
        exact hnf h4
    by_cases hji : j = i
    · by_cases hji' : j' = i
      · rw [hji, hji']
      · exfalso
        apply key j' hji' hj'
        rw [← heq, hji, hei]
    · by_cases hji' : j' = i
      · exfalso
        apply key j hji hj
        rw [heq, hji', hei]
      · apply h.inj j j' _ _ hne heq
        · rw [he1 j, if_neg hji, hj]
        · rw [he1 j', if_neg hji', hj']
  · intro hb j h1 h2
    by_cases hji : j = i
    · rw [hji, hei]; exact hf0
    · exact h.full hb j (by omega) h2
  · intro t ht
    rcases hsplit t ht with h1 | h1
    · exact ⟨i, by rw [hei, h1]⟩
    · exact h.named t h1

/-- The loop over the entries of an index block, in terms of the block's words. -/
theorem allocate_entries_spec : ∀ (n i : Nat) (st : fs_state) (iid : Sector)
    (r : fs_state × Sector × Bool), cache_inv st.cache → fmap_ok st.fmap → i + n ≤ 128 →
    allocate_entries n (i : Int) st iid = Except.ok r →
    cache_inv r.1.cache ∧
      filled_range st.fmap r.1.fmap (cache_view st.cache) (cache_view r.1.cache)
        (word_at iid) (word_at r.2.1) i (i + n) r.2.2 := by
  intro n
  induction n with
  | zero =>
    intro i st iid r hc hok _ h
    unfold allocate_entries at h
    cases h
    exact ⟨hc, filled_range_nil hok _ _ _ _ _ (fun _ => by omega)⟩
  | succ n ih =>
    intro i st iid r hc hok hin h
    have hib : i < 128 := by omega
    unfold allocate_entries at h
    rw [blocks_get_ok iid i hib, bind_ok] at h
    have hcast : ((i : Int) + 1) = ((i + 1 : Nat) : Int) := by omega
    by_cases hx : word_at iid i ≠ 0
    · rw [if_pos hx, hcast] at h
      obtain ⟨h1, h2⟩ := ih (i + 1) st iid r hc hok (by omega) h
      refine ⟨h1, filled_range_skip hx ?_⟩
      have e : i + 1 + n = i + (n + 1) := by omega
      rw [← e]
      exact h2
    · rw [if_neg hx] at h
      have hx0 : word_at iid i = 0 := by simpa using hx
      cases hf : free_map_allocate st.fmap with
      | none =>
        rw [hf] at h
        cases h
        exact ⟨hc, filled_range_nil hok _ _ _ _ _ (fun hb => by cases hb)⟩
      | some p =>
        rw [hf] at h
        obtain ⟨hok1, _, _, _, hlt, _⟩ := allocate_grows hok hf
        simp only [] at h
        rw [blocks_set_ok iid i hib, bind_ok] at h
        obtain ⟨c1, hw, h⟩ := (except_bind_ok _ _ _).mp h
        obtain ⟨hc1, hv1⟩ := cache_write_ok hc hw
        rw [hcast] at h
        obtain ⟨h1, h2⟩ := ih (i + 1) { cache := c1, fmap := p.2 } _ r hc1 hok1 (by omega) h
        refine ⟨h1, filled_range_alloc hok hf hx0 (by omega)
          (fun j => word_at_set iid i hib p.1 (by omega) j) hv1 ?_⟩
        have e : i + 1 + n = i + (n + 1) := by omega
        rw [← e]
        exact h2

/-- The loop over the direct pointers, in terms of `direct_at`; only `direct_blocks`
changes. -/
theorem allocate_direct_loop_spec : ∀ (n i : Nat) (st : fs_state) (d : inode_disk)
    (r : fs_state × inode_disk × Bool), cache_inv st.cache → fmap_ok st.fmap → i + n ≤ 12 →
    allocate_direct_loop n (i : Int) st d = Except.ok r →
    cache_inv r.1.cache ∧
      filled_range st.fmap r.1.fmap (cache_view st.cache) (cache_view r.1.cache)
        (direct_at d) (direct_at r.2.1) i (i + n) r.2.2 ∧
      r.2.1.indirect_pointer = d.indirect_pointer ∧
      r.2.1.double_indirect_pointer = d.double_indirect_pointer ∧
      r.2.1.length = d.length ∧ r.2.1.inode_type = d.inode_type ∧ r.2.1.magic = d.magic ∧
      r.2.1.indirect_layer = d.indirect_layer ∧ r.2.1.unused = d.unused := by
  intro n
  induction n with
  | zero =>
    intro i st d r hc hok _ h
    unfold allocate_direct_loop at h
    cases h
    exact ⟨hc, filled_range_nil hok _ _ _ _ _ (fun _ => by omega), rfl, rfl, rfl, rfl, rfl,
      rfl, rfl⟩
  | succ n ih =>
    intro i st d r hc hok hin h
    have hib : i < 12 := by omega
    unfold allocate_direct_loop at h
    rw [direct_get_at d i hib, bind_ok] at h
    have hcast : ((i : Int) + 1) = ((i + 1 : Nat) : Int) := by omega
    by_cases hx : direct_at d i ≠ 0
    · rw [if_pos hx, hcast] at h
      obtain ⟨h1, h2, h3⟩ := ih (i + 1) st d r hc hok (by omega) h
      refine ⟨h1, filled_range_skip hx ?_, h3⟩
      have e : i + 1 + n = i + (n + 1) := by omega
      rw [← e]
      exact h2
    · rw [if_neg hx] at h
      have hx0 : direct_at d i = 0 := by simpa using hx
      cases hf : free_map_allocate st.fmap with
      | none =>
        rw [hf] at h
        cases h
        exact ⟨hc, filled_range_nil hok _ _ _ _ _ (fun hb => by cases hb), rfl, rfl, rfl, rfl,
          rfl, rfl, rfl⟩
      | some p =>
        rw [hf] at h
        obtain ⟨hok1, _, _, _, hlt, _⟩ := allocate_grows hok hf
        simp only [] at h
        rw [direct_set_ok d i hib, bind_ok] at h
        obtain ⟨c1, hw, h⟩ := (except_bind_ok _ _ _).mp h
        obtain ⟨hc1, hv1⟩ := cache_write_ok hc hw
        rw [hcast] at h
        obtain ⟨h1, h2, h3⟩ := ih (i + 1) { cache := c1, fmap := p.2 } _ r hc1 hok1 (by omega) h
        refine ⟨h1, filled_range_alloc hok hf hx0 (by omega)
          (fun j => direct_at_update d i hib p.1 j) hv1 ?_, h3⟩
        have e : i + 1 + n = i + (n + 1) := by omega
        rw [← e]
        exact h2

/-! ### Pointer trees -/

theorem fresh_not_used {fm fm' : free_map} {x : Nat} (h : fresh fm fm' x)
    (hu : fm.used x = true) : False := by
  have := h.1
  rw [hu] at this
  cases this

theorem not_fresh_of_used {fm fm' : free_map} {x : Nat} (hu : fm.used x = true) :
    ¬ fresh fm fm' x := fun h => fresh_not_used h hu

/-- A tree that was in order is in order after it grew. -/
theorem tree_ok_grow {val val' : slot → Nat} {view view' : Nat → Sector} {fm fm' : free_map}
    {isec : Nat} (hok : tree_ok val fm isec) (hi : fm.used isec = true)
    (hg : tree_grows val val' view view' fm fm') : tree_ok val' fm' isec := by
  have old : ∀ a, val a ≠ 0 → val' a = val a ∧ fm.used (val' a) = true := fun a h =>
    ⟨hg.keep a h, by rw [hg.keep a h]; exact hok.used a h⟩
  refine ⟨?_, ?_, ?_⟩
  · intro a ha
    by_cases h0 : val a = 0
    · exact (hg.filled a h0 ha).2
    · exact hg.grows.mono _ (old a h0).2
  · intro a ha he
    by_cases h0 : val a = 0
    · exact fresh_not_used (hg.filled a h0 ha) (he ▸ hi)
    · rw [(old a h0).1] at he
      exact hok.not_inode a h0 he
  · intro a b ha he
    have hb : val' b ≠ 0 := he ▸ ha
    by_cases h0 : val a = 0
    · by_cases h1 : val b = 0
      · exact hg.inj a b h0 h1 ha he
      · exact (fresh_not_used (hg.filled a h0 ha) (he ▸ (old b h1).2)).elim
    · by_cases h1 : val b = 0
      · exact (fresh_not_used (hg.filled b h1 hb) (he ▸ (old a h0).2)).elim
      · rw [(old a h0).1, (old b h1).1] at he
        exact hok.inj a b h0 he

theorem tree_grows_refl (val : slot → Nat) (view : Nat → Sector) (fm : free_map) :
    tree_grows val val view view fm fm :=
  ⟨fmap_grows_refl fm, fun _ _ => rfl, fun _ h0 h1 => absurd h0 h1,
    fun _ _ h0 _ h1 _ => absurd h0 h1, fun _ _ _ => rfl, fun _ _ h0 h1 => absurd h0 h1⟩

theorem data_not_index {a b : slot} (ha : a.is_data) (hb : b.is_index) : a ≠ b := by
  intro he
  subst he
  cases a <;> simp [slot.is_data, slot.is_index] at ha hb

/-- Two growths in a row are a growth. -/
theorem tree_grows_trans {val val1 val2 : slot → Nat} {view view1 view2 : Nat → Sector}
    {fm fm1 fm2 : free_map} {isec : Nat} (hok1 : tree_ok val1 fm1 isec)
    (h1 : tree_grows val val1 view view1 fm fm1)
    (h2 : tree_grows val1 val2 view1 view2 fm1 fm2) :
    tree_grows val val2 view view2 fm fm2 := by
  refine ⟨fmap_grows_trans h1.grows h2.grows, ?_, ?_, ?_, ?_, ?_⟩
  · intro a ha
    have e := h1.keep a ha
    rw [h2.keep a (e ▸ ha), e]
  · intro a h0 hne
    by_cases h10 : val1 a = 0
    · exact fresh_trans_right h1.grows (h2.filled a h10 hne)
    · rw [h2.keep a h10]
      exact fresh_trans_left h2.grows (h1.filled a h0 h10)
  · intro a b ha hb hne he
    have hneb : val2 b ≠ 0 := he ▸ hne
    by_cases h1a : val1 a = 0
    · by_cases h1b : val1 b = 0
      · exact h2.inj a b h1a h1b hne he
      · have hf := h2.filled a h1a hne
        rw [he, h2.keep b h1b] at hf
        exact (fresh_not_used hf (h1.filled b hb h1b).2).elim
    · by_cases h1b : val1 b = 0
      · have hf := h2.filled b h1b hneb
        rw [← he, h2.keep a h1a] at hf
        exact (fresh_not_used hf (h1.filled a ha h1a).2).elim
      · rw [h2.keep a h1a, h2.keep b h1b] at he
        exact h1.inj a b ha hb h1a he
  · intro t hu hidx
    rw [h2.frame t (h1.grows.mono t hu) ?_, h1.frame t hu hidx]
    intro a ha
    by_cases h0 : val a = 0
    · by_cases h10 : val1 a = 0
      · rw [h10]
        have := hidx a ha
        rw [h0] at this
        exact this
      · intro he
        exact fresh_not_used (h1.filled a h0 h10) (he ▸ hu)
    · rw [h1.keep a h0]
      exact hidx a ha
  · intro a hd h0 hne
    by_cases h10 : val1 a = 0
    · exact h2.zero a hd h10 hne
    · rw [h2.keep a h10, h2.frame _ (hok1.used a h10) ?_, h1.zero a hd h0 h10]
      intro b hb he
      exact data_not_index hd hb (hok1.inj a b h10 he.symm)

theorem slot_value_direct (d : inode_disk) (view : Nat → Sector) (db : Sector) (i : Nat) :
    slot_value d view db (slot.direct i) = direct_at d i := rfl

theorem slot_value_ind (d : inode_disk) (view : Nat → Sector) (db : Sector) :
    slot_value d view db slot.ind = d.indirect_pointer := rfl

theorem slot_value_ind_entry (d : inode_disk) (view : Nat → Sector) (db : Sector) (j : Nat) :
    slot_value d view db (slot.ind_entry j) =
      if d.indirect_pointer = 0 then 0 else word_at (view d.indirect_pointer) j := rfl

theorem slot_value_dbl (d : inode_disk) (view : Nat → Sector) (db : Sector) :
    slot_value d view db slot.dbl = d.double_indirect_pointer := rfl

theorem slot_value_sub (d : inode_disk) (view : Nat → Sector) (db : Sector) (k : Nat) :
    slot_value d view db (slot.sub k) =
      if d.double_indirect_pointer = 0 then 0 else word_at db k := rfl

theorem slot_value_sub_entry (d : inode_disk) (view : Nat → Sector) (db : Sector) (k j : Nat) :
    slot_value d view db (slot.sub_entry k j) =
      if d.double_indirect_pointer = 0 then 0
      else if word_at db k = 0 then 0
      else word_at (view (word_at db k)) j := rfl

/-- The value of every slot but the direct ones depends on the two index pointers, on the
double-indirect block and on the contents of the index blocks only. -/
theorem slot_value_congr {d d' : inode_disk} {view view' : Nat → Sector} {db db' : Sector}
    (hi : d'.indirect_pointer = d.indirect_pointer)
    (hd : d'.double_indirect_pointer = d.double_indirect_pointer)
    (hvi : d.indirect_pointer ≠ 0 → view' d.indirect_pointer = view d.indirect_pointer)
    (hdb : d.double_indirect_pointer ≠ 0 → ∀ k, word_at db' k = word_at db k)
    (hvs : d.double_indirect_pointer ≠ 0 → ∀ k, word_at db k ≠ 0 →
      view' (word_at db k) = view (word_at db k)) :
    ∀ a, (∀ i, a ≠ slot.direct i) → slot_value d' view' db' a = slot_value d view db a := by
  intro a ha
  cases a with
  | direct i => exact absurd rfl (ha i)
  | ind => exact hi
  | ind_entry j =>
    rw [slot_value_ind_entry, slot_value_ind_entry, hi]
    by_cases h0 : d.indirect_pointer = 0
    · rw [if_pos h0, if_pos h0]
    · rw [if_neg h0, if_neg h0, hvi h0]
  | dbl => exact hd
  | sub k =>
    rw [slot_value_sub, slot_value_sub, hd]
    by_cases h0 : d.double_indirect_pointer = 0
    · rw [if_pos h0, if_pos h0]
    · rw [if_neg h0, if_neg h0, hdb h0]
  | sub_entry k j =>
    rw [slot_value_sub_entry, slot_value_sub_entry, hd]
    by_cases h0 : d.double_indirect_pointer = 0
    · rw [if_pos h0, if_pos h0]
    · rw [if_neg h0, if_neg h0, hdb h0 k]
      by_cases h1 : word_at db k = 0
      · rw [if_pos h1, if_pos h1]
      · rw [if_neg h1, if_neg h1, hvs h0 k h1]

/-- In a tree in order the index blocks are taken in the free map. -/
theorem index_used {d : inode_disk} {view : Nat → Sector} {db : Sector} {fm : free_map}
    {isec : Nat} (hok : tree_ok (slot_value d view db) fm isec) :
    (d.indirect_pointer ≠ 0 → fm.used d.indirect_pointer = true) ∧
    (d.double_indirect_pointer ≠ 0 → fm.used d.double_indirect_pointer = true) ∧
    (d.double_indirect_pointer ≠ 0 → ∀ k, word_at db k ≠ 0 → fm.used (word_at db k) = true) := by
  refine ⟨fun h => hok.used slot.ind h, fun h => hok.used slot.dbl h, fun h k hk => ?_⟩
  have := hok.used (slot.sub k)
  rw [slot_value_sub, if_neg h] at this
  exact this hk

/-- When the sectors that were taken keep their contents and the index pointers stay, every
slot but the direct ones keeps its value. -/
theorem slot_value_same {d d' : inode_disk} {view view' : Nat → Sector} {db : Sector}
    {fm : free_map} {isec : Nat} (hok : tree_ok (slot_value d view db) fm isec)
    (hi : d'.indirect_pointer = d.indirect_pointer)
    (hd : d'.double_indirect_pointer = d.double_indirect_pointer)
    (hv : ∀ t, fm.used t = true → view' t = view t) :
    ∀ a, (∀ i, a ≠ slot.direct i) → slot_value d' view' db a = slot_value d view db a := by
  obtain ⟨h1, _, h3⟩ := index_used hok
  exact slot_value_congr hi hd (fun h => hv _ (h1 h)) (fun _ _ => rfl)
    (fun h k hk => hv _ (h3 h k hk))

theorem tree_value_same {d d' : inode_disk} {view view' : Nat → Sector}
    {fm : free_map} {isec : Nat} (hok : tree_ok (tree_value d view) fm isec)
    (hi : d'.indirect_pointer = d.indirect_pointer)
    (hd : d'.double_indirect_pointer = d.double_indirect_pointer)
    (hv : ∀ t, fm.used t = true → view' t = view t) :
    ∀ a, (∀ i, a ≠ slot.direct i) → tree_value d' view' a = tree_value d view a := by
  obtain ⟨h1, h2, h3⟩ := index_used hok
  unfold tree_value
  rw [hd]
  exact slot_value_congr hi hd (fun h => hv _ (h1 h))
    (fun h k => by rw [hv _ (h2 h)])
    (fun h k hk => hv _ (h3 h k hk))

/-- One index slot `a0` that was 0 now names a sector just taken from the free map and zeroed,
and no other slot changes: the tree grows. -/
theorem single_fill_grows {val val' : slot → Nat} {view view1 : Nat → Sector}
    {fm fm1 : free_map} {f : Nat} (hfok : fmap_ok fm)
    (hf : free_map_allocate fm = some (f, fm1))
    (hv1 : ∀ t, view1 t = if t = f then zeros else view t)
    (a0 : slot) (hidx : a0.is_index) (h0 : val a0 = 0) (h1 : val' a0 = f)
    (hother : ∀ a, a ≠ a0 → val' a = val a) :
    tree_grows val val' view view1 fm fm1 := by
  obtain ⟨_, hg, hfr, _, _, _⟩ := allocate_grows hfok hf
  have only : ∀ a, val a = 0 → val' a ≠ 0 → a = a0 := by
    intro a ha hne
    by_contra hn
    rw [hother a hn] at hne
    exact hne ha
  refine ⟨hg, ?_, ?_, ?_, ?_, ?_⟩
  · intro a ha
    exact hother a (fun (he : a = a0) => ha (by rw [he]; exact h0))
  · intro a ha hne
    rw [only a ha hne, h1]
    exact hfr
  · intro a b ha hb hne he
    rw [only a ha hne, only b hb (he ▸ hne)]
  · intro t hu _
    rw [hv1 t, if_neg (fun (he : t = f) => fresh_not_used hfr (by rw [← he]; exact hu))]
  · intro a hd ha hne
    exact absurd (only a ha hne) (data_not_index hd hidx)

/-- A family of data slots `sl j` whose values are the entries `e j` of one array is filled by
an allocation loop, and afterwards at most index blocks of the old tree are rewritten: the
tree grows. -/
theorem family_fill_grows {val val' : slot → Nat} {view view2 view3 : Nat → Sector}
    {fm fm' : free_map} {e e' : Nat → Nat} {lo hi : Nat} {b : Bool}
    (sl : Nat → slot)
    (hfr : filled_range fm fm' view view2 e e' lo hi b)
    (hv3 : ∀ t, view3 t = view2 t ∨ (fm.used t = true ∧ ∃ a, a.is_index ∧ val a = t))
    (hval : ∀ j, val (sl j) = e j) (hval' : ∀ j, val' (sl j) = e' j)
    (hother : ∀ a, (∀ j, a ≠ sl j) → val' a = val a) :
    tree_grows val val' view view3 fm fm' := by
  have only : ∀ a, val a = 0 → val' a ≠ 0 → ∃ j, a = sl j ∧ e j = 0 ∧ fresh fm fm' (e' j) := by
    intro a ha hne
    by_cases hfam : ∃ j, a = sl j
    · obtain ⟨j, hj⟩ := hfam
      subst hj
      rw [hval j] at ha
      rw [hval' j] at hne
      rcases hfr.step j with h1 | ⟨_, _, _, h4⟩
      · rw [h1] at hne
        exact absurd ha hne
      · exact ⟨j, rfl, ha, h4⟩
    · rw [hother a (fun j hj => hfam ⟨j, hj⟩)] at hne
      exact absurd ha hne
  refine ⟨hfr.grows, ?_, ?_, ?_, ?_, ?_⟩
  · intro a ha
    by_cases hfam : ∃ j, a = sl j
    · obtain ⟨j, hj⟩ := hfam
      subst hj
      rw [hval j] at ha
      rw [hval j, hval' j]
      rcases hfr.step j with h1 | ⟨h1, _⟩
      · exact h1
      · exact absurd h1 ha
    · exact hother a (fun j hj => hfam ⟨j, hj⟩)
  · intro a ha hne
    obtain ⟨j, hj, _, h3⟩ := only a ha hne
    rw [hj, hval' j]
    exact h3
  · intro a a' ha ha' hne he
    obtain ⟨j, hj, hj0, _⟩ := only a ha hne
    obtain ⟨j', hj', hj0', _⟩ := only a' ha' (he ▸ hne)
    rw [hj, hj', hval' j, hval' j'] at he
    rw [hj, hval' j] at hne
    rw [hj, hj', hfr.inj j j' hj0 hj0' hne he]
  · intro t hu hidx
    rcases hv3 t with h | ⟨_, a, ha, hat⟩
    · rw [h, hfr.same t (not_fresh_of_used hu)]
    · exact absurd hat (hidx a ha)
  · intro a _ ha hne
    obtain ⟨j, hj, _, h3⟩ := only a ha hne
    rw [hj, hval' j]
    rcases hv3 (e' j) with h | ⟨hu, _⟩
    · rw [h, hfr.zeroed _ h3]
    · exact (fresh_not_used h3 hu).elim

/-- The sector of the device in which a slot's value is stored; 0 for a slot kept in the
in-memory inode or in the double-indirect block. -/
theorem slot_value_view (d : inode_disk) (view view' : Nat → Sector) (db : Sector) (a : slot)
    (hi : ∀ j, a = slot.ind_entry j → d.indirect_pointer ≠ 0 →
      view' d.indirect_pointer = view d.indirect_pointer)
    (hs : ∀ k j, a = slot.sub_entry k j → d.double_indirect_pointer ≠ 0 → word_at db k ≠ 0 →
      view' (word_at db k) = view (word_at db k)) :
    slot_value d view' db a = slot_value d view db a := by
  cases a with
  | direct i => rfl
  | ind => rfl
  | ind_entry j =>
    rw [slot_value_ind_entry, slot_value_ind_entry]
    by_cases h0 : d.indirect_pointer = 0
    · rw [if_pos h0, if_pos h0]
    · rw [if_neg h0, if_neg h0, hi j rfl h0]
  | dbl => rfl
  | sub k => rfl
  | sub_entry k j =>
    rw [slot_value_sub_entry, slot_value_sub_entry]
    by_cases h0 : d.double_indirect_pointer = 0
    · rw [if_pos h0, if_pos h0]
    · rw [if_neg h0, if_neg h0]
      by_cases h1 : word_at db k = 0
      · rw [if_pos h1, if_pos h1]
      · rw [if_neg h1, if_neg h1, hs k j rfl h0 h1]

/-- When every sector taken in the free map keeps its contents, a tree in order keeps the
values that are stored on the device. -/
theorem slot_value_used {d : inode_disk} {view view' : Nat → Sector} {db : Sector}
    {fm : free_map} {isec : Nat} (hok : tree_ok (slot_value d view db) fm isec)
    (hv : ∀ t, fm.used t = true → view' t = view t) (a : slot) :
    slot_value d view' db a = slot_value d view db a := by
  obtain ⟨h1, _, h3⟩ := index_used hok
  exact slot_value_view d view view' db a (fun _ _ h => hv _ (h1 h))
    (fun k _ _ h hk => hv _ (h3 h k hk))

/-! ### The tiers of `inode_allocate` -/

theorem tree_value_direct (d : inode_disk) (view : Nat → Sector) (i : Nat) :
    tree_value d view (slot.direct i) = direct_at d i := rfl

theorem tree_value_ind (d : inode_disk) (view : Nat → Sector) :
    tree_value d view slot.ind = d.indirect_pointer := rfl

theorem tree_value_dbl (d : inode_disk) (view : Nat → Sector) :
    tree_value d view slot.dbl = d.double_indirect_pointer := rfl

/-- A change of the view that spares the taken sectors other than `X` keeps the value of
every slot that is not stored in sector `X`. -/
theorem slot_value_frame {d : inode_disk} {view view' : Nat → Sector} {db : Sector}
    {fm : free_map} {isec : Nat} (hok : tree_ok (slot_value d view db) fm isec) (X : Nat)
    (hv : ∀ t, fm.used t = true → t ≠ X → view' t = view t) (a : slot)
    (hi : ∀ j, a = slot.ind_entry j → d.indirect_pointer ≠ X)
    (hs : ∀ k j, a = slot.sub_entry k j → slot_value d view db (slot.sub k) ≠ X) :
    slot_value d view' db a = slot_value d view db a := by
  obtain ⟨h1, _, h3⟩ := index_used hok
  refine slot_value_view d view view' db a (fun j hj h => hv _ (h1 h) (hi j hj))
    (fun k j hj h hk => hv _ (h3 h k hk) ?_)
  have := hs k j hj
  rw [slot_value_sub, if_neg h] at this
  exact this

theorem alloc_pre_grow {st st' : fs_state} {d d' : inode_disk} {isec : Nat}
    (hp : alloc_pre st d isec) (hc : cache_inv st'.cache) (hf : fmap_ok st'.fmap)
    (hg : tree_grows (tree_value d (cache_view st.cache)) (tree_value d' (cache_view st'.cache))
      (cache_view st.cache) (cache_view st'.cache) st.fmap st'.fmap) :
    alloc_pre st' d' isec :=
  ⟨hc, hf, hg.grows.mono _ hp.inode_used, tree_ok_grow hp.tree hp.inode_used hg⟩

theorem same_meta_refl (d : inode_disk) : same_meta d d := ⟨rfl, rfl, rfl, rfl, rfl⟩

theorem same_meta_trans {a b c : inode_disk} (h1 : same_meta a b) (h2 : same_meta b c) :
    same_meta a c :=
  ⟨h2.1.trans h1.1, h2.2.1.trans h1.2.1, h2.2.2.1.trans h1.2.2.1,
    h2.2.2.2.1.trans h1.2.2.2.1, h2.2.2.2.2.trans h1.2.2.2.2⟩

theorem toNat_small (n : Nat) (h : n < 4294967296) : ((n : Int) % 4294967296).toNat = n := by
  omega

/-- The direct tier: when `inode_allocate_direct` returns true for `n <= 12` sectors, the tree
grows and the first `n` direct pointers are allocated. -/
theorem direct_tier {st : fs_state} {d : inode_disk} {isec : Nat} {n : Nat}
    {r : fs_state × inode_disk × Bool} (hp : alloc_pre st d isec) (hn : n ≤ 12)
    (h : inode_allocate_direct st d (n : Int) = Except.ok r) (hb : r.2.2 = true) :
    alloc_pre r.1 r.2.1 isec ∧
      tree_grows (tree_value d (cache_view st.cache)) (tree_value r.2.1 (cache_view r.1.cache))
        (cache_view st.cache) (cache_view r.1.cache) st.fmap r.1.fmap ∧
      same_meta d r.2.1 ∧ ∀ i, i < n → tree_value r.2.1 (cache_view r.1.cache) (slot.direct i) ≠ 0 := by
  unfold inode_allocate_direct at h
  rw [toNat_small n (by omega)] at h
  have h' : allocate_direct_loop n ((0 : Nat) : Int) st d = Except.ok r := h
  obtain ⟨hc, hfr, hi, hd, hm⟩ := allocate_direct_loop_spec n 0 st d r hp.cache hp.fm_ok
    (by omega) h'
  have hv : ∀ t, st.fmap.used t = true → cache_view r.1.cache t = cache_view st.cache t :=
    fun t hu => hfr.same t (not_fresh_of_used hu)
  have hg : tree_grows (tree_value d (cache_view st.cache))
      (tree_value r.2.1 (cache_view r.1.cache)) (cache_view st.cache) (cache_view r.1.cache)
      st.fmap r.1.fmap := by
    refine family_fill_grows slot.direct hfr (fun _ => Or.inl rfl) (fun _ => rfl) (fun _ => rfl) ?_
    intro a ha
    exact tree_value_same hp.tree hi hd hv a ha
  refine ⟨alloc_pre_grow hp hc hfr.fm_ok hg, hg, ⟨hm.1, hm.2.1, hm.2.2.1, hm.2.2.2.1, hm.2.2.2.2⟩, ?_⟩
  intro i hi'
  rw [tree_value_direct]
  exact hfr.full hb i (by omega) (by omega)

theorem tree_value_ind_entry (d : inode_disk) (view : Nat → Sector) (j : Nat) :
    tree_value d view (slot.ind_entry j) =
      if d.indirect_pointer = 0 then 0 else word_at (view d.indirect_pointer) j := rfl

theorem tree_value_sub (d : inode_disk) (view : Nat → Sector) (k : Nat) :
    tree_value d view (slot.sub k) =
      if d.double_indirect_pointer = 0 then 0
      else word_at (view d.double_indirect_pointer) k := rfl

theorem tree_value_sub_entry (d : inode_disk) (view : Nat → Sector) (k j : Nat) :
    tree_value d view (slot.sub_entry k j) =
      if d.double_indirect_pointer = 0 then 0
      else if word_at (view d.double_indirect_pointer) k = 0 then 0
      else word_at (view (word_at (view d.double_indirect_pointer) k)) j := rfl

/-- Zeroing a sector that was free keeps the values of a tree in order. -/
theorem tree_value_zeroed {d : inode_disk} {view view1 : Nat → Sector} {fm : free_map}
    {isec f : Nat} (hok : tree_ok (tree_value d view) fm isec) (hf : fm.used f = false)
    (hv1 : ∀ t, view1 t = if t = f then zeros else view t) (a : slot) :
    tree_value d view1 a = tree_value d view a := by
  have hv : ∀ t, fm.used t = true → view1 t = view t := by
    intro t hu
    rw [hv1 t, if_neg (fun (he : t = f) => by rw [he, hf] at hu; cases hu)]
  by_cases ha : ∃ i, a = slot.direct i
  · obtain ⟨i, rfl⟩ := ha
    rfl
  · exact tree_value_same hok rfl rfl hv a (fun i hi => ha ⟨i, hi⟩)

/-- The values on the double-indirect side of a tree in order depend on the double-indirect
pointer and on the taken sectors only. -/
theorem tree_value_double_side {d d' : inode_disk} {view view' : Nat → Sector}
    {fm : free_map} {isec : Nat} (hok : tree_ok (tree_value d view) fm isec)
    (hd : d'.double_indirect_pointer = d.double_indirect_pointer)
    (hv : ∀ t, fm.used t = true → view' t = view t) (a : slot)
    (ha : a = slot.dbl ∨ (∃ k, a = slot.sub k) ∨ ∃ k j, a = slot.sub_entry k j) :
    tree_value d' view' a = tree_value d view a := by
  obtain ⟨_, h2, h3⟩ := index_used hok
  rcases ha with rfl | ⟨k, rfl⟩ | ⟨k, j, rfl⟩
  · exact hd
  · rw [tree_value_sub, tree_value_sub, hd]
    by_cases h0 : d.double_indirect_pointer = 0
    · rw [if_pos h0, if_pos h0]
    · rw [if_neg h0, if_neg h0, hv _ (h2 h0)]
  · rw [tree_value_sub_entry, tree_value_sub_entry, hd]
    by_cases h0 : d.double_indirect_pointer = 0
    · rw [if_pos h0, if_pos h0]
    · rw [if_neg h0, if_neg h0, hv _ (h2 h0)]
      by_cases h1 : word_at (view d.double_indirect_pointer) k = 0
      · rw [if_pos h1, if_pos h1]
      · rw [if_neg h1, if_neg h1, hv _ (h3 h0 k h1)]

/-- The values on the indirect side of a tree in order depend on the indirect pointer and on
the taken sectors only. -/
theorem tree_value_single_side {d d' : inode_disk} {view view' : Nat → Sector}
    {fm : free_map} {isec : Nat} (hok : tree_ok (tree_value d view) fm isec)
    (hi : d'.indirect_pointer = d.indirect_pointer)
    (hv : ∀ t, fm.used t = true → view' t = view t) (a : slot)
    (ha : a = slot.ind ∨ ∃ j, a = slot.ind_entry j) :
    tree_value d' view' a = tree_value d view a := by
  obtain ⟨h1, _, _⟩ := index_used hok
  rcases ha with rfl | ⟨j, rfl⟩
  · exact hi
  · rw [tree_value_ind_entry, tree_value_ind_entry, hi]
    by_cases h0 : d.indirect_pointer = 0
    · rw [if_pos h0, if_pos h0]
    · rw [if_neg h0, if_neg h0, hv _ (h1 h0)]

theorem used_same_of_zeroed {view view1 : Nat → Sector} {fm fm1 : free_map} {f : Nat}
    (hfr : fresh fm fm1 f) (hv1 : ∀ t, view1 t = if t = f then zeros else view t) :
    ∀ t, fm.used t = true → view1 t = view t := by
  intro t hu
  rw [hv1 t, if_neg (fun (he : t = f) => fresh_not_used hfr (by rw [← he]; exact hu))]

/-- `ensure_indirect`: afterwards the indirect block exists and the tree has grown. -/
theorem ensure_indirect_grows {st : fs_state} {d : inode_disk} {isec : Nat}
    {r : fs_state × inode_disk} (hp : alloc_pre st d isec)
    (h : ensure_indirect st d = Except.ok r) :
    alloc_pre r.1 r.2 isec ∧
      tree_grows (tree_value d (cache_view st.cache)) (tree_value r.2 (cache_view r.1.cache))
        (cache_view st.cache) (cache_view r.1.cache) st.fmap r.1.fmap ∧
      same_meta d r.2 ∧ r.2.indirect_pointer ≠ 0 := by
  unfold ensure_indirect at h
  by_cases h0 : d.indirect_pointer = 0
  · rw [if_pos h0] at h
    cases hf : free_map_allocate st.fmap with
    | none => rw [hf] at h; cases h
    | some p =>
      rw [hf] at h
      obtain ⟨c1, hw, h⟩ := (except_bind_ok _ _ _).mp h
      cases h
      obtain ⟨hc1, hv1⟩ := cache_write_ok hp.cache hw
      obtain ⟨hok1, _, hfr, hne, _, _⟩ := allocate_grows hp.fm_ok hf
      have hv := used_same_of_zeroed hfr hv1
      have hg : tree_grows (tree_value d (cache_view st.cache))
          (tree_value { d with indirect_pointer := p.1 } (cache_view c1))
          (cache_view st.cache) (cache_view c1) st.fmap p.2 := by
        refine single_fill_grows hp.fm_ok hf hv1 slot.ind trivial h0 rfl ?_
        intro a ha
        cases a with
        | ind => exact absurd rfl ha
        | direct i => rfl
        | ind_entry j =>
          rw [tree_value_ind_entry, tree_value_ind_entry, if_pos h0, if_neg hne, hv1 p.1,
            if_pos rfl, word_at_zeros]
        | dbl => rfl
        | sub k => exact tree_value_double_side hp.tree rfl hv _ (Or.inr (Or.inl ⟨k, rfl⟩))
        | sub_entry k j =>
          exact tree_value_double_side hp.tree rfl hv _ (Or.inr (Or.inr ⟨k, j, rfl⟩))
      exact ⟨alloc_pre_grow hp hc1 hok1 hg, hg, same_meta_refl d, hne⟩
  · rw [if_neg h0] at h
    cases h
    exact ⟨hp, tree_grows_refl _ _ _, same_meta_refl d, h0⟩

/-- `ensure_double`: afterwards the double-indirect block exists and the tree has grown. -/
theorem ensure_double_grows {st : fs_state} {d : inode_disk} {isec : Nat}
    {r : fs_state × inode_disk} (hp : alloc_pre st d isec)
    (h : ensure_double st d = Except.ok r) :
    alloc_pre r.1 r.2 isec ∧
      tree_grows (tree_value d (cache_view st.cache)) (tree_value r.2 (cache_view r.1.cache))
        (cache_view st.cache) (cache_view r.1.cache) st.fmap r.1.fmap ∧
      same_meta d r.2 ∧ r.2.double_indirect_pointer ≠ 0 := by
  unfold ensure_double at h
  by_cases h0 : d.double_indirect_pointer = 0
  · rw [if_pos h0] at h
    cases hf : free_map_allocate st.fmap with
    | none => rw [hf] at h; cases h
    | some p =>
      rw [hf] at h
      obtain ⟨c1, hw, h⟩ := (except_bind_ok _ _ _).mp h
      cases h
      obtain ⟨hc1, hv1⟩ := cache_write_ok hp.cache hw
      obtain ⟨hok1, _, hfr, hne, _, _⟩ := allocate_grows hp.fm_ok hf
      have hv := used_same_of_zeroed hfr hv1
      have hg : tree_grows (tree_value d (cache_view st.cache))
          (tree_value { d with double_indirect_pointer := p.1 } (cache_view c1))
          (cache_view st.cache) (cache_view c1) st.fmap p.2 := by
        refine single_fill_grows hp.fm_ok hf hv1 slot.dbl trivial h0 rfl ?_
        intro a ha
        cases a with
        | dbl => exact absurd rfl ha
        | direct i => rfl
        | ind => rfl
        | ind_entry j => exact tree_value_single_side hp.tree rfl hv _ (Or.inr ⟨j, rfl⟩)
        | sub k =>
          rw [tree_value_sub, tree_value_sub, if_pos h0, if_neg hne, hv1 p.1, if_pos rfl,
            word_at_zeros]
        | sub_entry k j =>
          rw [tree_value_sub_entry, tree_value_sub_entry, if_pos h0, if_neg hne, hv1 p.1,
            if_pos rfl, word_at_zeros, if_pos rfl]
      exact ⟨alloc_pre_grow hp hc1 hok1 hg, hg, same_meta_refl d, hne⟩
  · rw [if_neg h0] at h
    cases h
    exact ⟨hp, tree_grows_refl _ _ _, same_meta_refl d, h0⟩

theorem slot_value_db (d : inode_disk) (view : Nat → Sector) (db db' : Sector)
    (h : d.double_indirect_pointer ≠ 0 → db' = db) (a : slot) :
    slot_value d view db' a = slot_value d view db a := by
  by_cases h0 : d.double_indirect_pointer = 0
  · cases a with
    | sub k => rw [slot_value_sub, slot_value_sub, if_pos h0, if_pos h0]
    | sub_entry k j => rw [slot_value_sub_entry, slot_value_sub_entry, if_pos h0, if_pos h0]
    | _ => rfl
  · rw [h h0]

/-- A change of the view that spares the taken sectors other than `X` keeps the value of
every slot of a tree in order that is not stored in sector `X`. -/
theorem tree_value_frame {d : inode_disk} {view view' : Nat → Sector}
    {fm : free_map} {isec : Nat} (hok : tree_ok (tree_value d view) fm isec) (X : Nat)
    (hv : ∀ t, fm.used t = true → t ≠ X → view' t = view t)
    (hX : d.double_indirect_pointer ≠ 0 → d.double_indirect_pointer ≠ X) (a : slot)
    (hi : ∀ j, a = slot.ind_entry j → d.indirect_pointer ≠ X)
    (hs : ∀ k j, a = slot.sub_entry k j → tree_value d view (slot.sub k) ≠ X) :
    tree_value d view' a = tree_value d view a := by
  obtain ⟨_, h2, _⟩ := index_used hok
  unfold tree_value
  rw [slot_value_db d view' (view d.double_indirect_pointer) (view' d.double_indirect_pointer)
    (fun h => hv _ (h2 h) (hX h)) a]
  exact slot_value_frame hok X hv a hi hs

theorem view_eq_of_read {c : cache_state} {r : cache_state × Sector} {s : Nat}
    (hc : cache_inv c) (h : buffer_cache_read c s = Except.ok r) :
    cache_view r.1 = cache_view c := funext (cache_read_ok hc h).2.2

/-- The indirect tier: when `inode_allocate_indirect` returns true for `n <= 128` entries, the
tree grows and the first `n` entries of the indirect block are allocated. -/
theorem indirect_tier {st : fs_state} {d : inode_disk} {isec : Nat} {n : Nat}
    {r : fs_state × inode_disk × Bool} (hp : alloc_pre st d isec) (hn : n ≤ 128)
    (h : inode_allocate_indirect st d (n : Int) = Except.ok r) (hb : r.2.2 = true) :
    alloc_pre r.1 r.2.1 isec ∧
      tree_grows (tree_value d (cache_view st.cache)) (tree_value r.2.1 (cache_view r.1.cache))
        (cache_view st.cache) (cache_view r.1.cache) st.fmap r.1.fmap ∧
      same_meta d r.2.1 ∧
      ∀ j, j < n → tree_value r.2.1 (cache_view r.1.cache) (slot.ind_entry j) ≠ 0 := by
  unfold inode_allocate_indirect at h
  obtain ⟨r0, h0, h⟩ := (except_bind_ok _ _ _).mp h
  obtain ⟨r1, h1, h⟩ := (except_bind_ok _ _ _).mp h
  obtain ⟨r2, h2, h⟩ := (except_bind_ok _ _ _).mp h
  obtain ⟨hp1, hg1, hm1, hI⟩ := ensure_indirect_grows hp h0
  obtain ⟨hc1, hiid, _⟩ := cache_read_ok hp1.cache h1
  have hveq := view_eq_of_read hp1.cache h1
  rw [Int.toNat_ofNat] at h2
  have h2' : allocate_entries n ((0 : Nat) : Int) { cache := r1.1, fmap := r0.1.fmap } r1.2 =
      Except.ok r2 := h2
  obtain ⟨hc2, hfr⟩ := allocate_entries_spec n 0 { cache := r1.1, fmap := r0.1.fmap } r1.2 r2
    hc1 hp1.fm_ok (by omega) h2'
  by_cases hb2 : r2.2.2 = false
  · rw [if_pos hb2] at h
    cases h
    cases hb
  · rw [if_neg hb2] at h
    have hb2' : r2.2.2 = true := by simpa using hb2
    obtain ⟨c3, hw, h⟩ := (except_bind_ok _ _ _).mp h
    cases h
    obtain ⟨hc3, hv3⟩ := cache_write_ok hc2 hw
    have hfr' : filled_range r0.1.fmap r2.1.fmap (cache_view r0.1.cache) (cache_view r2.1.cache)
        (word_at (cache_view r0.1.cache r0.2.indirect_pointer)) (word_at r2.2.1) 0 (0 + n)
        r2.2.2 := by
      have := hfr
      simp only [hveq, hiid] at this
      exact this
    have hIu : r0.1.fmap.used r0.2.indirect_pointer = true := hp1.tree.used slot.ind hI
    have hne : ∀ a, a ≠ slot.ind → tree_value r0.2 (cache_view r0.1.cache) a ≠ 0 →
        tree_value r0.2 (cache_view r0.1.cache) a ≠ r0.2.indirect_pointer := by
      intro a ha h0' he
      exact ha (hp1.tree.inj a slot.ind h0' he)
    have hg2 : tree_grows (tree_value r0.2 (cache_view r0.1.cache))
        (tree_value r0.2 (cache_view c3)) (cache_view r0.1.cache) (cache_view c3)
        r0.1.fmap r2.1.fmap := by
      refine family_fill_grows slot.ind_entry hfr' ?_ ?_ ?_ ?_
      · intro t
        rw [hv3 t]
        by_cases ht : t = r0.2.indirect_pointer
        · exact Or.inr ⟨ht ▸ hIu, slot.ind, trivial, ht.symm⟩
        · rw [if_neg ht]
          exact Or.inl rfl
      · intro j
        rw [tree_value_ind_entry, if_neg hI]
      · intro j
        rw [tree_value_ind_entry, if_neg hI, hv3, if_pos rfl]
      · intro a ha
        refine tree_value_frame hp1.tree r0.2.indirect_pointer ?_ ?_ a ?_ ?_
        · intro t hu ht
          rw [hv3 t, if_neg ht]
          exact hfr'.same t (not_fresh_of_used hu)
        · intro hd
          exact hne slot.dbl (by simp) hd
        · intro j hj
          exact absurd hj (ha j)
        · intro k j _ he
          exact hne (slot.sub k) (by simp) (he ▸ hI) he
    have hg := tree_grows_trans hp1.tree hg1 hg2
    refine ⟨alloc_pre_grow hp hc3 hfr.fm_ok hg, hg, hm1, ?_⟩
    intro j hj
    show tree_value r0.2 (cache_view c3) (slot.ind_entry j) ≠ 0
    rw [tree_value_ind_entry, if_neg hI, hv3, if_pos rfl]
    exact hfr.full hb2' j (by omega) (by omega)

/-! ### The double-indirect tier -/

theorem dbl_pre_grow {st st' : fs_state} {d : inode_disk} {db db' : Sector} {isec : Nat}
    (hp : dbl_pre st d db isec) (hc : cache_inv st'.cache) (hf : fmap_ok st'.fmap)
    (hg : tree_grows (slot_value d (cache_view st.cache) db)
      (slot_value d (cache_view st'.cache) db') (cache_view st.cache) (cache_view st'.cache)
      st.fmap st'.fmap) :
    dbl_pre st' d db' isec :=
  ⟨hc, hf, hg.grows.mono _ hp.inode_used, tree_ok_grow hp.tree hp.inode_used hg, hp.exists_dbl⟩

/-- `ensure_sub`: afterwards sub-indirect block `k` exists and the tree has grown. -/
theorem ensure_sub_grows {st : fs_state} {d : inode_disk} {db : Sector} {isec : Nat} {k : Nat}
    {r : fs_state × Sector} (hp : dbl_pre st d db isec) (hk : k < 128)
    (h : ensure_sub st db (k : Int) = Except.ok r) :
    dbl_pre r.1 d r.2 isec ∧
      tree_grows (slot_value d (cache_view st.cache) db) (slot_value d (cache_view r.1.cache) r.2)
        (cache_view st.cache) (cache_view r.1.cache) st.fmap r.1.fmap ∧
      word_at r.2 k ≠ 0 := by
  unfold ensure_sub at h
  rw [blocks_get_ok db k hk, bind_ok] at h
  by_cases h0 : word_at db k = 0
  · rw [if_pos h0] at h
    cases hf : free_map_allocate st.fmap with
    | none => rw [hf] at h; cases h
    | some p =>
      rw [hf] at h
      simp only [] at h
      rw [blocks_set_ok db k hk, bind_ok] at h
      obtain ⟨c1, hw, h⟩ := (except_bind_ok _ _ _).mp h
      cases h
      obtain ⟨hc1, hv1⟩ := cache_write_ok hp.cache hw
      obtain ⟨hok1, _, hfr, hne, hlt, _⟩ := allocate_grows hp.fm_ok hf
      have hv := used_same_of_zeroed hfr hv1
      have hset := word_at_set db k hk p.1 (by omega)
      have hD := hp.exists_dbl
      have hg : tree_grows (slot_value d (cache_view st.cache) db)
          (slot_value d (cache_view c1) (set_sector_word db ⟨k, hk⟩ p.1))
          (cache_view st.cache) (cache_view c1) st.fmap p.2 := by
        refine single_fill_grows hp.fm_ok hf hv1 (slot.sub k) trivial ?_ ?_ ?_
        · rw [slot_value_sub, if_neg hD, h0]
        · rw [slot_value_sub, if_neg hD, hset, if_pos rfl]
        · intro a ha
          obtain ⟨h1, _, h3⟩ := index_used hp.tree
          cases a with
          | direct i => rfl
          | ind => rfl
          | ind_entry j =>
            rw [slot_value_ind_entry, slot_value_ind_entry]
            by_cases hi0 : d.indirect_pointer = 0
            · rw [if_pos hi0, if_pos hi0]
            · rw [if_neg hi0, if_neg hi0, hv _ (h1 hi0)]
          | dbl => rfl
          | sub k' =>
            have hkk : k' ≠ k := fun he => ha (by rw [he])
            rw [slot_value_sub, slot_value_sub, if_neg hD, if_neg hD, hset, if_neg hkk]
          | sub_entry k' j =>
            rw [slot_value_sub_entry, slot_value_sub_entry, if_neg hD, if_neg hD, hset]
            by_cases hkk : k' = k
            · rw [if_pos hkk, if_neg hne, hkk, h0, if_pos rfl, hv1 p.1, if_pos rfl,
                word_at_zeros]
            · rw [if_neg hkk]
              by_cases hs0 : word_at db k' = 0
              · rw [if_pos hs0, if_pos hs0]
              · rw [if_neg hs0, if_neg hs0, hv _ (h3 hD k' hs0)]
      refine ⟨dbl_pre_grow hp hc1 hok1 hg, hg, ?_⟩
      show word_at (set_sector_word db ⟨k, hk⟩ p.1) k ≠ 0
      rw [hset, if_pos rfl]
      exact hne
  · rw [if_neg h0] at h
    cases h
    exact ⟨hp, tree_grows_refl _ _ _, h0⟩

/-- The rest of one turn of the `while` loop: the entries `0 .. n - 1` of sub-indirect block
`k` are filled and the block is written back. -/
theorem sub_fill_grows {st : fs_state} {d : inode_disk} {db : Sector} {isec : Nat} {k n : Nat}
    {r1 : cache_state × Sector} {r2 : fs_state × Sector × Bool} {c3 : cache_state}
    (hp : dbl_pre st d db isec) (hn : n ≤ 128) (hS : word_at db k ≠ 0)
    (h1 : buffer_cache_read st.cache (word_at db k) = Except.ok r1)
    (h2 : allocate_entries n ((0 : Nat) : Int) { cache := r1.1, fmap := st.fmap } r1.2 =
      Except.ok r2)
    (hb : r2.2.2 = true)
    (hw : buffer_cache_write r2.1.cache (word_at db k) r2.2.1 = Except.ok c3) :
    dbl_pre { cache := c3, fmap := r2.1.fmap } d db isec ∧
      tree_grows (slot_value d (cache_view st.cache) db) (slot_value d (cache_view c3) db)
        (cache_view st.cache) (cache_view c3) st.fmap r2.1.fmap ∧
      ∀ j, j < n → slot_value d (cache_view c3) db (slot.sub_entry k j) ≠ 0 := by
  have hD := hp.exists_dbl
  obtain ⟨hc1, hiid, _⟩ := cache_read_ok hp.cache h1
  have hveq := view_eq_of_read hp.cache h1
  obtain ⟨hc2, hfr⟩ := allocate_entries_spec n 0 { cache := r1.1, fmap := st.fmap } r1.2 r2
    hc1 hp.fm_ok (by omega) h2
  obtain ⟨hc3, hv3⟩ := cache_write_ok hc2 hw
  have hfr' : filled_range st.fmap r2.1.fmap (cache_view st.cache) (cache_view r2.1.cache)
      (word_at (cache_view st.cache (word_at db k))) (word_at r2.2.1) 0 (0 + n) r2.2.2 := by
    have := hfr
    simp only [hveq, hiid] at this
    exact this
  have hSv : slot_value d (cache_view st.cache) db (slot.sub k) = word_at db k := by
    rw [slot_value_sub, if_neg hD]
  have hSu : st.fmap.used (word_at db k) = true := by
    have := hp.tree.used (slot.sub k)
    rw [hSv] at this
    exact this hS
  have hne : ∀ a, a ≠ slot.sub k → slot_value d (cache_view st.cache) db a ≠ 0 →
      slot_value d (cache_view st.cache) db a ≠ word_at db k := by
    intro a ha h0' he
    exact ha (hp.tree.inj a (slot.sub k) h0' (he.trans hSv.symm))
  have hg : tree_grows (slot_value d (cache_view st.cache) db)
      (slot_value d (cache_view c3) db) (cache_view st.cache) (cache_view c3)
      st.fmap r2.1.fmap := by
    refine family_fill_grows (slot.sub_entry k) hfr' ?_ ?_ ?_ ?_
    · intro t
      rw [hv3 t]
      by_cases ht : t = word_at db k
      · exact Or.inr ⟨ht ▸ hSu, slot.sub k, trivial, hSv.trans ht.symm⟩
      · rw [if_neg ht]
        exact Or.inl rfl
    · intro j
      rw [slot_value_sub_entry, if_neg hD, if_neg hS]
    · intro j
      rw [slot_value_sub_entry, if_neg hD, if_neg hS, hv3, if_pos rfl]
    · intro a ha
      refine slot_value_frame hp.tree (word_at db k) ?_ a ?_ ?_
      · intro t hu ht
        rw [hv3 t, if_neg ht]
        exact hfr'.same t (not_fresh_of_used hu)
      · intro j _ he
        have hI : d.indirect_pointer ≠ 0 := he ▸ hS
        exact hne slot.ind (by simp) hI he
      · intro k' j hj he
        have hkk : k' ≠ k := fun hk' => ha j (by rw [hj, hk'])
        exact hne (slot.sub k') (by simpa using hkk) (he ▸ hS) he
  refine ⟨dbl_pre_grow hp hc3 hfr.fm_ok hg, hg, ?_⟩
  intro j hj
  rw [slot_value_sub_entry, if_neg hD, if_neg hS, hv3, if_pos rfl]
  exact hfr.full hb j (by omega) (by omega)

/-- The `while` loop of `inode_allocate_indirect_double`: when it runs to its end from entry
`k` for `s` sectors that fit below entry 128, the tree grows and the `s` entries that follow
entry 0 of sub-indirect block `k` are allocated. -/
theorem allocate_double_loop_grows {d : inode_disk} {isec : Nat} : ∀ (fuel s k : Nat)
    (st : fs_state) (db : Sector) (r : fs_state × Sector × Bool), dbl_pre st d db isec →
    128 * k + s ≤ 128 * 128 →
    allocate_double_loop fuel (s : Int) (k : Int) st db = Except.ok r → r.2.2 = true →
    dbl_pre r.1 d r.2.1 isec ∧
      tree_grows (slot_value d (cache_view st.cache) db)
        (slot_value d (cache_view r.1.cache) r.2.1)
        (cache_view st.cache) (cache_view r.1.cache) st.fmap r.1.fmap ∧
      ∀ q, 128 * k ≤ q → q < 128 * k + s →
        slot_value d (cache_view r.1.cache) r.2.1 (slot.sub_entry (q / 128) (q % 128)) ≠ 0 := by
  intro fuel
  induction fuel with
  | zero =>
    intro s k st db r hp _ h _
    unfold allocate_double_loop at h
    by_cases hs : (s : Int) > 0
    · rw [if_pos hs] at h; cases h
    · rw [if_neg hs] at h
      cases h
      exact ⟨hp, tree_grows_refl _ _ _, fun q h1 h2 => by omega⟩
  | succ fuel ih =>
    intro s k st db r hp hfit h hb
    unfold allocate_double_loop at h
    by_cases hs : (s : Int) > 0
    · rw [if_pos hs] at h
      have hk : k < 128 := by omega
      obtain ⟨r1, h1, h⟩ := (except_bind_ok _ _ _).mp h
      obtain ⟨hp1, hg1, hS⟩ := ensure_sub_grows hp hk h1
      rw [blocks_get_ok r1.2 k hk, bind_ok] at h
      obtain ⟨r2, h2, h⟩ := (except_bind_ok _ _ _).mp h
      obtain ⟨r3, h3, h⟩ := (except_bind_ok _ _ _).mp h
      have ha : (if (s : Int) > 128 then (128 : Int) else (s : Int)) = ((min s 128 : Nat) : Int) := by
        by_cases h128 : (s : Int) > 128
        · rw [if_pos h128]; omega
        · rw [if_neg h128]; omega
      rw [ha, Int.toNat_ofNat] at h3
      rw [ha] at h
      by_cases hb3 : r3.2.2 = false
      · rw [if_pos hb3] at h
        cases h
        cases hb
      · rw [if_neg hb3] at h
        obtain ⟨c4, hw, h⟩ := (except_bind_ok _ _ _).mp h
        have hst : ({ cache := r2.1, fmap := r1.1.fmap } : fs_state) =
            { cache := r2.1, fmap := r1.1.fmap } := rfl
        obtain ⟨hp4, hg4, hfull⟩ := sub_fill_grows hp1 (Nat.min_le_right s 128) hS h2 h3
          (by simpa using hb3) hw
        have e1 : ((s : Int) - ((min s 128 : Nat) : Int)) = ((s - min s 128 : Nat) : Int) := by
          omega
        have e2 : ((k : Int) + 1) = ((k + 1 : Nat) : Int) := by omega
        rw [e1, e2] at h
        obtain ⟨hp5, hg5, hpre⟩ := ih (s - min s 128) (k + 1) _ _ r hp4 (by omega) h hb
        refine ⟨hp5, tree_grows_trans hp4.tree (tree_grows_trans hp1.tree hg1 hg4) hg5, ?_⟩
        intro q hq1 hq2
        by_cases hq : q < 128 * k + min s 128
        · have hqk : q / 128 = k := by omega
          have hqj : q % 128 < min s 128 := by omega
          have := hfull (q % 128) hqj
          rw [hqk]
          rw [hg5.keep _ this]
          exact this
        · exact hpre q (by omega) (by omega)
    · rw [if_neg hs] at h
      cases h
      exact ⟨hp, tree_grows_refl _ _ _, fun q h1 h2 => by omega⟩

/-- A change of the view at index blocks of the tree alone, with every slot keeping its value,
is a growth. -/
theorem view_change_grows {val val' : slot → Nat} {view view' : Nat → Sector} {fm : free_map}
    (hval : ∀ a, val' a = val a)
    (hv : ∀ t, view' t = view t ∨ (fm.used t = true ∧ ∃ a, a.is_index ∧ val a = t)) :
    tree_grows val val' view view' fm fm := by
  refine ⟨fmap_grows_refl fm, fun a _ => hval a, ?_, ?_, ?_, ?_⟩
  · intro a h0 hne
    rw [hval a] at hne
    exact absurd h0 hne
  · intro a b h0 _ hne
    rw [hval a] at hne
    exact absurd h0 hne
  · intro t _ hidx
    rcases hv t with h | ⟨_, a, ha, hat⟩
    · exact h
    · exact absurd hat (hidx a ha)
  · intro a _ h0 hne
    rw [hval a] at hne
    exact absurd h0 hne

/-- The double-indirect tier: when `inode_allocate_indirect_double` returns true for
`n <= 128 * 128` entries, the tree grows and the first `n` entries of the sub-indirect blocks
are allocated. -/
theorem double_tier {st : fs_state} {d : inode_disk} {isec : Nat} {n : Nat}
    {r : fs_state × inode_disk × Bool} (hp : alloc_pre st d isec) (hn : n ≤ 128 * 128)
    (h : inode_allocate_indirect_double st d (n : Int) = Except.ok r) (hb : r.2.2 = true) :
    alloc_pre r.1 r.2.1 isec ∧
      tree_grows (tree_value d (cache_view st.cache)) (tree_value r.2.1 (cache_view r.1.cache))
        (cache_view st.cache) (cache_view r.1.cache) st.fmap r.1.fmap ∧
      same_meta d r.2.1 ∧
      ∀ q, q < n →
        tree_value r.2.1 (cache_view r.1.cache) (slot.sub_entry (q / 128) (q % 128)) ≠ 0 := by
  unfold inode_allocate_indirect_double at h
  obtain ⟨r0, h0, h⟩ := (except_bind_ok _ _ _).mp h
  obtain ⟨r1, h1, h⟩ := (except_bind_ok _ _ _).mp h
  obtain ⟨r2, h2, h⟩ := (except_bind_ok _ _ _).mp h
  obtain ⟨hp1, hg1, hm1, hD⟩ := ensure_double_grows hp h0
  obtain ⟨hc1, hdb, _⟩ := cache_read_ok hp1.cache h1
  have hveq := view_eq_of_read hp1.cache h1
  rw [Int.toNat_ofNat] at h2
  have h2' : allocate_double_loop n (n : Int) ((0 : Nat) : Int)
      { cache := r1.1, fmap := r0.1.fmap } r1.2 = Except.ok r2 := h2
  by_cases hb2 : r2.2.2 = false
  · rw [if_pos hb2] at h
    cases h
    cases hb
  · rw [if_neg hb2] at h
    obtain ⟨c3, hw, h⟩ := (except_bind_ok _ _ _).mp h
    cases h
    have hpd : dbl_pre { cache := r1.1, fmap := r0.1.fmap } r0.2 r1.2 isec := by
      refine ⟨hc1, hp1.fm_ok, hp1.inode_used, ?_, hD⟩
      show tree_ok (slot_value r0.2 (cache_view r1.1) r1.2) r0.1.fmap isec
      rw [hveq, hdb]
      exact hp1.tree
    obtain ⟨hp2, hg2, hpre⟩ := allocate_double_loop_grows n n 0 _ _ r2 hpd (by omega) h2'
      (by simpa using hb2)
    obtain ⟨hc3, hv3⟩ := cache_write_ok hp2.cache hw
    have hg2' : tree_grows (tree_value r0.2 (cache_view r0.1.cache))
        (slot_value r0.2 (cache_view r2.1.cache) r2.2.1)
        (cache_view r0.1.cache) (cache_view r2.1.cache) r0.1.fmap r2.1.fmap := by
      have := hg2
      simp only [hveq, hdb] at this
      exact this
    have hDu : r2.1.fmap.used r0.2.double_indirect_pointer = true := hp2.tree.used slot.dbl hD
    have hne : ∀ a, a ≠ slot.dbl → slot_value r0.2 (cache_view r2.1.cache) r2.2.1 a ≠ 0 →
        slot_value r0.2 (cache_view r2.1.cache) r2.2.1 a ≠ r0.2.double_indirect_pointer := by
      intro a ha h0' he
      exact ha (hp2.tree.inj a slot.dbl h0' he)
    have hval : ∀ a, tree_value r0.2 (cache_view c3) a =
        slot_value r0.2 (cache_view r2.1.cache) r2.2.1 a := by
      intro a
      unfold tree_value
      rw [hv3 r0.2.double_indirect_pointer, if_pos rfl]
      refine slot_value_frame hp2.tree r0.2.double_indirect_pointer ?_ a ?_ ?_
      · intro t _ ht
        rw [hv3 t, if_neg ht]
      · intro j _ he
        have hI : r0.2.indirect_pointer ≠ 0 := he ▸ hD
        exact hne slot.ind (by simp) hI he
      · intro k j _ he
        exact hne (slot.sub k) (by simp) (he ▸ hD) he
    have hg3 : tree_grows (slot_value r0.2 (cache_view r2.1.cache) r2.2.1)
        (tree_value r0.2 (cache_view c3)) (cache_view r2.1.cache) (cache_view c3)
        r2.1.fmap r2.1.fmap := by
      refine view_change_grows hval ?_
      intro t
      rw [hv3 t]
      by_cases ht : t = r0.2.double_indirect_pointer
      · exact Or.inr ⟨ht ▸ hDu, slot.dbl, trivial, ht.symm⟩
      · rw [if_neg ht]
        exact Or.inl rfl
    have hg := tree_grows_trans hp1.tree hg1 (tree_grows_trans hp2.tree hg2' hg3)
    refine ⟨alloc_pre_grow hp hc3 hp2.fm_ok hg, hg, hm1, ?_⟩
    intro q hq
    show tree_value r0.2 (cache_view c3) _ ≠ 0
    rw [hval]
    exact hpre q (by omega) (by omega)

theorem data_slot_direct {i : Nat} (h : i < 12) : data_slot i = slot.direct i := by
  unfold data_slot
  rw [if_pos h]

theorem data_slot_ind {i : Nat} (h1 : 12 ≤ i) (h2 : i < 140) :
    data_slot i = slot.ind_entry (i - 12) := by
  unfold data_slot
  rw [if_neg (by omega), if_pos h2]

theorem data_slot_dbl {i : Nat} (h : 140 ≤ i) :
    data_slot i = slot.sub_entry ((i + 116) / 128) ((i + 116) % 128) := by
  unfold data_slot
  rw [if_neg (by omega), if_neg (by omega)]

/-- When `inode_allocate` returns true, the tree grows and every sector index below the
sector count of `length` is mapped. -/
theorem inode_allocate_grows {st : fs_state} {d : inode_disk} {isec : Nat} {length : Int}
    {r : fs_state × inode_disk × Bool} (hp : alloc_pre st d isec)
    (h : inode_allocate st d length = Except.ok r) (hb : r.2.2 = true) :
    alloc_pre r.1 r.2.1 isec ∧
      tree_grows (tree_value d (cache_view st.cache)) (tree_value r.2.1 (cache_view r.1.cache))
        (cache_view st.cache) (cache_view r.1.cache) st.fmap r.1.fmap ∧
      same_meta d r.2.1 ∧
      ∀ i, i < bytes_to_sectors length →
        tree_value r.2.1 (cache_view r.1.cache) (data_slot i) ≠ 0 := by
  have hbound := inode_allocate_true_bound h hb
  unfold inode_allocate at h
  by_cases h1 : bytes_to_sectors length < 12
  · rw [if_pos h1] at h
    obtain ⟨hp1, hg1, hm1, hf1⟩ := direct_tier hp (by omega) h hb
    refine ⟨hp1, hg1, hm1, fun i hi => ?_⟩
    rw [data_slot_direct (by omega)]
    exact hf1 i hi
  · rw [if_neg h1] at h
    have e12 : (12 : Int) = ((12 : Nat) : Int) := rfl
    by_cases h2 : bytes_to_sectors length < 12 + 128
    · rw [if_pos h2] at h
      rcases and_then_ok h with ⟨_, hf⟩ | ⟨ra, ha, hba, hind⟩
      · rw [hf] at hb; cases hb
      · rw [e12] at ha
        obtain ⟨hp1, hg1, hm1, hf1⟩ := direct_tier hp (le_refl 12) ha hba
        have e : ((bytes_to_sectors length : Int) - 12) =
            ((bytes_to_sectors length - 12 : Nat) : Int) := by omega
        rw [e] at hind
        obtain ⟨hp2, hg2, hm2, hf2⟩ := indirect_tier hp1 (by omega) hind hb
        refine ⟨hp2, tree_grows_trans hp1.tree hg1 hg2, same_meta_trans hm1 hm2, fun i hi => ?_⟩
        by_cases hi12 : i < 12
        · rw [data_slot_direct hi12, hg2.keep _ (hf1 i hi12)]
          exact hf1 i hi12
        · rw [data_slot_ind (by omega) (by omega)]
          exact hf2 _ (by omega)
    · rw [if_neg h2] at h
      by_cases h3 : bytes_to_sectors length < 12 + 128 + 128 * 128
      · rw [if_pos h3] at h
        rcases and_then_ok h with ⟨_, hf⟩ | ⟨rb, hab, hbb, hdbl⟩
        · rw [hf] at hb; cases hb
        · rcases and_then_ok hab with ⟨_, hf⟩ | ⟨ra, ha, hba, hind⟩
          · rw [hf] at hbb; cases hbb
          · rw [e12] at ha
            obtain ⟨hp1, hg1, hm1, hf1⟩ := direct_tier hp (le_refl 12) ha hba
            have e : ((12 : Int) + 128 - 12) = ((128 : Nat) : Int) := by norm_num
            rw [e] at hind
            obtain ⟨hp2, hg2, hm2, hf2⟩ := indirect_tier hp1 (le_refl 128) hind hbb
            have e' : ((bytes_to_sectors length : Int) - 12 + 128) =
                ((bytes_to_sectors length + 116 : Nat) : Int) := by omega
            rw [e'] at hdbl
            obtain ⟨hp3, hg3, hm3, hf3⟩ := double_tier hp2 (by omega) hdbl hb
            refine ⟨hp3, tree_grows_trans hp2.tree (tree_grows_trans hp1.tree hg1 hg2) hg3,
              same_meta_trans (same_meta_trans hm1 hm2) hm3, fun i hi => ?_⟩
            by_cases hi12 : i < 12
            · have h0 := hf1 i hi12
              rw [data_slot_direct hi12, hg3.keep _ (by rw [hg2.keep _ h0]; exact h0),
                hg2.keep _ h0]
              exact h0
            · by_cases hi140 : i < 140
              · have h0 := hf2 (i - 12) (by omega)
                rw [data_slot_ind (by omega) hi140, hg3.keep _ h0]
                exact h0
              · rw [data_slot_dbl (by omega)]
                exact hf3 _ (by omega)
      · rw [if_neg h3] at h
        cases h
        cases hb


/-! ## Files in order: growth, the copy loops, creation -/

theorem tree_value_set_length (d : inode_disk) (n : Int) (view : Nat → Sector) (a : slot) :
    tree_value (set_length d n) view a = tree_value d view a := by
  cases a <;> rfl

/-- A change of sector `X`, which is no index block of the tree, keeps every slot's value. -/
theorem tree_value_write {d : inode_disk} {view view' : Nat → Sector} (X : Nat)
    (hv : ∀ t, t ≠ X → view' t = view t)
    (hX : ∀ a : slot, a.is_index → tree_value d view a ≠ 0 → tree_value d view a ≠ X)
    (a : slot) : tree_value d view' a = tree_value d view a := by
  have hind : d.indirect_pointer ≠ 0 → d.indirect_pointer ≠ X := fun h =>
    hX slot.ind trivial h
  have hdbl : d.double_indirect_pointer ≠ 0 → d.double_indirect_pointer ≠ X := fun h =>
    hX slot.dbl trivial h
  cases a with
  | direct i => rfl
  | ind => rfl
  | ind_entry j =>
    rw [tree_value_ind_entry, tree_value_ind_entry]
    by_cases h : d.indirect_pointer = 0
    · rw [if_pos h, if_pos h]
    · rw [if_neg h, if_neg h, hv _ (hind h)]
  | dbl => rfl
  | sub k =>
    rw [tree_value_sub, tree_value_sub]
    by_cases h : d.double_indirect_pointer = 0
    · rw [if_pos h, if_pos h]
    · rw [if_neg h, if_neg h, hv _ (hdbl h)]
  | sub_entry k j =>
    rw [tree_value_sub_entry, tree_value_sub_entry]
    by_cases h : d.double_indirect_pointer = 0
    · rw [if_pos h, if_pos h]
    · rw [if_neg h, if_neg h, hv _ (hdbl h)]
      by_cases h2 : word_at (view d.double_indirect_pointer) k = 0
      · rw [if_pos h2, if_pos h2]
      · have hs : word_at (view d.double_indirect_pointer) k ≠ X := by
          have := hX (slot.sub k) trivial (by rw [tree_value_sub, if_neg h]; exact h2)
          rwa [tree_value_sub, if_neg h] at this
        rw [if_neg h2, if_neg h2, hv _ hs]

theorem data_sector_not_index {val : slot → Nat} {fm : free_map} {isec : Nat}
    (hok : tree_ok val fm isec) {a : slot} (ha : a.is_data) (h0 : val a ≠ 0) :
    ∀ b : slot, b.is_index → val b ≠ val a :=
  fun b hb e => data_not_index ha hb (hok.inj a b h0 e.symm)

theorem data_slot_is_data (i : Nat) : (data_slot i).is_data := by
  unfold data_slot
  split_ifs <;> trivial

theorem data_slot_inj {i j : Nat} (h : data_slot i = data_slot j) : i = j := by
  unfold data_slot at h
  split_ifs at h <;> simp at h <;> omega

theorem block_ptr_eq {d : inode_disk} {view : Nat → Sector} {i : Nat}
    (h : tree_value d view (data_slot i) ≠ 0) :
    block_ptr view d i = tree_value d view (data_slot i) := by
  unfold block_ptr
  by_cases h1 : i < 12
  · rw [dif_pos h1, data_slot_direct h1, tree_value_direct]
    unfold direct_at
    rw [dif_pos h1]
  · rw [dif_neg h1]
    by_cases h2 : i < 140
    · rw [if_pos h2]
      rw [data_slot_ind (by omega) h2] at h ⊢
      rw [tree_value_ind_entry] at h ⊢
      by_cases h3 : d.indirect_pointer = 0
      · rw [if_pos h3] at h; exact absurd rfl h
      · rw [if_neg h3]
    · rw [if_neg h2]
      rw [data_slot_dbl (by omega)] at h ⊢
      rw [tree_value_sub_entry] at h ⊢
      by_cases h3 : d.double_indirect_pointer = 0
      · rw [if_pos h3] at h; exact absurd rfl h
      · rw [if_neg h3] at h ⊢
        by_cases h4 : word_at (view d.double_indirect_pointer) ((i + 116) / 128) = 0
        · rw [if_pos h4] at h; exact absurd rfl h
        · rw [if_neg h4]

/-- Only sector indexes below 16268 can be mapped. -/
theorem mapped_bound {d : inode_disk} {view : Nat → Sector} {i : Nat}
    (h : tree_value d view (data_slot i) ≠ 0) : i < 16268 := by
  by_contra hge
  apply h
  rw [data_slot_dbl (by omega), tree_value_sub_entry]
  have hz : word_at (view d.double_indirect_pointer) ((i + 116) / 128) = 0 :=
    word_at_ge _ _ (by omega)
  by_cases h3 : d.double_indirect_pointer = 0
  · rw [if_pos h3]
  · rw [if_neg h3, if_pos hz]

theorem file_sectors_bound {st : fs_state} {ino : inode} (hok : file_ok st ino) :
    bytes_to_sectors ino.data.length ≤ 16268 := by
  by_contra h
  have := mapped_bound (hok.mapped 16268 (by omega))
  omega

theorem file_len_bound {st : fs_state} {ino : inode} (hok : file_ok st ino) :
    ino.data.length ≤ 16268 * 512 := by
  have h1 := file_sectors_bound hok
  have h2 := bytes_to_sectors_eq ino.data.length hok.len_nonneg (by have := hok.len_fits; omega)
  omega

theorem index_below {n p : Int} (h0 : 0 ≤ p) (hp : p < n) (hn : n < 2147483648) :
    (p / 512).toNat < bytes_to_sectors n := by
  have h2 := bytes_to_sectors_eq n (by omega) hn
  omega

/-- Inside the file `byte_to_sector` returns the sector the tree maps the position to; that
sector is neither 0 nor `-1`. -/
theorem mapped_lookup {c : cache_state} {fm : free_map} {ino : inode}
    (hok : file_ok { cache := c, fmap := fm } ino) (pos : Int) (h0 : 0 ≤ pos)
    (hl : pos < ino.data.length) :
    ∃ c', byte_to_sector c ino pos =
        Except.ok (c', file_sector (cache_view c) ino.data (pos / 512).toNat) ∧
      file_sector (cache_view c) ino.data (pos / 512).toNat ≠ 0 ∧
      file_sector (cache_view c) ino.data (pos / 512).toNat ≠ SECTOR_NONE ∧
      cache_inv c' ∧ ∀ t, cache_view c' t = cache_view c t := by
  have hb := file_len_bound hok
  have hi := index_below h0 hl (by have := hok.len_fits; omega)
  have hm := hok.mapped _ hi
  obtain ⟨c', h1, h2, h3⟩ := byte_to_sector_inside hok.pre.cache ino pos h0 (by omega) (by omega)
  rw [block_ptr_eq hm] at h1
  refine ⟨c', h1, hm, ?_, h2, h3⟩
  have hu := hok.pre.fm_ok.used_lt _ (hok.pre.tree.used _ hm)
  have hs := hok.pre.fm_ok.size_le
  unfold file_sector SECTOR_NONE
  simp only at hu hs
  omega

theorem write_grow_spec {st st1 : fs_state} {ino ino1 : inode} {size offset : Int}
    (hok : file_ok st ino) (hs : 0 ≤ size) (ho : 0 ≤ offset)
    (hr : size + offset ≤ 2147483647)
    (h : write_grow st ino size offset = Except.ok (st1, ino1)) :
    grown st st1 ino ino1 ∧ size + offset ≤ ino1.data.length ∧
      (ino.data.length < size + offset → ino1.data.length = size + offset) := by
  unfold write_grow at h
  obtain ⟨r, hr0, h⟩ := (except_bind_ok _ _ _).mp h
  obtain ⟨hc0, hv0⟩ := byte_to_sector_keeps hok.pre.cache ino _ r.2 hr0
  by_cases hn : r.2 = SECTOR_NONE
  · have hlen : ino.data.length ≤ size + offset := by
      by_contra hlt
      obtain ⟨c', h1, _, h3, _⟩ := @mapped_lookup st.cache st.fmap ino hok (size + offset)
        (by omega) (by omega)
      rw [h1] at hr0
      cases hr0
      exact h3 hn
    rw [if_pos hn] at h
    obtain ⟨c1, hw1, h⟩ := (except_bind_ok _ _ _).mp h
    obtain ⟨r2, ha, h⟩ := (except_bind_ok _ _ _).mp h
    by_cases hb : r2.2.2 = false
    · rw [if_pos hb] at h; cases h
    · rw [if_neg hb] at h
      obtain ⟨c3, hw3, h⟩ := (except_bind_ok _ _ _).mp h
      have hb' : r2.2.2 = true := by simpa using hb
      obtain ⟨hc1, hv1⟩ := cache_write_ok hc0 hw1
      have ht1 : ∀ a, tree_value (set_length ino.data (size + offset)) (cache_view c1) a =
          tree_value ino.data (cache_view st.cache) a := by
        intro a
        rw [tree_value_set_length]
        exact tree_value_write ino.sector (fun t ht => by rw [hv1 t, if_neg ht, hv0 t])
          (fun a _ h0 => hok.pre.tree.not_inode a h0) a
      have hp1 : alloc_pre { cache := c1, fmap := st.fmap }
          (set_length ino.data (size + offset)) ino.sector :=
        ⟨hc1, hok.pre.fm_ok, hok.pre.inode_used, by
          show tree_ok (tree_value (set_length ino.data (size + offset)) (cache_view c1))
            st.fmap ino.sector
          rw [show tree_value (set_length ino.data (size + offset)) (cache_view c1) =
            tree_value ino.data (cache_view st.cache) from funext ht1]
          exact hok.pre.tree⟩
      obtain ⟨hp2, hg0, _, hmap⟩ := inode_allocate_grows hp1 ha hb'
      have hg : tree_grows (tree_value (set_length ino.data (size + offset)) (cache_view c1))
          (tree_value r2.2.1 (cache_view r2.1.cache)) (cache_view c1) (cache_view r2.1.cache)
          st.fmap r2.1.fmap := hg0
      obtain ⟨hc3, hv3⟩ := cache_write_ok hp2.cache hw3
      have ht3 : ∀ a, tree_value (set_length r2.2.1 (size + offset)) (cache_view c3) a =
          tree_value r2.2.1 (cache_view r2.1.cache) a := by
        intro a
        rw [tree_value_set_length]
        exact tree_value_write ino.sector (fun t ht => by rw [hv3 t, if_neg ht])
          (fun a _ h0 => hp2.tree.not_inode a h0) a
      cases h
      refine ⟨⟨⟨⟨hc3, hp2.fm_ok, hp2.inode_used, ?_⟩, ?_, hr, ?_⟩, rfl, rfl, hlen, ?_, ?_, ?_⟩,
        le_refl _, fun _ => rfl⟩
      · show tree_ok (tree_value (set_length r2.2.1 (size + offset)) (cache_view c3))
          r2.1.fmap ino.sector
        rw [show tree_value (set_length r2.2.1 (size + offset)) (cache_view c3) =
          tree_value r2.2.1 (cache_view r2.1.cache) from funext ht3]
        exact hp2.tree
      · show 0 ≤ size + offset
        omega
      · intro i hi
        show tree_value (set_length r2.2.1 (size + offset)) (cache_view c3) (data_slot i) ≠ 0
        rw [ht3]
        exact hmap i hi
      · intro a h0
        show tree_value (set_length r2.2.1 (size + offset)) (cache_view c3) a = _
        rw [ht3 a, hg.keep a (by rw [ht1 a]; exact h0), ht1 a]
      · intro a ha0 h0
        show cache_view c3 _ = _
        have hne := hok.pre.tree.not_inode a h0
        rw [hv3 _, if_neg hne, hg.frame _ (hok.pre.tree.used a h0) (fun b hb => by
          rw [ht1 b]; exact data_sector_not_index hok.pre.tree ha0 h0 b hb),
          hv1 _, if_neg hne, hv0 _]
      · intro a ha0 h0 h1
        have h1' : tree_value (set_length r2.2.1 (size + offset)) (cache_view c3) a ≠ 0 := h1
        show cache_view c3 (tree_value (set_length r2.2.1 (size + offset)) (cache_view c3) a) = _
        rw [ht3 a] at h1' ⊢
        rw [hv3 _, if_neg (hp2.tree.not_inode a h1')]
        exact hg.zero a ha0 (by rw [ht1 a]; exact h0) h1'
  · rw [if_neg hn] at h
    cases h
    have hle : size + offset ≤ ino.data.length := by
      by_contra hlt
      rw [byte_to_sector_outside st.cache ino _ (Or.inr (by omega))] at hr0
      cases hr0
      exact hn rfl
    have hveq : cache_view r.1 = cache_view st.cache := funext hv0
    refine ⟨⟨⟨⟨hc0, hok.pre.fm_ok, hok.pre.inode_used, ?_⟩, hok.len_nonneg, hok.len_fits, ?_⟩,
      rfl, rfl, le_refl _, ?_, ?_, ?_⟩, hle, fun hlt => absurd hle (by omega)⟩
    · show tree_ok (tree_value ino.data (cache_view r.1)) st.fmap ino.sector
      rw [hveq]
      exact hok.pre.tree
    · intro i hi
      show tree_value ino.data (cache_view r.1) (data_slot i) ≠ 0
      rw [hveq]
      exact hok.mapped i hi
    · intro a _
      show tree_value ino.data (cache_view r.1) a = _
      rw [hveq]
    · intro a _ _
      exact hv0 _
    · intro a _ h0 h1
      have h1' : tree_value ino.data (cache_view r.1) a ≠ 0 := h1
      rw [hveq] at h1'
      exact absurd h0 h1'

/-- The sector one turn of the copy loop hands to the cache: the old contents of the sector
with the chunk copied in. -/
theorem write_chunk_spec {c : cache_state} (hc : cache_inv c) (X : Nat) (buffer : Buffer)
    (ofs chunk bw : Int) (h1 : 0 ≤ ofs) (h2 : ofs + chunk ≤ 512) (h3 : 0 ≤ bw) :
    ∃ r, write_chunk c X buffer ofs chunk bw = Except.ok r ∧ cache_inv r.1 ∧
      (∀ t, cache_view r.1 t = cache_view c t) ∧
      ∀ k : Fin 512, r.2 k =
        if ofs ≤ (k.val : Int) ∧ (k.val : Int) < ofs + chunk
        then buffer (bw + ((k.val : Int) - ofs)).toNat else cache_view c X k := by
  unfold write_chunk
  by_cases hf : ofs = 0 ∧ chunk = 512
  · rw [if_pos hf]
    refine ⟨_, rfl, hc, fun _ => rfl, fun k => ?_⟩
    obtain ⟨e1, e2⟩ := hf
    subst e1
    have hk := k.isLt
    rw [if_pos ⟨by omega, by omega⟩]
    show buffer (bw + (k.val : Int)).toNat = _
    rw [sub_zero]
  · rw [if_neg hf]
    by_cases hp : ofs > 0 ∨ chunk < 512 - ofs
    · rw [if_pos hp]
      obtain ⟨c1, hr, hc1, hv1⟩ := buffer_cache_read_spec hc X
      rw [hr, bind_ok]
      unfold copy_in
      rw [if_pos ⟨h1, h2, h3⟩, bind_ok]
      exact ⟨_, rfl, hc1, hv1, fun k => rfl⟩
    · exfalso
      omega

/-- The copy loop of `inode_write_at` inside a file in order: it writes all `size` bytes,
keeps the file in order and the pointer tree as it was, and in every sector of the file the
bytes of the range come from the caller's buffer while all others stay. -/
theorem write_loop_spec : ∀ (fuel : Nat) (c : cache_state) (fm : free_map) (ino : inode)
    (buffer : Buffer) (size offset bw : Int),
    file_ok { cache := c, fmap := fm } ino → 0 ≤ offset → 0 ≤ size → 0 ≤ bw →
    size ≤ fuel → offset + size ≤ ino.data.length →
    ∃ c', write_loop fuel c ino buffer size offset bw = Except.ok (c', bw + size) ∧
      file_ok { cache := c', fmap := fm } ino ∧
      (∀ a, tree_value ino.data (cache_view c') a = tree_value ino.data (cache_view c) a) ∧
      ∀ (i : Nat) (k : Fin 512), file_sector (cache_view c) ino.data i ≠ 0 →
        cache_view c' (file_sector (cache_view c) ino.data i) k =
          if offset ≤ 512 * (i : Int) + (k.val : Int) ∧
              512 * (i : Int) + (k.val : Int) < offset + size
          then buffer (bw + (512 * (i : Int) + (k.val : Int) - offset)).toNat
          else cache_view c (file_sector (cache_view c) ino.data i) k := by
  intro fuel
  induction fuel with
  | zero =>
    intro c fm ino buffer size offset bw hok _ hs _ hf _
    have : size = 0 := by omega
    subst this
    refine ⟨c, by simp [write_loop], hok, fun _ => rfl, fun i k _ => ?_⟩
    rw [if_neg (by omega)]
  | succ fuel ih =>
    intro c fm ino buffer size offset bw hok ho hs hbw hf hl
    unfold write_loop
    by_cases hpos : size > 0
    · rw [if_pos hpos]
      obtain ⟨c1, h1, hX0, _, hc1, hv1⟩ := @mapped_lookup c fm ino hok offset ho (by omega)
      have hch := chunk_size_eq ino size offset ho
      have hm := Int.emod_nonneg offset (show (512 : Int) ≠ 0 by norm_num)
      have hm2 := Int.emod_lt_of_pos offset (show (0 : Int) < 512 by norm_num)
      have htm : Int.tmod offset 512 = offset % 512 := Int.tmod_eq_emod ho (by norm_num)
      have hlow : 0 < chunk_size ino size offset := by
        rw [hch]; unfold inode_length; omega
      have hle : chunk_size ino size offset ≤ size := by rw [hch]; omega
      have hsec : offset % 512 + chunk_size ino size offset ≤ 512 := by
        rw [hch]; omega
      obtain ⟨r1, h2, hc2, hv2, hby⟩ := write_chunk_spec hc1
        (file_sector (cache_view c) ino.data (offset / 512).toNat) buffer (offset % 512)
        (chunk_size ino size offset) bw hm hsec hbw
      obtain ⟨c3, h3, hc3, hv3⟩ := buffer_cache_write_spec hc2
        (file_sector (cache_view c) ino.data (offset / 512).toNat) r1.2
      have ht3 : ∀ a, tree_value ino.data (cache_view c3) a =
          tree_value ino.data (cache_view c) a := fun a =>
        tree_value_write (file_sector (cache_view c) ino.data (offset / 512).toNat)
          (fun t ht => by rw [hv3 t, if_neg ht, hv2 t, hv1 t])
          (fun b hb _ => data_sector_not_index hok.pre.tree (data_slot_is_data _) hX0 b hb) a
      have hok3 : file_ok { cache := c3, fmap := fm } ino :=
        ⟨⟨hc3, hok.pre.fm_ok, hok.pre.inode_used, by
          show tree_ok (tree_value ino.data (cache_view c3)) fm ino.sector
          rw [show tree_value ino.data (cache_view c3) = tree_value ino.data (cache_view c)
            from funext ht3]
          exact hok.pre.tree⟩, hok.len_nonneg, hok.len_fits, fun i hi => by
          show tree_value ino.data (cache_view c3) (data_slot i) ≠ 0
          rw [ht3]
          exact hok.mapped i hi⟩
      obtain ⟨c', h4, hok4, ht4, hby4⟩ := ih c3 fm ino buffer
        (size - chunk_size ino size offset) (offset + chunk_size ino size offset)
        (bw + chunk_size ino size offset) hok3 (by omega) (by omega) (by omega) (by omega)
        (by omega)
      rw [h1, bind_ok, if_neg (by omega), htm, h2, bind_ok, h3, bind_ok, h4]
      refine ⟨c', by congr 2; ring, hok4, fun a => (ht4 a).trans (ht3 a), fun i k hi => ?_⟩
      have e3 : file_sector (cache_view c3) ino.data i = file_sector (cache_view c) ino.data i :=
        ht3 _
      have hthis := hby4 i k (by rw [e3]; exact hi)
      rw [e3] at hthis
      rw [hthis]
      have hk := k.isLt
      have hi0 : ((offset / 512).toNat : Int) = offset / 512 := by omega
      by_cases hin2 : offset + chunk_size ino size offset ≤ 512 * (i : Int) + (k.val : Int) ∧
          512 * (i : Int) + (k.val : Int) < offset + size
      · rw [if_pos ⟨hin2.1, by omega⟩, if_pos ⟨by omega, hin2.2⟩]
        congr 2
        ring
      · rw [if_neg (fun hh => hin2 ⟨hh.1, by omega⟩), hv3]
        by_cases hX : file_sector (cache_view c) ino.data i =
            file_sector (cache_view c) ino.data (offset / 512).toNat
        · have hii : i = (offset / 512).toNat :=
            data_slot_inj (hok.pre.tree.inj _ _ hi hX)
          rw [if_pos hX, hby k]
          by_cases hin1 : offset % 512 ≤ (k.val : Int) ∧
              (k.val : Int) < offset % 512 + chunk_size ino size offset
          · rw [if_pos hin1, if_pos ⟨by omega, by omega⟩]
            congr 2
            omega
          · rw [if_neg hin1, if_neg (by omega), hX, hv1]
        · have hii : i ≠ (offset / 512).toNat := fun e => hX (by rw [e])
          rw [if_neg hX, hv2, hv1, if_neg (by omega)]
    · have : size = 0 := by omega
      subst this
      rw [if_neg hpos]
      refine ⟨c, by simp, hok, fun _ => rfl, fun i k _ => ?_⟩
      rw [if_neg (by omega)]

theorem sector_byte_eq (s : Sector) (p : Int) :
    sector_byte s (p % 512) =
      s ⟨(p % 512).toNat, by
        have := Int.emod_nonneg p (show (512 : Int) ≠ 0 by norm_num)
        have := Int.emod_lt_of_pos p (show (0 : Int) < 512 by norm_num)
        omega⟩ := by
  have h1 := Int.emod_nonneg p (show (512 : Int) ≠ 0 by norm_num)
  have h2 := Int.emod_lt_of_pos p (show (0 : Int) < 512 by norm_num)
  unfold sector_byte
  rw [dif_pos ⟨h1, h2⟩]

/-- Reading one byte at a position inside a file in order returns the byte at that position
of the sector the tree maps the position to. -/
theorem read_byte_spec {c : cache_state} {fm : free_map} {ino : inode}
    (hok : file_ok { cache := c, fmap := fm } ino) (out : Buffer) (p : Int) (h0 : 0 ≤ p)
    (hp : p < ino.data.length) :
    ∃ c' o, inode_read_at c ino out 1 p = Except.ok (c', o, 1) ∧
      o 0 = sector_byte (cache_view c (file_sector (cache_view c) ino.data (p / 512).toNat))
        (p % 512) ∧
      cache_inv c' ∧ ∀ t, cache_view c' t = cache_view c t := by
  obtain ⟨c1, h1, _, _, hc1, hv1⟩ := @mapped_lookup c fm ino hok p h0 hp
  have hm := Int.emod_nonneg p (show (512 : Int) ≠ 0 by norm_num)
  have hm2 := Int.emod_lt_of_pos p (show (0 : Int) < 512 by norm_num)
  have htm : Int.tmod p 512 = p % 512 := Int.tmod_eq_emod h0 (by norm_num)
  have hch : chunk_size ino 1 p = 1 := by
    rw [chunk_size_eq ino 1 p h0]; unfold inode_length; omega
  obtain ⟨c2, h2, hc2, hv2⟩ := buffer_cache_read_spec hc1
    (file_sector (cache_view c) ino.data (p / 512).toNat)
  unfold inode_read_at
  have e1 : (1 : Int).toNat = 0 + 1 := rfl
  rw [e1]
  unfold read_loop
  rw [if_pos (by norm_num), h1, bind_ok, hch, if_neg (by norm_num), htm]
  unfold read_chunk
  rw [if_neg (by omega), h2, bind_ok]
  unfold copy_out
  rw [if_pos ⟨hm, by omega, le_refl _⟩, bind_ok, bind_ok]
  unfold read_loop
  rw [if_neg (by norm_num)]
  refine ⟨c2, _, rfl, ?_, hc2, fun t => (hv2 t).trans (hv1 t)⟩
  simp [hv1]

/-- The two halves of `inode_write_at` on a file in order. -/
theorem write_at_spec {st st' : fs_state} {ino ino' : inode} {buffer : Buffer}
    {size offset n : Int} (hok : file_ok st ino) (hs : 0 ≤ size) (ho : 0 ≤ offset)
    (hr : size + offset ≤ 2147483647)
    (hw : inode_write_at st ino buffer size offset = Except.ok (st', ino', n)) :
    ∃ st1, grown st st1 ino ino' ∧ size + offset ≤ ino'.data.length ∧
      (ino.data.length < size + offset → ino'.data.length = size + offset) ∧
      written st1 st' ino' buffer size offset ∧
      n = if ino.deny_write_cnt ≠ 0 then 0 else size := by
  unfold inode_write_at at hw
  obtain ⟨r, hg0, hw⟩ := (except_bind_ok _ _ _).mp hw
  obtain ⟨hg, hle, heq⟩ := @write_grow_spec st r.1 ino r.2 size offset hok hs ho hr hg0
  by_cases hd : r.2.deny_write_cnt ≠ 0
  · rw [if_pos hd] at hw
    cases hw
    refine ⟨r.1, hg, hle, heq, ⟨hg.ok, fun _ => rfl, fun i k _ => ?_⟩, ?_⟩
    · rw [if_neg (fun hh => hd hh.1)]
    · rw [if_pos (by rw [← hg.deny]; exact hd)]
  · rw [if_neg hd] at hw
    obtain ⟨r1, hl, hw⟩ := (except_bind_ok _ _ _).mp hw
    obtain ⟨c', h4, hok4, ht4, hby4⟩ := write_loop_spec size.toNat r.1.cache r.1.fmap r.2
      buffer size offset 0 hg.ok ho hs (le_refl _) (by omega) (by omega)
    rw [h4] at hl
    cases hl
    cases hw
    have hd0 : r.2.deny_write_cnt = 0 := by
      by_contra hh
      exact hd hh
    refine ⟨r.1, hg, hle, heq, ⟨hok4, ht4, fun i k hi => ?_⟩, ?_⟩
    · have := hby4 i k hi
      rw [zero_add] at this
      show cache_view c' _ k = _
      rw [this]
      by_cases hin : offset ≤ 512 * (i : Int) + (k.val : Int) ∧
          512 * (i : Int) + (k.val : Int) < offset + size
      · rw [if_pos hin, if_pos ⟨hd0, hin⟩]
      · rw [if_neg hin, if_neg (fun hh => hin hh.2)]
    · rw [if_neg (by rw [← hg.deny]; exact hd), zero_add]

theorem sector_byte_at (s : Sector) (p : Int) (k : Fin 512) (hk : (k.val : Int) = p % 512) :
    sector_byte s (p % 512) = s k := by
  rw [sector_byte_eq]
  congr 1
  apply Fin.ext
  show (p % 512).toNat = k.val
  omega

/-- A write that ends inside a file in order returns. -/
theorem write_within_ok {st : fs_state} {ino : inode} (hok : file_ok st ino) (buffer : Buffer)
    (size offset : Int) (hs : 0 ≤ size) (ho : 0 ≤ offset)
    (hl : size + offset < ino.data.length) :
    ∃ st' n, inode_write_at st ino buffer size offset = Except.ok (st', ino, n) := by
  obtain ⟨c1, h1, _, hne, hc1, hv1⟩ := @mapped_lookup st.cache st.fmap ino hok (size + offset)
    (by omega) hl
  have hg : write_grow st ino size offset = Except.ok ({ cache := c1, fmap := st.fmap }, ino) := by
    unfold write_grow
    rw [h1, bind_ok, if_neg hne]
  obtain ⟨hgr, _, _⟩ := write_grow_spec hok hs ho (by have := hok.len_fits; omega) hg
  unfold inode_write_at
  rw [hg, bind_ok]
  by_cases hd : ino.deny_write_cnt ≠ 0
  · rw [if_pos hd]
    exact ⟨_, _, rfl⟩
  · rw [if_neg hd]
    obtain ⟨c', h4, _⟩ := write_loop_spec size.toNat c1 st.fmap ino buffer size offset 0 hgr.ok
      ho hs (le_refl _) (by omega) (by omega)
    dsimp only
    rw [h4, bind_ok]
    exact ⟨_, _, rfl⟩

theorem demo_small_value (a : slot) :
    tree_value demo_small_inode.data (cache_view demo_small_state.cache) a =
      if a = slot.direct 0 then 2 else 0 := by
  cases a with
  | direct i =>
    rw [tree_value_direct]
    unfold direct_at
    by_cases h : i < 12
    · rw [dif_pos h]
      by_cases h0 : i = 0
      · subst h0; rfl
      · rw [if_neg (by simpa using h0)]
        show (if i = 0 then 2 else 0) = 0
        rw [if_neg h0]
    · rw [dif_neg h, if_neg (by intro e; injection e with e; omega)]
  | ind => rfl
  | ind_entry j => rfl
  | dbl => rfl
  | sub k => rfl
  | sub_entry k j => rfl

theorem demo_small_ok : file_ok demo_small_state demo_small_inode := by
  have hval := demo_small_value
  have hnz : ∀ a, tree_value demo_small_inode.data (cache_view demo_small_state.cache) a ≠ 0 →
      a = slot.direct 0 := by
    intro a h
    by_contra hne
    rw [hval a, if_neg hne] at h
    exact h rfl
  refine ⟨⟨init_inv demo_device, ⟨rfl, by decide, fun x hx => ?_⟩, rfl, ⟨?_, ?_, ?_⟩⟩, by decide,
    by decide, ?_⟩
  · have : x < 3 := by simpa [demo_small_state] using hx
    show x < 64
    omega
  · intro a h
    rw [hnz a h, hval, if_pos rfl]
    rfl
  · intro a h
    rw [hnz a h, hval, if_pos rfl]
    decide
  · intro a b h e
    have hb : tree_value demo_small_inode.data (cache_view demo_small_state.cache) b ≠ 0 := by
      rw [← e]; exact h
    rw [hnz a h, hnz b hb]
  · intro i hi
    have h1 : bytes_to_sectors demo_small_inode.data.length = 1 := by decide
    rw [h1] at hi
    have : i = 0 := by omega
    subst this
    rw [hval]
    decide

/-- C6: on a file in order, `inode_write_at` of `size >= 0` bytes at `offset >= 0` (with
`size + offset` an `off_t`) that returns leaves every byte at a position `p` below the old
length and outside `[offset, offset + size)` as it was: `inode_read_at` of one byte at `p`
returns that byte before the write and the same byte after it. -/
theorem write_at_frame {st st' : fs_state} {ino ino' : inode} {buffer : Buffer}
    {size offset n : Int} (hok : file_ok st ino) (hs : 0 ≤ size) (ho : 0 ≤ offset)
    (hr : size + offset ≤ 2147483647)
    (hw : inode_write_at st ino buffer size offset = Except.ok (st', ino', n))
    (p : Int) (hp0 : 0 ≤ p) (hp : p < inode_length ino)
    (hout : p < offset ∨ offset + size ≤ p) (out : Buffer) :
    ∃ c1 c2 o1 o2, inode_read_at st.cache ino out 1 p = Except.ok (c1, o1, 1) ∧
      inode_read_at st'.cache ino' out 1 p = Except.ok (c2, o2, 1) ∧ o2 0 = o1 0 := by
  obtain ⟨st1, hg, _, _, hwr, _⟩ := write_at_spec hok hs ho hr hw
  unfold inode_length at hp
  obtain ⟨c1, o1, hr1, hb1, _, _⟩ := @read_byte_spec st.cache st.fmap ino hok out p hp0 hp
  obtain ⟨c2, o2, hr2, hb2, _, _⟩ := @read_byte_spec st'.cache st'.fmap ino' hwr.ok out p hp0
    (lt_of_lt_of_le hp hg.len_le)
  refine ⟨c1, c2, o1, o2, hr1, hr2, ?_⟩
  have hm := hok.mapped _ (index_below hp0 hp (by have := hok.len_fits; omega))
  have e0 : file_sector (cache_view st1.cache) ino'.data (p / 512).toNat =
      file_sector (cache_view st.cache) ino.data (p / 512).toNat := hg.keep _ hm
  have e1 : file_sector (cache_view st'.cache) ino'.data (p / 512).toNat =
      file_sector (cache_view st.cache) ino.data (p / 512).toNat :=
    (hwr.tree _).trans e0
  have hm1 := Int.emod_nonneg p (show (512 : Int) ≠ 0 by norm_num)
  have hm2 := Int.emod_lt_of_pos p (show (0 : Int) < 512 by norm_num)
  obtain ⟨k, hk⟩ : ∃ k : Fin 512, (k.val : Int) = p % 512 :=
    ⟨⟨(p % 512).toNat, by omega⟩, by show (((p % 512).toNat : Nat) : Int) = _; omega⟩
  have hb := hwr.bytes (p / 512).toNat k (by rw [e0]; exact hm)
  rw [e0] at hb
  rw [hb1, hb2, e1, sector_byte_at _ p k hk, sector_byte_at _ p k hk, hb,
    if_neg (fun hh => by omega)]
  exact congrFun (hg.data (data_slot _) (data_slot_is_data _) hm) k

theorem write_at_frame_witness :
    ∃ st' ino' n c1 c2 o1 o2,
      inode_write_at demo_small_state demo_small_inode (fun _ => 7) 3 5 =
        Except.ok (st', ino', n) ∧
      inode_read_at demo_small_state.cache demo_small_inode (fun _ => 9) 1 2 =
        Except.ok (c1, o1, 1) ∧
      inode_read_at st'.cache ino' (fun _ => 9) 1 2 = Except.ok (c2, o2, 1) ∧ o2 0 = o1 0 := by
  obtain ⟨st', n, hw⟩ := write_within_ok demo_small_ok (fun _ => 7) 3 5 (by decide) (by decide)
    (by decide)
  obtain ⟨c1, c2, o1, o2, h⟩ := write_at_frame demo_small_ok (by decide) (by decide)
    (by decide) hw 2 (by decide) (by decide) (Or.inl (by decide)) (fun _ => 9)
  exact ⟨st', _, n, c1, c2, o1, o2, hw, h⟩

/-! ### The inode sector -/

theorem sector_word_to_sector (d : inode_disk) (i : Nat) (hi : i < 128)
    (hw : d.word ⟨i, hi⟩ < 4294967296) :
    sector_word d.to_sector ⟨i, hi⟩ = d.word ⟨i, hi⟩ := by
  unfold sector_word inode_disk.to_sector
  have e0 : 4 * i / 4 = i := by omega
  have e1 : (4 * i + 1) / 4 = i := by omega
  have e2 : (4 * i + 2) / 4 = i := by omega
  have e3 : (4 * i + 3) / 4 = i := by omega
  have m0 : 4 * i % 4 = 0 := by omega
  have m1 : (4 * i + 1) % 4 = 1 := by omega
  have m2 : (4 * i + 2) % 4 = 2 := by omega
  have m3 : (4 * i + 3) % 4 = 3 := by omega
  simp only [e0, e1, e2, e3, m0, m1, m2, m3, word_byte]
  norm_num
  omega

/-- Reading back the sector of an on-disk inode whose pointers are 32-bit values and whose
length is a non-negative `off_t` gives the same pointers and the same length. -/
theorem of_to_sector (d : inode_disk) (hdir : ∀ i, d.direct_blocks i < 4294967296)
    (hind : d.indirect_pointer < 4294967296) (hdbl : d.double_indirect_pointer < 4294967296)
    (hl0 : 0 ≤ d.length) (hl1 : d.length ≤ 2147483647) :
    (inode_disk.of_sector d.to_sector).direct_blocks = d.direct_blocks ∧
      (inode_disk.of_sector d.to_sector).indirect_pointer = d.indirect_pointer ∧
      (inode_disk.of_sector d.to_sector).double_indirect_pointer = d.double_indirect_pointer ∧
      (inode_disk.of_sector d.to_sector).length = d.length := by
  refine ⟨funext fun i => ?_, ?_, ?_, ?_⟩
  · have hi := i.isLt
    have hw : d.word ⟨i.val, by omega⟩ = d.direct_blocks i := by
      unfold inode_disk.word
      rw [dif_pos hi]
    show sector_word d.to_sector ⟨i.val, by omega⟩ = _
    rw [sector_word_to_sector d i.val (by omega) (by rw [hw]; exact hdir i), hw]
  · have hw : d.word ⟨12, by norm_num⟩ = d.indirect_pointer := by
      simp [inode_disk.word]
    show sector_word d.to_sector ⟨12, by norm_num⟩ = _
    rw [sector_word_to_sector d 12 (by norm_num) (by rw [hw]; exact hind), hw]
  · have hw : d.word ⟨13, by norm_num⟩ = d.double_indirect_pointer := by
      simp [inode_disk.word]
    show sector_word d.to_sector ⟨13, by norm_num⟩ = _
    rw [sector_word_to_sector d 13 (by norm_num) (by rw [hw]; exact hdbl), hw]
  · have hw : d.word ⟨16, by norm_num⟩ = int_word d.length := by
      simp [inode_disk.word]
    have hb : int_word d.length < 2147483648 := by
      unfold int_word; omega
    have hv : ((int_word d.length : Nat) : Int) = d.length := by
      unfold int_word; omega
    show word_int (sector_word d.to_sector ⟨16, by norm_num⟩) = _
    rw [sector_word_to_sector d 16 (by norm_num) (by rw [hw]; omega), hw]
    unfold word_int
    rw [if_pos hb, hv]

theorem tree_value_pointers {d d' : inode_disk} (view : Nat → Sector)
    (h1 : d'.direct_blocks = d.direct_blocks) (h2 : d'.indirect_pointer = d.indirect_pointer)
    (h3 : d'.double_indirect_pointer = d.double_indirect_pointer) (a : slot) :
    tree_value d' view a = tree_value d view a := by
  cases a with
  | direct i =>
    rw [tree_value_direct, tree_value_direct]
    unfold direct_at
    rw [h1]
  | ind => rw [tree_value_ind, tree_value_ind, h2]
  | ind_entry j => rw [tree_value_ind_entry, tree_value_ind_entry, h2]
  | dbl => rw [tree_value_dbl, tree_value_dbl, h3]
  | sub k => rw [tree_value_sub, tree_value_sub, h3]
  | sub_entry k j => rw [tree_value_sub_entry, tree_value_sub_entry, h3]

theorem tree_ptr_bound {st : fs_state} {d : inode_disk} {isec : Nat} (hp : alloc_pre st d isec)
    (a : slot) : tree_value d (cache_view st.cache) a < 4294967296 := by
  by_cases h : tree_value d (cache_view st.cache) a = 0
  · rw [h]; norm_num
  · have h1 := hp.fm_ok.used_lt _ (hp.tree.used a h)
    have h2 := hp.fm_ok.size_le
    omega

theorem fresh_value (length type : Int) (view : Nat → Sector) (a : slot) :
    tree_value (fresh_inode_disk length type) view a = 0 := by
  cases a with
  | direct i =>
    rw [tree_value_direct]
    unfold direct_at
    split_ifs <;> rfl
  | ind => rfl
  | ind_entry j => rfl
  | dbl => rfl
  | sub k => rfl
  | sub_entry k j => rfl

/-- A file that `inode_create` made and `inode_open` opened is in order, and all its bytes
are zero. -/
theorem create_open_ok {st0 st1 : fs_state} {sector : Nat} {length type : Int}
    {c : cache_state} {ino : inode} (hc : cache_inv st0.cache) (hf : fmap_ok st0.fmap)
    (hu : st0.fmap.used sector = true) (hl : length ≤ 2147483647)
    (hcr : inode_create st0 sector length type = Except.ok (st1, true))
    (hop : inode_open_new st1.cache sector = Except.ok (c, ino)) :
    file_ok { cache := c, fmap := st1.fmap } ino ∧
      zero_tail { cache := c, fmap := st1.fmap } ino := by
  unfold inode_create at hcr
  by_cases hneg : length < 0
  · rw [if_pos hneg] at hcr; cases hcr
  · rw [if_neg hneg] at hcr
    obtain ⟨r, ha, hcr⟩ := (except_bind_ok _ _ _).mp hcr
    by_cases hb : r.2.2 = false
    · rw [if_pos hb] at hcr; cases hcr
    · rw [if_neg hb] at hcr
      obtain ⟨c1, hw1, hcr⟩ := (except_bind_ok _ _ _).mp hcr
      cases hcr
      have hb' : r.2.2 = true := by simpa using hb
      have hp0 : alloc_pre st0 (fresh_inode_disk length type) sector :=
        ⟨hc, hf, hu, ⟨fun a h => absurd (fresh_value _ _ _ a) h,
          fun a h => absurd (fresh_value _ _ _ a) h,
          fun a b h _ => absurd (fresh_value _ _ _ a) h⟩⟩
      obtain ⟨hp2, hg, hm, hmap⟩ := inode_allocate_grows hp0 ha hb'
      obtain ⟨hc1, hv1⟩ := cache_write_ok hp2.cache hw1
      unfold inode_open_new at hop
      obtain ⟨r', hrd, hop⟩ := (except_bind_ok _ _ _).mp hop
      obtain ⟨hc', hr2, hv'⟩ := cache_read_ok hc1 hrd
      cases hop
      have hsec : r'.2 = r.2.1.to_sector := by
        rw [hr2]
        show cache_view c1 sector = _
        rw [hv1, if_pos rfl]
      have hlen2 : r.2.1.length = length := hm.1
      have hdir : ∀ i, r.2.1.direct_blocks i < 4294967296 := fun i => by
        have := tree_ptr_bound hp2 (slot.direct i.val)
        rw [tree_value_direct] at this
        unfold direct_at at this
        rw [dif_pos i.isLt] at this
        exact this
      obtain ⟨e1, e2, e3, e4⟩ := of_to_sector r.2.1 hdir (tree_ptr_bound hp2 slot.ind)
        (tree_ptr_bound hp2 slot.dbl) (by rw [hlen2]; omega) (by rw [hlen2]; exact hl)
      have hview : ∀ t, t ≠ sector → cache_view r'.1 t = cache_view r.1.cache t := fun t ht => by
        rw [hv' t]
        show cache_view c1 t = _
        rw [hv1, if_neg ht]
      have ht : ∀ a, tree_value (inode_disk.of_sector r'.2) (cache_view r'.1) a =
          tree_value r.2.1 (cache_view r.1.cache) a := by
        intro a
        rw [hsec, tree_value_pointers _ e1 e2 e3]
        exact tree_value_write sector hview (fun b _ h0 => hp2.tree.not_inode b h0) a
      refine ⟨⟨⟨hc', hp2.fm_ok, hp2.inode_used, ?_⟩, ?_, ?_, ?_⟩, ?_⟩
      · show tree_ok (tree_value (inode_disk.of_sector r'.2) (cache_view r'.1)) r.1.fmap sector
        rw [show tree_value (inode_disk.of_sector r'.2) (cache_view r'.1) =
          tree_value r.2.1 (cache_view r.1.cache) from funext ht]
        exact hp2.tree
      · show 0 ≤ (inode_disk.of_sector r'.2).length
        rw [hsec, e4, hlen2]; omega
      · show (inode_disk.of_sector r'.2).length ≤ 2147483647
        rw [hsec, e4, hlen2]; exact hl
      · intro i hi
        have hi' : i < bytes_to_sectors (inode_disk.of_sector r'.2).length := hi
        rw [hsec, e4, hlen2] at hi'
        show tree_value (inode_disk.of_sector r'.2) (cache_view r'.1) (data_slot i) ≠ 0
        rw [ht]
        exact hmap i hi'
      · intro i k hi _
        have hi' : tree_value (inode_disk.of_sector r'.2) (cache_view r'.1) (data_slot i) ≠ 0 :=
          hi
        show cache_view r'.1
          (tree_value (inode_disk.of_sector r'.2) (cache_view r'.1) (data_slot i)) k = 0
        rw [ht] at hi' ⊢
        rw [hview _ (hp2.tree.not_inode _ hi'),
          hg.zero (data_slot i) (data_slot_is_data i) (fresh_value _ _ _ _) hi']
        rfl

/-- After `inode_write_at`, a byte outside the written range in a sector the file maps is the
byte that was there, or zero when the sector is new. -/
theorem write_byte_outside {st st' : fs_state} {ino ino' : inode} {buffer : Buffer}
    {size offset n : Int} (hok : file_ok st ino) (hs : 0 ≤ size) (ho : 0 ≤ offset)
    (hr : size + offset ≤ 2147483647)
    (hw : inode_write_at st ino buffer size offset = Except.ok (st', ino', n))
    (i : Nat) (k : Fin 512) (hi : file_sector (cache_view st'.cache) ino'.data i ≠ 0)
    (hout : 512 * (i : Int) + (k.val : Int) < offset ∨
      offset + size ≤ 512 * (i : Int) + (k.val : Int)) :
    cache_view st'.cache (file_sector (cache_view st'.cache) ino'.data i) k =
      if file_sector (cache_view st.cache) ino.data i = 0 then 0
      else cache_view st.cache (file_sector (cache_view st.cache) ino.data i) k := by
  obtain ⟨st1, hg, _, _, hwr, _⟩ := write_at_spec hok hs ho hr hw
  have e1 : file_sector (cache_view st'.cache) ino'.data i =
      file_sector (cache_view st1.cache) ino'.data i := hwr.tree _
  rw [e1] at hi ⊢
  rw [hwr.bytes i k hi, if_neg (fun hh => by omega)]
  by_cases h0 : file_sector (cache_view st.cache) ino.data i = 0
  · have hzero : cache_view st1.cache (file_sector (cache_view st1.cache) ino'.data i) = zeros :=
      hg.zero (data_slot i) (data_slot_is_data i) h0 hi
    rw [if_pos h0, hzero]
    rfl
  · have e0 : file_sector (cache_view st1.cache) ino'.data i =
        file_sector (cache_view st.cache) ino.data i := hg.keep _ h0
    rw [if_neg h0, e0]
    exact congrFun (hg.data (data_slot i) (data_slot_is_data i) h0) k

theorem write_keeps_tail {st st' : fs_state} {ino ino' : inode} {buffer : Buffer}
    {size offset n : Int} (hok : file_ok st ino) (hz : zero_tail st ino) (hs : 0 ≤ size)
    (ho : 0 ≤ offset) (hr : size + offset ≤ 2147483647)
    (hw : inode_write_at st ino buffer size offset = Except.ok (st', ino', n)) :
    zero_tail st' ino' := by
  obtain ⟨st1, hg, hle, _, _, _⟩ := write_at_spec hok hs ho hr hw
  intro i k hi hlen
  rw [write_byte_outside hok hs ho hr hw i k hi (Or.inr (by omega))]
  by_cases h0 : file_sector (cache_view st.cache) ino.data i = 0
  · rw [if_pos h0]
  · rw [if_neg h0]
    exact hz i k h0 (by have := hg.len_le; omega)

/-- Every file the inode layer produces is in order and is zero past its length. -/
theorem reachable_ok {st : fs_state} {ino : inode} (h : reachable st ino) :
    file_ok st ino ∧ zero_tail st ino := by
  induction h with
  | create st0 st1 sector length type c ino hc hf hu hl hcr hop =>
    exact create_open_ok hc hf hu hl hcr hop
  | write st st' ino ino' buffer size offset n _ hs ho hr hw ih =>
    obtain ⟨st1, _, _, _, hwr, _⟩ := write_at_spec ih.1 hs ho hr hw
    exact ⟨hwr.ok, write_keeps_tail ih.1 ih.2 hs ho hr hw⟩

/-- When the growth block returns on a file in order, `inode_write_at` returns. -/
theorem write_at_ok_of_grow {st st1 : fs_state} {ino ino1 : inode} (hok : file_ok st ino)
    (buffer : Buffer) (size offset : Int) (hs : 0 ≤ size) (ho : 0 ≤ offset)
    (hr : size + offset ≤ 2147483647)
    (hg : write_grow st ino size offset = Except.ok (st1, ino1)) :
    ∃ st' n, inode_write_at st ino buffer size offset = Except.ok (st', ino1, n) := by
  obtain ⟨hgr, hle, _⟩ := write_grow_spec hok hs ho hr hg
  unfold inode_write_at
  rw [hg, bind_ok]
  by_cases hd : ino1.deny_write_cnt ≠ 0
  · rw [if_pos hd]
    exact ⟨_, _, rfl⟩
  · rw [if_neg hd]
    obtain ⟨c', h4, _⟩ := write_loop_spec size.toNat st1.cache st1.fmap ino1 buffer size offset
      0 hgr.ok ho hs (le_refl _) (by omega) (by omega)
    dsimp only
    rw [h4, bind_ok]
    exact ⟨_, _, rfl⟩

/-- The growth block returns when the file has no first sector, the new length is at most one
sector and the free map has a free sector. -/
theorem grow_one_ok {st : fs_state} {ino : inode} (hc : cache_inv st.cache)
    (size offset : Int) (hlen : ino.data.length < size + offset) (h0 : 0 < size + offset)
    (h1 : size + offset ≤ 512) (hd : ino.data.direct_blocks 0 = 0)
    (r : Nat × free_map) (hfm : free_map_allocate st.fmap = some r) :
    ∃ st1 ino1, write_grow st ino size offset = Except.ok (st1, ino1) := by
  have hb : bytes_to_sectors (size + offset) = 1 := by
    have := bytes_to_sectors_eq (size + offset) (by omega) (by omega)
    omega
  obtain ⟨c1, hw1, hc1, _⟩ := buffer_cache_write_spec hc ino.sector
    (set_length ino.data (size + offset)).to_sector
  obtain ⟨c2, hw2, hc2, _⟩ := buffer_cache_write_spec hc1 r.1 zeros
  have hg : direct_get (set_length ino.data (size + offset)) ((0 : Nat) : Int) =
      Except.ok 0 := by
    rw [direct_get_at _ 0 (by norm_num)]
    unfold direct_at
    rw [dif_pos (by norm_num)]
    exact congrArg Except.ok hd
  have hs := direct_set_ok (set_length ino.data (size + offset)) 0 (by norm_num) r.1
  have hloop : ∃ d1, inode_allocate { cache := c1, fmap := st.fmap }
      (set_length ino.data (size + offset)) (size + offset) =
      Except.ok ({ cache := c2, fmap := r.2 }, d1, true) := by
    unfold inode_allocate
    rw [hb, if_pos (by norm_num)]
    unfold inode_allocate_direct
    have e : (((1 : Nat) : Int) % 4294967296).toNat = 0 + 1 := by decide
    rw [e]
    unfold allocate_direct_loop
    have e0 : (0 : Int) = ((0 : Nat) : Int) := rfl
    rw [e0, hg, bind_ok, if_neg (by simp)]
    have hfm' : free_map_allocate ({ cache := c1, fmap := st.fmap } : fs_state).fmap =
        some r := hfm
    simp only [hfm', hs, bind_ok, hw2]
    unfold allocate_direct_loop
    exact ⟨_, rfl⟩
  obtain ⟨d1, hloop⟩ := hloop
  obtain ⟨c3, hw3, _, _⟩ := buffer_cache_write_spec hc2 ino.sector
    (set_length d1 (size + offset)).to_sector
  refine ⟨{ cache := c3, fmap := r.2 }, { ino with data := set_length d1 (size + offset) }, ?_⟩
  unfold write_grow
  rw [byte_to_sector_outside _ _ _ (Or.inr (by omega)), bind_ok, if_pos rfl]
  dsimp only
  rw [hw1, bind_ok, hloop, bind_ok, if_neg (by simp)]
  dsimp only
  rw [hw3, bind_ok]

/-- C7: for every file that `inode_create` made and any number of `inode_write_at` calls
wrote (`reachable`), of length `L`: after a further `inode_write_at` at an offset above `L`
that returns, `inode_read_at` of one byte at any position in `[L, offset)` returns the byte
zero. -/
theorem growth_reads_zero {st st' : fs_state} {ino ino' : inode} {buffer : Buffer}
    {size offset n : Int} (hre : reachable st ino) (hs : 0 ≤ size)
    (hoff : inode_length ino < offset) (hr : size + offset ≤ 2147483647)
    (hw : inode_write_at st ino buffer size offset = Except.ok (st', ino', n))
    (p : Int) (hp0 : inode_length ino ≤ p) (hp : p < offset) (out : Buffer) :
    ∃ c o, inode_read_at st'.cache ino' out 1 p = Except.ok (c, o, 1) ∧ o 0 = 0 := by
  obtain ⟨hok, hz⟩ := reachable_ok hre
  unfold inode_length at hoff hp0
  have hl0 := hok.len_nonneg
  obtain ⟨st1, _, hle, _, hwr, _⟩ := write_at_spec hok hs (by omega) hr hw
  have hp' : p < ino'.data.length := by omega
  obtain ⟨c, o, hrd, hb, _, _⟩ := @read_byte_spec st'.cache st'.fmap ino' hwr.ok out p
    (by omega) hp'
  refine ⟨c, o, hrd, ?_⟩
  have hm := hwr.ok.mapped _ (index_below (by omega) hp' (by have := hwr.ok.len_fits; omega))
  have hm1 := Int.emod_nonneg p (show (512 : Int) ≠ 0 by norm_num)
  have hm2 := Int.emod_lt_of_pos p (show (0 : Int) < 512 by norm_num)
  obtain ⟨k, hk⟩ : ∃ k : Fin 512, (k.val : Int) = p % 512 :=
    ⟨⟨(p % 512).toNat, by omega⟩, by show (((p % 512).toNat : Nat) : Int) = _; omega⟩
  rw [hb, sector_byte_at _ p k hk,
    write_byte_outside hok hs (by omega) hr hw _ k hm (Or.inl (by omega))]
  by_cases h0 : file_sector (cache_view st.cache) ino.data (p / 512).toNat = 0
  · rw [if_pos h0]
  · rw [if_neg h0]
    exact hz _ k h0 (by omega)

theorem demo_fmap_ok : fmap_ok demo_fmap := by
  refine ⟨rfl, by decide, fun x hx => ?_⟩
  have : x < 2 := by simpa [demo_fmap] using hx
  show x < 64
  omega

/-- On `demo_state`, `inode_create` of an empty file at sector 1 and `inode_open` of that
sector return, and the open inode has length 0 and no first sector. -/
theorem demo_create : ∃ c1 c2 ino,
    inode_create demo_state 1 0 0 = Except.ok ({ cache := c1, fmap := demo_fmap }, true) ∧
      inode_open_new c1 1 = Except.ok (c2, ino) ∧ ino.data.length = 0 ∧
      ino.data.direct_blocks 0 = 0 := by
  have hc : cache_inv demo_cache := init_inv demo_device
  have ha : inode_allocate demo_state (fresh_inode_disk 0 0) 0 =
      Except.ok (demo_state, fresh_inode_disk 0 0, true) := by
    unfold inode_allocate
    have hb : bytes_to_sectors 0 = 0 := by decide
    rw [hb, if_pos (by norm_num)]
    rfl
  obtain ⟨c1, hw1, hc1, hv1⟩ := buffer_cache_write_spec hc 1 (fresh_inode_disk 0 0).to_sector
  obtain ⟨c2, hr2, _, _⟩ := buffer_cache_read_spec hc1 1
  obtain ⟨e1, _, _, e4⟩ := of_to_sector (fresh_inode_disk 0 0) (fun _ => show (0 : Nat) < 4294967296 by norm_num) (by decide)
    (by decide) (by decide) (by decide)
  have hsec : cache_view c1 1 = (fresh_inode_disk 0 0).to_sector := by rw [hv1, if_pos rfl]
  refine ⟨c1, c2, (⟨1, 1, false, 0, inode_disk.of_sector (cache_view c1 1)⟩ : inode),
    ?_, ?_, ?_, ?_⟩
  · unfold inode_create
    rw [if_neg (by decide), ha, bind_ok, if_neg (by simp)]
    show (buffer_cache_write demo_cache 1 _).bind _ = _
    rw [hw1, bind_ok]
    rfl
  · unfold inode_open_new
    rw [hr2, bind_ok]
  · show (inode_disk.of_sector (cache_view c1 1)).length = 0
    rw [hsec, e4]
    rfl
  · show (inode_disk.of_sector (cache_view c1 1)).direct_blocks 0 = 0
    rw [hsec, e1]
    rfl

theorem growth_reads_zero_witness :
    ∃ st ino st' ino' n c o, reachable st ino ∧ inode_length ino = 0 ∧
      inode_write_at st ino (fun _ => 7) 3 5 = Except.ok (st', ino', n) ∧
      inode_read_at st'.cache ino' (fun _ => 9) 1 2 = Except.ok (c, o, 1) ∧ o 0 = 0 := by
  obtain ⟨c1, c2, ino, hcr, hop, hlen, hdir⟩ := demo_create
  have hre : reachable { cache := c2, fmap := demo_fmap } ino :=
    reachable.create demo_state { cache := c1, fmap := demo_fmap } 1 0 0 c2 ino
      (init_inv demo_device) demo_fmap_ok rfl (by decide) hcr hop
  have hok := (reachable_ok hre).1
  obtain ⟨st1, ino1, hg⟩ := @grow_one_ok { cache := c2, fmap := demo_fmap } ino hok.pre.cache
    3 5 (by rw [hlen]; decide) (by decide) (by decide) hdir _ demo_allocate
  obtain ⟨st', n, hw⟩ := write_at_ok_of_grow hok (fun _ => 7) 3 5 (by decide) (by decide)
    (by decide) hg
  obtain ⟨c, o, hrd, hz⟩ := growth_reads_zero hre (by decide)
    (show inode_length ino < 5 by unfold inode_length; rw [hlen]; decide) (by decide) hw 2
    (show inode_length ino ≤ 2 by unfold inode_length; rw [hlen]; decide) (by decide)
    (fun _ => 9)
  exact ⟨_, ino, st', ino1, n, c, o, hre, hlen, hw, hrd, hz⟩


/-! ## Allocation: failure, idempotence, what is reserved -/

/-! ### Defects seen at one input -/

theorem full_fmap_none : free_map_allocate full_fmap = none := rfl

/-- When `inode_allocate` returns false, the growth block of `inode_write_at` ends in
`PANIC ("Realloc failed")`. -/
theorem write_grow_panics_of_false {st : fs_state} (hc : cache_inv st.cache) (ino : inode)
    (size offset : Int) (hl : ino.data.length < size + offset)
    (h : ∀ c, cache_inv c → ∃ r, inode_allocate { cache := c, fmap := st.fmap }
      (set_length ino.data (size + offset)) (size + offset) = Except.ok r ∧ r.2.2 = false) :
    write_grow st ino size offset = Except.error Fault.kernel_panic := by
  unfold write_grow
  rw [byte_to_sector_outside _ _ _ (Or.inr hl), bind_ok, if_pos rfl]
  obtain ⟨c1, h1, hc1, _⟩ := buffer_cache_write_spec hc ino.sector
    (set_length ino.data (size + offset)).to_sector
  obtain ⟨r, hr, hb⟩ := h c1 hc1
  rw [h1, bind_ok, hr, bind_ok, if_pos hb]

/-- C16, at the largest length the claim names: for `length = 16524 * 512`, whatever the
free map holds, `inode_allocate` returns false without reserving anything, and so does
`inode_create`: the test `sectors < LAYER_2` leaves out a file of exactly 16524 sectors. -/
theorem allocate_max_length_fails (st : fs_state) (d : inode_disk) (sector : Nat)
    (type : Int) :
    inode_allocate st d (16524 * 512) = Except.ok (st, d, false) ∧
      inode_create st sector (16524 * 512) type = Except.ok (st, false) := by
  have hb : 16524 ≤ bytes_to_sectors (16524 * 512) := by decide
  refine ⟨inode_allocate_refuses st d _ hb, ?_⟩
  unfold inode_create
  rw [if_neg (by decide), inode_allocate_refuses st _ _ hb, bind_ok, if_pos rfl]

/-- C18, on a full disk: writing one byte at offset 0 of an empty file when the free map has
no free sector does not return a byte count: `inode_allocate` returns false and
`inode_write_at` ends in `PANIC ("Realloc failed")`. -/
theorem write_on_full_disk_panics (buf : Buffer) :
    free_map_allocate full_fmap = none ∧
      inode_write_at { cache := demo_cache, fmap := full_fmap } demo_inode buf 1 0 =
        Except.error Fault.kernel_panic := by
  refine ⟨full_fmap_none, ?_⟩
  unfold inode_write_at
  rw [write_grow_panics_of_false (init_inv demo_device) demo_inode 1 0 (by decide)
    (fun c _ => ⟨({ cache := c, fmap := full_fmap }, set_length demo_inode.data (1 + 0), false),
      ?_, rfl⟩), bind_error]
  unfold inode_allocate
  have hb : bytes_to_sectors (1 + 0) = 1 := by decide
  rw [hb, if_pos (by norm_num)]
  unfold inode_allocate_direct
  have e : (((1 : Nat) : Int) % 4294967296).toNat = 0 + 1 := by decide
  rw [e]
  unfold allocate_direct_loop
  have hg : direct_get (set_length demo_inode.data (1 + 0)) 0 = Except.ok 0 := rfl
  have hfm : free_map_allocate ({ cache := c, fmap := full_fmap } : fs_state).fmap = none :=
    full_fmap_none
  simp only [hg, bind_ok, hfm]
  rfl

/-- C20, on a removed inode: when the only opener of a removed inode closes it,
`inode_close` does not return: it reaches `PANIC ("REACH HERE\n")` before it releases
anything. -/
theorem close_removed_panics (st : fs_state) :
    (inode_remove demo_inode).open_cnt = 1 ∧ (inode_remove demo_inode).removed = true ∧
      demo_removed_heap.objs 0 = some (inode_remove demo_inode) ∧
      inode_close st demo_removed_heap (some 0) = Except.error Fault.kernel_panic := by
  refine ⟨rfl, rfl, rfl, rfl⟩

theorem demo_dbl_words :
    word_at (demo_dbl_device 5) 0 = 6 ∧ word_at (demo_dbl_device 5) 2 = 7 ∧
      word_at (demo_dbl_device 6) 0 = 100 ∧ word_at (demo_dbl_device 7) 0 = 200 := by
  refine ⟨rfl, rfl, rfl, rfl⟩

/-- C11, at sector index 140: with a double-indirect block whose entry 0 names a block with
first entry 100 and whose entry 2 names a block with first entry 200, `byte_to_sector` at
`pos = 140 * 512` returns 200, the entry `(140 - 12 + 128) % 128 = 0` of the block that entry
`(140 - 12 + 128) / 128 = 2` names; the entry the claim names (entry `(140 - 140) % 128` of
the block that entry `(140 - 140) / 128` names) is 100. -/
theorem double_indirect_lookup_shifted :
    ∃ c', byte_to_sector (buffer_cache_init (boot_cache demo_dbl_device)) demo_dbl_inode
        (140 * 512) = Except.ok (c', 200) ∧
      word_at (demo_dbl_device (word_at (demo_dbl_device demo_dbl_inode.data.double_indirect_pointer)
        ((140 - 140) / 128))) ((140 - 140) % 128) = 100 := by
  obtain ⟨c', h, _, _⟩ := byte_to_sector_inside (init_inv demo_dbl_device) demo_dbl_inode
    (140 * 512) (by decide) (by decide) (by decide)
  refine ⟨c', ?_, rfl⟩
  rw [h]
  have hv : cache_view (buffer_cache_init (boot_cache demo_dbl_device)) = demo_dbl_device :=
    funext (init_view demo_dbl_device)
  have hi : ((140 * 512 : Int) / 512).toNat = 140 := by decide
  rw [hv, hi]
  rfl

/-! ### Allocation never releases a sector -/

/-- A state with the cache invariant and a free map in order is in order for an inode
without pointers (the sector 0, always taken, stands for the inode's own sector). -/
theorem fresh_alloc_pre {st : fs_state} (hc : cache_inv st.cache) (hf : fmap_ok st.fmap)
    (length type : Int) (isec : Nat) (hu : st.fmap.used isec = true) :
    alloc_pre st (fresh_inode_disk length type) isec :=
  ⟨hc, hf, hu, ⟨fun a h => absurd (fresh_value _ _ _ a) h,
    fun a h => absurd (fresh_value _ _ _ a) h,
    fun a _ h _ => absurd (fresh_value _ _ _ a) h⟩⟩

theorem index_of_sector_start (i : Nat) : ((512 * (i : Int)) / 512).toNat = i := by
  omega

/-- C12: whenever `inode_allocate (disk_inode, length)` returns true on a fresh inode (all
pointers 0) in a state with the cache invariant and a free map in order, with
`0 <= length` an `off_t`: for every sector index `i` below `ceil (length / 512)`,
`byte_to_sector (i * 512)` returns a sector `s` that is not 0, is taken in the free map after
the call and was free before it, is none of the index blocks (the indirect block, the
double-indirect block, the blocks an existing double-indirect block names), and no other sector
index below `ceil (length / 512)` maps to `s`. -/
theorem allocate_maps_fresh_sectors {st : fs_state} {length type : Int}
    {r : fs_state × inode_disk × Bool} (hc : cache_inv st.cache) (hf : fmap_ok st.fmap)
    (hl0 : 0 ≤ length) (hl1 : length ≤ 2147483647)
    (h : inode_allocate st (fresh_inode_disk length type) length = Except.ok r)
    (hb : r.2.2 = true) (ino : inode) (hino : ino.data = r.2.1) (i : Nat)
    (hi : i < bytes_to_sectors length) :
    ∃ c' s, byte_to_sector r.1.cache ino (512 * (i : Int)) = Except.ok (c', s) ∧ s ≠ 0 ∧
      r.1.fmap.used s = true ∧ st.fmap.used s = false ∧
      s ≠ ino.data.indirect_pointer ∧ s ≠ ino.data.double_indirect_pointer ∧
      (ino.data.double_indirect_pointer ≠ 0 →
        ∀ k, s ≠ word_at (cache_view r.1.cache ino.data.double_indirect_pointer) k) ∧
      ∀ j, j < bytes_to_sectors length → j ≠ i →
        ∃ c'' s', byte_to_sector r.1.cache ino (512 * (j : Int)) = Except.ok (c'', s') ∧
          s' ≠ s := by
  have hp := fresh_alloc_pre hc hf length type 0 hf.zero_used
  obtain ⟨hp2, hg, hm, hmap⟩ := inode_allocate_grows hp h hb
  have hbound := inode_allocate_true_bound h hb
  have hsec := bytes_to_sectors_eq length hl0 (by omega)
  have hlen : ino.data.length = length := by rw [hino]; exact hm.1
  have hlook : ∀ j, j < bytes_to_sectors length →
      ∃ c', byte_to_sector r.1.cache ino (512 * (j : Int)) =
        Except.ok (c', tree_value r.2.1 (cache_view r.1.cache) (data_slot j)) := by
    intro j hj
    obtain ⟨c', h1, _, _⟩ := byte_to_sector_inside hp2.cache ino (512 * (j : Int)) (by omega)
      (by rw [hlen]; omega) (by omega)
    rw [index_of_sector_start, hino, block_ptr_eq (hmap j hj)] at h1
    exact ⟨c', h1⟩
  obtain ⟨c', h1⟩ := hlook i hi
  have hne := hmap i hi
  have hidx := data_sector_not_index hp2.tree (data_slot_is_data i) hne
  refine ⟨c', _, h1, hne, hp2.tree.used _ hne,
    (hg.filled _ (fresh_value _ _ _ _) hne).1, ?_, ?_, ?_, ?_⟩
  · rw [hino]
    exact fun e => hidx slot.ind trivial e.symm
  · rw [hino]
    exact fun e => hidx slot.dbl trivial e.symm
  · intro hd k e
    rw [hino] at e hd
    have := hidx (slot.sub k) trivial
    rw [tree_value_sub, if_neg hd] at this
    exact this e.symm
  · intro j hj hji
    obtain ⟨c'', h2⟩ := hlook j hj
    refine ⟨c'', _, h2, fun e => hji ?_⟩
    exact data_slot_inj (hp2.tree.inj _ _ (hmap j hj) e)

/-! ### Allocation returns true when the free map has room -/

theorem allocate_of_free {fm : free_map} (h : 0 < free_count fm) :
    ∃ p, free_map_allocate fm = some p := by
  unfold free_count at h
  obtain ⟨i, hi⟩ := Finset.card_pos.mp h
  rw [Finset.mem_filter, Finset.mem_range] at hi
  unfold free_map_allocate
  cases hf : (List.range fm.size).find? (fun i => fm.used i = false) with
  | none =>
    rw [List.find?_eq_none] at hf
    have := hf i (List.mem_range.mpr hi.1)
    simp [hi.2] at this
  | some j => exact ⟨_, rfl⟩

theorem free_count_allocate {fm : free_map} {p : Nat × free_map}
    (h : free_map_allocate fm = some p) : free_count p.2 + 1 = free_count fm := by
  obtain ⟨h1, h2, h3, h4⟩ := free_map_allocate_some h
  have hmem : p.1 ∈ (Finset.range fm.size).filter (fun i => fm.used i = false) :=
    Finset.mem_filter.mpr ⟨Finset.mem_range.mpr h2, h1⟩
  have hset : (Finset.range p.2.size).filter (fun i => p.2.used i = false) =
      ((Finset.range fm.size).filter (fun i => fm.used i = false)).erase p.1 := by
    ext x
    rw [h3, h4, Finset.mem_filter, Finset.mem_erase, Finset.mem_filter]
    by_cases e : x = p.1
    · subst e; simp
    · rw [Function.update_noteq e]; tauto
  unfold free_count
  rw [hset, Finset.card_erase_of_mem hmem]
  have := Finset.card_pos.mpr ⟨p.1, hmem⟩
  omega

theorem free_count_prefix (n k : Nat) :
    free_count { size := n, used := fun i => decide (i < k) } = n - k := by
  unfold free_count
  have hset : (Finset.range n).filter (fun i => decide (i < k) = false) = Finset.Ico k n := by
    ext x
    simp [Finset.mem_Ico]
    omega
  show ((Finset.range n).filter (fun i => decide (i < k) = false)).card = _
  rw [hset, Nat.card_Ico]

theorem allocate_direct_loop_succeeds : ∀ (n i : Nat) (st : fs_state) (d : inode_disk),
    cache_inv st.cache → i + n ≤ 12 → n ≤ free_count st.fmap →
    ∃ r, allocate_direct_loop n (i : Int) st d = Except.ok r ∧ r.2.2 = true ∧
      cache_inv r.1.cache ∧ free_count st.fmap ≤ free_count r.1.fmap + n := by
  intro n
  induction n with
  | zero =>
    intro i st d hc _ _
    exact ⟨(st, d, true), rfl, rfl, hc, le_refl _⟩
  | succ n ih =>
    intro i st d hc hi hn
    have hi12 : i < 12 := by omega
    have e : ((i : Int) + 1) = ((i + 1 : Nat) : Int) := by omega
    unfold allocate_direct_loop
    rw [direct_get_at d i hi12, bind_ok, e]
    by_cases hx : direct_at d i ≠ 0
    · rw [if_pos hx]
      obtain ⟨r, h1, h2, h3, h4⟩ := ih (i + 1) st d hc (by omega) (by omega)
      exact ⟨r, h1, h2, h3, by omega⟩
    · rw [if_neg hx]
      obtain ⟨p, hp⟩ := @allocate_of_free st.fmap (by omega)
      have hcount := free_count_allocate hp
      obtain ⟨c1, hw, hc1, _⟩ := buffer_cache_write_spec hc p.1 zeros
      obtain ⟨r, h1, h2, h3, h4⟩ := ih (i + 1) { cache := c1, fmap := p.2 }
        { d with direct_blocks := Function.update d.direct_blocks ⟨i, hi12⟩ p.1 } hc1
        (by omega) (by show n ≤ free_count p.2; omega)
      simp only [hp, direct_set_ok d i hi12, bind_ok, hw]
      exact ⟨r, h1, h2, h3, by
        have : free_count p.2 ≤ free_count r.1.fmap + n := h4
        omega⟩

theorem allocate_entries_succeeds : ∀ (n i : Nat) (st : fs_state) (iid : Sector),
    cache_inv st.cache → i + n ≤ 128 → n ≤ free_count st.fmap →
    ∃ r, allocate_entries n (i : Int) st iid = Except.ok r ∧ r.2.2 = true ∧
      cache_inv r.1.cache ∧ free_count st.fmap ≤ free_count r.1.fmap + n := by
  intro n
  induction n with
  | zero =>
    intro i st iid hc _ _
    exact ⟨(st, iid, true), rfl, rfl, hc, le_refl _⟩
  | succ n ih =>
    intro i st iid hc hi hn
    have hib : i < 128 := by omega
    have e : ((i : Int) + 1) = ((i + 1 : Nat) : Int) := by omega
    unfold allocate_entries
    rw [blocks_get_ok iid i hib, bind_ok, e]
    by_cases hx : word_at iid i ≠ 0
    · rw [if_pos hx]
      obtain ⟨r, h1, h2, h3, h4⟩ := ih (i + 1) st iid hc (by omega) (by omega)
      exact ⟨r, h1, h2, h3, by omega⟩
    · rw [if_neg hx]
      obtain ⟨p, hp⟩ := @allocate_of_free st.fmap (by omega)
      have hcount := free_count_allocate hp
      obtain ⟨c1, hw, hc1, _⟩ := buffer_cache_write_spec hc p.1 zeros
      obtain ⟨r, h1, h2, h3, h4⟩ := ih (i + 1) { cache := c1, fmap := p.2 }
        (set_sector_word iid ⟨i, hib⟩ p.1) hc1 (by omega) (by show n ≤ free_count p.2; omega)
      simp only [hp, blocks_set_ok iid i hib, bind_ok, hw]
      exact ⟨r, h1, h2, h3, by
        have : free_count p.2 ≤ free_count r.1.fmap + n := h4
        omega⟩

theorem ensure_indirect_succeeds {st : fs_state} (d : inode_disk) (hc : cache_inv st.cache)
    (hn : 1 ≤ free_count st.fmap) :
    ∃ r, ensure_indirect st d = Except.ok r ∧ cache_inv r.1.cache ∧
      free_count st.fmap ≤ free_count r.1.fmap + 1 := by
  unfold ensure_indirect
  by_cases h0 : d.indirect_pointer = 0
  · rw [if_pos h0]
    obtain ⟨p, hp⟩ := @allocate_of_free st.fmap (by omega)
    have hcount := free_count_allocate hp
    obtain ⟨c1, hw, hc1, _⟩ := buffer_cache_write_spec hc p.1 zeros
    simp only [hp, hw, bind_ok]
    exact ⟨_, rfl, hc1, by show free_count st.fmap ≤ free_count p.2 + 1; omega⟩
  · rw [if_neg h0]
    exact ⟨_, rfl, hc, Nat.le_succ _⟩

theorem ensure_double_succeeds {st : fs_state} (d : inode_disk) (hc : cache_inv st.cache)
    (hn : 1 ≤ free_count st.fmap) :
    ∃ r, ensure_double st d = Except.ok r ∧ cache_inv r.1.cache ∧
      free_count st.fmap ≤ free_count r.1.fmap + 1 := by
  unfold ensure_double
  by_cases h0 : d.double_indirect_pointer = 0
  · rw [if_pos h0]
    obtain ⟨p, hp⟩ := @allocate_of_free st.fmap (by omega)
    have hcount := free_count_allocate hp
    obtain ⟨c1, hw, hc1, _⟩ := buffer_cache_write_spec hc p.1 zeros
    simp only [hp, hw, bind_ok]
    exact ⟨_, rfl, hc1, by show free_count st.fmap ≤ free_count p.2 + 1; omega⟩
  · rw [if_neg h0]
    exact ⟨_, rfl, hc, Nat.le_succ _⟩

theorem ensure_sub_succeeds {st : fs_state} (diid : Sector) (index : Nat)
    (hc : cache_inv st.cache) (hi : index < 128) (hn : 1 ≤ free_count st.fmap) :
    ∃ r, ensure_sub st diid (index : Int) = Except.ok r ∧ cache_inv r.1.cache ∧
      free_count st.fmap ≤ free_count r.1.fmap + 1 := by
  unfold ensure_sub
  rw [blocks_get_ok diid index hi, bind_ok]
  by_cases h0 : word_at diid index = 0
  · rw [if_pos h0]
    obtain ⟨p, hp⟩ := @allocate_of_free st.fmap (by omega)
    have hcount := free_count_allocate hp
    obtain ⟨c1, hw, hc1, _⟩ := buffer_cache_write_spec hc p.1 zeros
    simp only [hp, blocks_set_ok diid index hi, hw, bind_ok]
    exact ⟨_, rfl, hc1, by show free_count st.fmap ≤ free_count p.2 + 1; omega⟩
  · rw [if_neg h0]
    exact ⟨_, rfl, hc, Nat.le_succ _⟩

theorem inode_allocate_direct_succeeds {st : fs_state} (d : inode_disk) (n : Nat)
    (hc : cache_inv st.cache) (hn : n ≤ 12) (hf : n ≤ free_count st.fmap) :
    ∃ r, inode_allocate_direct st d (n : Int) = Except.ok r ∧ r.2.2 = true ∧
      cache_inv r.1.cache ∧ free_count st.fmap ≤ free_count r.1.fmap + n := by
  unfold inode_allocate_direct
  rw [toNat_small n (by omega)]
  exact allocate_direct_loop_succeeds n 0 st d hc (by omega) hf

theorem inode_allocate_indirect_succeeds {st : fs_state} (d : inode_disk) (n : Nat)
    (hc : cache_inv st.cache) (hn : n ≤ 128) (hf : 1 + n ≤ free_count st.fmap) :
    ∃ r, inode_allocate_indirect st d (n : Int) = Except.ok r ∧ r.2.2 = true ∧
      cache_inv r.1.cache ∧ free_count st.fmap ≤ free_count r.1.fmap + (1 + n) := by
  obtain ⟨r0, h0, hc0, hf0⟩ := ensure_indirect_succeeds d hc (by omega)
  obtain ⟨c1, h1, hc1, _⟩ := buffer_cache_read_spec hc0 r0.2.indirect_pointer
  obtain ⟨r2, h2, hb2, hc2, hf2⟩ := allocate_entries_succeeds n 0
    { cache := c1, fmap := r0.1.fmap } (cache_view r0.1.cache r0.2.indirect_pointer) hc1
    (by omega) (by show n ≤ free_count r0.1.fmap; omega)
  obtain ⟨c3, h3, hc3, _⟩ := buffer_cache_write_spec hc2 r0.2.indirect_pointer r2.2.1
  unfold inode_allocate_indirect
  rw [h0, bind_ok, h1, bind_ok, Int.toNat_ofNat]
  have e0 : (0 : Int) = ((0 : Nat) : Int) := rfl
  rw [e0, h2, bind_ok, if_neg (by simp [hb2]), h3, bind_ok]
  exact ⟨_, rfl, rfl, hc3, by
    have : free_count r0.1.fmap ≤ free_count r2.1.fmap + n := hf2
    show free_count st.fmap ≤ free_count r2.1.fmap + (1 + n)
    omega⟩

theorem allocate_double_loop_succeeds : ∀ (fuel sectors index : Nat) (st : fs_state)
    (diid : Sector), cache_inv st.cache → sectors ≤ fuel →
    128 * index + sectors ≤ 128 * 128 →
    sectors + (sectors + 127) / 128 ≤ free_count st.fmap →
    ∃ r, allocate_double_loop fuel (sectors : Int) (index : Int) st diid = Except.ok r ∧
      r.2.2 = true ∧ cache_inv r.1.cache ∧
      free_count st.fmap ≤ free_count r.1.fmap + (sectors + (sectors + 127) / 128) := by
  intro fuel
  induction fuel with
  | zero =>
    intro sectors index st diid hc hs _ _
    have : sectors = 0 := by omega
    subst this
    exact ⟨(st, diid, true), rfl, rfl, hc, Nat.le_add_right _ _⟩
  | succ fuel ih =>
    intro sectors index st diid hc hs hi hf
    unfold allocate_double_loop
    by_cases hpos : (sectors : Int) > 0
    · rw [if_pos hpos]
      have hidx : index < 128 := by omega
      obtain ⟨r1, h1, hc1, hf1⟩ := ensure_sub_succeeds diid index hc hidx (by omega)
      obtain ⟨c2, h2, hc2, _⟩ := buffer_cache_read_spec hc1 (word_at r1.2 index)
      obtain ⟨m, hm⟩ : ∃ m : Nat, (if (sectors : Int) > 128 then (128 : Int) else sectors) =
          (m : Int) ∧ m = min sectors 128 := by
        by_cases h128 : (sectors : Int) > 128
        · exact ⟨128, by rw [if_pos h128]; exact ⟨rfl, by omega⟩⟩
        · exact ⟨sectors, by rw [if_neg h128]; exact ⟨rfl, by omega⟩⟩
      obtain ⟨hm1, hm2⟩ := hm
      obtain ⟨r3, h3, hb3, hc3, hf3⟩ := allocate_entries_succeeds m 0
        { cache := c2, fmap := r1.1.fmap } (cache_view r1.1.cache (word_at r1.2 index)) hc2
        (by omega) (by show m ≤ free_count r1.1.fmap; omega)
      have hf3' : free_count r1.1.fmap ≤ free_count r3.1.fmap + m := hf3
      obtain ⟨c4, h4, hc4, _⟩ := buffer_cache_write_spec hc3 (word_at r1.2 index) r3.2.1
      have e1 : ((sectors : Int) - (m : Int)) = ((sectors - m : Nat) : Int) := by omega
      have e2 : ((index : Int) + 1) = ((index + 1 : Nat) : Int) := by omega
      obtain ⟨r, h5, hb5, hc5, hf5⟩ := ih (sectors - m) (index + 1)
        { cache := c4, fmap := r3.1.fmap } r1.2 hc4 (by omega) (by omega)
        (by show (sectors - m) + (sectors - m + 127) / 128 ≤ free_count r3.1.fmap; omega)
      have hf5' : free_count r3.1.fmap ≤
          free_count r.1.fmap + ((sectors - m) + (sectors - m + 127) / 128) := hf5
      have e0 : (0 : Int) = ((0 : Nat) : Int) := rfl
      rw [h1, bind_ok, blocks_get_ok r1.2 index hidx, bind_ok, h2, bind_ok, hm1,
        Int.toNat_ofNat, e0, h3, bind_ok, if_neg (by simp [hb3]), h4, bind_ok, e1, e2, h5]
      exact ⟨r, rfl, hb5, hc5, by omega⟩
    · have : sectors = 0 := by omega
      subst this
      rw [if_neg hpos]
      exact ⟨(st, diid, true), rfl, rfl, hc, Nat.le_add_right _ _⟩

theorem inode_allocate_indirect_double_succeeds {st : fs_state} (d : inode_disk) (n : Nat)
    (hc : cache_inv st.cache) (hn : n ≤ 128 * 128)
    (hf : 1 + n + (n + 127) / 128 ≤ free_count st.fmap) :
    ∃ r, inode_allocate_indirect_double st d (n : Int) = Except.ok r ∧ r.2.2 = true ∧
      cache_inv r.1.cache ∧
      free_count st.fmap ≤ free_count r.1.fmap + (1 + n + (n + 127) / 128) := by
  obtain ⟨r0, h0, hc0, hf0⟩ := ensure_double_succeeds d hc (by omega)
  obtain ⟨c1, h1, hc1, _⟩ := buffer_cache_read_spec hc0 r0.2.double_indirect_pointer
  obtain ⟨r2, h2, hb2, hc2, hf2⟩ := allocate_double_loop_succeeds n n 0
    { cache := c1, fmap := r0.1.fmap } (cache_view r0.1.cache r0.2.double_indirect_pointer) hc1
    (le_refl _) (by omega) (by show n + (n + 127) / 128 ≤ free_count r0.1.fmap; omega)
  have hf2' : free_count r0.1.fmap ≤ free_count r2.1.fmap + (n + (n + 127) / 128) := hf2
  obtain ⟨c3, h3, hc3, _⟩ := buffer_cache_write_spec hc2 r0.2.double_indirect_pointer r2.2.1
  unfold inode_allocate_indirect_double
  rw [h0, bind_ok, h1, bind_ok, Int.toNat_ofNat]
  have e0 : (0 : Int) = ((0 : Nat) : Int) := rfl
  rw [e0, h2, bind_ok, if_neg (by simp [hb2]), h3, bind_ok]
  exact ⟨_, rfl, rfl, hc3, by
    show free_count st.fmap ≤ free_count r2.1.fmap + (1 + n + (n + 127) / 128)
    omega⟩

theorem and_then_true {a : Except Fault (fs_state × inode_disk × Bool)}
    {b : fs_state → inode_disk → Except Fault (fs_state × inode_disk × Bool)}
    {r1 : fs_state × inode_disk × Bool} (ha : a = Except.ok r1) (hb : r1.2.2 = true) :
    and_then a b = b r1.1 r1.2.1 := by
  unfold and_then
  rw [ha, bind_ok, if_neg (by simp [hb])]

/-- `inode_allocate` returns true for every file of at most 16268 sectors when the free map
has `alloc_need` free sectors. -/
theorem inode_allocate_succeeds {st : fs_state} (d : inode_disk) (length : Int)
    (hc : cache_inv st.cache) (hs : bytes_to_sectors length ≤ 16268)
    (hf : alloc_need (bytes_to_sectors length) ≤ free_count st.fmap) :
    ∃ r, inode_allocate st d length = Except.ok r ∧ r.2.2 = true ∧ cache_inv r.1.cache := by
  unfold alloc_need at hf
  unfold inode_allocate
  by_cases h1 : bytes_to_sectors length < 12
  · rw [if_pos h1] at hf ⊢
    obtain ⟨r, hr, hb, hcr, _⟩ := inode_allocate_direct_succeeds d (bytes_to_sectors length) hc
      (by omega) hf
    exact ⟨r, hr, hb, hcr⟩
  · rw [if_neg h1] at hf ⊢
    obtain ⟨ra, ha0, hba, hca, hfa⟩ := inode_allocate_direct_succeeds d 12 hc (le_refl _)
      (by split_ifs at hf <;> omega)
    have ha : inode_allocate_direct st d 12 = Except.ok ra := ha0
    by_cases h2 : bytes_to_sectors length < 12 + 128
    · rw [if_pos h2] at hf ⊢
      have e : ((bytes_to_sectors length : Int) - 12) =
          ((bytes_to_sectors length - 12 : Nat) : Int) := by omega
      obtain ⟨rb, hb, hbb, hcb, _⟩ := inode_allocate_indirect_succeeds ra.2.1
        (bytes_to_sectors length - 12) hca (by omega) (by omega)
      rw [and_then_true ha hba, e]
      exact ⟨rb, hb, hbb, hcb⟩
    · rw [if_neg h2] at hf ⊢
      rw [if_pos (by omega)]
      have e : ((12 : Int) + 128 - 12) = ((128 : Nat) : Int) := by norm_num
      obtain ⟨rb, hb, hbb, hcb, hfb⟩ := inode_allocate_indirect_succeeds ra.2.1 128 hca
        (le_refl _) (by omega)
      have e' : ((bytes_to_sectors length : Int) - 12 + 128) =
          ((bytes_to_sectors length + 116 : Nat) : Int) := by omega
      obtain ⟨rc, hcc, hbc, hccache, _⟩ := inode_allocate_indirect_double_succeeds rb.2.1
        (bytes_to_sectors length + 116) hcb (by omega) (by omega)
      have hab : and_then (inode_allocate_direct st d 12) (fun st1 d1 =>
          inode_allocate_indirect st1 d1 (12 + 128 - 12)) = Except.ok rb := by
        rw [and_then_true ha hba, e]
        exact hb
      rw [and_then_true hab hbb, e']
      exact ⟨rc, hcc, hbc, hccache⟩

/-! ### The slots a successful allocation has filled -/

theorem indirect_block_exists {st : fs_state} {d : inode_disk} {isec : Nat} {sectors : Int}
    {r : fs_state × inode_disk × Bool} (hp : alloc_pre st d isec)
    (h : inode_allocate_indirect st d sectors = Except.ok r) :
    r.2.1.indirect_pointer ≠ 0 := by
  unfold inode_allocate_indirect at h
  obtain ⟨r0, h0, h⟩ := (except_bind_ok _ _ _).mp h
  obtain ⟨r1, h1, h⟩ := (except_bind_ok _ _ _).mp h
  obtain ⟨r2, h2, h⟩ := (except_bind_ok _ _ _).mp h
  have hne := (ensure_indirect_grows hp h0).2.2.2
  by_cases hb : r2.2.2 = false
  · rw [if_pos hb] at h
    cases h
    exact hne
  · rw [if_neg hb] at h
    obtain ⟨c3, _, h⟩ := (except_bind_ok _ _ _).mp h
    cases h
    exact hne

theorem double_block_exists {st : fs_state} {d : inode_disk} {isec : Nat} {sectors : Int}
    {r : fs_state × inode_disk × Bool} (hp : alloc_pre st d isec)
    (h : inode_allocate_indirect_double st d sectors = Except.ok r) :
    r.2.1.double_indirect_pointer ≠ 0 := by
  unfold inode_allocate_indirect_double at h
  obtain ⟨r0, h0, h⟩ := (except_bind_ok _ _ _).mp h
  obtain ⟨r1, h1, h⟩ := (except_bind_ok _ _ _).mp h
  obtain ⟨r2, h2, h⟩ := (except_bind_ok _ _ _).mp h
  have hne := (ensure_double_grows hp h0).2.2.2
  by_cases hb : r2.2.2 = false
  · rw [if_pos hb] at h
    cases h
    exact hne
  · rw [if_neg hb] at h
    obtain ⟨c3, _, h⟩ := (except_bind_ok _ _ _).mp h
    cases h
    exact hne

theorem inode_allocate_filled {st : fs_state} {d : inode_disk} {isec : Nat} {length : Int}
    {r : fs_state × inode_disk × Bool} (hp : alloc_pre st d isec)
    (h : inode_allocate st d length = Except.ok r) (hb : r.2.2 = true) :
    filled_tree (tree_value r.2.1 (cache_view r.1.cache)) (bytes_to_sectors length) := by
  have hbound := inode_allocate_true_bound h hb
  unfold inode_allocate at h
  by_cases h1 : bytes_to_sectors length < 12
  · rw [if_pos h1] at h
    obtain ⟨_, _, _, hf1⟩ := direct_tier hp (by omega) h hb
    exact ⟨fun i _ hi => hf1 i hi, fun h => absurd h (by omega),
      fun j _ hj => absurd hj (by omega), fun h => absurd h (by omega),
      fun h => absurd h (by omega)⟩
  · rw [if_neg h1] at h
    have e12 : (12 : Int) = ((12 : Nat) : Int) := rfl
    by_cases h2 : bytes_to_sectors length < 12 + 128
    · rw [if_pos h2] at h
      rcases and_then_ok h with ⟨_, hf⟩ | ⟨ra, ha, hba, hind⟩
      · rw [hf] at hb; cases hb
      · have ha' : inode_allocate_direct st d ((12 : Nat) : Int) = Except.ok ra := ha
        obtain ⟨hp1, hg1, hm1, hf1⟩ := direct_tier hp (le_refl 12) ha' hba
        have e : ((bytes_to_sectors length : Int) - 12) =
            ((bytes_to_sectors length - 12 : Nat) : Int) := by omega
        have hptr := indirect_block_exists hp1 hind
        rw [e] at hind
        obtain ⟨hp2, hg2, hm2, hf2⟩ := indirect_tier hp1 (by omega) hind hb
        refine ⟨fun i hi _ => ?_, fun _ => hptr, fun j _ hj => hf2 j (by omega),
          fun h => absurd h (by omega), fun h => absurd h (by omega)⟩
        rw [hg2.keep _ (hf1 i hi)]
        exact hf1 i hi
    · rw [if_neg h2] at h
      by_cases h3 : bytes_to_sectors length < 12 + 128 + 128 * 128
      · rw [if_pos h3] at h
        rcases and_then_ok h with ⟨_, hf⟩ | ⟨rb, hab, hbb, hdbl⟩
        · rw [hf] at hb; cases hb
        · rcases and_then_ok hab with ⟨_, hf⟩ | ⟨ra, ha, hba, hind⟩
          · rw [hf] at hbb; cases hbb
          · have ha' : inode_allocate_direct st d ((12 : Nat) : Int) = Except.ok ra := ha
            obtain ⟨hp1, hg1, hm1, hf1⟩ := direct_tier hp (le_refl 12) ha' hba
            have e : ((12 : Int) + 128 - 12) = ((128 : Nat) : Int) := by norm_num
            have hptr := indirect_block_exists hp1 hind
            rw [e] at hind
            obtain ⟨hp2, hg2, hm2, hf2⟩ := indirect_tier hp1 (le_refl 128) hind hbb
            have e' : ((bytes_to_sectors length : Int) - 12 + 128) =
                ((bytes_to_sectors length + 116 : Nat) : Int) := by omega
            have hdptr := double_block_exists hp2 hdbl
            rw [e'] at hdbl
            obtain ⟨hp3, hg3, hm3, hf3⟩ := double_tier hp2 (by omega) hdbl hb
            refine ⟨fun i hi _ => ?_, fun _ => ?_, fun j hj _ => ?_, fun _ => hdptr,
              fun _ q hq => hf3 q hq⟩
            · have h0 := hf1 i hi
              rw [hg3.keep _ (by rw [hg2.keep _ h0]; exact h0), hg2.keep _ h0]
              exact h0
            · have h0 : tree_value rb.2.1 (cache_view rb.1.cache) slot.ind ≠ 0 := hptr
              rw [hg3.keep _ h0]
              exact h0
            · have h0 := hf2 j hj
              rw [hg3.keep _ h0]
              exact h0
      · rw [if_neg h3] at h
        cases h
        cases hb

/-! ### Allocating again changes nothing -/

theorem allocate_direct_loop_noop : ∀ (n i : Nat) (st : fs_state) (d : inode_disk),
    i + n ≤ 12 → (∀ j, i ≤ j → j < i + n → direct_at d j ≠ 0) →
    allocate_direct_loop n (i : Int) st d = Except.ok (st, d, true) := by
  intro n
  induction n with
  | zero =>
    intro i st d _ _
    rfl
  | succ n ih =>
    intro i st d hi hne
    have e : ((i : Int) + 1) = ((i + 1 : Nat) : Int) := by omega
    unfold allocate_direct_loop
    rw [direct_get_at d i (by omega), bind_ok, if_pos (hne i (le_refl _) (by omega)), e]
    exact ih (i + 1) st d (by omega) (fun j h1 h2 => hne j (by omega) (by omega))

theorem allocate_entries_noop : ∀ (n i : Nat) (st : fs_state) (iid : Sector),
    i + n ≤ 128 → (∀ j, i ≤ j → j < i + n → word_at iid j ≠ 0) →
    allocate_entries n (i : Int) st iid = Except.ok (st, iid, true) := by
  intro n
  induction n with
  | zero =>
    intro i st iid _ _
    rfl
  | succ n ih =>
    intro i st iid hi hne
    have e : ((i : Int) + 1) = ((i + 1 : Nat) : Int) := by omega
    unfold allocate_entries
    rw [blocks_get_ok iid i (by omega), bind_ok, if_pos (hne i (le_refl _) (by omega)), e]
    exact ih (i + 1) st iid (by omega) (fun j h1 h2 => hne j (by omega) (by omega))

/-- Writing a sector's contents back leaves every sector as it was. -/
theorem write_back_same {c : cache_state} (hc : cache_inv c) (s : Nat) :
    ∃ c', buffer_cache_write c s (cache_view c s) = Except.ok c' ∧ cache_inv c' ∧
      ∀ t, cache_view c' t = cache_view c t := by
  obtain ⟨c', h, hc', hv⟩ := buffer_cache_write_spec hc s (cache_view c s)
  refine ⟨c', h, hc', fun t => ?_⟩
  rw [hv t]
  by_cases e : t = s
  · rw [if_pos e, e]
  · rw [if_neg e]

theorem inode_allocate_indirect_noop {st : fs_state} {d : inode_disk}
    (hc : cache_inv st.cache) (n : Nat) (hn : n ≤ 128) (hptr : d.indirect_pointer ≠ 0)
    (hent : ∀ j, j < n → word_at (cache_view st.cache d.indirect_pointer) j ≠ 0) :
    ∃ c', inode_allocate_indirect st d (n : Int) =
        Except.ok ({ cache := c', fmap := st.fmap }, d, true) ∧
      cache_inv c' ∧ ∀ t, cache_view c' t = cache_view st.cache t := by
  obtain ⟨c1, h1, hc1, hv1⟩ := buffer_cache_read_spec hc d.indirect_pointer
  have h2 := allocate_entries_noop n 0 { cache := c1, fmap := st.fmap }
    (cache_view st.cache d.indirect_pointer) (by omega) (fun j _ hj => hent j (by omega))
  obtain ⟨c3, h3, hc3, hv3⟩ := write_back_same hc1 d.indirect_pointer
  rw [hv1] at h3
  have he : ensure_indirect st d = Except.ok (st, d) := by
    unfold ensure_indirect
    rw [if_neg hptr]
  unfold inode_allocate_indirect
  rw [he, bind_ok, h1, bind_ok, Int.toNat_ofNat]
  have e0 : (0 : Int) = ((0 : Nat) : Int) := rfl
  rw [e0, h2, bind_ok, if_neg (by simp), h3, bind_ok]
  exact ⟨c3, rfl, hc3, fun t => (hv3 t).trans (hv1 t)⟩

theorem allocate_double_loop_noop : ∀ (fuel sectors index : Nat) (st : fs_state)
    (diid : Sector), cache_inv st.cache → sectors ≤ fuel →
    128 * index + sectors ≤ 128 * 128 →
    (∀ q, q < sectors → word_at diid (index + q / 128) ≠ 0 ∧
      word_at (cache_view st.cache (word_at diid (index + q / 128))) (q % 128) ≠ 0) →
    ∃ c', allocate_double_loop fuel (sectors : Int) (index : Int) st diid =
        Except.ok ({ cache := c', fmap := st.fmap }, diid, true) ∧
      cache_inv c' ∧ ∀ t, cache_view c' t = cache_view st.cache t := by
  intro fuel
  induction fuel with
  | zero =>
    intro sectors index st diid hc hs _ _
    have : sectors = 0 := by omega
    subst this
    exact ⟨st.cache, rfl, hc, fun _ => rfl⟩
  | succ fuel ih =>
    intro sectors index st diid hc hs hi hne
    unfold allocate_double_loop
    by_cases hpos : (sectors : Int) > 0
    · rw [if_pos hpos]
      have hidx : index < 128 := by omega
      have h0 := hne 0 (by omega)
      rw [Nat.zero_div, Nat.add_zero] at h0
      have he : ensure_sub st diid (index : Int) = Except.ok (st, diid) := by
        unfold ensure_sub
        rw [blocks_get_ok diid index hidx, bind_ok, if_neg h0.1]
      obtain ⟨c2, h2, hc2, hv2⟩ := buffer_cache_read_spec hc (word_at diid index)
      obtain ⟨m, hm1, hm2⟩ : ∃ m : Nat,
          (if (sectors : Int) > 128 then (128 : Int) else sectors) = (m : Int) ∧
            m = min sectors 128 := by
        by_cases h128 : (sectors : Int) > 128
        · exact ⟨128, by rw [if_pos h128]; exact ⟨rfl, by omega⟩⟩
        · exact ⟨sectors, by rw [if_neg h128]; exact ⟨rfl, by omega⟩⟩
      have h3 := allocate_entries_noop m 0 { cache := c2, fmap := st.fmap }
        (cache_view st.cache (word_at diid index)) (by omega) (fun j _ hj => by
          have := (hne j (by omega)).2
          rw [Nat.div_eq_of_lt (by omega), Nat.add_zero, Nat.mod_eq_of_lt (by omega)] at this
          exact this)
      obtain ⟨c4, h4, hc4, hv4⟩ := write_back_same hc2 (word_at diid index)
      rw [hv2] at h4
      have hview : cache_view c4 = cache_view st.cache :=
        funext fun t => (hv4 t).trans (hv2 t)
      have e1 : ((sectors : Int) - (m : Int)) = ((sectors - m : Nat) : Int) := by omega
      have e2 : ((index : Int) + 1) = ((index + 1 : Nat) : Int) := by omega
      obtain ⟨c', h5, hc5, hv5⟩ := ih (sectors - m) (index + 1)
        { cache := c4, fmap := st.fmap } diid hc4 (by omega) (by omega) (fun q hq => by
          have := hne (q + 128) (by omega)
          have ek : index + (q + 128) / 128 = index + 1 + q / 128 := by omega
          have em : (q + 128) % 128 = q % 128 := by omega
          rw [ek, em] at this
          show _ ∧ word_at (cache_view c4 _) _ ≠ 0
          rw [hview]
          exact this)
      have e0 : (0 : Int) = ((0 : Nat) : Int) := rfl
      rw [he, bind_ok, blocks_get_ok diid index hidx, bind_ok, h2, bind_ok, hm1,
        Int.toNat_ofNat, e0, h3, bind_ok, if_neg (by simp), h4, bind_ok, e1, e2, h5]
      exact ⟨c', rfl, hc5, fun t => by rw [hv5 t]; exact congrFun hview t⟩
    · have : sectors = 0 := by omega
      subst this
      rw [if_neg hpos]
      exact ⟨st.cache, rfl, hc, fun _ => rfl⟩

theorem inode_allocate_indirect_double_noop {st : fs_state} {d : inode_disk}
    (hc : cache_inv st.cache) (n : Nat) (hn : n ≤ 128 * 128)
    (hptr : d.double_indirect_pointer ≠ 0)
    (hent : ∀ q, q < n →
      word_at (cache_view st.cache d.double_indirect_pointer) (q / 128) ≠ 0 ∧
      word_at (cache_view st.cache
        (word_at (cache_view st.cache d.double_indirect_pointer) (q / 128))) (q % 128) ≠ 0) :
    ∃ c', inode_allocate_indirect_double st d (n : Int) =
        Except.ok ({ cache := c', fmap := st.fmap }, d, true) ∧
      cache_inv c' ∧ ∀ t, cache_view c' t = cache_view st.cache t := by
  obtain ⟨c1, h1, hc1, hv1⟩ := buffer_cache_read_spec hc d.double_indirect_pointer
  have hview1 : cache_view c1 = cache_view st.cache := funext hv1
  obtain ⟨c2, h2, hc2, hv2⟩ := allocate_double_loop_noop n n 0
    { cache := c1, fmap := st.fmap } (cache_view st.cache d.double_indirect_pointer) hc1
    (le_refl _) (by omega) (fun q hq => by
      have := hent q hq
      rw [Nat.zero_add]
      show _ ∧ word_at (cache_view c1 _) _ ≠ 0
      rw [hview1]
      exact this)
  have hv2' : ∀ t, cache_view c2 t = cache_view c1 t := hv2
  obtain ⟨c3, h3, hc3, hv3⟩ := write_back_same hc2 d.double_indirect_pointer
  rw [hv2', hv1] at h3
  have he : ensure_double st d = Except.ok (st, d) := by
    unfold ensure_double
    rw [if_neg hptr]
  unfold inode_allocate_indirect_double
  rw [he, bind_ok, h1, bind_ok, Int.toNat_ofNat]
  have e0 : (0 : Int) = ((0 : Nat) : Int) := rfl
  rw [e0, h2, bind_ok, if_neg (by simp), h3, bind_ok]
  exact ⟨c3, rfl, hc3, fun t => ((hv3 t).trans (hv2' t)).trans (hv1 t)⟩

theorem filled_entry_word {d : inode_disk} {view : Nat → Sector} {j : Nat}
    (h : tree_value d view (slot.ind_entry j) ≠ 0) :
    word_at (view d.indirect_pointer) j ≠ 0 := by
  rw [tree_value_ind_entry] at h
  by_cases h0 : d.indirect_pointer = 0
  · rw [if_pos h0] at h; exact absurd rfl h
  · rw [if_neg h0] at h; exact h

theorem filled_sub_word {d : inode_disk} {view : Nat → Sector} {k j : Nat}
    (h : tree_value d view (slot.sub_entry k j) ≠ 0) :
    word_at (view d.double_indirect_pointer) k ≠ 0 ∧
      word_at (view (word_at (view d.double_indirect_pointer) k)) j ≠ 0 := by
  rw [tree_value_sub_entry] at h
  by_cases h0 : d.double_indirect_pointer = 0
  · rw [if_pos h0] at h; exact absurd rfl h
  · rw [if_neg h0] at h
    by_cases h1 : word_at (view d.double_indirect_pointer) k = 0
    · rw [if_pos h1] at h; exact absurd rfl h
    · rw [if_neg h1] at h; exact ⟨h1, h⟩

/-- On a tree whose slots for a file of `bytes_to_sectors length` sectors are filled,
`inode_allocate` returns true and changes neither the free map, nor the inode, nor any
sector. -/
theorem inode_allocate_noop {st : fs_state} {d : inode_disk} {length : Int}
    (hc : cache_inv st.cache) (hs : bytes_to_sectors length ≤ 16268)
    (hfill : filled_tree (tree_value d (cache_view st.cache)) (bytes_to_sectors length)) :
    ∃ c', inode_allocate st d length = Except.ok ({ cache := c', fmap := st.fmap }, d, true) ∧
      cache_inv c' ∧ ∀ t, cache_view c' t = cache_view st.cache t := by
  unfold inode_allocate
  by_cases h1 : bytes_to_sectors length < 12
  · rw [if_pos h1]
    unfold inode_allocate_direct
    rw [toNat_small _ (by omega)]
    have := allocate_direct_loop_noop (bytes_to_sectors length) 0 st d (by omega)
      (fun j _ hj => hfill.direct j (by omega) (by omega))
    exact ⟨st.cache, this, hc, fun _ => rfl⟩
  · rw [if_neg h1]
    have hd : inode_allocate_direct st d 12 = Except.ok (st, d, true) := by
      unfold inode_allocate_direct
      have e : ((12 : Int) % 4294967296).toNat = 12 := by decide
      rw [e]
      exact allocate_direct_loop_noop 12 0 st d (by omega)
        (fun j _ hj => hfill.direct j (by omega) (by omega))
    by_cases h2 : bytes_to_sectors length < 12 + 128
    · rw [if_pos h2, and_then_true hd rfl]
      have e : ((bytes_to_sectors length : Int) - 12) =
          ((bytes_to_sectors length - 12 : Nat) : Int) := by omega
      rw [e]
      exact inode_allocate_indirect_noop hc (bytes_to_sectors length - 12) (by omega)
        (hfill.ind (by omega))
        (fun j hj => filled_entry_word (hfill.ind_entry j (by omega) (by omega)))
    · rw [if_neg h2, if_pos (by omega)]
      have e : ((12 : Int) + 128 - 12) = ((128 : Nat) : Int) := by norm_num
      obtain ⟨c1, hi, hc1, hv1⟩ := inode_allocate_indirect_noop hc 128 (le_refl _)
        (hfill.ind (by omega))
        (fun j hj => filled_entry_word (hfill.ind_entry j hj (by omega)))
      have hview1 : cache_view c1 = cache_view st.cache := funext hv1
      have hab : and_then (inode_allocate_direct st d 12) (fun st1 d1 =>
          inode_allocate_indirect st1 d1 (12 + 128 - 12)) =
          Except.ok ({ cache := c1, fmap := st.fmap }, d, true) := by
        rw [and_then_true hd rfl, e]
        exact hi
      have e' : ((bytes_to_sectors length : Int) - 12 + 128) =
          ((bytes_to_sectors length + 116 : Nat) : Int) := by omega
      rw [and_then_true hab rfl, e']
      obtain ⟨c2, h2', hc2, hv2⟩ := @inode_allocate_indirect_double_noop
        { cache := c1, fmap := st.fmap } d hc1 (bytes_to_sectors length + 116) (by omega)
        (hfill.dbl (by omega)) (fun q hq => by
          show word_at (cache_view c1 _) _ ≠ 0 ∧ word_at (cache_view c1 _) _ ≠ 0
          rw [hview1]
          exact filled_sub_word (hfill.sub_entry (by omega) q hq))
      exact ⟨c2, h2', hc2, fun t => (hv2 t).trans (hv1 t)⟩

/-- C15: in a state in order for the inode (cache invariant, free map in order, pointer tree
in order), whenever `inode_allocate (disk_inode, length)` has returned true, calling
`inode_allocate (disk_inode, length)` again returns true, leaves the free map as it is (no
further sector is reserved), leaves the inode as it is (every pointer in it), and leaves
every sector as seen through the cache as it is (so every pointer in the index blocks). -/
theorem allocate_twice {st : fs_state} {d : inode_disk} {isec : Nat} {length : Int}
    {r : fs_state × inode_disk × Bool} (hp : alloc_pre st d isec)
    (h : inode_allocate st d length = Except.ok r) (hb : r.2.2 = true) :
    ∃ r', inode_allocate r.1 r.2.1 length = Except.ok r' ∧ r'.2.2 = true ∧
      r'.1.fmap = r.1.fmap ∧ r'.2.1 = r.2.1 ∧
      ∀ t, cache_view r'.1.cache t = cache_view r.1.cache t := by
  obtain ⟨hp2, _, _, _⟩ := inode_allocate_grows hp h hb
  obtain ⟨c', h2, _, hv⟩ := inode_allocate_noop hp2.cache (inode_allocate_true_bound h hb)
    (inode_allocate_filled hp h hb)
  exact ⟨_, h2, rfl, rfl, rfl, hv⟩

/-! ### Allocation on concrete free maps -/

theorem prefix_fmap_ok (n k : Nat) (h0 : 0 < k) (hk : k ≤ n) (hn : n ≤ 4294967295) :
    fmap_ok { size := n, used := fun i => decide (i < k) } := by
  refine ⟨by simpa using h0, hn, fun x hx => ?_⟩
  have : x < k := by simpa using hx
  show x < n
  omega

theorem roomy_fmap_ok : fmap_ok roomy_fmap := prefix_fmap_ok 1024 2 (by omega) (by omega) (by omega)

theorem roomy_free : free_count roomy_state.fmap = 1022 := free_count_prefix 1024 2

theorem allocate_none_of_full {fm : free_map} (h : free_count fm = 0) :
    free_map_allocate fm = none := by
  cases hf : free_map_allocate fm with
  | none => rfl
  | some p =>
    have := free_count_allocate hf
    omega

theorem direct_at_fresh (length type : Int) (j : Nat) :
    direct_at (fresh_inode_disk length type) j = 0 := fresh_value length type (fun _ => zeros)
      (slot.direct j)

/-- On an inode whose direct pointers from `i` on are 0, the loop of `inode_allocate_direct`
reserves exactly one sector for each of its `n` turns. -/
theorem allocate_direct_loop_fresh : ∀ (n i : Nat) (st : fs_state) (d : inode_disk),
    cache_inv st.cache → i + n ≤ 12 → n ≤ free_count st.fmap →
    (∀ j, i ≤ j → direct_at d j = 0) →
    ∃ r, allocate_direct_loop n (i : Int) st d = Except.ok r ∧ r.2.2 = true ∧
      cache_inv r.1.cache ∧ free_count r.1.fmap + n = free_count st.fmap ∧
      r.2.1.indirect_pointer = d.indirect_pointer := by
  intro n
  induction n with
  | zero =>
    intro i st d hc _ _ _
    exact ⟨(st, d, true), rfl, rfl, hc, rfl, rfl⟩
  | succ n ih =>
    intro i st d hc hi hn hz
    have hi12 : i < 12 := by omega
    have e : ((i : Int) + 1) = ((i + 1 : Nat) : Int) := by omega
    unfold allocate_direct_loop
    rw [direct_get_at d i hi12, bind_ok, e, if_neg (by rw [hz i (le_refl _)]; simp)]
    obtain ⟨p, hp⟩ := @allocate_of_free st.fmap (by omega)
    have hcount := free_count_allocate hp
    obtain ⟨c1, hw, hc1, _⟩ := buffer_cache_write_spec hc p.1 zeros
    obtain ⟨r, h1, h2, h3, h4, h5⟩ := ih (i + 1) { cache := c1, fmap := p.2 }
      { d with direct_blocks := Function.update d.direct_blocks ⟨i, hi12⟩ p.1 } hc1
      (by omega) (by show n ≤ free_count p.2; omega) (fun j hj => by
        rw [direct_at_update d i hi12 p.1 j, if_neg (by omega)]
        exact hz j (by omega))
    simp only [hp, direct_set_ok d i hi12, bind_ok, hw]
    exact ⟨r, h1, h2, h3, by
      have : free_count r.1.fmap + n = free_count p.2 := h4
      omega, h5⟩

/-- With exactly 12 free sectors, `inode_allocate` for a fresh inode of 13 sectors reserves
the 12 direct sectors and then reaches `PANIC ("inode_allocate_indirect failed\n")`. -/
theorem twelve_allocate_panics (c : cache_state) (hc : cache_inv c) (type : Int) :
    inode_allocate { cache := c, fmap := twelve_fmap } (fresh_inode_disk (13 * 512) type)
      (13 * 512) = Except.error Fault.kernel_panic := by
  have hfree : free_count twelve_fmap = 12 := free_count_prefix 14 2
  obtain ⟨r, h1, h2, h3, h4, h5⟩ := allocate_direct_loop_fresh 12 0
    { cache := c, fmap := twelve_fmap } (fresh_inode_disk (13 * 512) type) hc (by omega)
    (by show 12 ≤ free_count twelve_fmap; omega) (fun j _ => direct_at_fresh _ _ j)
  have h4' : free_count r.1.fmap + 12 = free_count twelve_fmap := h4
  have hd : inode_allocate_direct { cache := c, fmap := twelve_fmap }
      (fresh_inode_disk (13 * 512) type) 12 = Except.ok r := h1
  have hnone := @allocate_none_of_full r.1.fmap (by omega)
  have hi : inode_allocate_indirect r.1 r.2.1 (((13 : Nat) : Int) - 12) =
      Except.error Fault.kernel_panic := by
    unfold inode_allocate_indirect ensure_indirect
    rw [if_pos (by rw [h5]; rfl)]
    simp only [hnone]
    rfl
  unfold inode_allocate
  have hb : bytes_to_sectors (13 * 512) = 13 := by decide
  rw [hb, if_neg (by omega), if_pos (by omega), and_then_true hd h2]
  exact hi

/-- After a true allocation on a fresh inode, `byte_to_sector` at the start of sector index
`j` of the file returns the sector of the slot `data_slot j`. -/
theorem allocated_lookup {st : fs_state} {length type : Int}
    {r : fs_state × inode_disk × Bool} (hc : cache_inv st.cache) (hf : fmap_ok st.fmap)
    (hl0 : 0 ≤ length) (hl1 : length ≤ 2147483647)
    (h : inode_allocate st (fresh_inode_disk length type) length = Except.ok r)
    (hb : r.2.2 = true) (ino : inode) (hino : ino.data = r.2.1) (j : Nat)
    (hj : j < bytes_to_sectors length) :
    ∃ c', byte_to_sector r.1.cache ino (512 * (j : Int)) =
      Except.ok (c', tree_value r.2.1 (cache_view r.1.cache) (data_slot j)) := by
  have hp := fresh_alloc_pre hc hf length type 0 hf.zero_used
  obtain ⟨hp2, _, hm, hmap⟩ := inode_allocate_grows hp h hb
  have hbound := inode_allocate_true_bound h hb
  have hsec := bytes_to_sectors_eq length hl0 (by omega)
  have hlen : ino.data.length = length := by rw [hino]; exact hm.1
  obtain ⟨c', h1, _, _⟩ := byte_to_sector_inside hp2.cache ino (512 * (j : Int)) (by omega)
    (by rw [hlen]; omega) (by omega)
  rw [index_of_sector_start, hino, block_ptr_eq (hmap j hj)] at h1
  exact ⟨c', h1⟩

theorem allocate_maps_fresh_sectors_witness :
    ∃ r, inode_allocate roomy_state (fresh_inode_disk 70000 0) 70000 = Except.ok r ∧
      r.2.2 = true ∧
      ∃ c' s, byte_to_sector r.1.cache (inode.mk 1 1 false 0 r.2.1)
          (512 * ((136 : Nat) : Int)) = Except.ok (c', s) ∧
        s ≠ 0 ∧ r.1.fmap.used s = true ∧ roomy_state.fmap.used s = false := by
  obtain ⟨r, h, hb, _⟩ := @inode_allocate_succeeds roomy_state (fresh_inode_disk 70000 0)
    70000 (init_inv demo_device) (by decide) (by rw [roomy_free]; decide)
  obtain ⟨c', s, h1, h2, h3, h4, _⟩ := allocate_maps_fresh_sectors (init_inv demo_device)
    roomy_fmap_ok (by decide) (by decide) h hb (inode.mk 1 1 false 0 r.2.1) rfl 136
    (by decide)
  exact ⟨r, h, hb, c', s, h1, h2, h3, h4⟩

theorem allocate_twice_witness :
    ∃ r r', inode_allocate roomy_state (fresh_inode_disk 70000 0) 70000 = Except.ok r ∧
      r.2.2 = true ∧ inode_allocate r.1 r.2.1 70000 = Except.ok r' ∧ r'.2.2 = true ∧
      r'.1.fmap = r.1.fmap ∧ r'.2.1 = r.2.1 := by
  obtain ⟨r, h, hb, _⟩ := @inode_allocate_succeeds roomy_state (fresh_inode_disk 70000 0)
    70000 (init_inv demo_device) (by decide) (by rw [roomy_free]; decide)
  have hp : alloc_pre roomy_state (fresh_inode_disk 70000 0) 1 :=
    fresh_alloc_pre (init_inv demo_device) roomy_fmap_ok 70000 0 1 rfl
  obtain ⟨r', h1, h2, h3, h4, _⟩ := allocate_twice hp h hb
  exact ⟨r, r', h, hb, h1, h2, h3, h4⟩

/-- C17, with 12 free sectors: for a fresh inode of 13 sectors on a free map with exactly 12
free sectors, neither `inode_allocate` nor `inode_create` returns false: the 12 direct
sectors are reserved, the free map cannot supply the indirect block, and both end in
`PANIC ("inode_allocate_indirect failed\n")`. -/
theorem allocate_index_block_panics (type : Int) :
    inode_allocate { cache := demo_cache, fmap := twelve_fmap }
        (fresh_inode_disk (13 * 512) type) (13 * 512) = Except.error Fault.kernel_panic ∧
      inode_create { cache := demo_cache, fmap := twelve_fmap } 1 (13 * 512) type =
        Except.error Fault.kernel_panic := by
  have h := twelve_allocate_panics demo_cache (init_inv demo_device) type
  refine ⟨h, ?_⟩
  unfold inode_create
  rw [if_neg (by decide), h, bind_error]

/-- C14, at exactly 12 and exactly 140 sectors: on a free map with room, `inode_allocate` on a
fresh inode returns true for a file of exactly 12 sectors and has reserved an indirect block
(a sector that was free is now the inode's `indirect_pointer`), and for a file of exactly 140
sectors it has reserved a double-indirect block: the tiers are chosen by `sectors < LAYER_0`
and `sectors < LAYER_1`. -/
theorem exact_tier_reserves_index_block :
    (bytes_to_sectors (12 * 512) = 12 ∧
      ∃ r, inode_allocate roomy_state (fresh_inode_disk (12 * 512) 0) (12 * 512) =
          Except.ok r ∧ r.2.2 = true ∧ r.2.1.indirect_pointer ≠ 0 ∧
        roomy_state.fmap.used r.2.1.indirect_pointer = false ∧
        r.1.fmap.used r.2.1.indirect_pointer = true) ∧
    (bytes_to_sectors (140 * 512) = 140 ∧
      ∃ r, inode_allocate roomy_state (fresh_inode_disk (140 * 512) 0) (140 * 512) =
          Except.ok r ∧ r.2.2 = true ∧ r.2.1.double_indirect_pointer ≠ 0 ∧
        roomy_state.fmap.used r.2.1.double_indirect_pointer = false ∧
        r.1.fmap.used r.2.1.double_indirect_pointer = true) := by
  have hc := init_inv demo_device
  refine ⟨⟨by decide, ?_⟩, ⟨by decide, ?_⟩⟩
  · obtain ⟨r, h, hb, _⟩ := @inode_allocate_succeeds roomy_state
      (fresh_inode_disk (12 * 512) 0) (12 * 512) hc (by decide) (by rw [roomy_free]; decide)
    have hp : alloc_pre roomy_state (fresh_inode_disk (12 * 512) 0) 1 :=
      fresh_alloc_pre hc roomy_fmap_ok (12 * 512) 0 1 rfl
    have hfill := inode_allocate_filled hp h hb
    obtain ⟨_, hg, _, _⟩ := inode_allocate_grows hp h hb
    have hne : r.2.1.indirect_pointer ≠ 0 := hfill.ind (by decide)
    have hfr := hg.filled slot.ind (fresh_value _ _ _ _) hne
    exact ⟨r, h, hb, hne, hfr.1, hfr.2⟩
  · obtain ⟨r, h, hb, _⟩ := @inode_allocate_succeeds roomy_state
      (fresh_inode_disk (140 * 512) 0) (140 * 512) hc (by decide) (by rw [roomy_free]; decide)
    have hp : alloc_pre roomy_state (fresh_inode_disk (140 * 512) 0) 1 :=
      fresh_alloc_pre hc roomy_fmap_ok (140 * 512) 0 1 rfl
    have hfill := inode_allocate_filled hp h hb
    obtain ⟨_, hg, _, _⟩ := inode_allocate_grows hp h hb
    have hne : r.2.1.double_indirect_pointer ≠ 0 := hfill.dbl (by decide)
    have hfr := hg.filled slot.dbl (fresh_value _ _ _ _) hne
    exact ⟨r, h, hb, hne, hfr.1, hfr.2⟩

/-- C13, for a file of 141 sectors: on a free map with room, `inode_create` succeeds, and a
sector `x` that was free before the call is taken after it, is no index block, and is the
sector of no sector index below 141: `x` is entry 0 of the first block the double-indirect
block names, which `inode_allocate_indirect_double` fills because `sectors-LAYER_1` is
`sectors - 12 + 128`, while `byte_to_sector` starts at entry 0 of the third block. -/
theorem allocate_leaks_data_sectors :
    ∃ r st1 x, inode_allocate roomy_state (fresh_inode_disk (141 * 512) 0) (141 * 512) =
        Except.ok r ∧
      inode_create roomy_state 1 (141 * 512) 0 = Except.ok (st1, true) ∧
      st1.fmap = r.1.fmap ∧ roomy_state.fmap.used x = false ∧ st1.fmap.used x = true ∧
      x ≠ r.2.1.indirect_pointer ∧ x ≠ r.2.1.double_indirect_pointer ∧
      (∀ k, x ≠ word_at (cache_view r.1.cache r.2.1.double_indirect_pointer) k) ∧
      ∀ i : Nat, i < 141 → ∃ c' s, byte_to_sector r.1.cache (inode.mk 1 1 false 0 r.2.1)
        (512 * (i : Int)) = Except.ok (c', s) ∧ s ≠ x := by
  have hc := init_inv demo_device
  obtain ⟨r, h, hb, hcr⟩ := @inode_allocate_succeeds roomy_state
    (fresh_inode_disk (141 * 512) 0) (141 * 512) hc (by decide) (by rw [roomy_free]; decide)
  have hp : alloc_pre roomy_state (fresh_inode_disk (141 * 512) 0) 1 :=
      fresh_alloc_pre hc roomy_fmap_ok (141 * 512) 0 1 rfl
  have hfill := inode_allocate_filled hp h hb
  obtain ⟨hp2, hg, _, hmap⟩ := inode_allocate_grows hp h hb
  obtain ⟨c1, hw, _, _⟩ := buffer_cache_write_spec hcr 1 r.2.1.to_sector
  have hs : bytes_to_sectors (141 * 512) = 141 := by decide
  have hx : tree_value r.2.1 (cache_view r.1.cache) (slot.sub_entry 0 0) ≠ 0 := by
    have := hfill.sub_entry (by rw [hs]; omega) 0 (by omega)
    exact this
  have hfr := hg.filled _ (fresh_value _ _ _ _) hx
  have hidx := data_sector_not_index hp2.tree (a := slot.sub_entry 0 0) trivial hx
  have hdbl : r.2.1.double_indirect_pointer ≠ 0 := hfill.dbl (by rw [hs]; omega)
  refine ⟨r, { cache := c1, fmap := r.1.fmap }, _, h, ?_, rfl, hfr.1, hfr.2,
    fun e => hidx slot.ind trivial e.symm, fun e => hidx slot.dbl trivial e.symm,
    fun k e => ?_, fun i hi => ?_⟩
  · unfold inode_create
    rw [if_neg (by decide), h, bind_ok, if_neg (by simp [hb]), hw, bind_ok]
  · have := hidx (slot.sub k) trivial
    rw [tree_value_sub, if_neg hdbl] at this
    exact this e.symm
  · obtain ⟨c', hl⟩ := allocated_lookup hc roomy_fmap_ok (by decide) (by decide) h hb
      (inode.mk 1 1 false 0 r.2.1) rfl i (by rw [hs]; exact hi)
    refine ⟨c', _, hl, fun e => ?_⟩
    have hsl := hp2.tree.inj _ _ (hmap i (by rw [hs]; exact hi)) e
    unfold data_slot at hsl
    split_ifs at hsl
    all_goals first | cases hsl | (injection hsl with e1 e2; omega)


/-! ## Invariants of the reachable cache states -/

theorem apply_call_inv {c : cache_state} (hi : cache_inv c) (call : cache_call) :
    ∃ c', apply_call c call = Except.ok c' ∧ cache_inv c' := by
  cases call with
  | read s =>
    obtain ⟨c', h1, h2, _⟩ := buffer_cache_read_spec hi s
    exact ⟨c', by simp only [apply_call, h1, Except.bind], h2⟩
  | write s b =>
    obtain ⟨c', h1, h2, _⟩ := buffer_cache_write_spec hi s b
    exact ⟨c', by simp only [apply_call, h1], h2⟩
  | close =>
    obtain ⟨c', h1, h2, _⟩ := buffer_cache_close_spec hi
    exact ⟨c', by simp only [apply_call, h1], h2⟩

theorem run_calls_inv : ∀ (calls : List cache_call) (c : cache_state), cache_inv c →
    ∃ c', run_calls calls c = Except.ok c' ∧ cache_inv c' := by
  intro calls
  induction calls with
  | nil => intro c hi; exact ⟨c, rfl, hi⟩
  | cons call calls ih =>
    intro c hi
    obtain ⟨c1, h1, h2⟩ := apply_call_inv hi call
    obtain ⟨c', h3, h4⟩ := ih c1 h2
    exact ⟨c', by simp only [run_calls, h1, Except.bind, h3], h4⟩

/-- C24: from the zero-initialised cache after `buffer_cache_init` over any device, every
sequence of `buffer_cache_read`, `buffer_cache_write` and `buffer_cache_close` calls returns,
and in the state it reaches no two slots in use hold the same `block_index`. -/
theorem resident_sectors_unique (dev : Device) (calls : List cache_call) :
    ∃ c, run_calls calls (buffer_cache_init (boot_cache dev)) = Except.ok c ∧
      ∀ i j : Fin 64, (c.buffer_cache_list i).inuse = true →
        (c.buffer_cache_list j).inuse = true →
        (c.buffer_cache_list i).block_index = (c.buffer_cache_list j).block_index → i = j := by
  obtain ⟨c, h1, h2⟩ := run_calls_inv calls _ (init_inv dev)
  exact ⟨c, h1, h2.uniq⟩

/-- C25: from the zero-initialised cache after `buffer_cache_init` over any device, after any
sequence of reads and writes `buffer_cache_close` returns, and then no slot has
`dirty = true`. -/
theorem close_leaves_no_dirty (dev : Device) (ops : List cache_op) :
    ∃ c1 c2, run_ops ops (buffer_cache_init (boot_cache dev)) = Except.ok c1 ∧
      buffer_cache_close c1 = Except.ok c2 ∧
      ∀ i : Fin 64, (c2.buffer_cache_list i).dirty = false := by
  obtain ⟨c1, h1, h2, _⟩ := run_ops_spec ops _ (init_inv dev)
  obtain ⟨c2, h3, _, h4, _⟩ := buffer_cache_close_spec h2
  exact ⟨c1, c2, h1, h3, h4⟩

theorem flush_no_assert {c : cache_state} (hi : cache_inv c) (v : Fin 64) :
    buffer_cache_flush c v = Except.ok (flush_write c v) ∨
      (c.buffer_cache_list v).dirty = false := by
  cases hd : (c.buffer_cache_list v).dirty with
  | false => exact Or.inr rfl
  | true => exact Or.inl (flush_keeps hi v hd)

/-- C26: from the zero-initialised cache after `buffer_cache_init` over any device, every
sequence of `buffer_cache_read`, `buffer_cache_write` and `buffer_cache_close` calls returns
(so no `ASSERT` failed on the way), in the state reached every dirty slot is in use,
`buffer_cache_flush` passes both its `ASSERT`s on every dirty slot, and `buffer_cache_evict`
and `buffer_cache_close` called in that state return. -/
theorem dirty_slots_in_use (dev : Device) (calls : List cache_call) :
    ∃ c, run_calls calls (buffer_cache_init (boot_cache dev)) = Except.ok c ∧
      (∀ i : Fin 64, (c.buffer_cache_list i).dirty = true →
        (c.buffer_cache_list i).inuse = true ∧
          buffer_cache_flush c i = Except.ok (flush_write c i)) ∧
      (∃ r, buffer_cache_evict c = Except.ok r) ∧
      ∃ c', buffer_cache_close c = Except.ok c' := by
  obtain ⟨c, h1, h2⟩ := run_calls_inv calls _ (init_inv dev)
  refine ⟨c, h1, fun i hd => ⟨h2.dirty_inuse i hd, flush_keeps h2 i hd⟩, ?_, ?_⟩
  · obtain ⟨c', v, h3, _⟩ := evict_keeps h2
    exact ⟨_, h3⟩
  · obtain ⟨c', h3, _⟩ := buffer_cache_close_spec h2
    exact ⟨c', h3⟩

/-! ## The first loop of `buffer_cache_evict` -/

theorem demo_hand_inv : cache_inv demo_hand_cache := by
  refine ⟨?_, ?_, ?_⟩
  · intro i j hi hj _
    have h1 : i = 0 := by
      by_contra hne
      simp [demo_hand_cache, hne, zero_entry] at hi
    have h2 : j = 0 := by
      by_contra hne
      simp [demo_hand_cache, hne, zero_entry] at hj
    rw [h1, h2]
  · intro i hd
    by_cases h : i = 0
    · simp [demo_hand_cache, h] at hd
    · simp [demo_hand_cache, h, zero_entry] at hd
  · intro i hu _
    by_cases h : i = 0
    · simp [demo_hand_cache, h]
    · simp [demo_hand_cache, h, zero_entry] at hu

/-- Outside the states the cache reaches from start-up: `demo_hand_cache` is set by hand, with
the hand on slot 0, which is in use, not pinned and holds sector 7, and the other 63 slots not
in use. The first loop of `buffer_cache_evict` tests only the slot under the hand, so here the
call returns slot 0 and clears its `inuse` flag. -/
theorem evict_takes_resident_slot :
    cache_inv demo_hand_cache ∧
      (∀ i : Fin 64, i ≠ 0 → (demo_hand_cache.buffer_cache_list i).inuse = false) ∧
      holds demo_hand_cache 0 7 ∧
      ∃ c, buffer_cache_evict demo_hand_cache = Except.ok (c, 0) ∧
        (c.buffer_cache_list 0).inuse = false ∧ ∀ i, ¬ holds c i 7 := by
  have hfree : ∀ i : Fin 64, i ≠ 0 → (demo_hand_cache.buffer_cache_list i).inuse = false := by
    intro i hne
    simp [demo_hand_cache, hne, zero_entry]
  obtain ⟨c, v, h1, hk, hu, _⟩ := evict_keeps demo_hand_inv
  have h0 : ∃ c0, buffer_cache_evict demo_hand_cache = Except.ok (c0, 0) := ⟨_, rfl⟩
  obtain ⟨c0, h0⟩ := h0
  rw [h1] at h0
  have hv : v = 0 := by
    injection h0 with h0
    exact congrArg Prod.snd h0
  subst hv
  refine ⟨demo_hand_inv, hfree, ⟨rfl, rfl⟩, c, h1, hu, ?_⟩
  intro i h
  by_cases hi : i = 0
  · subst hi
    have h2 := h.2
    rw [hu] at h2
    exact absurd h2 (by decide)
  · have h2 := (hk.held i 7 h).2
    rw [hfree i hi] at h2
    exact absurd h2 (by decide)

/-! ## The clock sweep, slot by slot -/

theorem evict_scan_none (c : cache_state)
    (h : (c.buffer_cache_list c.clock_pin).inuse = true) : ∀ n, evict_scan c n = none := by
  intro n
  induction n with
  | zero => rfl
  | succ n ih =>
    unfold evict_scan
    rw [if_neg (by rw [h]; decide)]
    exact ih

theorem hand_plus_zero (c : cache_state) : hand_plus c 0 = c.clock_pin := by
  apply Fin.ext
  show (c.clock_pin.val + 0) % 64 = c.clock_pin.val
  have := c.clock_pin.isLt
  omega

theorem hand_plus_full (c : cache_state) : hand_plus c 64 = c.clock_pin := by
  apply Fin.ext
  show (c.clock_pin.val + 64) % 64 = c.clock_pin.val
  have := c.clock_pin.isLt
  omega

theorem hand_plus_inj (c : cache_state) {m n : Nat} (hm : m < 64) (hn : n < 64)
    (h : hand_plus c m = hand_plus c n) : m = n := by
  have h1 : (c.clock_pin.val + m) % 64 = (c.clock_pin.val + n) % 64 := congrArg Fin.val h
  have := c.clock_pin.isLt
  omega

theorem hand_plus_step (c : cache_state) (m : Nat) :
    hand_plus c m + 1 = hand_plus c (m + 1) := by
  apply Fin.ext
  rw [Fin.val_add]
  show ((c.clock_pin.val + m) % 64 + 1) % 64 = (c.clock_pin.val + (m + 1)) % 64
  omega

theorem sweep_iter_swept (c : cache_state) : ∀ k, swept c (sweep_step^[k] c) k := by
  intro k
  induction k with
  | zero =>
    refine ⟨(hand_plus_zero c).symm, same_data_refl c, ?_, fun _ _ => rfl⟩
    rintro j ⟨m, hm, _⟩
    omega
  | succ k ih =>
    rw [Function.iterate_succ_apply']
    generalize sweep_step^[k] c = c1 at ih
    refine ⟨?_, same_data_trans ih.same (sweep_step_same c1), ?_, ?_⟩
    · show c1.clock_pin + 1 = _
      rw [ih.hand, hand_plus_step]
    · rintro j ⟨m, hm, hj⟩
      by_cases hjk : j = c1.clock_pin
      · subst hjk
        simp [sweep_step, set_entry]
      · have : (sweep_step c1).buffer_cache_list j = c1.buffer_cache_list j :=
          set_entry_other _ _ hjk
        rw [this]
        apply ih.cleared j
        refine ⟨m, ?_, hj⟩
        rcases Nat.lt_succ_iff_lt_or_eq.mp hm with h | h
        · exact h
        · subst h
          exact absurd (hj.trans ih.hand.symm) hjk
    · intro j hj
      have hjk : j ≠ c1.clock_pin := by
        intro h
        exact hj ⟨k, Nat.lt_succ_self k, h.trans ih.hand⟩
      have : (sweep_step c1).buffer_cache_list j = c1.buffer_cache_list j :=
        set_entry_other _ _ hjk
      rw [this]
      apply ih.kept j
      rintro ⟨m, hm, hm2⟩
      exact hj ⟨m, Nat.lt_succ_of_lt hm, hm2⟩

theorem clock_sweep_stops : ∀ (k fuel : Nat) (c : cache_state), k < fuel →
    (∀ m, m < k →
      ((sweep_step^[m] c).buffer_cache_list (sweep_step^[m] c).clock_pin).pinned = true) →
    ((sweep_step^[k] c).buffer_cache_list (sweep_step^[k] c).clock_pin).pinned = false →
    clock_sweep fuel c = Except.ok (sweep_step^[k] c) := by
  intro k
  induction k with
  | zero =>
    intro fuel c hf _ h0
    obtain ⟨f, rfl⟩ : ∃ f, fuel = f + 1 := ⟨fuel - 1, by omega⟩
    unfold clock_sweep
    have h0' : (c.buffer_cache_list c.clock_pin).pinned = false := h0
    rw [if_pos h0']
    rfl
  | succ k ih =>
    intro fuel c hf hp h0
    obtain ⟨f, rfl⟩ : ∃ f, fuel = f + 1 := ⟨fuel - 1, by omega⟩
    unfold clock_sweep
    have h1 := hp 0 (Nat.succ_pos k)
    rw [if_neg (by
      show ¬ (c.buffer_cache_list c.clock_pin).pinned = false
      have h1' : (c.buffer_cache_list c.clock_pin).pinned = true := h1
      rw [h1']; decide)]
    rw [Function.iterate_succ_apply]
    apply ih f (sweep_step c) (by omega)
    · intro m hm
      have := hp (m + 1) (by omega)
      rw [Function.iterate_succ_apply] at this
      exact this
    · rw [Function.iterate_succ_apply] at h0
      exact h0

/-- The sweep from `c` stops after passing over `k` slots, where `k` is the number of pinned
slots in a row from the hand on (at most 64). -/
theorem clock_sweep_spec (c : cache_state) :
    ∃ k c1, k ≤ 64 ∧ clock_sweep (BUFFER_CACHE_SIZE + 1) c = Except.ok c1 ∧ swept c c1 k ∧
      (∀ m, m < k → (c.buffer_cache_list (hand_plus c m)).pinned = true) ∧
      (k < 64 → (c.buffer_cache_list (hand_plus c k)).pinned = false) ∧
      (c1.buffer_cache_list c1.clock_pin).pinned = false := by
  have hex : ∃ m, m = 64 ∨ (c.buffer_cache_list (hand_plus c m)).pinned = false :=
    ⟨64, Or.inl rfl⟩
  have hk64 : Nat.find hex ≤ 64 := Nat.find_min' hex (Or.inl rfl)
  have hmin : ∀ m, m < Nat.find hex →
      (c.buffer_cache_list (hand_plus c m)).pinned = true := by
    intro m hm
    have := Nat.find_min hex hm
    cases hp : (c.buffer_cache_list (hand_plus c m)).pinned with
    | true => rfl
    | false => exact absurd (Or.inr hp) this
  have hspec := Nat.find_spec hex
  generalize Nat.find hex = k at hk64 hmin hspec
  have hlast : k < 64 → (c.buffer_cache_list (hand_plus c k)).pinned = false := by
    intro hlt
    rcases hspec with h | h
    · omega
    · exact h
  have hsw := sweep_iter_swept c
  have hstop : ((sweep_step^[k] c).buffer_cache_list (sweep_step^[k] c).clock_pin).pinned
      = false := by
    rw [(hsw k).hand]
    by_cases hlt : k < 64
    · rw [(hsw k).kept _ ?_]
      · exact hlast hlt
      · rintro ⟨m, hm, hm2⟩
        have := hand_plus_inj c hlt (by omega) hm2
        omega
    · have hk : k = 64 := by omega
      subst hk
      exact (hsw 64).cleared _ ⟨0, by decide, by rw [hand_plus_full, hand_plus_zero]⟩
  refine ⟨k, sweep_step^[k] c, hk64, ?_, hsw k, hmin, hlast, hstop⟩
  apply clock_sweep_stops k _ c (by show k < 64 + 1; omega) _ hstop
  intro m hm
  rw [(hsw m).hand, (hsw m).kept _ ?_]
  · exact hmin m hm
  · rintro ⟨m', hm', hm2⟩
    have := hand_plus_inj c (by omega) (by omega) hm2
    omega

/-! ## The victim -/

/-- What `evict_victim` does to a slot in use under the hand. -/
theorem evict_victim_spec (c : cache_state)
    (hu : (c.buffer_cache_list c.clock_pin).inuse = true) :
    ∃ c', evict_victim c = Except.ok (c', c.clock_pin) ∧ c'.clock_pin = c.clock_pin ∧
      (∀ j, j ≠ c.clock_pin → c'.buffer_cache_list j = c.buffer_cache_list j) ∧
      (c'.buffer_cache_list c.clock_pin).inuse = false ∧
      (c'.buffer_cache_list c.clock_pin).dirty = false ∧
      (c'.buffer_cache_list c.clock_pin).pinned = (c.buffer_cache_list c.clock_pin).pinned ∧
      (c'.buffer_cache_list c.clock_pin).block_index =
        (c.buffer_cache_list c.clock_pin).block_index ∧
      (c'.buffer_cache_list c.clock_pin).buffer = (c.buffer_cache_list c.clock_pin).buffer ∧
      c'.fs_device =
        if (c.buffer_cache_list c.clock_pin).dirty = true then
          block_write c.fs_device (c.buffer_cache_list c.clock_pin).block_index
            (c.buffer_cache_list c.clock_pin).buffer
        else c.fs_device := by
  unfold evict_victim
  cases hd : (c.buffer_cache_list c.clock_pin).dirty with
  | false =>
    refine ⟨drop_entry c c.clock_pin, by simp [Except.bind], rfl, ?_, ?_, ?_, ?_, ?_, ?_, ?_⟩
    · intro j hj; exact set_entry_other _ _ hj
    · simp [drop_entry, set_entry]
    · simp [drop_entry, set_entry, hd]
    · simp [drop_entry, set_entry]
    · simp [drop_entry, set_entry]
    · simp [drop_entry, set_entry]
    · simp [drop_entry, set_entry]
  | true =>
    have hf : buffer_cache_flush c c.clock_pin = Except.ok (flush_write c c.clock_pin) := by
      unfold buffer_cache_flush
      rw [hd, hu]
      rfl
    refine ⟨drop_entry (flush_write c c.clock_pin) c.clock_pin, ?_, rfl, ?_, ?_, ?_, ?_, ?_,
      ?_, ?_⟩
    · rw [if_pos rfl, hf]
      rfl
    · intro j hj
      have h1 : (drop_entry (flush_write c c.clock_pin) c.clock_pin).buffer_cache_list j =
          (flush_write c c.clock_pin).buffer_cache_list j := set_entry_other _ _ hj
      have h2 : (flush_write c c.clock_pin).buffer_cache_list j = c.buffer_cache_list j :=
        set_entry_other _ _ hj
      rw [h1, h2]
    · simp [drop_entry, set_entry]
    · simp [drop_entry, set_entry, flush_write]
    · simp [drop_entry, set_entry, flush_write]
    · simp [drop_entry, set_entry, flush_write]
    · simp [drop_entry, set_entry, flush_write]
    · simp [drop_entry, set_entry, flush_write]

/-- The outcome of `buffer_cache_evict` on a cache whose slots are all in use. -/
theorem evict_full_spec (c : cache_state)
    (hfull : ∀ i : Fin 64, (c.buffer_cache_list i).inuse = true) :
    ∃ k c', k ≤ 64 ∧ buffer_cache_evict c = Except.ok (c', hand_plus c k) ∧
      (∀ m, m < k → (c.buffer_cache_list (hand_plus c m)).pinned = true) ∧
      (k < 64 → (c.buffer_cache_list (hand_plus c k)).pinned = false) ∧
      c'.clock_pin = hand_plus c k ∧
      (∀ j, (∃ m, m < k ∧ j = hand_plus c m) → (c'.buffer_cache_list j).pinned = false) ∧
      (∀ j, (¬ ∃ m, m < k ∧ j = hand_plus c m) →
        (c'.buffer_cache_list j).pinned = (c.buffer_cache_list j).pinned) ∧
      (∀ j, j ≠ hand_plus c k →
        (c'.buffer_cache_list j).inuse = (c.buffer_cache_list j).inuse ∧
        (c'.buffer_cache_list j).dirty = (c.buffer_cache_list j).dirty) ∧
      (∀ j, (c'.buffer_cache_list j).block_index = (c.buffer_cache_list j).block_index ∧
        (c'.buffer_cache_list j).buffer = (c.buffer_cache_list j).buffer) ∧
      (c'.buffer_cache_list (hand_plus c k)).inuse = false ∧
      (c'.buffer_cache_list (hand_plus c k)).dirty = false ∧
      c'.fs_device =
        if (c.buffer_cache_list (hand_plus c k)).dirty = true then
          block_write c.fs_device (c.buffer_cache_list (hand_plus c k)).block_index
            (c.buffer_cache_list (hand_plus c k)).buffer
        else c.fs_device := by
  obtain ⟨k, c1, hk, hsw, hs, hmin, hlast, _⟩ := clock_sweep_spec c
  have hu1 : (c1.buffer_cache_list c1.clock_pin).inuse = true := by
    rw [(hs.same.2 _).1]
    exact hfull _
  obtain ⟨c', hv, hh, hoth, hvu, hvd, hvp, hvb, hvbuf, hdev⟩ := evict_victim_spec c1 hu1
  have hent : ∀ j, (c'.buffer_cache_list j).pinned = (c1.buffer_cache_list j).pinned ∧
      (c'.buffer_cache_list j).block_index = (c1.buffer_cache_list j).block_index ∧
      (c'.buffer_cache_list j).buffer = (c1.buffer_cache_list j).buffer := by
    intro j
    by_cases hj : j = c1.clock_pin
    · subst hj
      exact ⟨hvp, hvb, hvbuf⟩
    · rw [hoth j hj]
      exact ⟨rfl, rfl, rfl⟩
  rw [hs.hand] at hvu hvd
  refine ⟨k, c', hk, ?_, hmin, hlast, hh.trans hs.hand, ?_, ?_, ?_, ?_, hvu, hvd, ?_⟩
  · unfold buffer_cache_evict
    rw [evict_scan_none c (hfull _)]
    show (clock_sweep (BUFFER_CACHE_SIZE + 1) c).bind evict_victim = _
    rw [hsw]
    show evict_victim c1 = _
    rw [hv, hs.hand]
  · intro j hj
    rw [(hent j).1]
    exact hs.cleared j hj
  · intro j hj
    rw [(hent j).1]
    exact hs.kept j hj
  · intro j hj
    rw [hoth j (by rw [hs.hand]; exact hj)]
    exact ⟨(hs.same.2 j).1, (hs.same.2 j).2.1⟩
  · intro j
    rw [(hent j).2.1, (hent j).2.2]
    exact ⟨(hs.same.2 j).2.2.1, (hs.same.2 j).2.2.2⟩
  · rw [hdev, hs.hand, (hs.same.2 _).2.1, (hs.same.2 _).2.2.1, (hs.same.2 _).2.2.2, hs.same.1]

/-- C30: on a cache whose 64 slots are all in use, `buffer_cache_evict` returns the slot
`k` places after the hand, where the `k` slots from the hand on are pinned and, unless
`k = 64`, the slot `k` places on is not pinned: the first slot in cyclic order from the hand
whose `pinned` is false, or after a full turn (`k = 64`, all pinned) the hand's own slot. In
the state returned the hand is on the victim, `pinned` is false on each slot passed over and
unchanged on every other slot, every slot but the victim keeps `inuse`, `dirty`,
`block_index` and `buffer`, and the victim keeps `block_index` and `buffer` with `inuse` and
`dirty` cleared, its buffer written to the device if it was dirty. -/
theorem clock_picks_first_unpinned (c : cache_state)
    (hfull : ∀ i : Fin 64, (c.buffer_cache_list i).inuse = true) :
    ∃ k c', k ≤ 64 ∧ buffer_cache_evict c = Except.ok (c', hand_plus c k) ∧
      (∀ m, m < k → (c.buffer_cache_list (hand_plus c m)).pinned = true) ∧
      (k < 64 → (c.buffer_cache_list (hand_plus c k)).pinned = false) ∧
      c'.clock_pin = hand_plus c k ∧
      (∀ j, (∃ m, m < k ∧ j = hand_plus c m) → (c'.buffer_cache_list j).pinned = false) ∧
      (∀ j, (¬ ∃ m, m < k ∧ j = hand_plus c m) →
        (c'.buffer_cache_list j).pinned = (c.buffer_cache_list j).pinned) ∧
      (∀ j, j ≠ hand_plus c k →
        (c'.buffer_cache_list j).inuse = (c.buffer_cache_list j).inuse ∧
        (c'.buffer_cache_list j).dirty = (c.buffer_cache_list j).dirty) ∧
      (∀ j, (c'.buffer_cache_list j).block_index = (c.buffer_cache_list j).block_index ∧
        (c'.buffer_cache_list j).buffer = (c.buffer_cache_list j).buffer) ∧
      (c'.buffer_cache_list (hand_plus c k)).inuse = false ∧
      (c'.buffer_cache_list (hand_plus c k)).dirty = false ∧
      c'.fs_device =
        if (c.buffer_cache_list (hand_plus c k)).dirty = true then
          block_write c.fs_device (c.buffer_cache_list (hand_plus c k)).block_index
            (c.buffer_cache_list (hand_plus c k)).buffer
        else c.fs_device :=
  evict_full_spec c hfull

theorem clock_picks_first_unpinned_witness :
    ∃ k c', k ≤ 64 ∧
      buffer_cache_evict demo_full_cache = Except.ok (c', hand_plus demo_full_cache k) ∧
      (k < 64 → (demo_full_cache.buffer_cache_list (hand_plus demo_full_cache k)).pinned
        = false) ∧
      c'.clock_pin = hand_plus demo_full_cache k ∧
      (c'.buffer_cache_list (hand_plus demo_full_cache k)).inuse = false := by
  obtain ⟨k, c', h1, h2, _, h4, h5, _, _, _, _, h6, _⟩ :=
    clock_picks_first_unpinned demo_full_cache (fun _ => rfl)
  exact ⟨k, c', h1, h2, h4, h5, h6⟩

/-! ## Reads that miss -/

theorem lookup_none_of {c : cache_state} {s : Nat} (h : ∀ i, ¬ holds c i s) :
    buffer_cache_lookup c s = none := by
  cases hl : buffer_cache_lookup c s with
  | none => rfl
  | some j => exact absurd (lookup_some hl) (h j)

/-- The state `buffer_cache_read` leaves when it loads sector `s` into slot `v` of `c1`. -/
theorem read_miss_eq {c : cache_state} {s : Nat} (hm : ∀ i, ¬ holds c i s)
    {c1 : cache_state} {v : Fin 64} (he : buffer_cache_evict c = Except.ok (c1, v)) :
    buffer_cache_read c s =
      Except.ok
        (set_entry (read_fill c1 v s) v
            { (read_fill c1 v s).buffer_cache_list v with pinned := true },
          ((read_fill c1 v s).buffer_cache_list v).buffer) := by
  unfold buffer_cache_read read_slot
  rw [lookup_none_of hm]
  simp only [he, Except.bind]

/-- What a slot loaded by a miss looks like next to the state the eviction left. -/
theorem read_miss_facts {c1 : cache_state} (hi : cache_inv c1) (v : Fin 64) (s : Nat)
    (hu : (c1.buffer_cache_list v).inuse = false) (hm : ∀ i, ¬ holds c1 i s)
    {c3 : cache_state}
    (h3 : c3 = set_entry (read_fill c1 v s) v
      { (read_fill c1 v s).buffer_cache_list v with pinned := true }) :
    cache_inv c3 ∧ (∀ i t, holds c3 i t ↔ holds c1 i t ∨ (i = v ∧ t = s)) ∧
      c3.clock_pin = c1.clock_pin ∧
      (∀ i, i ≠ v → c3.buffer_cache_list i = c1.buffer_cache_list i) ∧
      (c3.buffer_cache_list v).pinned = true ∧ (c3.buffer_cache_list v).inuse = true := by
  subst h3
  have hs := set_pinned_same (read_fill c1 v s) v true
  refine ⟨same_data_inv hs (fill_inv hi v s hu hm), ?_, rfl, ?_, ?_, ?_⟩
  · intro i t
    rw [same_data_holds hs i t, fill_holds c1 v s hu i t]
  · intro i hiv
    rw [set_entry_other _ _ hiv]
    exact set_entry_other _ _ hiv
  · simp
  · simp [read_fill]

/-! ## Filling the cache from start-up -/

theorem init_filling (dev : Device) : filling (buffer_cache_init (boot_cache dev)) [] := by
  refine ⟨init_inv dev, by simp, ?_, ?_, rfl, ?_⟩
  · intro i x h
    simp at h
  · intro i _
    exact ⟨rfl, rfl⟩
  · intro h
    simp at h

/-- While there is room, the eviction hands out the slot after the last one filled and
changes nothing but the hand and the `pinned` bit it passed. -/
theorem evict_fill_spec {c : cache_state} {done : List Nat} (hf : filling c done)
    (hk : done.length < 64) :
    ∃ c1 v, buffer_cache_evict c = Except.ok (c1, v) ∧ v.val = done.length ∧
      c1.clock_pin = v ∧ same_data c c1 ∧
      ∀ i : Fin 64, done.length ≤ i.val → (c1.buffer_cache_list i).pinned = false := by
  by_cases h0 : done.length = 0
  · have hh : c.clock_pin.val = 0 := by rw [hf.hand, h0]
    have hu := (hf.empty c.clock_pin (by omega)).1
    refine ⟨c, c.clock_pin, ?_, by omega, rfl, same_data_refl c, fun i hi => (hf.empty i hi).2⟩
    unfold buffer_cache_evict
    have : evict_scan c BUFFER_CACHE_SIZE = some c.clock_pin := by
      show evict_scan c (63 + 1) = _
      unfold evict_scan
      rw [if_pos hu]
    rw [this]
  · have hpos : 0 < done.length := Nat.pos_of_ne_zero h0
    have hhand := hf.hand
    have hlt : c.clock_pin.val < done.length := by omega
    have hx : ∃ x, done[c.clock_pin.val]? = some x :=
      ⟨done[c.clock_pin.val], List.getElem?_eq_getElem hlt⟩
    obtain ⟨x, hx⟩ := hx
    have hu : (c.buffer_cache_list c.clock_pin).inuse = true := (hf.filled _ x hx).2
    have hp := hf.pinned hpos
    have hnext : (sweep_step c).clock_pin.val = done.length := by
      show (c.clock_pin + 1).val = _
      rw [Fin.val_add]
      show (c.clock_pin.val + 1) % 64 = _
      omega
    have hne : (sweep_step c).clock_pin ≠ c.clock_pin := by
      intro h
      have := congrArg Fin.val h
      omega
    have hent : ∀ i, i ≠ c.clock_pin →
        (sweep_step c).buffer_cache_list i = c.buffer_cache_list i :=
      fun i hi => set_entry_other _ _ hi
    have hv := hf.empty (sweep_step c).clock_pin (by omega)
    have hsw : clock_sweep (BUFFER_CACHE_SIZE + 1) c = Except.ok (sweep_step c) := by
      apply clock_sweep_stops 1 _ c (by decide)
      · intro m hm
        have : m = 0 := by omega
        subst this
        exact hp
      · show ((sweep_step c).buffer_cache_list (sweep_step c).clock_pin).pinned = false
        rw [hent _ hne]
        exact hv.2
    have hd : ((sweep_step c).buffer_cache_list (sweep_step c).clock_pin).dirty = false := by
      rw [hent _ hne]
      cases hdd : (c.buffer_cache_list (sweep_step c).clock_pin).dirty with
      | false => rfl
      | true =>
        have := hf.inv.dirty_inuse _ hdd
        rw [hv.1] at this
        cases this
    have hdrop : drop_entry (sweep_step c) (sweep_step c).clock_pin = sweep_step c := by
      unfold drop_entry set_entry
      have hiu : ((sweep_step c).buffer_cache_list (sweep_step c).clock_pin).inuse = false := by
        rw [hent _ hne]
        exact hv.1
      have : { (sweep_step c).buffer_cache_list (sweep_step c).clock_pin with inuse := false }
          = (sweep_step c).buffer_cache_list (sweep_step c).clock_pin := by
        cases he : (sweep_step c).buffer_cache_list (sweep_step c).clock_pin with
        | mk a b d e f =>
          rw [he] at hiu
          simp only at hiu
          subst hiu
          rfl
      rw [this, Function.update_eq_self]
    refine ⟨sweep_step c, (sweep_step c).clock_pin, ?_, hnext, rfl, sweep_step_same c, ?_⟩
    · unfold buffer_cache_evict
      rw [evict_scan_none c hu]
      show (clock_sweep (BUFFER_CACHE_SIZE + 1) c).bind evict_victim = _
      rw [hsw]
      show evict_victim (sweep_step c) = _
      unfold evict_victim
      rw [if_neg (by rw [hd]; decide)]
      show Except.ok (drop_entry (sweep_step c) (sweep_step c).clock_pin, _) = _
      rw [hdrop]
    · intro i hi
      rw [hent i (by intro h; have := congrArg Fin.val h; omega)]
      exact (hf.empty i hi).2

/-- While the cache fills, the resident sectors are the sectors read. -/
theorem filling_resident {c : cache_state} {done : List Nat} (hf : filling c done) (t : Nat) :
    resident c t ↔ t ∈ done := by
  constructor
  · rintro ⟨i, h⟩
    by_cases hi : i.val < done.length
    · have hx : done[i.val]? = some done[i.val] := List.getElem?_eq_getElem hi
      have h2 := hf.filled i _ hx
      have : t = done[i.val] := h.1.symm.trans h2.1
      rw [this]
      exact List.getElem_mem _
    · have := (hf.empty i (by omega)).1
      rw [h.2] at this
      cases this
  · intro ht
    obtain ⟨n, hn, hx⟩ := List.getElem_of_mem ht
    have hroom := hf.room
    have h64 : n < 64 := by omega
    refine ⟨⟨n, h64⟩, hf.filled ⟨n, h64⟩ t ?_⟩
    show done[n]? = some t
    rw [List.getElem?_eq_getElem hn, hx]

/-- A read of a sector not read before, while there is room, fills the next slot. -/
theorem read_fill_step {c : cache_state} {done : List Nat} (hf : filling c done)
    (hk : done.length < 64) (s : Nat) (hs : s ∉ done) :
    ∃ r, buffer_cache_read c s = Except.ok r ∧ filling r.1 (done ++ [s]) := by
  have hm : ∀ i, ¬ holds c i s := fun i h => hs ((filling_resident hf s).mp ⟨i, h⟩)
  obtain ⟨c1, v, he, hv, hh, hsame, hpin⟩ := evict_fill_spec hf hk
  have hi1 := same_data_inv hsame hf.inv
  have hu1 : (c1.buffer_cache_list v).inuse = false := by
    rw [(hsame.2 v).1]
    exact (hf.empty v (by omega)).1
  have hm1 : ∀ i, ¬ holds c1 i s := fun i h => hm i ((same_data_holds hsame i s).mp h)
  obtain ⟨h3inv, h3holds, h3hand, h3oth, h3pin, h3use⟩ := read_miss_facts hi1 v s hu1 hm1 rfl
  refine ⟨_, read_miss_eq hm he, h3inv, ?_, ?_, ?_, ?_, ?_⟩
  · simp only [List.length_append, List.length_singleton]
    omega
  · intro i x hx
    apply (h3holds i x).mpr
    by_cases hi : i.val < done.length
    · left
      rw [List.getElem?_append_left hi] at hx
      exact (same_data_holds hsame i x).mpr (hf.filled i x hx)
    · right
      have hlen : i.val < (done ++ [s]).length := by
        by_contra hn
        rw [List.getElem?_eq_none (by omega)] at hx
        cases hx
      simp only [List.length_append, List.length_singleton] at hlen
      have hik : i.val = done.length := by omega
      refine ⟨Fin.ext (hik.trans hv.symm), ?_⟩
      rw [List.getElem?_append_right (by omega), hik] at hx
      simp at hx
      exact hx.symm
  · intro i hi
    simp only [List.length_append, List.length_singleton] at hi
    have hiv : i ≠ v := by
      intro h
      have := congrArg Fin.val h
      omega
    show (_ : buffer_cache_entry).inuse = false ∧ _
    rw [h3oth i hiv]
    exact ⟨((hsame.2 i).1).trans (hf.empty i (by omega)).1, hpin i (by omega)⟩
  · show (_ : Fin 64).val = _
    rw [h3hand, hh, hv]
    simp
  · intro _
    show (_ : buffer_cache_entry).pinned = true
    rw [h3hand, hh]
    exact h3pin

theorem run_reads_cons (s : Nat) (l : List Nat) (c : cache_state) :
    run_ops ((s :: l).map cache_op.read) c =
      (buffer_cache_read c s).bind fun r => run_ops (l.map cache_op.read) r.1 := by
  show ((buffer_cache_read c s).bind fun r => Except.ok r.1).bind _ = _
  cases buffer_cache_read c s with
  | error e => rfl
  | ok r => rfl

/-- Reads of pairwise distinct sectors, while there is room, fill the slots in order. -/
theorem reads_fill : ∀ (l done : List Nat) (c : cache_state), filling c done →
    (done ++ l).Nodup → (done ++ l).length ≤ 64 →
    ∃ c', run_ops (l.map cache_op.read) c = Except.ok c' ∧ filling c' (done ++ l) := by
  intro l
  induction l with
  | nil =>
    intro done c hf _ _
    exact ⟨c, rfl, by simpa using hf⟩
  | cons s l ih =>
    intro done c hf hnd hlen
    have hnd' : ((done ++ [s]) ++ l).Nodup := by simpa using hnd
    have hlen' : ((done ++ [s]) ++ l).length ≤ 64 := by simpa using hlen
    have hs : s ∉ done := by
      have := List.nodup_append.mp hnd
      intro hmem
      exact this.2.2 hmem (List.mem_cons_self _ _)
    have hk : done.length < 64 := by
      simp only [List.length_append, List.length_cons] at hlen
      omega
    obtain ⟨r, hr, hf1⟩ := read_fill_step hf hk s hs
    obtain ⟨c', h1, h2⟩ := ih (done ++ [s]) r.1 hf1 hnd' hlen'
    refine ⟨c', ?_, by simpa using h2⟩
    rw [run_reads_cons, hr]
    exact h1

/-! ## Reads on a full cache -/

/-- A read of a resident sector changes at most the `pinned` bit of its slot. -/
theorem read_hit_eq {c : cache_state} (hi : cache_inv c) {i : Fin 64} {s : Nat}
    (h : holds c i s) :
    buffer_cache_read c s =
      Except.ok (set_entry c i { c.buffer_cache_list i with pinned := true },
        (c.buffer_cache_list i).buffer) := by
  unfold buffer_cache_read read_slot
  rw [lookup_of_holds hi h]
  rfl

/-- On a full cache a read keeps the cache full, and a read that misses replaces exactly one
resident sector by the sector read. -/
theorem read_full_step {c : cache_state} (hi : cache_inv c)
    (hfull : ∀ i : Fin 64, (c.buffer_cache_list i).inuse = true) (s : Nat) :
    ∃ r, buffer_cache_read c s = Except.ok r ∧ cache_inv r.1 ∧
      (∀ i : Fin 64, (r.1.buffer_cache_list i).inuse = true) ∧
      (∀ t, resident r.1 t → resident c t ∨ t = s) ∧
      ((¬ resident c s) → ∃ v, resident c v ∧ ¬ resident r.1 v ∧
        ∀ t, t ≠ v → (resident r.1 t ↔ resident c t ∨ t = s)) := by
  by_cases hres : resident c s
  · obtain ⟨i, hh⟩ := hres
    have hs := set_pinned_same c i true
    refine ⟨_, read_hit_eq hi hh, same_data_inv hs hi, ?_, ?_, fun hn => absurd ⟨i, hh⟩ hn⟩
    · intro j
      show (_ : buffer_cache_entry).inuse = true
      rw [(hs.2 j).1]
      exact hfull j
    · rintro t ⟨j, hj⟩
      exact Or.inl ⟨j, (same_data_holds hs j t).mp hj⟩
  · have hm : ∀ i, ¬ holds c i s := fun i h => hres ⟨i, h⟩
    obtain ⟨k, c1, _, hev, _, _, _, _, _, hoth, hdata, hvu, _, _⟩ := evict_full_spec c hfull
    obtain ⟨c1', v', hev', hkeep, _, _⟩ := evict_keeps hi
    have hc1 : c1' = c1 := by
      rw [hev] at hev'
      injection hev' with h
      exact (congrArg Prod.fst h).symm
    subst hc1
    have hi1 := hkeep.inv
    have hm1 : ∀ i, ¬ holds c1' i s := fun i h => hm i (hkeep.held i s h)
    have hback : ∀ j t, j ≠ hand_plus c k → holds c j t → holds c1' j t := by
      intro j t hj h
      exact ⟨((hdata j).1).trans h.1, ((hoth j hj).1).trans h.2⟩
    obtain ⟨h3inv, h3holds, _, h3oth, _, h3use⟩ :=
      read_miss_facts hi1 (hand_plus c k) s hvu hm1 rfl
    refine ⟨_, read_miss_eq hm hev, h3inv, ?_, ?_, fun _ => ?_⟩
    · intro j
      by_cases hj : j = hand_plus c k
      · rw [hj]
        exact h3use
      · show (_ : buffer_cache_entry).inuse = true
        rw [h3oth j hj, (hoth j hj).1]
        exact hfull j
    · rintro t ⟨j, hj⟩
      rcases (h3holds j t).mp hj with h | h
      · exact Or.inl ⟨j, hkeep.held j t h⟩
      · exact Or.inr h.2
    · refine ⟨(c.buffer_cache_list (hand_plus c k)).block_index,
        ⟨hand_plus c k, rfl, hfull _⟩, ?_, ?_⟩
      · rintro ⟨j, hj⟩
        rcases (h3holds j _).mp hj with h | h
        · have h2 := hkeep.held j _ h
          have hjv : j = hand_plus c k := hi.uniq j _ h2.2 (hfull _) h2.1
          rw [hjv] at h
          have h3 := h.2
          rw [hvu] at h3
          exact absurd h3 (by decide)
        · exact hm (hand_plus c k) ⟨h.2, hfull _⟩
      · intro t ht
        constructor
        · rintro ⟨j, hj⟩
          rcases (h3holds j t).mp hj with h | h
          · exact Or.inl ⟨j, hkeep.held j t h⟩
          · exact Or.inr h.2
        · rintro (⟨j, hj⟩ | h)
          · have hjv : j ≠ hand_plus c k := by
              intro he
              rw [he] at hj
              exact ht hj.1.symm
            exact ⟨j, (h3holds j t).mpr (Or.inl (hback j t hjv hj))⟩
          · exact ⟨hand_plus c k, (h3holds _ t).mpr (Or.inr ⟨rfl, h⟩)⟩

/-- Reads on a full cache keep it full and bring in no sector but the ones read. -/
theorem reads_full : ∀ (l : List Nat) (c : cache_state), cache_inv c →
    (∀ i : Fin 64, (c.buffer_cache_list i).inuse = true) →
    ∃ c', run_ops (l.map cache_op.read) c = Except.ok c' ∧ cache_inv c' ∧
      (∀ i : Fin 64, (c'.buffer_cache_list i).inuse = true) ∧
      ∀ t, resident c' t → resident c t ∨ t ∈ l := by
  intro l
  induction l with
  | nil => intro c hi hf; exact ⟨c, rfl, hi, hf, fun t h => Or.inl h⟩
  | cons s l ih =>
    intro c hi hf
    obtain ⟨r, hr, hi1, hf1, hsub, _⟩ := read_full_step hi hf s
    obtain ⟨c', h1, h2, h3, h4⟩ := ih r.1 hi1 hf1
    refine ⟨c', ?_, h2, h3, ?_⟩
    · rw [run_reads_cons, hr]
      exact h1
    · intro t ht
      rcases h4 t ht with h | h
      · rcases hsub t h with h' | h'
        · exact Or.inl h'
        · exact Or.inr (by rw [h']; exact List.mem_cons_self _ _)
      · exact Or.inr (List.mem_cons_of_mem _ h)

theorem run_ops_append : ∀ (a b : List cache_op) (c : cache_state),
    run_ops (a ++ b) c = (run_ops a c).bind (run_ops b) := by
  intro a
  induction a with
  | nil => intro b c; rfl
  | cons op a ih =>
    intro b c
    show (apply_op c op).bind (run_ops (a ++ b)) = ((apply_op c op).bind (run_ops a)).bind _
    cases apply_op c op with
    | error e => rfl
    | ok c1 => exact ih b c1

/-- The state after reads of pairwise distinct sectors from start-up, and the read after
them. -/
theorem distinct_reads_spec (dev : Device) (l : List Nat) (s : Nat)
    (hd : (l ++ [s]).Nodup) :
    ∃ c r, run_ops (l.map cache_op.read) (buffer_cache_init (boot_cache dev)) = Except.ok c ∧
      buffer_cache_read c s = Except.ok r ∧
      (l.length < 64 → ∀ t, t ∈ l ++ [s] → resident r.1 t) ∧
      (64 ≤ l.length → ∃ v, resident c v ∧ ¬ resident r.1 v ∧
        ∀ t, t ≠ v → (resident r.1 t ↔ resident c t ∨ t = s)) := by
  have hnd := List.nodup_append.mp hd
  have hs : s ∉ l := fun h => hnd.2.2 h (List.mem_singleton_self s)
  by_cases hlen : l.length < 64
  · obtain ⟨c, hc, hf⟩ := reads_fill l [] _ (init_filling dev) (by simpa using hnd.1)
      (by simp; omega)
    have hf' : filling c l := by simpa using hf
    obtain ⟨r, hr, hf1⟩ := read_fill_step hf' hlen s hs
    exact ⟨c, r, hc, hr, fun _ t ht => (filling_resident hf1 t).mpr ht, fun h => by omega⟩
  · have hsplit : l = l.take 64 ++ l.drop 64 := (List.take_append_drop 64 l).symm
    have hnd1 : (l.take 64).Nodup := List.Nodup.sublist (List.take_sublist 64 l) hnd.1
    have hlen1 : (l.take 64).length = 64 := by
      rw [List.length_take]
      omega
    obtain ⟨c1, hc1, hf1⟩ := reads_fill (l.take 64) [] _ (init_filling dev)
      (by simpa using hnd1) (by simp)
    have hf1' : filling c1 (l.take 64) := by simpa using hf1
    have hfull1 : ∀ i : Fin 64, (c1.buffer_cache_list i).inuse = true := by
      intro i
      have hi : i.val < (l.take 64).length := by rw [hlen1]; exact i.isLt
      exact (hf1'.filled i _ (List.getElem?_eq_getElem hi)).2
    obtain ⟨c, hc, hinv, hfull, hsub⟩ := reads_full (l.drop 64) c1 hf1'.inv hfull1
    have hrun : run_ops (l.map cache_op.read) (buffer_cache_init (boot_cache dev)) =
        Except.ok c := by
      conv_lhs => rw [hsplit]
      rw [List.map_append, run_ops_append, hc1]
      exact hc
    have hmiss : ¬ resident c s := by
      intro h
      rcases hsub s h with h' | h'
      · exact hs (List.mem_of_mem_take ((filling_resident hf1' s).mp h'))
      · exact hs (List.mem_of_mem_drop h')
    obtain ⟨r, hr, _, _, _, hev⟩ := read_full_step hinv hfull s
    exact ⟨c, r, hrun, hr, fun h => absurd h hlen, fun _ => hev hmiss⟩

/-- C28: from the zero-initialised cache after `buffer_cache_init` over any device, let the
pairwise distinct sectors `l` be read in order and then the sector `s`, distinct from them
all. Every read returns. When `s` is among the first 64 sectors read, every sector read so
far is resident after the read of `s`, so no resident sector was evicted. When at least 64
sectors were read before `s`, the read of `s` evicts exactly one resident sector: one sector
`v` that was resident before is not resident after, and every other sector is resident after
exactly when it was resident before or is `s`. -/
theorem distinct_reads_fill_then_evict (dev : Device) (l : List Nat) (s : Nat)
    (hd : (l ++ [s]).Nodup) :
    ∃ c r, run_ops (l.map cache_op.read) (buffer_cache_init (boot_cache dev)) = Except.ok c ∧
      buffer_cache_read c s = Except.ok r ∧
      (l.length < 64 → ∀ t, t ∈ l ++ [s] → resident r.1 t) ∧
      (64 ≤ l.length → ∃ v, resident c v ∧ ¬ resident r.1 v ∧
        ∀ t, t ≠ v → (resident r.1 t ↔ resident c t ∨ t = s)) :=
  distinct_reads_spec dev l s hd

theorem distinct_reads_fill_then_evict_witness :
    (List.range 64 ++ [64]).Nodup ∧
    ∃ c r, run_ops ((List.range 64).map cache_op.read)
        (buffer_cache_init (boot_cache demo_device)) = Except.ok c ∧
      buffer_cache_read c 64 = Except.ok r ∧
      ∃ v, resident c v ∧ ¬ resident r.1 v ∧
        ∀ t, t ≠ v → (resident r.1 t ↔ resident c t ∨ t = 64) := by
  have hd : (List.range 64 ++ [64]).Nodup := by
    rw [← List.range_succ]
    exact List.nodup_range 65
  obtain ⟨c, r, h1, h2, _, h3⟩ :=
    distinct_reads_fill_then_evict demo_device (List.range 64) 64 hd
  exact ⟨hd, c, r, h1, h2, h3 (by simp)⟩

/-! ## The open-inode list -/

theorem inode_open_new_ok {c : cache_state} (hc : cache_inv c) (sector : Nat) :
    ∃ c1 d, inode_open_new c sector =
        Except.ok (c1, { sector := sector, open_cnt := 1, removed := false,
                         deny_write_cnt := 0, data := d }) ∧ cache_inv c1 := by
  obtain ⟨c1, h1, h2, _⟩ := buffer_cache_read_spec hc sector
  refine ⟨c1, inode_disk.of_sector (cache_view c sector), ?_, h2⟩
  unfold inode_open_new
  rw [h1]
  rfl

theorem find_open_spec (h : inode_heap) (sector : Nat) : ∀ l : List Nat,
    (∀ a, a ∈ l → ∃ ino, h.objs a = some ino) →
    ∃ f, find_open h sector l = Except.ok f ∧
      (∀ a, f = some a → a ∈ l ∧ ∃ ino, h.objs a = some ino ∧ ino.sector = sector) ∧
      (f = none → ∀ a, a ∈ l → ∀ ino, h.objs a = some ino → ino.sector ≠ sector) := by
  intro l
  induction l with
  | nil =>
    intro _
    refine ⟨none, rfl, ?_, ?_⟩
    · intro a h
      cases h
    · intro _ a ha
      cases ha
  | cons a l ih =>
    intro hl
    obtain ⟨ino, hino⟩ := hl a (List.mem_cons_self _ _)
    unfold find_open
    rw [hino]
    by_cases hs : ino.sector = sector
    · refine ⟨some a, by simp only [hs, if_true], ?_, fun h => by cases h⟩
      intro b hb
      cases hb
      exact ⟨List.mem_cons_self _ _, ino, hino, hs⟩
    · obtain ⟨f, h1, h2, h3⟩ := ih (fun b hb => hl b (List.mem_cons_of_mem _ hb))
      refine ⟨f, by simp only [hs, if_false, h1], ?_, ?_⟩
      · intro b hb
        obtain ⟨h4, h5⟩ := h2 b hb
        exact ⟨List.mem_cons_of_mem _ h4, h5⟩
      · intro hf b hb ino' hino'
        rcases List.mem_cons.mp hb with rfl | hb
        · rw [hino] at hino'
          cases hino'
          exact hs
        · exact h3 hf b hb ino' hino'

/-- Replacing a listed inode by one with the same sector keeps the list in order. -/
theorem heap_ok_update {h : inode_heap} (hh : heap_ok h) {a : Nat} {ino ino1 : inode}
    (ha : h.objs a = some ino) (hs : ino1.sector = ino.sector) :
    heap_ok { objs := Function.update h.objs a (some ino1), open_inodes := h.open_inodes } := by
  refine ⟨hh.nodup, ?_, ?_⟩
  · intro b
    show b ∈ h.open_inodes ↔ ∃ x, Function.update h.objs a (some ino1) b = some x
    by_cases hb : b = a
    · subst hb
      rw [Function.update_same]
      exact ⟨fun _ => ⟨ino1, rfl⟩, fun _ => (hh.listed b).mpr ⟨ino, ha⟩⟩
    · rw [Function.update_noteq hb]
      exact hh.listed b
  · intro b d x y hx hy hxy
    have hx : Function.update h.objs a (some ino1) b = some x := hx
    have hy : Function.update h.objs a (some ino1) d = some y := hy
    have key : ∀ e z, Function.update h.objs a (some ino1) e = some z →
        ∃ z', h.objs e = some z' ∧ z'.sector = z.sector := by
      intro e z hz
      by_cases he : e = a
      · subst he
        rw [Function.update_same] at hz
        cases hz
        exact ⟨ino, ha, hs.symm⟩
      · rw [Function.update_noteq he] at hz
        exact ⟨z, hz, rfl⟩
    obtain ⟨x', hx', hxs⟩ := key b x hx
    obtain ⟨y', hy', hys⟩ := key d y hy
    exact hh.uniq b d x' y' hx' hy' (by rw [hxs, hys, hxy])

/-- Adding a new inode at a fresh address, for a sector that no listed inode has, keeps the
list in order. -/
theorem heap_ok_push {h : inode_heap} (hh : heap_ok h) {p : Nat} {ino : inode}
    (hp : h.objs p = none)
    (hs : ∀ a x, h.objs a = some x → x.sector ≠ ino.sector) :
    heap_ok { objs := Function.update h.objs p (some ino),
              open_inodes := p :: h.open_inodes } := by
  have hnot : p ∉ h.open_inodes := by
    intro hm
    obtain ⟨x, hx⟩ := (hh.listed p).mp hm
    rw [hp] at hx
    cases hx
  refine ⟨List.nodup_cons.mpr ⟨hnot, hh.nodup⟩, ?_, ?_⟩
  · intro b
    show b ∈ p :: h.open_inodes ↔ ∃ x, Function.update h.objs p (some ino) b = some x
    by_cases hb : b = p
    · subst hb
      rw [Function.update_same]
      exact ⟨fun _ => ⟨ino, rfl⟩, fun _ => List.mem_cons_self _ _⟩
    · rw [Function.update_noteq hb, List.mem_cons]
      constructor
      · rintro (h1 | h1)
        · exact absurd h1 hb
        · exact (hh.listed b).mp h1
      · intro h1
        exact Or.inr ((hh.listed b).mpr h1)
  · intro b d x y hx hy hxy
    have hx : Function.update h.objs p (some ino) b = some x := hx
    have hy : Function.update h.objs p (some ino) d = some y := hy
    by_cases hb : b = p
    · by_cases hd : d = p
      · rw [hb, hd]
      · rw [hb, Function.update_same] at hx
        rw [Function.update_noteq hd] at hy
        cases hx
        exact absurd hxy.symm (hs d y hy)
    · rw [Function.update_noteq hb] at hx
      by_cases hd : d = p
      · rw [hd, Function.update_same] at hy
        cases hy
        exact absurd hxy (hs b x hx)
      · rw [Function.update_noteq hd] at hy
        exact hh.uniq b d x y hx hy hxy

/-- Freeing a listed inode and unlinking it keeps the list in order. -/
theorem heap_ok_free {h : inode_heap} (hh : heap_ok h) (a : Nat) :
    heap_ok { objs := Function.update h.objs a none,
              open_inodes := h.open_inodes.erase a } := by
  refine ⟨hh.nodup.erase a, ?_, ?_⟩
  · intro b
    show b ∈ h.open_inodes.erase a ↔ ∃ x, Function.update h.objs a none b = some x
    rw [hh.nodup.mem_erase_iff]
    by_cases hb : b = a
    · subst hb
      rw [Function.update_same]
      constructor
      · intro h1
        exact absurd rfl h1.1
      · rintro ⟨x, hx⟩
        cases hx
    · rw [Function.update_noteq hb]
      constructor
      · intro h1
        exact (hh.listed b).mp h1.2
      · intro h1
        exact ⟨hb, (hh.listed b).mpr h1⟩
  · intro b d x y hx hy hxy
    have hx : Function.update h.objs a none b = some x := hx
    have hy : Function.update h.objs a none d = some y := hy
    have hb : b ≠ a := by
      intro he
      rw [he, Function.update_same] at hx
      cases hx
    have hd : d ≠ a := by
      intro he
      rw [he, Function.update_same] at hy
      cases hy
    rw [Function.update_noteq hb] at hx
    rw [Function.update_noteq hd] at hy
    exact hh.uniq b d x y hx hy hxy

theorem inode_close_heap_ok {st : fs_state} {h : inode_heap} (hh : heap_ok h) (p : Option Nat)
    (r : fs_state × inode_heap) (hr : inode_close st h p = Except.ok r) : heap_ok r.2 := by
  unfold inode_close at hr
  cases p with
  | none =>
    cases hr
    exact hh
  | some a =>
    simp only at hr
    cases ha : h.objs a with
    | none =>
      rw [ha] at hr
      cases hr
    | some ino =>
      rw [ha] at hr
      simp only at hr
      by_cases h0 : ino.open_cnt - 1 = 0
      · rw [if_pos h0] at hr
        obtain ⟨st1, _, hr⟩ := (except_bind_ok _ _ _).mp hr
        cases hr
        exact heap_ok_free hh a
      · rw [if_neg h0] at hr
        cases hr
        exact heap_ok_update hh ha rfl

/-- The outcome of `inode_open` on a list in order. -/
theorem inode_open_spec {st : fs_state} {h : inode_heap} (hh : heap_ok h)
    (hc : cache_inv st.cache) (sector : Nat) (mem : Option Nat)
    (hfresh : ∀ p, mem = some p → h.objs p = none) :
    ∃ r, inode_open st h sector mem = Except.ok r ∧ heap_ok r.2.1 ∧
      (∀ a ino, h.objs a = some ino → ino.sector = sector →
        r.2.2 = some a ∧ r.2.1.open_inodes = h.open_inodes ∧
        r.2.1.objs a = some { ino with open_cnt := ino.open_cnt + 1 } ∧
        ∀ b, b ≠ a → r.2.1.objs b = h.objs b) ∧
      ((∀ a ino, h.objs a = some ino → ino.sector ≠ sector) → ∀ p, mem = some p →
        r.2.2 = some p ∧ r.2.1.open_inodes = p :: h.open_inodes ∧
        (∃ ino, r.2.1.objs p = some ino ∧ ino.sector = sector ∧ ino.open_cnt = 1 ∧
          ino.deny_write_cnt = 0 ∧ ino.removed = false) ∧
        ∀ b, b ≠ p → r.2.1.objs b = h.objs b) := by
  obtain ⟨f, hf, hsome, hnone⟩ := find_open_spec h sector h.open_inodes
    (fun a ha => (hh.listed a).mp ha)
  unfold inode_open
  rw [hf]
  cases f with
  | some a =>
    obtain ⟨_, ino, hino, hs⟩ := hsome a rfl
    refine ⟨(st, inode_heap.mk (Function.update h.objs a
        (some { ino with open_cnt := ino.open_cnt + 1 })) h.open_inodes,
      some a), ?_, heap_ok_update hh hino rfl, ?_, ?_⟩
    · show (inode_reopen h (some a)).bind _ = _
      unfold inode_reopen
      simp only [hino]
      rfl
    · intro b x hx hxs
      have hba : b = a := hh.uniq b a x ino hx hino (hxs.trans hs.symm)
      subst hba
      rw [hino] at hx
      cases hx
      refine ⟨rfl, rfl, ?_, ?_⟩
      · show Function.update h.objs b _ b = _
        rw [Function.update_same]
      · intro d hd
        show Function.update h.objs b _ d = _
        rw [Function.update_noteq hd]
    · intro hno
      exact absurd hs (hno a ino hino)
  | none =>
    have hno := hnone rfl
    have hno' : ∀ a x, h.objs a = some x → x.sector ≠ sector :=
      fun a x hx => hno a ((hh.listed a).mpr ⟨x, hx⟩) x hx
    cases mem with
    | none =>
      refine ⟨(st, h, none), rfl, hh, ?_, ?_⟩
      · intro a x hx hxs
        exact absurd hxs (hno' a x hx)
      · intro _ p hp
        cases hp
    | some p =>
      obtain ⟨c1, d, ho, _⟩ := inode_open_new_ok hc sector
      refine ⟨(fs_state.mk c1 st.fmap,
        inode_heap.mk (Function.update h.objs p (some (inode.mk sector 1 false 0 d)))
          (p :: h.open_inodes), some p), ?_, ?_, ?_, ?_⟩
      · show (inode_open_new st.cache sector).bind _ = _
        rw [ho]
        rfl
      · exact heap_ok_push hh (hfresh p rfl) hno'
      · intro a x hx hxs
        exact absurd hxs (hno' a x hx)
      · intro _ q hq
        cases hq
        refine ⟨rfl, rfl, ⟨_, Function.update_same _ _ _, rfl, rfl, rfl, rfl⟩, ?_⟩
        intro b hb
        exact Function.update_noteq hb _ _

/-- C23: on an open-inode list in order (each address listed once, exactly the allocated
inodes listed, no two with the same sector), with `malloc` returning fresh memory,
`inode_open (sector)` returns. If a listed inode has the sector, the call returns that inode
with `open_cnt` increased by one, the list is as before and no other inode changes. If none
has it and `malloc` succeeds, the call returns the new inode, put at the front of the list,
with the sector asked for, `open_cnt = 1`, `deny_write_cnt = 0` and `removed = false`. In
every case the list is in order afterwards, and so it is after every `inode_close` that
returns. -/
theorem open_inodes_unique {st : fs_state} {h : inode_heap} (hh : heap_ok h)
    (hc : cache_inv st.cache) (sector : Nat) (mem : Option Nat)
    (hfresh : ∀ p, mem = some p → h.objs p = none) :
    (∃ r, inode_open st h sector mem = Except.ok r ∧ heap_ok r.2.1 ∧
      (∀ a ino, h.objs a = some ino → ino.sector = sector →
        r.2.2 = some a ∧ r.2.1.open_inodes = h.open_inodes ∧
        r.2.1.objs a = some { ino with open_cnt := ino.open_cnt + 1 } ∧
        ∀ b, b ≠ a → r.2.1.objs b = h.objs b) ∧
      ((∀ a ino, h.objs a = some ino → ino.sector ≠ sector) → ∀ p, mem = some p →
        r.2.2 = some p ∧ r.2.1.open_inodes = p :: h.open_inodes ∧
        (∃ ino, r.2.1.objs p = some ino ∧ ino.sector = sector ∧ ino.open_cnt = 1 ∧
          ino.deny_write_cnt = 0 ∧ ino.removed = false) ∧
        ∀ b, b ≠ p → r.2.1.objs b = h.objs b)) ∧
      ∀ p r, inode_close st h p = Except.ok r → heap_ok r.2 :=
  ⟨inode_open_spec hh hc sector mem hfresh, fun p r hr => inode_close_heap_ok hh p r hr⟩

theorem init_heap_ok : heap_ok inode_init := by
  refine ⟨List.nodup_nil, ?_, ?_⟩
  · intro a
    constructor
    · intro h
      cases h
    · rintro ⟨x, hx⟩
      cases hx
  · intro a b x y hx
    cases hx

theorem open_inodes_unique_witness :
    ∃ r, inode_open demo_state inode_init 5 (some 100) = Except.ok r ∧ heap_ok r.2.1 ∧
      r.2.2 = some 100 ∧ r.2.1.open_inodes = [100] ∧
      ∃ ino, r.2.1.objs 100 = some ino ∧ ino.sector = 5 ∧ ino.open_cnt = 1 ∧
        ino.deny_write_cnt = 0 ∧ ino.removed = false := by
  obtain ⟨⟨r, h1, h2, _, h3⟩, _⟩ := @open_inodes_unique demo_state inode_init init_heap_ok
    (init_inv demo_device) 5 (some 100) (fun _ _ => rfl)
  obtain ⟨h4, h5, h6, _⟩ := h3 (fun a ino ha => by cases ha) 100 rfl
  exact ⟨r, h1, h2, h4, h5, h6⟩

/-! ## The counters of an in-memory inode -/

theorem counts_ok_update {h : inode_heap} (hc : counts_ok h) (a : Nat) (ino : inode)
    (h1 : 0 ≤ ino.deny_write_cnt) (h2 : ino.deny_write_cnt ≤ ino.open_cnt) :
    counts_ok { objs := Function.update h.objs a (some ino), open_inodes := h.open_inodes } := by
  intro b x hx
  have hx : Function.update h.objs a (some ino) b = some x := hx
  by_cases hb : b = a
  · rw [hb, Function.update_same] at hx
    cases hx
    exact ⟨h1, h2⟩
  · rw [Function.update_noteq hb] at hx
    exact hc b x hx

theorem counts_ok_free {h : inode_heap} (hc : counts_ok h) (a : Nat) (l : List Nat) :
    counts_ok { objs := Function.update h.objs a none, open_inodes := l } := by
  intro b x hx
  have hx : Function.update h.objs a none b = some x := hx
  by_cases hb : b = a
  · rw [hb, Function.update_same] at hx
    cases hx
  · rw [Function.update_noteq hb] at hx
    exact hc b x hx

theorem reopen_counts {h : inode_heap} (hc : counts_ok h) (p : Option Nat)
    (r : inode_heap × Option Nat) (hr : inode_reopen h p = Except.ok r) : counts_ok r.1 := by
  unfold inode_reopen at hr
  cases p with
  | none =>
    cases hr
    exact hc
  | some a =>
    simp only at hr
    cases ha : h.objs a with
    | none =>
      rw [ha] at hr
      cases hr
    | some ino =>
      rw [ha] at hr
      cases hr
      have := hc a ino ha
      exact counts_ok_update hc a _ this.1 (by show ino.deny_write_cnt ≤ ino.open_cnt + 1; omega)

theorem open_counts {st : fs_state} {h : inode_heap} (hc : counts_ok h) (sector : Nat)
    (mem : Option Nat) (r : fs_state × inode_heap × Option Nat)
    (hr : inode_open st h sector mem = Except.ok r) : counts_ok r.2.1 := by
  unfold inode_open at hr
  obtain ⟨f, _, hr⟩ := (except_bind_ok _ _ _).mp hr
  cases f with
  | some a =>
    simp only at hr
    obtain ⟨r1, h1, hr⟩ := (except_bind_ok _ _ _).mp hr
    cases hr
    exact reopen_counts hc _ r1 h1
  | none =>
    cases mem with
    | none =>
      cases hr
      exact hc
    | some p =>
      simp only at hr
      obtain ⟨r1, h1, hr⟩ := (except_bind_ok _ _ _).mp hr
      cases hr
      unfold inode_open_new at h1
      obtain ⟨r2, _, h1⟩ := (except_bind_ok _ _ _).mp h1
      cases h1
      exact counts_ok_update hc p _ (show (0 : Int) ≤ 0 by decide) (show (0 : Int) ≤ 1 by decide)

theorem close_counts {st : fs_state} {h : inode_heap} (hc : counts_ok h) (a : Nat)
    (ha : ∀ ino, h.objs a = some ino → ino.deny_write_cnt < ino.open_cnt)
    (r : fs_state × inode_heap) (hr : inode_close st h (some a) = Except.ok r) :
    counts_ok r.2 := by
  unfold inode_close at hr
  simp only at hr
  cases ho : h.objs a with
  | none =>
    rw [ho] at hr
    cases hr
  | some ino =>
    rw [ho] at hr
    simp only at hr
    by_cases h0 : ino.open_cnt - 1 = 0
    · rw [if_pos h0] at hr
      obtain ⟨st1, _, hr⟩ := (except_bind_ok _ _ _).mp hr
      cases hr
      exact counts_ok_free hc a _
    · rw [if_neg h0] at hr
      cases hr
      have h1 := hc a ino ho
      have h2 := ha ino ho
      exact counts_ok_update hc a _ h1.1
        (by show ino.deny_write_cnt ≤ ino.open_cnt - 1; omega)

theorem at_inode_counts {h : inode_heap} (hc : counts_ok h) (a : Nat)
    (f : inode → Except Fault inode)
    (hf : ∀ x y, f x = Except.ok y → 0 ≤ x.deny_write_cnt → x.deny_write_cnt ≤ x.open_cnt →
      0 ≤ y.deny_write_cnt ∧ y.deny_write_cnt ≤ y.open_cnt)
    (r : inode_heap) (hr : at_inode h a f = Except.ok r) : counts_ok r := by
  unfold at_inode at hr
  cases ho : h.objs a with
  | none =>
    rw [ho] at hr
    cases hr
  | some ino =>
    rw [ho] at hr
    simp only at hr
    obtain ⟨y, hy, hr⟩ := (except_bind_ok _ _ _).mp hr
    cases hr
    have h1 := hc a ino ho
    have h2 := hf ino y hy h1.1 h1.2
    exact counts_ok_update hc a y h2.1 h2.2

theorem deny_write_counts (x y : inode) (h : inode_deny_write x = Except.ok y)
    (h0 : 0 ≤ x.deny_write_cnt) (_ : x.deny_write_cnt ≤ x.open_cnt) :
    0 ≤ y.deny_write_cnt ∧ y.deny_write_cnt ≤ y.open_cnt := by
  unfold inode_deny_write at h
  by_cases hle : x.deny_write_cnt + 1 ≤ x.open_cnt
  · rw [if_pos hle] at h
    cases h
    exact ⟨by show 0 ≤ x.deny_write_cnt + 1; omega, hle⟩
  · rw [if_neg hle] at h
    cases h

theorem allow_write_counts (x y : inode) (h : inode_allow_write x = Except.ok y)
    (_ : 0 ≤ x.deny_write_cnt) (h1 : x.deny_write_cnt ≤ x.open_cnt) :
    0 ≤ y.deny_write_cnt ∧ y.deny_write_cnt ≤ y.open_cnt := by
  unfold inode_allow_write at h
  by_cases hle : x.deny_write_cnt > 0 ∧ x.deny_write_cnt ≤ x.open_cnt
  · rw [if_pos hle] at h
    cases h
    exact ⟨by show 0 ≤ x.deny_write_cnt - 1; omega,
      by show x.deny_write_cnt - 1 ≤ x.open_cnt; omega⟩
  · rw [if_neg hle] at h
    cases h

theorem apply_call_counts {s : fs_state × inode_heap} (hc : counts_ok s.2) (call : inode_call)
    (ha : close_allowed s.2 call) (r : fs_state × inode_heap)
    (hr : apply_inode_call s call = Except.ok r) : counts_ok r.2 := by
  cases call with
  | call_open sector mem =>
    obtain ⟨r1, h1, hr⟩ := (except_bind_ok _ _ _).mp hr
    cases hr
    exact open_counts hc sector mem r1 h1
  | call_reopen p =>
    obtain ⟨r1, h1, hr⟩ := (except_bind_ok _ _ _).mp hr
    cases hr
    exact reopen_counts hc _ r1 h1
  | call_close p => exact close_counts hc p ha r hr
  | call_deny_write p =>
    obtain ⟨r1, h1, hr⟩ := (except_bind_ok _ _ _).mp hr
    cases hr
    exact at_inode_counts hc p _ deny_write_counts r1 h1
  | call_allow_write p =>
    obtain ⟨r1, h1, hr⟩ := (except_bind_ok _ _ _).mp hr
    cases hr
    exact at_inode_counts hc p _ allow_write_counts r1 h1

theorem run_calls_counts : ∀ (calls : List inode_call) (s : fs_state × inode_heap),
    counts_ok s.2 → closes_allowed s calls → ∀ r, run_inode_calls calls s = Except.ok r →
    counts_ok r.2 := by
  intro calls
  induction calls with
  | nil =>
    intro s hc _ r hr
    cases hr
    exact hc
  | cons call calls ih =>
    intro s hc ha r hr
    obtain ⟨s1, h1, hr⟩ := (except_bind_ok _ _ _).mp hr
    have ha' : close_allowed s.2 call ∧
        match apply_inode_call s call with
        | Except.ok s1 => closes_allowed s1 calls
        | Except.error _ => True := ha
    rw [h1] at ha'
    exact ih s1 (apply_call_counts hc call ha'.1 s1 h1) ha'.2 r hr

theorem init_counts_ok : counts_ok inode_init := by
  intro a x hx
  cases hx

/-- The first call of the two demo sequences: `inode_open (5)` on the empty list. -/
theorem demo_open_eq :
    ∃ c1 d, apply_inode_call (demo_state, inode_init) (inode_call.call_open 5 (some 100)) =
      Except.ok (fs_state.mk c1 demo_fmap,
        inode_heap.mk (Function.update (fun _ => none) 100 (some (inode.mk 5 1 false 0 d)))
          [100]) := by
  obtain ⟨c1, d, h, _⟩ := inode_open_new_ok (init_inv demo_device) 5
  refine ⟨c1, d, ?_⟩
  have h' : inode_open_new demo_state.cache 5 = _ := h
  have e : inode_open demo_state inode_init 5 (some 100) =
      Except.ok (fs_state.mk c1 demo_fmap,
        inode_heap.mk (Function.update (fun _ => none) 100 (some (inode.mk 5 1 false 0 d)))
          [100], some 100) := by
    unfold inode_open
    simp only [inode_init, find_open, Except.bind, h']
    rfl
  unfold apply_inode_call
  simp only [e, Except.bind]

theorem demo_deny_run :
    ∃ c1 d, run_inode_calls demo_deny_calls (demo_state, inode_init) =
      Except.ok (fs_state.mk c1 demo_fmap,
        inode_heap.mk (Function.update (fun _ => none) 100 (some (inode.mk 5 1 false 2 d)))
          [100]) := by
  obtain ⟨c1, d, h⟩ := demo_open_eq
  refine ⟨c1, d, ?_⟩
  unfold demo_deny_calls
  unfold run_inode_calls
  rw [h]
  simp [run_inode_calls, apply_inode_call, Except.bind, inode_reopen, at_inode,
    inode_deny_write, inode_close]

theorem demo_allow_run :
    closes_allowed (demo_state, inode_init) demo_allow_calls ∧
      ∃ c1 d, run_inode_calls demo_allow_calls (demo_state, inode_init) =
        Except.ok (fs_state.mk c1 demo_fmap,
          inode_heap.mk (Function.update (fun _ => none) 100 (some (inode.mk 5 1 false 0 d)))
            [100]) := by
  obtain ⟨c1, d, h⟩ := demo_open_eq
  constructor
  · unfold demo_allow_calls
    simp only [closes_allowed, close_allowed, h, true_and]
    simp [apply_inode_call, Except.bind, inode_reopen, at_inode, inode_deny_write,
      inode_allow_write, inode_close]
  · refine ⟨c1, d, ?_⟩
    unfold demo_allow_calls
    unfold run_inode_calls
    rw [h]
    simp [run_inode_calls, apply_inode_call, Except.bind, inode_reopen, at_inode,
      inode_deny_write, inode_allow_write, inode_close]

/-- C22, amended: start from in-memory inodes that all have
`open_cnt >= deny_write_cnt >= 0` (as after `inode_init`, when there is none). After every
sequence of `inode_open`, `inode_reopen`, `inode_close`, `inode_deny_write` and
`inode_allow_write` calls in which every call returns (no `ASSERT` fails, no freed inode is
used) and every `inode_close` is called on an inode whose `deny_write_cnt` is below its
`open_cnt`, every in-memory inode has `open_cnt >= deny_write_cnt >= 0`. -/
theorem counts_ordered (calls : List inode_call) (s r : fs_state × inode_heap)
    (hc : counts_ok s.2) (ha : closes_allowed s calls)
    (hr : run_inode_calls calls s = Except.ok r) :
    ∀ a ino, r.2.objs a = some ino →
      0 ≤ ino.deny_write_cnt ∧ ino.deny_write_cnt ≤ ino.open_cnt :=
  run_calls_counts calls s hc ha r hr

theorem counts_ordered_witness :
    ∃ r, run_inode_calls demo_allow_calls (demo_state, inode_init) = Except.ok r ∧
      (∃ ino, r.2.objs 100 = some ino) ∧
      ∀ a ino, r.2.objs a = some ino →
        0 ≤ ino.deny_write_cnt ∧ ino.deny_write_cnt ≤ ino.open_cnt := by
  obtain ⟨ha, c1, d, hr⟩ := demo_allow_run
  exact ⟨_, hr, ⟨inode.mk 5 1 false 0 d, by simp⟩,
    counts_ordered demo_allow_calls (demo_state, inode_init) _ init_counts_ok ha hr⟩

/-- C22 as stated fails: from the empty open-inode list, `inode_open (5)`, `inode_reopen`,
two calls of `inode_deny_write` and one `inode_close` all return, no `ASSERT` fails and the
inode stays open and listed, but it is left with `open_cnt = 1` and `deny_write_cnt = 2`. -/
theorem close_leaves_deny_above_open :
    ∃ r ino, run_inode_calls demo_deny_calls (demo_state, inode_init) = Except.ok r ∧
      r.2.open_inodes = [100] ∧ r.2.objs 100 = some ino ∧
      ino.open_cnt = 1 ∧ ino.deny_write_cnt = 2 ∧ ¬ counts_ok r.2 := by
  obtain ⟨c1, d, hr⟩ := demo_deny_run
  refine ⟨_, inode.mk 5 1 false 2 d, hr, rfl, by simp, rfl, rfl, ?_⟩
  intro hc
  have h2 : (2 : Int) ≤ 1 := (hc 100 (inode.mk 5 1 false 2 d) (by simp)).2
  exact absurd h2 (by decide)

/-! ## Deallocation -/

theorem release_direct_loop_ok : ∀ (n : Nat) (i : Int) (fm : free_map) (d : inode_disk),
    0 ≤ i → i + n ≤ 12 → ∃ fm1, release_direct_loop n i fm d = Except.ok fm1 := by
  intro n
  induction n with
  | zero => intro i fm d _ _; exact ⟨fm, rfl⟩
  | succ n ih =>
    intro i fm d h0 h1
    unfold release_direct_loop
    unfold direct_get
    rw [dif_pos ⟨h0, by push_cast at h1; omega⟩]
    exact ih (i + 1) _ d (by omega) (by push_cast at h1 ⊢; omega)

/-- The loop over an index block faults as soon as it is asked for more than the 128 entries
the block has. -/
theorem release_entries_oob : ∀ (n : Nat) (i : Int) (fm : free_map) (iid : Sector),
    0 ≤ i → i ≤ 128 → 128 < i + n →
    release_entries n i fm iid = Except.error Fault.out_of_bounds := by
  intro n
  induction n with
  | zero => intro i fm iid _ h1 h2; simp at h2; omega
  | succ n ih =>
    intro i fm iid h0 h1 h2
    unfold release_entries
    unfold blocks_get
    by_cases hi : i < 128
    · rw [dif_pos ⟨h0, hi⟩]
      exact ih (i + 1) _ iid (by omega) (by omega) (by push_cast at h2 ⊢; omega)
    · rw [dif_neg (by omega)]
      rfl

/-- On a file of more than 12 sectors `inode_deallocate` reads past the end of the indirect
block: the loop bound `sectors-LAYER_1` is `sectors - 12 + 128`, at least 129. -/
theorem deallocate_oob {st : fs_state} (hc : cache_inv st.cache) (ino : inode) (ptr : Nat)
    (h0 : 0 ≤ ino.data.length)
    (h1 : 12 < word_int (bytes_to_sectors ino.data.length))
    (h2 : word_int (bytes_to_sectors ino.data.length) ≤ 12 + 128 + 128 * 128) :
    inode_deallocate st ino ptr = Except.error Fault.out_of_bounds := by
  obtain ⟨fm1, hd⟩ := release_direct_loop_ok 12 0 st.fmap ino.data (le_refl _) (by norm_num)
  obtain ⟨c1, hr, _, _⟩ := buffer_cache_read_spec hc ino.data.indirect_pointer
  have he : ∀ fm iid, release_entries
      (word_int (bytes_to_sectors ino.data.length) - 12 + 128).toNat 0 fm iid =
        Except.error Fault.out_of_bounds := by
    intro fm iid
    apply release_entries_oob _ 0 fm iid (le_refl _) (by norm_num)
    omega
  unfold inode_deallocate
  rw [if_neg (by omega), if_neg (by omega)]
  by_cases h3 : word_int (bytes_to_sectors ino.data.length) ≤ 12 + 128
  · rw [if_pos h3, hd, bind_ok, hr, bind_ok, he, bind_error]
  · rw [if_neg h3, if_pos h2, hd, bind_ok, hr, bind_ok, he, bind_error]

theorem roomy_allocate_thirteen :
    ∃ r, inode_allocate roomy_state (fresh_inode_disk (13 * 512) 0) (13 * 512) = Except.ok r ∧
      r.2.2 = true ∧ cache_inv r.1.cache ∧ r.2.1.length = 13 * 512 := by
  obtain ⟨r, h, hb, hc⟩ := @inode_allocate_succeeds roomy_state (fresh_inode_disk (13 * 512) 0)
    (13 * 512) (init_inv demo_device) (by decide) (by rw [roomy_free]; decide)
  have hp : alloc_pre roomy_state (fresh_inode_disk (13 * 512) 0) 1 :=
    fresh_alloc_pre (init_inv demo_device) roomy_fmap_ok (13 * 512) 0 1 rfl
  obtain ⟨_, _, hm, _⟩ := inode_allocate_grows hp h hb
  exact ⟨r, h, hb, hc, hm.1⟩

/-- C21, at 13 sectors: on a free map with room `inode_allocate` accepts the length
`13 * 512` on a fresh inode and returns true, and `inode_deallocate` on the inode so
allocated does not return: after the 12 direct sectors it runs the loop over the indirect
block for `sectors - 12 + 128 = 129` entries and reads `iid.blocks[128]`, past the end of the
block. The free map is not brought back to its state before the allocation. -/
theorem deallocate_reads_past_index_block :
    ∃ r, inode_allocate roomy_state (fresh_inode_disk (13 * 512) 0) (13 * 512) = Except.ok r ∧
      r.2.2 = true ∧
      ∀ (ino : inode) (direct_blocks_ptr : Nat), ino.data = r.2.1 →
        inode_deallocate r.1 ino direct_blocks_ptr = Except.error Fault.out_of_bounds := by
  obtain ⟨r, h, hb, hc, hl⟩ := roomy_allocate_thirteen
  refine ⟨r, h, hb, fun ino ptr hd => ?_⟩
  have hlen : ino.data.length = 13 * 512 := by rw [hd, hl]
  apply deallocate_oob hc ino ptr
  · rw [hlen]; decide
  · rw [hlen]; decide
  · rw [hlen]; decide

/-! ## Growth at the tier boundaries -/

/-- `inode_create` followed by `inode_open` returns a file of the length asked for, when the
free map has room. -/
theorem create_open_total {st0 : fs_state} (hc : cache_inv st0.cache) (hf : fmap_ok st0.fmap)
    (sector : Nat) (hu : st0.fmap.used sector = true) (length type : Int) (h0 : 0 ≤ length)
    (hl : length ≤ 2147483647) (hs : bytes_to_sectors length ≤ 16268)
    (hn : alloc_need (bytes_to_sectors length) ≤ free_count st0.fmap) :
    ∃ st1 c ino, inode_create st0 sector length type = Except.ok (st1, true) ∧
      inode_open_new st1.cache sector = Except.ok (c, ino) ∧ cache_inv c ∧
      ino.data.length = length := by
  obtain ⟨r, h, hb, hcr⟩ := @inode_allocate_succeeds st0 (fresh_inode_disk length type) length
    hc hs hn
  have hp : alloc_pre st0 (fresh_inode_disk length type) sector :=
    fresh_alloc_pre hc hf length type sector hu
  obtain ⟨hp2, _, hm, _⟩ := inode_allocate_grows hp h hb
  obtain ⟨c1, hw, hc1, hv1⟩ := buffer_cache_write_spec hcr sector r.2.1.to_sector
  obtain ⟨c2, hr2, hc2, _⟩ := buffer_cache_read_spec hc1 sector
  have hlen2 : r.2.1.length = length := hm.1
  have hdir : ∀ i, r.2.1.direct_blocks i < 4294967296 := fun i => by
    have := tree_ptr_bound hp2 (slot.direct i.val)
    rw [tree_value_direct] at this
    unfold direct_at at this
    rw [dif_pos i.isLt] at this
    exact this
  obtain ⟨_, _, _, e4⟩ := of_to_sector r.2.1 hdir (tree_ptr_bound hp2 slot.ind)
    (tree_ptr_bound hp2 slot.dbl) (by rw [hlen2]; exact h0) (by rw [hlen2]; exact hl)
  have hsec : cache_view c1 sector = r.2.1.to_sector := by rw [hv1, if_pos rfl]
  refine ⟨fs_state.mk c1 r.1.fmap, c2,
    inode.mk sector 1 false 0 (inode_disk.of_sector (cache_view c1 sector)), ?_, ?_, hc2, ?_⟩
  · unfold inode_create
    rw [if_neg (by omega), h, bind_ok, if_neg (by simp [hb]), hw, bind_ok]
  · unfold inode_open_new
    show (buffer_cache_read c1 sector).bind _ = _
    rw [hr2, bind_ok]
  · show (inode_disk.of_sector (cache_view c1 sector)).length = length
    rw [hsec, e4, hlen2]

theorem wide_fmap_ok : fmap_ok wide_state.fmap :=
  prefix_fmap_ok 32768 2 (by omega) (by omega) (by omega)

theorem wide_free : free_count wide_state.fmap = 32766 := free_count_prefix 32768 2

/-- A write that brings a file to 16524 sectors ends in `PANIC ("Realloc failed")`. -/
theorem write_to_full_size_panics {st : fs_state} (hc : cache_inv st.cache) (ino : inode)
    (buffer : Buffer) (size offset : Int) (hl : ino.data.length < size + offset)
    (h : 16524 ≤ bytes_to_sectors (size + offset)) :
    inode_write_at st ino buffer size offset = Except.error Fault.kernel_panic := by
  unfold inode_write_at
  rw [write_grow_panics hc ino size offset hl h, bind_error]

/-- C29, at the largest file: on a disk of 32768 sectors with 32766 free, a file of exactly
`12 * 512` bytes (respectively `140 * 512`) is created and opened. Writing the
`16512 * 512` (respectively `16384 * 512`) bytes that bring it to `16524 * 512` bytes, the
largest length of the format, at offset `12 * 512` (respectively `140 * 512`) does not
return: `inode_allocate` refuses 16524 sectors and `inode_write_at` ends in
`PANIC ("Realloc failed")`, so nothing can be read back. -/
theorem boundary_growth_to_full_size_panics :
    (∃ st1 c ino, inode_create wide_state 1 (12 * 512) 0 = Except.ok (st1, true) ∧
      inode_open_new st1.cache 1 = Except.ok (c, ino) ∧ ino.data.length = 12 * 512 ∧
      ∀ buffer : Buffer, inode_write_at { cache := c, fmap := st1.fmap } ino buffer
        (16512 * 512) (12 * 512) = Except.error Fault.kernel_panic) ∧
    (∃ st1 c ino, inode_create wide_state 1 (140 * 512) 0 = Except.ok (st1, true) ∧
      inode_open_new st1.cache 1 = Except.ok (c, ino) ∧ ino.data.length = 140 * 512 ∧
      ∀ buffer : Buffer, inode_write_at { cache := c, fmap := st1.fmap } ino buffer
        (16384 * 512) (140 * 512) = Except.error Fault.kernel_panic) := by
  constructor
  · obtain ⟨st1, c, ino, h1, h2, hc, hlen⟩ := @create_open_total wide_state
      (init_inv demo_device) wide_fmap_ok 1 rfl (12 * 512) 0 (by decide) (by decide)
      (by decide) (by rw [wide_free]; decide)
    refine ⟨st1, c, ino, h1, h2, hlen, fun buffer => ?_⟩
    exact write_to_full_size_panics hc ino buffer _ _ (by rw [hlen]; decide) (by decide)
  · obtain ⟨st1, c, ino, h1, h2, hc, hlen⟩ := @create_open_total wide_state
      (init_inv demo_device) wide_fmap_ok 1 rfl (140 * 512) 0 (by decide) (by decide)
      (by decide) (by rw [wide_free]; decide)
    refine ⟨st1, c, ino, h1, h2, hlen, fun buffer => ?_⟩
    exact write_to_full_size_panics hc ino buffer _ _ (by rw [hlen]; decide) (by decide)

/-! ## Termination of the sweep -/

/-- The turn at which the sweep stops: the first `k <= 64` at which the slot under the hand,
after `k` turns, is not pinned. -/
theorem sweep_stop_index (c : cache_state) :
    ∃ k, k ≤ 64 ∧
      (∀ m, m < k →
        ((sweep_step^[m] c).buffer_cache_list (sweep_step^[m] c).clock_pin).pinned = true) ∧
      ((sweep_step^[k] c).buffer_cache_list (sweep_step^[k] c).clock_pin).pinned = false := by
  have hex : ∃ m, m = 64 ∨ (c.buffer_cache_list (hand_plus c m)).pinned = false :=
    ⟨64, Or.inl rfl⟩
  have hk64 : Nat.find hex ≤ 64 := Nat.find_min' hex (Or.inl rfl)
  have hmin : ∀ m, m < Nat.find hex →
      (c.buffer_cache_list (hand_plus c m)).pinned = true := by
    intro m hm
    have := Nat.find_min hex hm
    cases hp : (c.buffer_cache_list (hand_plus c m)).pinned with
    | true => rfl
    | false => exact absurd (Or.inr hp) this
  have hspec := Nat.find_spec hex
  generalize Nat.find hex = k at hk64 hmin hspec
  have hsw := sweep_iter_swept c
  refine ⟨k, hk64, ?_, ?_⟩
  · intro m hm
    rw [(hsw m).hand, (hsw m).kept _ ?_]
    · exact hmin m hm
    · rintro ⟨n, hn, hn2⟩
      have := hand_plus_inj c (by omega) (by omega) hn2
      omega
  · rw [(hsw k).hand]
    by_cases hlt : k < 64
    · rw [(hsw k).kept _ ?_]
      · rcases hspec with h | h
        · omega
        · exact h
      · rintro ⟨m, hm, hm2⟩
        have := hand_plus_inj c hlt (by omega) hm2
        omega
    · have hk : k = 64 := by omega
      subst hk
      exact (hsw 64).cleared _ ⟨0, by decide, by rw [hand_plus_full, hand_plus_zero]⟩

/-- C31: for every cache state, whatever the hand position, the sweep loop of
`buffer_cache_evict` stops after `k` turns for some `k <= 64`: run with any fuel above `k`
(the 65 turns `buffer_cache_evict` gives it among them) it returns the state after `k` turns,
each of which advances the hand by one slot, so the hand ends `k` places on, cyclically. -/
theorem sweep_terminates (c : cache_state) :
    ∃ k, k ≤ 64 ∧ (∀ n, clock_sweep (k + 1 + n) c = Except.ok (sweep_step^[k] c)) ∧
      clock_sweep (BUFFER_CACHE_SIZE + 1) c = Except.ok (sweep_step^[k] c) ∧
      (sweep_step^[k] c).clock_pin = hand_plus c k := by
  obtain ⟨k, hk, hp, hs⟩ := sweep_stop_index c
  refine ⟨k, hk, fun n => clock_sweep_stops k _ c (by omega) hp hs, ?_,
    (sweep_iter_swept c k).hand⟩
  exact clock_sweep_stops k _ c (by show k < 64 + 1; omega) hp hs

/-! ## What the eviction leaves -/

/-- On a state with the cache invariant, the slot `buffer_cache_evict` hands out is not in
use and not dirty, and a victim that was in use and dirty is on the device. -/
theorem evict_clean_spec {c : cache_state} (hi : cache_inv c) :
    ∃ c' v, buffer_cache_evict c = Except.ok (c', v) ∧
      (c'.buffer_cache_list v).inuse = false ∧ (c'.buffer_cache_list v).dirty = false ∧
      ((c.buffer_cache_list v).inuse = true → (c.buffer_cache_list v).dirty = true →
        c'.fs_device (c.buffer_cache_list v).block_index = (c.buffer_cache_list v).buffer) := by
  obtain ⟨c', v, he, _, hu, hd⟩ := evict_keeps hi
  refine ⟨c', v, he, hu, hd, fun hvu hvd => ?_⟩
  unfold buffer_cache_evict at he
  cases hs : evict_scan c BUFFER_CACHE_SIZE with
  | some i =>
    rw [hs] at he
    injection he with he
    obtain ⟨_, h2⟩ := evict_scan_some c _ i hs
    have hiv : i = v := congrArg Prod.snd he
    rw [hiv, hvu] at h2
    cases h2
  | none =>
    rw [hs] at he
    obtain ⟨c1, h1, he⟩ := (except_bind_ok _ _ _).mp he
    obtain ⟨hsame, _⟩ := clock_sweep_same _ _ _ h1
    have hu1 : (c1.buffer_cache_list c1.clock_pin).inuse = true →
        ∃ c2, evict_victim c1 = Except.ok (c2, c1.clock_pin) ∧
          c2.fs_device =
            if (c1.buffer_cache_list c1.clock_pin).dirty = true then
              block_write c1.fs_device (c1.buffer_cache_list c1.clock_pin).block_index
                (c1.buffer_cache_list c1.clock_pin).buffer
            else c1.fs_device := by
      intro h
      obtain ⟨c2, e1, _, _, _, _, _, _, _, e2⟩ := evict_victim_spec c1 h
      exact ⟨c2, e1, e2⟩
    by_cases hin : (c1.buffer_cache_list c1.clock_pin).inuse = true
    · obtain ⟨c2, e1, e2⟩ := hu1 hin
      rw [e1] at he
      injection he with he
      have hc : c2 = c' := congrArg Prod.fst he
      have hv : c1.clock_pin = v := congrArg Prod.snd he
      subst hc
      rw [e2, hv, (hsame.2 v).2.1, hvd, if_pos rfl, (hsame.2 v).2.2.1, (hsame.2 v).2.2.2]
      unfold block_write
      rw [Function.update_same]
    · exfalso
      unfold evict_victim at he
      obtain ⟨c2, e1, he⟩ := (except_bind_ok _ _ _).mp he
      have hnd : (c1.buffer_cache_list c1.clock_pin).dirty = false := by
        cases hdd : (c1.buffer_cache_list c1.clock_pin).dirty with
        | false => rfl
        | true =>
          have := (same_data_inv hsame hi).dirty_inuse _ hdd
          exact absurd this hin
      rw [if_neg (by rw [hnd]; decide)] at e1
      injection e1 with e1
      subst e1
      injection he with he
      have hv : c1.clock_pin = v := congrArg Prod.snd he
      apply hin
      rw [hv, (hsame.2 v).1]
      exact hvu

/-- C32: from the zero-initialised cache after `buffer_cache_init` over any device, after any
sequence of `buffer_cache_read`, `buffer_cache_write` and `buffer_cache_close` calls,
`buffer_cache_evict` returns; the slot it returns is not in use and not dirty in the state
returned; and if that slot was in use and dirty before the call, the device holds on return
the slot's 512 data bytes at the slot's `block_index`. -/
theorem evict_returns_clean_slot (dev : Device) (calls : List cache_call) :
    ∃ c c' v, run_calls calls (buffer_cache_init (boot_cache dev)) = Except.ok c ∧
      buffer_cache_evict c = Except.ok (c', v) ∧
      (c'.buffer_cache_list v).inuse = false ∧ (c'.buffer_cache_list v).dirty = false ∧
      ((c.buffer_cache_list v).inuse = true → (c.buffer_cache_list v).dirty = true →
        c'.fs_device (c.buffer_cache_list v).block_index = (c.buffer_cache_list v).buffer) := by
  obtain ⟨c, h1, h2⟩ := run_calls_inv calls _ (init_inv dev)
  obtain ⟨c', v, h3, h4, h5, h6⟩ := evict_clean_spec h2
  exact ⟨c, c', v, h1, h3, h4, h5, h6⟩

/-! ## Cache hits -/

/-- After a read of `s` the sector is resident. -/
theorem read_resident {c : cache_state} (hi : cache_inv c) (s : Nat) :
    ∃ r, buffer_cache_read c s = Except.ok r ∧ cache_inv r.1 ∧ resident r.1 s := by
  obtain ⟨c1, v, h1, hi1, _, hr⟩ := read_slot_spec hi s
  have hs := set_pinned_same c1 v true
  refine ⟨(set_entry c1 v { c1.buffer_cache_list v with pinned := true },
    (c1.buffer_cache_list v).buffer), ?_, same_data_inv hs hi1,
    ⟨v, (same_data_holds hs v s).mpr hr⟩⟩
  unfold buffer_cache_read
  rw [h1]
  rfl

theorem read_calls_hit {c : cache_state} (hi : cache_inv c) {i : Fin 64} {s : Nat}
    (h : holds c i s) : read_calls c s = Except.ok [] := by
  unfold read_calls
  rw [lookup_of_holds hi h]

theorem evict_calls_reads {c : cache_state} (l : List device_call)
    (h : evict_calls c = Except.ok l) : device_reads l = 0 := by
  unfold evict_calls at h
  cases hs : evict_scan c BUFFER_CACHE_SIZE with
  | some i =>
    rw [hs] at h
    cases h
    rfl
  | none =>
    rw [hs] at h
    obtain ⟨c1, _, h⟩ := (except_bind_ok _ _ _).mp h
    by_cases hd : (c1.buffer_cache_list c1.clock_pin).dirty = true
    · rw [if_pos hd] at h
      obtain ⟨c2, _, h⟩ := (except_bind_ok _ _ _).mp h
      cases h
      rfl
    · rw [if_neg hd] at h
      cases h
      rfl

theorem device_reads_append (l1 l2 : List device_call) :
    device_reads (l1 ++ l2) = device_reads l1 + device_reads l2 := by
  induction l1 with
  | nil => simp [device_reads]
  | cons a l ih =>
    cases a with
    | read s => simp [device_reads, ih]; omega
    | write s => simp [device_reads, ih]

theorem evict_calls_ok {c : cache_state} (hi : cache_inv c) :
    ∃ l, evict_calls c = Except.ok l := by
  unfold evict_calls
  cases hs : evict_scan c BUFFER_CACHE_SIZE with
  | some i => exact ⟨[], rfl⟩
  | none =>
    obtain ⟨c1, h1⟩ := clock_sweep_total 64 c (pinned_count_le c)
    have h1' : clock_sweep (BUFFER_CACHE_SIZE + 1) c = Except.ok c1 := h1
    obtain ⟨hsame, _⟩ := clock_sweep_same _ _ _ h1
    have hi1 := same_data_inv hsame hi
    simp only [h1', Except.bind]
    by_cases hd : (c1.buffer_cache_list c1.clock_pin).dirty = true
    · rw [if_pos hd, flush_keeps hi1 _ hd]
      exact ⟨_, rfl⟩
    · rw [if_neg hd]
      exact ⟨_, rfl⟩

/-- A read makes at most one `block_read`. -/
theorem read_calls_ok {c : cache_state} (hi : cache_inv c) (s : Nat) :
    ∃ l, read_calls c s = Except.ok l ∧ device_reads l ≤ 1 := by
  unfold read_calls
  cases hl : buffer_cache_lookup c s with
  | some i => exact ⟨[], rfl, Nat.zero_le _⟩
  | none =>
    obtain ⟨l, he⟩ := evict_calls_ok hi
    refine ⟨l ++ [device_call.read s], by simp only [he, Except.bind], ?_⟩
    rw [device_reads_append, evict_calls_reads l he]
    exact le_refl _

/-- What a read of a resident sector does. -/
theorem read_hit_spec {c : cache_state} (hi : cache_inv c) {s : Nat} (hres : resident c s) :
    ∃ i c' buf, holds c i s ∧ buffer_cache_read c s = Except.ok (c', buf) ∧
      buf = (c.buffer_cache_list i).buffer ∧
      read_calls c s = Except.ok [] ∧
      c'.fs_device = c.fs_device ∧ c'.clock_pin = c.clock_pin ∧
      (∀ j, (c'.buffer_cache_list j).block_index = (c.buffer_cache_list j).block_index ∧
        (c'.buffer_cache_list j).buffer = (c.buffer_cache_list j).buffer ∧
        (c'.buffer_cache_list j).dirty = (c.buffer_cache_list j).dirty ∧
        (c'.buffer_cache_list j).inuse = (c.buffer_cache_list j).inuse) ∧
      (∀ j, j ≠ i → (c'.buffer_cache_list j).pinned = (c.buffer_cache_list j).pinned) ∧
      (c'.buffer_cache_list i).pinned = true := by
  obtain ⟨i, hh⟩ := hres
  have hs := set_pinned_same c i true
  refine ⟨i, _, _, hh, read_hit_eq hi hh, rfl, read_calls_hit hi hh, rfl, rfl, ?_, ?_, ?_⟩
  · intro j
    exact ⟨(hs.2 j).2.2.1, (hs.2 j).2.2.2, (hs.2 j).2.1, (hs.2 j).1⟩
  · intro j hj
    rw [set_entry_other _ _ hj]
  · simp

/-- Two reads of the same sector in a row: the second makes no device call. -/
theorem read_twice_spec {c : cache_state} (hi : cache_inv c) (s : Nat) :
    ∃ r1 r2 l1 l2, buffer_cache_read c s = Except.ok r1 ∧ read_calls c s = Except.ok l1 ∧
      buffer_cache_read r1.1 s = Except.ok r2 ∧ read_calls r1.1 s = Except.ok l2 ∧
      l2 = [] ∧ device_reads (l1 ++ l2) ≤ 1 := by
  obtain ⟨r1, h1, hi1, hres⟩ := read_resident hi s
  obtain ⟨l1, h2, h3⟩ := read_calls_ok hi s
  obtain ⟨_, c2, buf, _, h4, _, h5, _⟩ := read_hit_spec hi1 hres
  exact ⟨r1, (c2, buf), l1, [], h1, h2, h4, h5, rfl, by simpa using h3⟩

/-- C33: let `c` be reached from the zero-initialised cache after `buffer_cache_init` by any
sequence of reads, writes and closes, and let sector `s` be resident in `c`, in slot `i`.
Then `buffer_cache_read (s)` returns the buffer of slot `i` and makes no device call; the
device, the hand and every slot's `block_index`, `buffer`, `dirty` and `inuse` are as before,
and so is `pinned` on every slot but `i`, where it is set. And for any sector `t`, two reads
of `t` in a row from `c` both return, the second makes no device call (`l2 = []`), and the
two together make at most one `block_read`. -/
theorem cache_hit_no_io (dev : Device) (calls : List cache_call) (c : cache_state) (s : Nat)
    (hrun : run_calls calls (buffer_cache_init (boot_cache dev)) = Except.ok c)
    (hres : resident c s) :
    (∃ i c' buf, holds c i s ∧ buffer_cache_read c s = Except.ok (c', buf) ∧
      buf = (c.buffer_cache_list i).buffer ∧
      read_calls c s = Except.ok [] ∧
      c'.fs_device = c.fs_device ∧ c'.clock_pin = c.clock_pin ∧
      (∀ j, (c'.buffer_cache_list j).block_index = (c.buffer_cache_list j).block_index ∧
        (c'.buffer_cache_list j).buffer = (c.buffer_cache_list j).buffer ∧
        (c'.buffer_cache_list j).dirty = (c.buffer_cache_list j).dirty ∧
        (c'.buffer_cache_list j).inuse = (c.buffer_cache_list j).inuse) ∧
      (∀ j, j ≠ i → (c'.buffer_cache_list j).pinned = (c.buffer_cache_list j).pinned) ∧
      (c'.buffer_cache_list i).pinned = true) ∧
    ∀ t, ∃ r1 r2 l1 l2, buffer_cache_read c t = Except.ok r1 ∧
      read_calls c t = Except.ok l1 ∧ buffer_cache_read r1.1 t = Except.ok r2 ∧
      read_calls r1.1 t = Except.ok l2 ∧ l2 = [] ∧ device_reads (l1 ++ l2) ≤ 1 := by
  obtain ⟨c0, h1, hi⟩ := run_calls_inv calls _ (init_inv dev)
  rw [hrun] at h1
  injection h1 with h1
  subst h1
  exact ⟨read_hit_spec hi hres, fun t => read_twice_spec hi t⟩

theorem cache_hit_no_io_witness :
    ∃ c, run_calls [cache_call.read 7] (buffer_cache_init (boot_cache demo_device)) =
        Except.ok c ∧ resident c 7 ∧
      ∃ c' buf, buffer_cache_read c 7 = Except.ok (c', buf) ∧
        read_calls c 7 = Except.ok [] ∧ c'.fs_device = c.fs_device := by
  obtain ⟨r, h1, _, h3⟩ := read_resident (init_inv demo_device) 7
  have hrun : run_calls [cache_call.read 7] (buffer_cache_init (boot_cache demo_device)) =
      Except.ok r.1 := by
    simp only [run_calls, apply_call, h1, Except.bind]
  obtain ⟨⟨_, c', buf, _, h4, _, h5, h6, _⟩, _⟩ :=
    cache_hit_no_io demo_device [cache_call.read 7] r.1 7 hrun h3
  exact ⟨r.1, hrun, h3, c', buf, h4, h5, h6⟩

/-! ## The in-memory copy of the on-disk inode -/

theorem word_byte_sector_word (s : Sector) (k : Fin 128) (m : Nat) (hm : m < 4) :
    word_byte (sector_word s k) m = s ⟨4 * k.val + m, by have := k.isLt; omega⟩ := by
  apply Fin.ext
  unfold word_byte sector_word
  have h0 := (s ⟨4 * k.val, by have := k.isLt; omega⟩).isLt
  have h1 := (s ⟨4 * k.val + 1, by have := k.isLt; omega⟩).isLt
  have h2 := (s ⟨4 * k.val + 2, by have := k.isLt; omega⟩).isLt
  have h3 := (s ⟨4 * k.val + 3, by have := k.isLt; omega⟩).isLt
  show ((s ⟨4 * k.val, _⟩).val + 256 * (s ⟨4 * k.val + 1, _⟩).val
    + 65536 * (s ⟨4 * k.val + 2, _⟩).val + 16777216 * (s ⟨4 * k.val + 3, _⟩).val) / 256 ^ m
      % 256 = (s ⟨4 * k.val + m, _⟩).val
  interval_cases m
  · norm_num
    omega
  · norm_num
    omega
  · norm_num
    omega
  · norm_num
    omega

theorem sector_word_lt (s : Sector) (k : Fin 128) : sector_word s k < 4294967296 := by
  unfold sector_word
  have h0 := (s ⟨4 * k.val, by have := k.isLt; omega⟩).isLt
  have h1 := (s ⟨4 * k.val + 1, by have := k.isLt; omega⟩).isLt
  have h2 := (s ⟨4 * k.val + 2, by have := k.isLt; omega⟩).isLt
  have h3 := (s ⟨4 * k.val + 3, by have := k.isLt; omega⟩).isLt
  omega

theorem int_word_word_int (w : Nat) (h : w < 4294967296) : int_word (word_int w) = w := by
  unfold int_word word_int
  split_ifs <;> omega

/-- The words of the `struct inode_disk` read from a sector are the words of the sector. -/
theorem of_sector_word (s : Sector) (k : Fin 128) :
    (inode_disk.of_sector s).word k = sector_word s k := by
  have hk := k.isLt
  unfold inode_disk.word
  by_cases h1 : k.val < 12
  · rw [dif_pos h1]
    rfl
  · rw [dif_neg h1]
    by_cases h12 : k.val = 12
    · rw [if_pos h12]
      show sector_word s 12 = sector_word s k
      congr 1
      exact Fin.ext h12.symm
    · rw [if_neg h12]
      by_cases h13 : k.val = 13
      · rw [if_pos h13]
        show sector_word s 13 = sector_word s k
        congr 1
        exact Fin.ext h13.symm
      · rw [if_neg h13]
        by_cases h14 : k.val = 14
        · rw [if_pos h14]
          show int_word (word_int (sector_word s 14)) = sector_word s k
          rw [int_word_word_int _ (sector_word_lt s 14)]
          congr 1
          exact Fin.ext h14.symm
        · rw [if_neg h14]
          by_cases h15 : k.val = 15
          · rw [if_pos h15]
            show int_word (word_int (sector_word s 15)) = sector_word s k
            rw [int_word_word_int _ (sector_word_lt s 15)]
            congr 1
            exact Fin.ext h15.symm
          · rw [if_neg h15]
            by_cases h16 : k.val = 16
            · rw [if_pos h16]
              show int_word (word_int (sector_word s 16)) = sector_word s k
              rw [int_word_word_int _ (sector_word_lt s 16)]
              congr 1
              exact Fin.ext h16.symm
            · rw [if_neg h16]
              by_cases h17 : k.val = 17
              · rw [if_pos h17]
                show sector_word s 17 = sector_word s k
                congr 1
                exact Fin.ext h17.symm
              · rw [if_neg h17, dif_pos (by omega)]
                show sector_word s ⟨k.val - 18 + 18, _⟩ = sector_word s k
                congr 1
                apply Fin.ext
                show k.val - 18 + 18 = k.val
                omega

/-- The `struct inode_disk` read from a sector has exactly the bytes of the sector. -/
theorem to_of_sector (s : Sector) : (inode_disk.of_sector s).to_sector = s := by
  funext j
  have hj := j.isLt
  unfold inode_disk.to_sector
  rw [of_sector_word, word_byte_sector_word s _ (j.val % 4) (by omega)]
  congr 1
  apply Fin.ext
  show 4 * (j.val / 4) + j.val % 4 = j.val
  omega

/-- The inode `inode_open` builds is the copy of its sector. -/
theorem open_new_synced {c c' : cache_state} {sector : Nat} {ino : inode}
    (hc : cache_inv c) (h : inode_open_new c sector = Except.ok (c', ino)) :
    inode_synced c' ino ∧ ino.sector = sector := by
  unfold inode_open_new at h
  obtain ⟨r, hr, h⟩ := (except_bind_ok _ _ _).mp h
  obtain ⟨_, h2, h3⟩ := cache_read_ok hc hr
  cases h
  refine ⟨?_, rfl⟩
  show cache_view r.1 sector = (inode_disk.of_sector r.2).to_sector
  rw [to_of_sector, h3, h2]

/-- The growth block of `inode_write_at` leaves the in-memory inode the copy of its sector. -/
theorem write_grow_synced {st st1 : fs_state} {ino ino1 : inode} {size offset : Int}
    (hc : cache_inv st.cache) (hsync : inode_synced st.cache ino)
    (h : write_grow st ino size offset = Except.ok (st1, ino1)) :
    inode_synced st1.cache ino1 ∧ ino1.sector = ino.sector := by
  unfold write_grow at h
  obtain ⟨r, hr0, h⟩ := (except_bind_ok _ _ _).mp h
  obtain ⟨hc0, hv0⟩ := byte_to_sector_keeps hc ino _ r.2 hr0
  by_cases hn : r.2 = SECTOR_NONE
  · rw [if_pos hn] at h
    obtain ⟨c1, hw1, h⟩ := (except_bind_ok _ _ _).mp h
    obtain ⟨r2, ha, h⟩ := (except_bind_ok _ _ _).mp h
    by_cases hb : r2.2.2 = false
    · rw [if_pos hb] at h; cases h
    · rw [if_neg hb] at h
      obtain ⟨c3, hw3, h⟩ := (except_bind_ok _ _ _).mp h
      obtain ⟨hc1, _⟩ := cache_write_ok hc0 hw1
      have hc2 : cache_inv r2.1.cache :=
        @inode_allocate_inv (fs_state.mk c1 st.fmap) _ _ _ hc1 ha
      obtain ⟨_, hv3⟩ := cache_write_ok hc2 hw3
      cases h
      refine ⟨?_, rfl⟩
      show cache_view c3 ino.sector = (set_length r2.2.1 (size + offset)).to_sector
      rw [hv3, if_pos rfl]
  · rw [if_neg hn] at h
    cases h
    refine ⟨?_, rfl⟩
    show cache_view r.1 ino.sector = ino.data.to_sector
    rw [hv0]
    exact hsync

/-- The copy loop of `inode_write_at` inside a file in order does not touch the sector of the
inode. -/
theorem write_loop_isec : ∀ (fuel : Nat) (c : cache_state) (fm : free_map) (ino : inode)
    (buffer : Buffer) (size offset bw : Int),
    file_ok { cache := c, fmap := fm } ino → 0 ≤ offset → 0 ≤ size → 0 ≤ bw →
    size ≤ fuel → offset + size ≤ ino.data.length →
    ∃ c', write_loop fuel c ino buffer size offset bw = Except.ok (c', bw + size) ∧
      cache_view c' ino.sector = cache_view c ino.sector := by
  intro fuel
  induction fuel with
  | zero =>
    intro c fm ino buffer size offset bw hok _ hs _ hf _
    have : size = 0 := by omega
    subst this
    exact ⟨c, by simp [write_loop], rfl⟩
  | succ fuel ih =>
    intro c fm ino buffer size offset bw hok ho hs hbw hf hl
    unfold write_loop
    by_cases hpos : size > 0
    · rw [if_pos hpos]
      obtain ⟨c1, h1, hX0, _, hc1, hv1⟩ := @mapped_lookup c fm ino hok offset ho (by omega)
      have hch := chunk_size_eq ino size offset ho
      have hm := Int.emod_nonneg offset (show (512 : Int) ≠ 0 by norm_num)
      have hm2 := Int.emod_lt_of_pos offset (show (0 : Int) < 512 by norm_num)
      have htm : Int.tmod offset 512 = offset % 512 := Int.tmod_eq_emod ho (by norm_num)
      have hlow : 0 < chunk_size ino size offset := by
        rw [hch]; unfold inode_length; omega
      have hle : chunk_size ino size offset ≤ size := by rw [hch]; omega
      have hsec : offset % 512 + chunk_size ino size offset ≤ 512 := by
        rw [hch]; omega
      obtain ⟨r1, h2, hc2, hv2, _⟩ := write_chunk_spec hc1
        (file_sector (cache_view c) ino.data (offset / 512).toNat) buffer (offset % 512)
        (chunk_size ino size offset) bw hm hsec hbw
      obtain ⟨c3, h3, hc3, hv3⟩ := buffer_cache_write_spec hc2
        (file_sector (cache_view c) ino.data (offset / 512).toNat) r1.2
      have ht3 : ∀ a, tree_value ino.data (cache_view c3) a =
          tree_value ino.data (cache_view c) a := fun a =>
        tree_value_write (file_sector (cache_view c) ino.data (offset / 512).toNat)
          (fun t ht => by rw [hv3 t, if_neg ht, hv2 t, hv1 t])
          (fun b hb _ => data_sector_not_index hok.pre.tree (data_slot_is_data _) hX0 b hb) a
      have hok3 : file_ok { cache := c3, fmap := fm } ino :=
        ⟨⟨hc3, hok.pre.fm_ok, hok.pre.inode_used, by
          show tree_ok (tree_value ino.data (cache_view c3)) fm ino.sector
          rw [show tree_value ino.data (cache_view c3) = tree_value ino.data (cache_view c)
            from funext ht3]
          exact hok.pre.tree⟩, hok.len_nonneg, hok.len_fits, fun i hi => by
          show tree_value ino.data (cache_view c3) (data_slot i) ≠ 0
          rw [ht3]
          exact hok.mapped i hi⟩
      obtain ⟨c', h4, hv4⟩ := ih c3 fm ino buffer
        (size - chunk_size ino size offset) (offset + chunk_size ino size offset)
        (bw + chunk_size ino size offset) hok3 (by omega) (by omega) (by omega) (by omega)
        (by omega)
      rw [h1, bind_ok, if_neg (by omega), htm, h2, bind_ok, h3, bind_ok, h4]
      refine ⟨c', by congr 2; ring, ?_⟩
      have hne : ino.sector ≠ file_sector (cache_view c) ino.data (offset / 512).toNat :=
        fun e => hok.pre.tree.not_inode _ hX0 e.symm
      rw [hv4, hv3, if_neg hne, hv2, hv1]
    · rw [if_neg hpos]
      have : size = 0 := by omega
      subst this
      exact ⟨c, by simp, rfl⟩

/-- C34: on a file in order whose in-memory inode is, byte for byte, the contents of its
sector as seen through the cache, every `inode_write_at` of `size >= 0` bytes at
`offset >= 0` (with `size + offset` an `off_t`) that returns leaves the in-memory inode the
copy of its sector again, whether or not the write grew the file, allocated pointers or was
refused by `deny_write_cnt`. -/
theorem write_at_keeps_inode_copy {st st' : fs_state} {ino ino' : inode} {buffer : Buffer}
    {size offset n : Int} (hok : file_ok st ino) (hsync : inode_synced st.cache ino)
    (hs : 0 ≤ size) (ho : 0 ≤ offset) (hr : size + offset ≤ 2147483647)
    (hw : inode_write_at st ino buffer size offset = Except.ok (st', ino', n)) :
    inode_synced st'.cache ino' ∧ ino'.sector = ino.sector := by
  unfold inode_write_at at hw
  obtain ⟨r, hg0, hw⟩ := (except_bind_ok _ _ _).mp hw
  obtain ⟨hg, hle, _⟩ := @write_grow_spec st r.1 ino r.2 size offset hok hs ho hr hg0
  obtain ⟨hsy, hsec⟩ := @write_grow_synced st r.1 ino r.2 size offset hok.pre.cache hsync hg0
  by_cases hd : r.2.deny_write_cnt ≠ 0
  · rw [if_pos hd] at hw
    cases hw
    exact ⟨hsy, hsec⟩
  · rw [if_neg hd] at hw
    obtain ⟨r1, hl, hw⟩ := (except_bind_ok _ _ _).mp hw
    obtain ⟨c', h4, hv4⟩ := write_loop_isec size.toNat r.1.cache r.1.fmap r.2
      buffer size offset 0 hg.ok ho hs (le_refl _) (by omega) (by omega)
    rw [h4] at hl
    cases hl
    cases hw
    refine ⟨?_, hsec⟩
    show cache_view c' r.2.sector = r.2.data.to_sector
    rw [hv4]
    exact hsy

theorem create_cache_inv {st st1 : fs_state} {sector : Nat} {length type : Int} {b : Bool}
    (hc : cache_inv st.cache) (h : inode_create st sector length type = Except.ok (st1, b)) :
    cache_inv st1.cache := by
  unfold inode_create at h
  by_cases hneg : length < 0
  · rw [if_pos hneg] at h; cases h
  · rw [if_neg hneg] at h
    obtain ⟨r, ha, h⟩ := (except_bind_ok _ _ _).mp h
    have hc1 := inode_allocate_inv hc ha
    by_cases hb : r.2.2 = false
    · rw [if_pos hb] at h
      cases h
      exact hc1
    · rw [if_neg hb] at h
      obtain ⟨c1, hw1, h⟩ := (except_bind_ok _ _ _).mp h
      cases h
      exact (cache_write_ok hc1 hw1).1

theorem write_at_keeps_inode_copy_witness :
    ∃ st ino st' ino' n, file_ok st ino ∧ inode_synced st.cache ino ∧
      inode_length ino = 0 ∧
      inode_write_at st ino (fun _ => 7) 3 5 = Except.ok (st', ino', n) ∧
      inode_synced st'.cache ino' := by
  obtain ⟨c1, c2, ino, hcr, hop, hlen, hdir⟩ := demo_create
  have hre : reachable { cache := c2, fmap := demo_fmap } ino :=
    reachable.create demo_state { cache := c1, fmap := demo_fmap } 1 0 0 c2 ino
      (init_inv demo_device) demo_fmap_ok rfl (by decide) hcr hop
  have hok := (reachable_ok hre).1
  have hc1 : cache_inv c1 := create_cache_inv (init_inv demo_device) hcr
  have hsy : inode_synced c2 ino := (open_new_synced hc1 hop).1
  obtain ⟨st1, ino1, hg⟩ := @grow_one_ok { cache := c2, fmap := demo_fmap } ino hok.pre.cache
    3 5 (by rw [hlen]; decide) (by decide) (by decide) hdir _ demo_allocate
  obtain ⟨st', n, hw⟩ := write_at_ok_of_grow hok (fun _ => 7) 3 5 (by decide) (by decide)
    (by decide) hg
  exact ⟨_, ino, st', ino1, n, hok, hsy, hlen, hw,
    (write_at_keeps_inode_copy hok hsy (by decide) (by decide) (by decide) hw).1⟩

/-! ## `syscall_inumber` -/

/-- For a descriptor number other than 2, `syscall_inumber` returns the sector of the inode of
the first descriptor with that number. -/
theorem inumber_loop_spec (file_get_inode : Nat → Option Nat) (h : inode_heap) (fd : Int)
    (hfd : fd ≠ 2) : ∀ (l : List file_descriptor) (f : file_descriptor) (a : Nat) (ino : inode),
    l.find? (fun g => decide (g.fd = fd)) = some f → file_get_inode f.file_address = some a →
    h.objs a = some ino →
    inumber_loop file_get_inode h fd l =
      Except.ok (syscall_outcome.returns (word_int (inode_get_inumber ino))) := by
  intro l
  induction l with
  | nil => intro f a ino hf; simp at hf
  | cons g l ih =>
    intro f a ino hf hg ho
    unfold inumber_loop
    by_cases hgf : g.fd = fd
    · rw [if_pos hgf, if_neg hfd]
      have : g = f := by simpa [List.find?, hgf] using hf
      subst this
      simp only [hg, ho]
    · rw [if_neg hgf]
      have hf' : l.find? (fun g => decide (g.fd = fd)) = some f := by
        simpa [List.find?, hgf] using hf
      exact ih f a ino hf' hg ho

/-- For descriptor number 2, when a descriptor has it, `syscall_inumber` returns 134. -/
theorem inumber_loop_two (file_get_inode : Nat → Option Nat) (h : inode_heap) :
    ∀ l : List file_descriptor, (∃ f, f ∈ l ∧ f.fd = 2) →
    inumber_loop file_get_inode h 2 l = Except.ok (syscall_outcome.returns 134) := by
  intro l
  induction l with
  | nil => rintro ⟨f, hf, _⟩; cases hf
  | cons g l ih =>
    rintro ⟨f, hf, hfd⟩
    unfold inumber_loop
    by_cases hg : g.fd = 2
    · rw [if_pos hg, if_pos rfl]
    · rw [if_neg hg]
      rcases List.mem_cons.mp hf with e | hm
      · rw [e] at hfd
        exact absurd hfd hg
      · exact ih ⟨f, hm, hfd⟩

/-- The outcome of `syscall_inumber` on a descriptor that is present. -/
theorem syscall_inumber_spec (file_get_inode : Nat → Option Nat) (h : inode_heap)
    (l : List file_descriptor) (fd : Int) (f : file_descriptor) (a : Nat) (ino : inode)
    (hf : l.find? (fun g => decide (g.fd = fd)) = some f)
    (hg : file_get_inode f.file_address = some a) (ho : h.objs a = some ino) :
    syscall_inumber file_get_inode h l fd =
      Except.ok (syscall_outcome.returns
        (if fd = 2 then 134 else word_int (inode_get_inumber ino))) := by
  unfold syscall_inumber
  have hne : l.isEmpty = false := by
    cases l with
    | nil => simp at hf
    | cons g l => rfl
  rw [hne, if_neg (by decide)]
  by_cases h2 : fd = 2
  · rw [if_pos h2]
    subst h2
    apply inumber_loop_two
    have hm := List.mem_of_find?_eq_some hf
    have hp := List.find?_some hf
    exact ⟨f, hm, by simpa using hp⟩
  · rw [if_neg h2]
    exact inumber_loop_spec file_get_inode h fd h2 l f a ino hf hg ho

/-- C35, at descriptor 2: a thread has one open file under descriptor 2; the file's inode is
open at address 100 and is the inode of sector 5, so `inode_get_inumber` of it is 5.
`syscall_inumber (2)` returns 134. -/
theorem inumber_of_fd_two :
    (∃ f ino, f ∈ demo_descriptors ∧ f.fd = 2 ∧ demo_file_inode f.file_address = some 100 ∧
      demo_open_heap.objs 100 = some ino ∧ inode_get_inumber ino = 5) ∧
    syscall_inumber demo_file_inode demo_open_heap demo_descriptors 2 =
      Except.ok (syscall_outcome.returns 134) := by
  refine ⟨⟨_, _, List.mem_singleton_self _, rfl, rfl, rfl, rfl⟩, ?_⟩
  rfl

theorem demo_dirty_inv : cache_inv demo_dirty_cache := by
  refine ⟨?_, fun _ _ => rfl, ?_⟩
  · intro i j _ _ h
    exact Fin.ext h
  · intro i _ hd
    cases hd

/-- On the full cache `demo_dirty_cache` the eviction hands out a slot that was in use and
dirty, and on return the device holds the slot's bytes at the slot's sector. -/
theorem demo_dirty_evict :
    ∃ c' v, buffer_cache_evict demo_dirty_cache = Except.ok (c', v) ∧
      (demo_dirty_cache.buffer_cache_list v).inuse = true ∧
      (demo_dirty_cache.buffer_cache_list v).dirty = true ∧
      (c'.buffer_cache_list v).inuse = false ∧ (c'.buffer_cache_list v).dirty = false ∧
      c'.fs_device (demo_dirty_cache.buffer_cache_list v).block_index = fun _ => 1 := by
  obtain ⟨c', v, h1, h2, h3, h4⟩ := evict_clean_spec demo_dirty_inv
  exact ⟨c', v, h1, rfl, rfl, h2, h3, h4 rfl rfl⟩

/-! ## The reachable cache states fill their slots in order -/

end Pintos
